import Mathlib

/-!
# Path tracer kernel: geometry, intersection, BVH, shading and rendering

A shallow embedding of the C sources `vec3.h`, `ray.h`, `primitive.h`,
`primitive.c`, `bvh.h`, `bvh.c`, `random.h`, `material.h`, `material.c`,
`camera.h` (`camera_get_ray`) and of `scene_hit`, `trace_ray` and
`render_parallel` (`pathtracer.c`).

Conventions of the embedding.

* `float` is an arbitrary linearly ordered field `F` (instantiate `F := ℚ` to
  run the definitions).  Every function has an exact reading, without
  rounding.  The functions whose result depends on rounding (`sphere_hit`,
  `triangle_hit`, the bounds of the primitives, `schlick`,
  `bvh_find_best_split`, the mean of the pixel loop) also have a reading
  named `..._rounded`, with a rounding `fl : F → F` after every float
  operation; `fl := f32` on `ℚ` is IEEE 754 binary32, `fl := id` the exact
  reading.  Theorems about a rounded reading hold for every `fl` unless they
  say otherwise.  Infinities and NaN are not represented; the places where
  the C code relies on them are pointed out at the definitions concerned.
* `sqrtf` is a parameter `sqrtf : F → F`; theorems state what they need of it.
* `uint32_t` indices are `Nat`; pointers into the primitive array and into
  the node array are indices, `NULL` is `none`.
* Out-parameters (`HitRecord* rec`) are passed in and returned.
* The node array is the list of the slots handed out so far, so the cursor
  `node_count` is its length; `malloc` is assumed to succeed.
* The recursion of `bvh_build_recursive` and `trace_ray` and the loop of
  `bvh_hit` are driven by a fuel argument; the theorems show that the fuel
  given by `bvh_create`, `trace_ray` and `bvh_hit` is enough.
* The generator `RNG` holds two natural numbers, reduced modulo `2^64` as the
  C arithmetic wraps; functions that draw return the generator after the call.
* The rejection loops of the sampler are `while (1)` in C.  They take the
  number of iterations granted, `sfuel`, and return `none` when no candidate
  was accepted within them.  For a generator with an odd increment, as
  `rng_init` makes them, `2^64` iterations are shown to be enough.
* The float literals are the decimals they are written as, except
  `survival_probability`, which is compared with exact multiples of `2^-24`
  and is the `float` nearest to `0.8`.
-/

namespace PathTracer

/-! ## vec3.h -/

/-- The three float components of the C `Vec3` (the alignment padding, always
written as `0.0f`, is not represented). -/
structure Vec3 (F : Type) where
  x : F
  y : F
  z : F
deriving DecidableEq, Repr

section Geometry

variable {F : Type} [LinearOrderedField F]

def vec3_create (x y z : F) : Vec3 F := ⟨x, y, z⟩

def vec3_add (a b : Vec3 F) : Vec3 F := vec3_create (a.x + b.x) (a.y + b.y) (a.z + b.z)

def vec3_sub (a b : Vec3 F) : Vec3 F := vec3_create (a.x - b.x) (a.y - b.y) (a.z - b.z)

def vec3_scale (v : Vec3 F) (s : F) : Vec3 F := vec3_create (v.x * s) (v.y * s) (v.z * s)

def vec3_div (v : Vec3 F) (s : F) : Vec3 F :=
  let inv := 1 / s
  vec3_scale v inv

def vec3_dot (a b : Vec3 F) : F := a.x * b.x + a.y * b.y + a.z * b.z

def vec3_cross (a b : Vec3 F) : Vec3 F :=
  vec3_create (a.y * b.z - a.z * b.y) (a.z * b.x - a.x * b.z) (a.x * b.y - a.y * b.x)

def vec3_length_squared (v : Vec3 F) : F := vec3_dot v v

def vec3_length (sqrtf : F → F) (v : Vec3 F) : F := sqrtf (vec3_length_squared v)

def vec3_normalize (sqrtf : F → F) (v : Vec3 F) : Vec3 F := vec3_div v (vec3_length sqrtf v)

/-- The C idiom `((float*)&v)[axis]`: component `axis` of a vector. -/
def Vec3.get (v : Vec3 F) (axis : Nat) : F :=
  match axis with
  | 0 => v.x
  | 1 => v.y
  | _ => v.z

/-! ## ray.h -/

structure Ray (F : Type) where
  origin : Vec3 F
  direction : Vec3 F
deriving DecidableEq, Repr

def ray_create (sqrtf : F → F) (origin direction : Vec3 F) : Ray F :=
  ⟨origin, vec3_normalize sqrtf direction⟩

def ray_at (r : Ray F) (t : F) : Vec3 F := vec3_add r.origin (vec3_scale r.direction t)

/-! ## material.h (data only) -/

inductive MaterialType where
  | MATERIAL_LAMBERTIAN
  | MATERIAL_METAL
  | MATERIAL_DIELECTRIC
  | MATERIAL_EMISSIVE
  | MATERIAL_BLEND
deriving DecidableEq, Repr

inductive BlendMode where
  | BLEND_VERTICAL
  | BLEND_HORIZONTAL
  | BLEND_RADIAL
deriving DecidableEq, Repr

structure Material (F : Type) where
  type : MaterialType
  albedo : Vec3 F
  roughness : F
  ior : F
  emission : Vec3 F
  blend_type1 : MaterialType
  blend_type2 : MaterialType
  albedo2 : Vec3 F
  roughness2 : F
  ior2 : F
  blend_mode : BlendMode
  blend_min : F
  blend_max : F
deriving DecidableEq, Repr

def material_lambertian (albedo : Vec3 F) : Material F :=
  { type := .MATERIAL_LAMBERTIAN, albedo := albedo, roughness := 0, ior := 1,
    emission := vec3_create 0 0 0,
    blend_type1 := .MATERIAL_LAMBERTIAN, blend_type2 := .MATERIAL_LAMBERTIAN,
    albedo2 := vec3_create 0 0 0, roughness2 := 0, ior2 := 1,
    blend_mode := .BLEND_VERTICAL, blend_min := 0, blend_max := 1 }

/-! ## primitive.h -/

/-- The hit record.  `material` is the C pointer `&prim->material`: the index
of the primitive in the scene array whose material is referenced, `none` for
a pointer never written. -/
structure HitRecord (F : Type) where
  point : Vec3 F
  normal : Vec3 F
  t : F
  front_face : Bool
  material : Option Nat
deriving DecidableEq, Repr

structure AABB (F : Type) where
  min : Vec3 F
  max : Vec3 F
deriving DecidableEq, Repr

inductive PrimitiveType where
  | PRIMITIVE_SPHERE
  | PRIMITIVE_TRIANGLE
  | PRIMITIVE_MESH
deriving DecidableEq, Repr

structure Sphere (F : Type) where
  center : Vec3 F
  radius : F
deriving DecidableEq, Repr

structure Triangle (F : Type) where
  v0 : Vec3 F
  v1 : Vec3 F
  v2 : Vec3 F
  normal : Vec3 F
deriving DecidableEq, Repr

/-- The C struct holds the sphere and the triangle in a union selected by
`type`; here both fields are present and only the selected one is read. -/
structure Primitive (F : Type) where
  type : PrimitiveType
  sphere : Sphere F
  triangle : Triangle F
  material : Material F
  bounds : AABB F
deriving DecidableEq, Repr

/-- The constant `FLT_MAX` of `<float.h>`: `(2 - 2^-23) * 2^127 = (2^24 - 1) * 2^104`. -/
def FLT_MAX : F := (2 ^ 24 - 1) * 2 ^ 104

def aabb_empty : AABB F :=
  ⟨vec3_create FLT_MAX FLT_MAX FLT_MAX, vec3_create (-FLT_MAX) (-FLT_MAX) (-FLT_MAX)⟩

def aabb_union (a b : AABB F) : AABB F :=
  ⟨vec3_create (min a.min.x b.min.x) (min a.min.y b.min.y) (min a.min.z b.min.z),
   vec3_create (max a.max.x b.max.x) (max a.max.y b.max.y) (max a.max.z b.max.z)⟩

def aabb_expand (box : AABB F) (point : Vec3 F) : AABB F :=
  ⟨vec3_create (min box.min.x point.x) (min box.min.y point.y) (min box.min.z point.z),
   vec3_create (max box.max.x point.x) (max box.max.y point.y) (max box.max.z point.z)⟩

def aabb_center (box : AABB F) : Vec3 F := vec3_scale (vec3_add box.min box.max) (1 / 2)

def aabb_surface_area (box : AABB F) : F :=
  let d := vec3_sub box.max box.min
  2 * (d.x * d.y + d.y * d.z + d.z * d.x)

/-- One iteration of the slab loop of `aabb_hit` on axis `a`: `none` is the
early `return false`, `some (t_min, t_max)` the narrowed range carried to the
next axis.

For a direction component `d = 0` the C code computes `invD = 1.0f / d = ±inf`
and the products `(b - o) * invD` are `±inf`, or NaN when `b = o`.  Every
comparison with NaN is false, so such a bound leaves the range unchanged;
`t0 = +inf` (origin below the slab) or `t1 = -inf` (origin above it) makes
`t_max <= t_min` true.  The embedding has no infinities, so that case is
written out: the ray is rejected when the origin lies outside the slab and
the range is kept otherwise. -/
def aabb_hit_axis (box : AABB F) (ray : Ray F) (a : Nat) (t_min t_max : F) : Option (F × F) :=
  let d := ray.direction.get a
  let o := ray.origin.get a
  if d = 0 then
    if o < box.min.get a ∨ box.max.get a < o then none
    else if t_max ≤ t_min then none else some (t_min, t_max)
  else
    let invD := 1 / d
    let t0 := (box.min.get a - o) * invD
    let t1 := (box.max.get a - o) * invD
    let (t0, t1) := if invD < 0 then (t1, t0) else (t0, t1)
    let t_min := if t0 > t_min then t0 else t_min
    let t_max := if t1 < t_max then t1 else t_max
    if t_max ≤ t_min then none else some (t_min, t_max)

/-- Ray-AABB intersection (slab method), the loop `for (a = 0; a < 3; a++)`. -/
def aabb_hit (box : AABB F) (ray : Ray F) (t_min t_max : F) : Bool :=
  match aabb_hit_axis box ray 0 t_min t_max with
  | none => false
  | some (t_min, t_max) =>
    match aabb_hit_axis box ray 1 t_min t_max with
    | none => false
    | some (t_min, t_max) =>
      match aabb_hit_axis box ray 2 t_min t_max with
      | none => false
      | some _ => true

def sphere_create (center : Vec3 F) (radius : F) : Sphere F := ⟨center, radius⟩

def sphere_bounds (s : Sphere F) : AABB F :=
  let r := vec3_create s.radius s.radius s.radius
  ⟨vec3_sub s.center r, vec3_add s.center r⟩

def triangle_create (sqrtf : F → F) (v0 v1 v2 : Vec3 F) : Triangle F :=
  let e1 := vec3_sub v1 v0
  let e2 := vec3_sub v2 v0
  ⟨v0, v1, v2, vec3_normalize sqrtf (vec3_cross e1 e2)⟩

def triangle_bounds (t : Triangle F) : AABB F :=
  let box : AABB F := aabb_empty
  let box := aabb_expand box t.v0
  let box := aabb_expand box t.v1
  let box := aabb_expand box t.v2
  let epsilon : Vec3 F := vec3_create (1 / 10000) (1 / 10000) (1 / 10000)
  ⟨vec3_sub box.min epsilon, vec3_add box.max epsilon⟩

/-- The member of the union that `primitive_sphere` does not write. -/
def Triangle.unset : Triangle F :=
  ⟨vec3_create 0 0 0, vec3_create 0 0 0, vec3_create 0 0 0, vec3_create 0 0 0⟩

/-- The member of the union that `primitive_triangle` does not write. -/
def Sphere.unset : Sphere F := ⟨vec3_create 0 0 0, 0⟩

def primitive_sphere (center : Vec3 F) (radius : F) (mat : Material F) : Primitive F :=
  let s := sphere_create center radius
  { type := .PRIMITIVE_SPHERE, sphere := s, triangle := Triangle.unset, material := mat,
    bounds := sphere_bounds s }

def primitive_triangle (sqrtf : F → F) (v0 v1 v2 : Vec3 F) (mat : Material F) : Primitive F :=
  let t := triangle_create sqrtf v0 v1 v2
  { type := .PRIMITIVE_TRIANGLE, sphere := Sphere.unset, triangle := t, material := mat,
    bounds := triangle_bounds t }

/-! ## primitive.c -/

/-- Ray-sphere intersection.  Returns the C return value and the record
`*rec` after the call (unchanged when there is no hit). -/
def sphere_hit (sqrtf : F → F) (sphere : Sphere F) (ray : Ray F) (t_min t_max : F)
    (rec : HitRecord F) : Bool × HitRecord F :=
  let oc := vec3_sub ray.origin sphere.center
  let a := vec3_dot ray.direction ray.direction
  let half_b := vec3_dot oc ray.direction
  let c := vec3_dot oc oc - sphere.radius * sphere.radius
  let discriminant := half_b * half_b - a * c
  if discriminant < 0 then (false, rec)
  else
    let sqrtd := sqrtf discriminant
    let root := (-half_b - sqrtd) / a
    let chosen : Option F :=
      if root < t_min ∨ root > t_max then
        let root := (-half_b + sqrtd) / a
        if root < t_min ∨ root > t_max then none else some root
      else some root
    match chosen with
    | none => (false, rec)
    | some root =>
      let point := ray_at ray root
      let outward_normal := vec3_div (vec3_sub point sphere.center) sphere.radius
      let front_face := decide (vec3_dot ray.direction outward_normal < 0)
      let normal := if front_face then outward_normal else vec3_scale outward_normal (-1)
      (true, { rec with t := root, point := point, front_face := front_face, normal := normal })

/-- Ray-triangle intersection (Möller-Trumbore). -/
def triangle_hit (triangle : Triangle F) (ray : Ray F) (t_min t_max : F)
    (rec : HitRecord F) : Bool × HitRecord F :=
  let EPSILON : F := 1 / 10000000
  let edge1 := vec3_sub triangle.v1 triangle.v0
  let edge2 := vec3_sub triangle.v2 triangle.v0
  let h := vec3_cross ray.direction edge2
  let a := vec3_dot edge1 h
  if |a| < EPSILON then (false, rec)
  else
    let f := 1 / a
    let s := vec3_sub ray.origin triangle.v0
    let u := f * vec3_dot s h
    if u < 0 ∨ u > 1 then (false, rec)
    else
      let q := vec3_cross s edge1
      let v := f * vec3_dot ray.direction q
      if v < 0 ∨ u + v > 1 then (false, rec)
      else
        let t := f * vec3_dot edge2 q
        if t < t_min ∨ t > t_max then (false, rec)
        else
          let point := ray_at ray t
          let outward_normal := triangle.normal
          let front_face := decide (vec3_dot ray.direction outward_normal < 0)
          let normal := if front_face then outward_normal else vec3_scale outward_normal (-1)
          (true, { rec with t := t, point := point, front_face := front_face, normal := normal })

/-- Generic primitive hit test on `&prims[idx]`.  A primitive of type
`PRIMITIVE_MESH` takes the `default:` branch. -/
def primitive_hit (sqrtf : F → F) (prims : List (Primitive F)) (idx : Nat) (ray : Ray F)
    (t_min t_max : F) (rec : HitRecord F) : Bool × HitRecord F :=
  match prims.get? idx with
  | none => (false, rec)
  | some prim =>
    match prim.type with
    | .PRIMITIVE_SPHERE =>
      let (hit, rec) := sphere_hit sqrtf prim.sphere ray t_min t_max rec
      if hit then (true, { rec with material := some idx }) else (false, rec)
    | .PRIMITIVE_TRIANGLE =>
      let (hit, rec) := triangle_hit prim.triangle ray t_min t_max rec
      if hit then (true, { rec with material := some idx }) else (false, rec)
    | .PRIMITIVE_MESH => (false, rec)

/-! ### Named sub-expressions of `sphere_hit` and `triangle_hit`

Used to state the theorems; `sphere_hit_eq` and `triangle_hit_eq` relate them
to the code. -/

/-- The `discriminant` local of `sphere_hit`: `half_b² - a c`. -/
def sphere_disc (s : Sphere F) (ray : Ray F) : F :=
  vec3_dot (vec3_sub ray.origin s.center) ray.direction *
      vec3_dot (vec3_sub ray.origin s.center) ray.direction
    - vec3_dot ray.direction ray.direction *
      (vec3_dot (vec3_sub ray.origin s.center) (vec3_sub ray.origin s.center)
        - s.radius * s.radius)

/-- The first candidate `root` of `sphere_hit`: `(-half_b - sqrtd) / a`. -/
def sphere_root_near (sqrtf : F → F) (s : Sphere F) (ray : Ray F) : F :=
  (-vec3_dot (vec3_sub ray.origin s.center) ray.direction - sqrtf (sphere_disc s ray))
    / vec3_dot ray.direction ray.direction

/-- The second candidate `root` of `sphere_hit`: `(-half_b + sqrtd) / a`. -/
def sphere_root_far (sqrtf : F → F) (s : Sphere F) (ray : Ray F) : F :=
  (-vec3_dot (vec3_sub ray.origin s.center) ray.direction + sqrtf (sphere_disc s ray))
    / vec3_dot ray.direction ray.direction

/-- The record `sphere_hit` writes for an accepted `root`. -/
def sphere_record (s : Sphere F) (ray : Ray F) (root : F) (rec : HitRecord F) : HitRecord F :=
  let point := ray_at ray root
  let outward_normal := vec3_div (vec3_sub point s.center) s.radius
  let front_face := decide (vec3_dot ray.direction outward_normal < 0)
  { rec with t := root, point := point, front_face := front_face,
             normal := if front_face then outward_normal else vec3_scale outward_normal (-1) }

/-- The number of binary digits of `n`, by recursion on `fuel ≥ n`. -/
def bit_length : Nat → Nat → Nat
  | 0, _ => 0
  | fuel + 1, n => if n = 0 then 0 else bit_length fuel (n / 2) + 1

/-- Integer square root, digit by digit: the bits `b - 1, ..., 0` are added to `r` where
the square stays below `n`. -/
def isqrt_bits (n : Nat) : Nat → Nat → Nat
  | 0, r => r
  | b + 1, r =>
    if (r + 2 ^ b) * (r + 2 ^ b) ≤ n then isqrt_bits n b (r + 2 ^ b) else isqrt_bits n b r

/-- Integer square root, rounded down. -/
def isqrt (n : Nat) : Nat := isqrt_bits n (bit_length n n / 2 + 1) 0

/-- Truncated rational square root, exact on squares of rationals; the `sqrtf` of the
worked examples. -/
def qsqrt (x : ℚ) : ℚ := (isqrt x.num.toNat : ℚ) / (isqrt x.den : ℚ)

/-- A zero-initialised hit record, as a C caller passes it in. -/
def rec0 : HitRecord ℚ := ⟨⟨0, 0, 0⟩, ⟨0, 0, 0⟩, 0, false, none⟩

/-- The determinant `a` of `triangle_hit`: `edge1 · (direction × edge2)`. -/
def triangle_det (tri : Triangle F) (ray : Ray F) : F :=
  vec3_dot (vec3_sub tri.v1 tri.v0) (vec3_cross ray.direction (vec3_sub tri.v2 tri.v0))

/-- The barycentric coordinate `u` of `triangle_hit`. -/
def triangle_u (tri : Triangle F) (ray : Ray F) : F :=
  1 / triangle_det tri ray *
    vec3_dot (vec3_sub ray.origin tri.v0) (vec3_cross ray.direction (vec3_sub tri.v2 tri.v0))

/-- The barycentric coordinate `v` of `triangle_hit`. -/
def triangle_v (tri : Triangle F) (ray : Ray F) : F :=
  1 / triangle_det tri ray *
    vec3_dot ray.direction (vec3_cross (vec3_sub ray.origin tri.v0) (vec3_sub tri.v1 tri.v0))

/-- The ray parameter `t` of `triangle_hit`. -/
def triangle_t (tri : Triangle F) (ray : Ray F) : F :=
  1 / triangle_det tri ray *
    vec3_dot (vec3_sub tri.v2 tri.v0)
      (vec3_cross (vec3_sub ray.origin tri.v0) (vec3_sub tri.v1 tri.v0))

/-- The record `triangle_hit` writes for an accepted `t`. -/
def triangle_record (tri : Triangle F) (ray : Ray F) (t : F) (rec : HitRecord F) : HitRecord F :=
  let front_face := decide (vec3_dot ray.direction tri.normal < 0)
  { rec with t := t, point := ray_at ray t, front_face := front_face,
             normal := if front_face then tri.normal else vec3_scale tri.normal (-1) }

end Geometry


/-! ## Binary32 arithmetic

The C type `float` is the IEEE 754 binary32 format: every arithmetic operation returns the
exact result rounded to the nearest number with a 24-bit significand, ties to the even
significand.  `f32` is that rounding on the rationals, with gradual underflow below
`2^-126`; overflow to infinity and NaN have no counterpart.  The readings marked `rounded`
evaluate the code with a rounding `fl` after every operation (no fused multiply-add): with
`fl = f32` and `sqrtf = f32_sqrt` they are the code in binary32, with `fl = id` they are the
exact readings of the sections above. -/

section Binary32

/-- Round to the nearest integer, ties to the even one. -/
def round_half_even (x : ℚ) : ℤ :=
  let f := ⌊x⌋
  if x - f < 1 / 2 then f
  else if 1 / 2 < x - f then f + 1
  else if f % 2 = 0 then f else f + 1

/-- The binary exponent of a positive rational: the `e` with `2^e ≤ x < 2^(e+1)`. -/
def binary_exponent (x : ℚ) : ℤ :=
  let n := x.num.natAbs
  let bn := bit_length n n
  let bd := bit_length x.den x.den
  if x.den * 2 ^ bn ≤ n * 2 ^ bd then (bn : ℤ) - bd else (bn : ℤ) - bd - 1

/-- The power `2^k` for an integer `k`. -/
def two_pow (k : ℤ) : ℚ :=
  if 0 ≤ k then ((2 ^ k.toNat : Nat) : ℚ) else 1 / ((2 ^ (-k).toNat : Nat) : ℚ)

/-- Rounding to binary32: the nearest multiple of `2^(e-23)`, where `e` is the binary
exponent of `x`, at least `-126`. -/
def f32 (x : ℚ) : ℚ :=
  if x = 0 then 0
  else
    let e := max (binary_exponent |x|) (-126)
    let q := two_pow (e - 23)
    (round_half_even (x / q) : ℚ) * q

end Binary32

section RoundedGeometry

variable {F : Type} [LinearOrderedField F]

/-! ### vec3.h and ray.h, rounded -/

def vec3_add_rounded (fl : F → F) (a b : Vec3 F) : Vec3 F :=
  vec3_create (fl (a.x + b.x)) (fl (a.y + b.y)) (fl (a.z + b.z))

def vec3_sub_rounded (fl : F → F) (a b : Vec3 F) : Vec3 F :=
  vec3_create (fl (a.x - b.x)) (fl (a.y - b.y)) (fl (a.z - b.z))

def vec3_scale_rounded (fl : F → F) (v : Vec3 F) (s : F) : Vec3 F :=
  vec3_create (fl (v.x * s)) (fl (v.y * s)) (fl (v.z * s))

def vec3_div_rounded (fl : F → F) (v : Vec3 F) (s : F) : Vec3 F :=
  let inv := fl (1 / s)
  vec3_scale_rounded fl v inv

/-- Schlick approximation for Fresnel, every operation rounded; `powf(x, 5.0f)` is the
rounded fifth power. -/
def schlick_rounded (fl : F → F) (cosine ref_idx : F) : F :=
  let r0 := fl (fl (1 - ref_idx) / fl (1 + ref_idx))
  let r0 := fl (r0 * r0)
  fl (r0 + fl (fl (1 - r0) * fl (fl (1 - cosine) ^ 5)))

/-- The multi-sampling loop of `render_parallel` with `n` iterations to go when every
sample has the colour `sample`: the additions to `color`, rounded. -/
def pixel_sum_rounded (fl : F → F) (sample : Vec3 F) : Nat → Vec3 F → Vec3 F
  | 0, color => color
  | n + 1, color => pixel_sum_rounded fl sample n (vec3_add_rounded fl color sample)

/-- The colour stored for a pixel whose `n` samples all have the colour `sample`: the sum
`((0 + sample) + ...) + sample` of the multi-sampling loop of `render_parallel`, divided by
`(float)n` with `vec3_div`, every operation rounded. -/
def pixel_mean_rounded (fl : F → F) (sample : Vec3 F) (n : Nat) : Vec3 F :=
  vec3_div_rounded fl (pixel_sum_rounded fl sample n (vec3_create 0 0 0)) (fl (n : F))

end RoundedGeometry
section BVHDefs

variable {F : Type} [LinearOrderedField F] [FloorRing F]

/-! ## bvh.h -/

/-- A node of the flat node array.  The C struct overlays `left`/`right` with
`first_prim_idx`/`prim_count` in a union discriminated by `is_leaf`; here the
four fields are separate and only the pair selected by `is_leaf` is read.
Child pointers are indices into the node array. -/
structure BVHNode (F : Type) where
  bounds : AABB F
  left : Option Nat
  right : Option Nat
  first_prim_idx : Nat
  prim_count : Nat
  is_leaf : Bool
deriving DecidableEq, Repr

/-- The acceleration structure.  `primitives` is the caller's array (after
`bvh_create`: reordered); `nodes` holds the slots of the `calloc`ed node array
handed out by the cursor so far, so `node_count = nodes.length`. -/
structure BVH (F : Type) where
  root : Option Nat
  primitives : List (Primitive F)
  prim_count : Nat
  nodes : List (BVHNode F)
  node_count : Nat
  indices : List Nat
deriving DecidableEq, Repr

structure SplitCandidate (F : Type) where
  cost : F
  split_axis : Nat
  split_pos : Nat
deriving DecidableEq, Repr

/-- The local `Bin` struct of `bvh_find_best_split`. -/
structure Bin (F : Type) where
  bounds : AABB F
  count : Nat
deriving DecidableEq, Repr

/-- The number of node slots `bvh_create` passes to `calloc`: the `uint32_t`
expression `2 * count - 1`. -/
def bvh_node_capacity (count : Nat) : Nat := (2 * count + 2 ^ 32 - 1) % 2 ^ 32

/-! ## bvh.c: construction -/

/-- The read `bvh->primitives[j].bounds`.  (An index outside the array is
undefined behaviour in C; the build only reads indices below `count`.) -/
def prim_bounds (prims : List (Primitive F)) (j : Nat) : AABB F :=
  match prims.get? j with
  | some p => p.bounds
  | none => aabb_empty

/-- The loop `for (i = start; i < end; i++) bounds = aabb_union(bounds, ...)`. -/
def range_bounds (prims : List (Primitive F)) (prim_indices : List Nat) (start end_ : Nat) :
    AABB F :=
  (List.range' start (end_ - start)).foldl
    (fun bounds i => aabb_union bounds (prim_bounds prims (prim_indices.getD i 0))) aabb_empty

/-- A zero-initialised bin (`Bin bins[12] = {0}`). -/
def Bin.zero : Bin F := ⟨⟨vec3_create 0 0 0, vec3_create 0 0 0⟩, 0⟩

/-- The "Fill bins" loop.  The conversion `(uint32_t)` of a non-negative float
truncates, which is the natural floor. -/
def fill_bins (prims : List (Primitive F)) (prim_indices : List Nat) (start end_ : Nat)
    (axis : Nat) (axis_min bin_width : F) : List (Bin F) :=
  (List.range' start (end_ - start)).foldl
    (fun bins i =>
      let b := prim_bounds prims (prim_indices.getD i 0)
      let center := aabb_center b
      let pos := center.get axis
      let bin_idx := ⌊(pos - axis_min) / bin_width⌋₊
      let bin_idx := if bin_idx ≥ 12 then 12 - 1 else bin_idx
      let bin := bins.getD bin_idx Bin.zero
      let count := bin.count + 1
      if count = 1 then bins.set bin_idx ⟨b, count⟩
      else bins.set bin_idx ⟨aabb_union bin.bounds b, count⟩)
    (List.replicate 12 Bin.zero)

/-- The two inner sweep loops: union and count of the non-empty bins `lo ≤ i < hi`. -/
def sweep_bins (bins : List (Bin F)) (lo hi : Nat) : AABB F × Nat :=
  (List.range' lo (hi - lo)).foldl
    (fun acc i =>
      let bin := bins.getD i Bin.zero
      if bin.count > 0 then (aabb_union acc.1 bin.bounds, acc.2 + bin.count) else acc)
    (aabb_empty, 0)

/-- The exchange of `prim_indices[left_idx]` and `prim_indices[i]`. -/
def swap_indices (prim_indices : List Nat) (left_idx i : Nat) : List Nat :=
  let temp := prim_indices.getD left_idx 0
  let prim_indices := prim_indices.set left_idx (prim_indices.getD i 0)
  prim_indices.set i temp

/-- The "Partition primitives" loop: returns the array and the final `left_idx`. -/
def partition_indices (prims : List (Primitive F)) (axis : Nat) (split_pos : F)
    (prim_indices : List Nat) (start end_ : Nat) : List Nat × Nat :=
  (List.range' start (end_ - start)).foldl
    (fun acc i =>
      let center := aabb_center (prim_bounds prims (acc.1.getD i 0))
      let pos := center.get axis
      if pos < split_pos then (swap_indices acc.1 acc.2 i, acc.2 + 1) else acc)
    (prim_indices, start)

/-- One iteration of the sweep loop over `split_bin`.

When `parent_area` is `0` the C quotient is NaN or `+inf` (the areas of boxes
with `min ≤ max` are non-negative), so `cost < best.cost` is false and the
candidate is passed over; that is written out here. -/
def sweep_step (prims : List (Primitive F)) (start end_ : Nat) (axis : Nat)
    (bounds : AABB F) (axis_min bin_width : F) (bins : List (Bin F))
    (acc : SplitCandidate F × List Nat) (split_bin : Nat) : SplitCandidate F × List Nat :=
  let left := sweep_bins bins 0 split_bin
  let right := sweep_bins bins split_bin 12
  let left_count := left.2
  let right_count := right.2
  if left_count = 0 ∨ right_count = 0 then acc
  else
    let traversal_cost : F := 1
    let intersect_cost : F := 1
    let left_area := aabb_surface_area left.1
    let right_area := aabb_surface_area right.1
    let parent_area := aabb_surface_area bounds
    if parent_area = 0 then acc
    else
      let cost := traversal_cost +
        ((left_count : F) * left_area + (right_count : F) * right_area) / parent_area
          * intersect_cost
      if cost < acc.1.cost then
        let split_pos := axis_min + (split_bin : F) * bin_width
        let part := partition_indices prims axis split_pos acc.2 start end_
        (⟨cost, axis, part.2⟩, part.1)
      else acc

/-- One iteration of the loop over `axis`. -/
def axis_step (prims : List (Primitive F)) (start end_ : Nat)
    (acc : SplitCandidate F × List Nat) (axis : Nat) : SplitCandidate F × List Nat :=
  let bounds := range_bounds prims acc.2 start end_
  let axis_min := bounds.min.get axis
  let axis_max := bounds.max.get axis
  if axis_max - axis_min < 1 / 10000 then acc
  else
    let bin_width := (axis_max - axis_min) / 12
    let bins := fill_bins prims acc.2 start end_ axis axis_min bin_width
    (List.range' 1 (12 - 1)).foldl
      (sweep_step prims start end_ axis bounds axis_min bin_width bins) acc

/-- Find the best split using SAH.  Returns the candidate and the index array
after the partition passes. -/
def bvh_find_best_split (prims : List (Primitive F)) (prim_indices : List Nat)
    (start end_ : Nat) : SplitCandidate F × List Nat :=
  let best : SplitCandidate F := ⟨FLT_MAX, 0, start + (end_ - start) / 2⟩
  (List.range' 0 3).foldl (axis_step prims start end_) (best, prim_indices)

/-- The key `compare_primitives` orders by: the centre coordinate on `axis`. -/
def sort_key (prims : List (Primitive F)) (axis : Nat) (idx : Nat) : F :=
  (aabb_center (prim_bounds prims idx)).get axis

/-- The call `qsort(&prim_indices[start], prim_count, ...)` with
`compare_primitives`.  `qsort` leaves the order of equal keys unspecified; the
embedding sorts by insertion. -/
def qsort_indices (prims : List (Primitive F)) (axis : Nat) (prim_indices : List Nat)
    (start prim_count : Nat) : List Nat :=
  prim_indices.take start ++
    List.insertionSort (fun a b => sort_key prims axis a ≤ sort_key prims axis b)
      ((prim_indices.drop start).take prim_count) ++
    prim_indices.drop (start + prim_count)

/-- The mutable state of the build: the node slots handed out so far (the
cursor `*node_idx` is `nodes.length`) and the index array. -/
structure BuildState (F : Type) where
  nodes : List (BVHNode F)
  indices : List Nat
deriving DecidableEq, Repr

/-- The cursor `*node_idx`. -/
def BuildState.node_idx (st : BuildState F) : Nat := st.nodes.length

/-- A `calloc`ed node slot. -/
def BVHNode.zero : BVHNode F :=
  ⟨⟨vec3_create 0 0 0, vec3_create 0 0 0⟩, none, none, 0, 0, false⟩

/-- The allocation `bvh->nodes[(*node_idx)++]`: the cursor hands out the next slot, still
zero from `calloc`. -/
def BuildState.alloc (st : BuildState F) : BuildState F :=
  { st with nodes := st.nodes ++ [BVHNode.zero] }

/-- A write through the node pointer `node`. -/
def BuildState.write (st : BuildState F) (node : Nat) (f : BVHNode F → BVHNode F) :
    BuildState F :=
  { st with nodes := st.nodes.modify f node }

/-- The write `node->bounds = bounds`. -/
def BVHNode.set_bounds (bounds : AABB F) (n : BVHNode F) : BVHNode F :=
  { n with bounds := bounds }

/-- The writes `node->is_leaf = true; node->first_prim_idx = start;
node->prim_count = prim_count`. -/
def BVHNode.set_leaf (start prim_count : Nat) (n : BVHNode F) : BVHNode F :=
  { n with is_leaf := true, first_prim_idx := start, prim_count := prim_count }

/-- The write `node->is_leaf = false`. -/
def BVHNode.set_internal (n : BVHNode F) : BVHNode F := { n with is_leaf := false }

/-- The write `node->left = left`. -/
def BVHNode.set_left (left : Nat) (n : BVHNode F) : BVHNode F := { n with left := some left }

/-- The write `node->right = right`. -/
def BVHNode.set_right (right : Nat) (n : BVHNode F) : BVHNode F :=
  { n with right := some right }

/-- The part of `bvh_build_recursive` that settles `split.split_pos`: the SAH
search, and when its result is not strictly inside the range the `qsort` along
the longest axis of `node->bounds` with the median split.  Returns
`split.split_pos`, the index array, and whether the second validity test
("If still invalid, create leaf") fired. -/
def build_choose_split (prims : List (Primitive F)) (bounds : AABB F) (prim_indices : List Nat)
    (start end_ : Nat) : Nat × List Nat × Bool :=
  let prim_count := end_ - start
  let found := bvh_find_best_split prims prim_indices start end_
  if found.1.split_pos ≤ start ∨ found.1.split_pos ≥ end_ then
    let extent := vec3_sub bounds.max bounds.min
    let longest_axis : Nat :=
      if extent.y > extent.x ∧ extent.y > extent.z then 1
      else if extent.z > extent.x then 2
      else 0
    let prim_indices := qsort_indices prims longest_axis found.2 start prim_count
    let split_pos := start + prim_count / 2
    (split_pos, prim_indices, decide (split_pos ≤ start ∨ split_pos ≥ end_))
  else (found.1.split_pos, found.2, false)

/-- Build the BVH recursively.  `fuel` bounds the recursion depth; `none` means
the fuel ran out.  Returns the node pointer and the state after the call. -/
def bvh_build_recursive (prims : List (Primitive F)) :
    Nat → BuildState F → Nat → Nat → Option (Nat × BuildState F)
  | 0, _, _, _ => none
  | fuel + 1, st, start, end_ =>
    let node := st.node_idx
    let bounds := range_bounds prims st.indices start end_
    let st := (st.alloc).write node (BVHNode.set_bounds bounds)
    let prim_count := end_ - start
    if prim_count ≤ 2 then
      some (node, st.write node (BVHNode.set_leaf start prim_count))
    else
      let split := build_choose_split prims bounds st.indices start end_
      let st : BuildState F := { st with indices := split.2.1 }
      if split.2.2 = true then
        some (node, st.write node (BVHNode.set_leaf start prim_count))
      else
        let st := st.write node BVHNode.set_internal
        match bvh_build_recursive prims fuel st start split.1 with
        | none => none
        | some (left, st) =>
          let st := st.write node (BVHNode.set_left left)
          match bvh_build_recursive prims fuel st split.1 end_ with
          | none => none
          | some (right, st) =>
            let st := st.write node (BVHNode.set_right right)
            some (node, st)

/-- An all-zero primitive: the value of a read outside the array, which
`bvh_create` never performs. -/
def Primitive.zero : Primitive F :=
  { type := .PRIMITIVE_SPHERE, sphere := Sphere.unset, triangle := Triangle.unset,
    material := material_lambertian (vec3_create 0 0 0),
    bounds := ⟨vec3_create 0 0 0, vec3_create 0 0 0⟩ }

/-- Create the BVH.  `count` is the length of the array.  The recursion is
given `count + 1` units of fuel. -/
def bvh_create (primitives : List (Primitive F)) : Option (BVH F) :=
  let count := primitives.length
  let indices := List.range count
  match bvh_build_recursive primitives (count + 1) ⟨[], indices⟩ 0 count with
  | none => none
  | some (root, st) =>
    let reordered := (List.range count).map (fun i =>
      primitives.getD (st.indices.getD i 0) Primitive.zero)
    some { root := some root, primitives := reordered, prim_count := count,
           nodes := st.nodes, node_count := st.node_idx, indices := st.indices }

/-! ## bvh.c: traversal, and the brute-force scan of `scene_hit` -/

/-- The locals `hit_anything`, `closest_so_far` and the record `*rec` of
`bvh_hit` and of the brute-force branch of `scene_hit`. -/
structure TraverseState (F : Type) where
  hit_anything : Bool
  closest_so_far : F
  record : HitRecord F
deriving DecidableEq, Repr

/-- Outcome of a traversal: the C return value and `*rec`, or one of the ways
the C loop leaves defined behaviour (`stack[64]` written past its end, a node
pointer outside the node array), or fuel exhausted (the loop did not finish
within the iterations granted). -/
inductive TraverseResult (F : Type) where
  | stack_overflow
  | invalid_node
  | out_of_fuel
  | done (hit : Bool) (rec : HitRecord F)
deriving DecidableEq, Repr

/-- The body shared by the leaf loop of `bvh_hit` and the brute-force loop of
`scene_hit`: test one primitive against the running closest hit. -/
def scan_primitive (sqrtf : F → F) (prims : List (Primitive F)) (ray : Ray F) (t_min : F)
    (st : TraverseState F) (prim_idx : Nat) : TraverseState F :=
  let r := primitive_hit sqrtf prims prim_idx ray t_min st.closest_so_far st.record
  if r.1 then { hit_anything := true, closest_so_far := r.2.t, record := r.2 }
  else { st with record := r.2 }

/-- The leaf loop `for (i = 0; i < node->prim_count; i++)` of `bvh_hit`. -/
def bvh_hit_leaf (sqrtf : F → F) (prims : List (Primitive F)) (ray : Ray F) (t_min : F)
    (node : BVHNode F) (st : TraverseState F) : TraverseState F :=
  (List.range' 0 node.prim_count).foldl
    (fun st i => scan_primitive sqrtf prims ray t_min st (node.first_prim_idx + i)) st

/-- The push `stack[stack_ptr++] = child` for a non-null child; `none` when the write
falls outside `stack[64]`.  The head of the list is the top of the stack. -/
def push_node (stack : List Nat) (child : Option Nat) : Option (List Nat) :=
  match child with
  | none => some stack
  | some c => if stack.length < 64 then some (c :: stack) else none

/-- The loop `while (stack_ptr > 0)` of `bvh_hit`, at most `fuel` evaluations
of the loop condition. -/
def bvh_hit_loop (sqrtf : F → F) (bvh : BVH F) (ray : Ray F) (t_min : F) :
    Nat → List Nat → TraverseState F → TraverseResult F
  | 0, _, _ => .out_of_fuel
  | _ + 1, [], st => .done st.hit_anything st.record
  | fuel + 1, node :: stack, st =>
    match bvh.nodes.get? node with
    | none => .invalid_node
    | some n =>
      if ¬ aabb_hit n.bounds ray t_min st.closest_so_far = true then
        bvh_hit_loop sqrtf bvh ray t_min fuel stack st
      else if n.is_leaf then
        bvh_hit_loop sqrtf bvh ray t_min fuel stack
          (bvh_hit_leaf sqrtf bvh.primitives ray t_min n st)
      else
        match push_node stack n.left with
        | none => .stack_overflow
        | some stack =>
          match push_node stack n.right with
          | none => .stack_overflow
          | some stack => bvh_hit_loop sqrtf bvh ray t_min fuel stack st

/-- BVH traversal.  Every iteration pops a node that was pushed once, so the
loop is granted `node_count + 1` evaluations of its condition. -/
def bvh_hit (sqrtf : F → F) (bvh : BVH F) (ray : Ray F) (t_min t_max : F)
    (rec : HitRecord F) : TraverseResult F :=
  let stack : List Nat :=
    match bvh.root with
    | some root => [root]
    | none => []
  bvh_hit_loop sqrtf bvh ray t_min (bvh.node_count + 1) stack
    { hit_anything := false, closest_so_far := t_max, record := rec }

/-! ## pathtracer.c: the scene and `scene_hit` -/

structure Scene (F : Type) where
  primitives : List (Primitive F)
  prim_count : Nat
  bvh : Option (BVH F)
  ambient_light : Vec3 F
deriving DecidableEq, Repr

/-- The `else` branch of `scene_hit`: brute force over all primitives. -/
def scene_hit_brute_force (sqrtf : F → F) (prims : List (Primitive F)) (prim_count : Nat)
    (ray : Ray F) (t_min t_max : F) (rec : HitRecord F) : Bool × HitRecord F :=
  let st := (List.range' 0 prim_count).foldl
    (fun st i => scan_primitive sqrtf prims ray t_min st i)
    { hit_anything := false, closest_so_far := t_max, record := rec }
  (st.hit_anything, st.record)

/-- Hit test for the scene. -/
def scene_hit (sqrtf : F → F) (scene : Scene F) (ray : Ray F) (t_min t_max : F)
    (rec : HitRecord F) : TraverseResult F :=
  match scene.bvh with
  | some bvh => bvh_hit sqrtf bvh ray t_min t_max rec
  | none =>
    let r := scene_hit_brute_force sqrtf scene.primitives scene.prim_count ray t_min t_max rec
    .done r.1 r.2

/-! ### Reading a built tree -/

/-- The leaves below a node pointer, left to right, each as
`(first_prim_idx, prim_count)`; null children are skipped.  `fuel` bounds the
depth explored. -/
def bvh_leaves (nodes : List (BVHNode F)) : Nat → Option Nat → List (Nat × Nat)
  | 0, _ => []
  | _ + 1, none => []
  | fuel + 1, some i =>
    match nodes.get? i with
    | none => []
    | some n =>
      if n.is_leaf then [(n.first_prim_idx, n.prim_count)]
      else bvh_leaves nodes fuel n.left ++ bvh_leaves nodes fuel n.right

/-- The node pointers reachable from a node pointer (pre-order). -/
def bvh_reachable (nodes : List (BVHNode F)) : Nat → Option Nat → List Nat
  | 0, _ => []
  | _ + 1, none => []
  | fuel + 1, some i =>
    match nodes.get? i with
    | none => [i]
    | some n =>
      if n.is_leaf then [i]
      else i :: (bvh_reachable nodes fuel n.left ++ bvh_reachable nodes fuel n.right)

end BVHDefs

section BVHSpecDefs

variable {F : Type} [LinearOrderedField F] [FloorRing F]

/-! ### Predicates used to state the build invariants -/

/-- The array `idx'` is `idx` with the entries at positions `start ≤ i < end_` permuted among
themselves and every other position untouched. -/
def Within (start end_ : Nat) (idx idx' : List Nat) : Prop :=
  idx'.length = idx.length ∧ idx'.Perm idx ∧ ∀ i, i < start ∨ end_ ≤ i → idx'[i]? = idx[i]?

inductive Subtree {F : Type} (nodes : List (BVHNode F)) (bnd : Nat → Nat → AABB F) :
    Nat → Nat → Nat → Nat → Prop
  | leaf (i lo hi : Nat) (n : BVHNode F) :
      nodes[i]? = some n → n.is_leaf = true → n.first_prim_idx = lo → n.prim_count = hi - lo →
      lo ≤ hi → hi ≤ lo + 2 → n.bounds = bnd lo hi → Subtree nodes bnd i lo hi (i + 1)
  | node (i lo mid hi r next : Nat) (n : BVHNode F) :
      nodes[i]? = some n → n.is_leaf = false → n.left = some (i + 1) → n.right = some r →
      lo < mid → mid < hi → n.bounds = bnd lo hi →
      Subtree nodes bnd (i + 1) lo mid r → Subtree nodes bnd r mid hi next →
      Subtree nodes bnd i lo hi next

/-- The state with which `bvh_build_recursive` enters its first recursive call. -/
def build_state_left (prims : List (Primitive F)) (st : BuildState F) (s e : Nat) : BuildState F :=
  ⟨st.nodes ++ [BVHNode.set_internal (BVHNode.set_bounds (range_bounds prims st.indices s e)
      BVHNode.zero)],
    (build_choose_split prims (range_bounds prims st.indices s e) st.indices s e).2.1⟩

end BVHSpecDefs


section SplitSpecDefs

variable {F : Type} [LinearOrderedField F] [FloorRing F]

/-! ### The candidates of the SAH search

The expressions `bvh_find_best_split` evaluates for one axis and one split bin, named so
that the theorems about the search can refer to them. -/

/-- The value `pos` of the primitive `j`: the coordinate of the centre of its bounds. -/
def center_pos (prims : List (Primitive F)) (axis : Nat) (j : Nat) : F :=
  (aabb_center (prim_bounds prims j)).get axis

/-- The bin the "Fill bins" loop puts the primitive `j` in. -/
def bin_index (prims : List (Primitive F)) (axis : Nat) (axis_min bin_width : F) (j : Nat) :
    Nat :=
  let bin_idx := ⌊(center_pos prims axis j - axis_min) / bin_width⌋₊
  if bin_idx ≥ 12 then 12 - 1 else bin_idx

/-- A bin after one more primitive with bounds `b` is put in it. -/
def Bin.add (bin : Bin F) (b : AABB F) : Bin F :=
  ⟨if bin.count = 0 then b else aabb_union bin.bounds b, bin.count + 1⟩

/-- The body of the "Fill bins" loop for the primitive `j`. -/
def bin_step (prims : List (Primitive F)) (axis : Nat) (axis_min bin_width : F)
    (bins : List (Bin F)) (j : Nat) : List (Bin F) :=
  let b := prim_bounds prims j
  let bin_idx := bin_index prims axis axis_min bin_width j
  let bin := bins.getD bin_idx Bin.zero
  let count := bin.count + 1
  if count = 1 then bins.set bin_idx ⟨b, count⟩
  else bins.set bin_idx ⟨aabb_union bin.bounds b, count⟩

/-- The value `bin_width` for the range `[start, end)` on `axis`. -/
def axis_bin_width (prims : List (Primitive F)) (prim_indices : List Nat) (start end_ : Nat)
    (axis : Nat) : F :=
  ((range_bounds prims prim_indices start end_).max.get axis -
    (range_bounds prims prim_indices start end_).min.get axis) / 12

/-- The bins of the range `[start, end)` on `axis`. -/
def axis_bins (prims : List (Primitive F)) (prim_indices : List Nat) (start end_ : Nat)
    (axis : Nat) : List (Bin F) :=
  fill_bins prims prim_indices start end_ axis
    ((range_bounds prims prim_indices start end_).min.get axis)
    (axis_bin_width prims prim_indices start end_ axis)

/-- The float `split_pos = axis_min + split_bin * bin_width` the partition compares with. -/
def split_threshold (prims : List (Primitive F)) (prim_indices : List Nat) (start end_ : Nat)
    (axis split_bin : Nat) : F :=
  (range_bounds prims prim_indices start end_).min.get axis +
    (split_bin : F) * axis_bin_width prims prim_indices start end_ axis

/-- The value `left_count` of the sweep for `split_bin`. -/
def left_count (prims : List (Primitive F)) (prim_indices : List Nat) (start end_ : Nat)
    (axis split_bin : Nat) : Nat :=
  (sweep_bins (axis_bins prims prim_indices start end_ axis) 0 split_bin).2

/-- The value `right_count` of the sweep for `split_bin`. -/
def right_count (prims : List (Primitive F)) (prim_indices : List Nat) (start end_ : Nat)
    (axis split_bin : Nat) : Nat :=
  (sweep_bins (axis_bins prims prim_indices start end_ axis) split_bin 12).2

/-- The SAH cost of the candidate `(axis, split_bin)`: `none` when the axis is passed over
(extent below `0.0001`) or one side of the split is empty. -/
def split_cost (prims : List (Primitive F)) (prim_indices : List Nat) (start end_ : Nat)
    (axis split_bin : Nat) : Option F :=
  let bounds := range_bounds prims prim_indices start end_
  if bounds.max.get axis - bounds.min.get axis < 1 / 10000 then none
  else
    let bins := axis_bins prims prim_indices start end_ axis
    let left := sweep_bins bins 0 split_bin
    let right := sweep_bins bins split_bin 12
    if left.2 = 0 ∨ right.2 = 0 then none
    else
      some (1 + ((left.2 : F) * aabb_surface_area left.1 +
        (right.2 : F) * aabb_surface_area right.1) / aabb_surface_area bounds * 1)

/-- The node array of a tree over the range `[j, e)` in which every split puts one
primitive in the left child: `n` internal nodes down the right spine, each with a leaf for
one primitive as left child, and a last leaf; `k` is the slot of the first node. -/
def spine_nodes (prims : List (Primitive F)) (idx : List Nat) (e : Nat) :
    Nat → Nat → Nat → List (BVHNode F)
  | 0, j, _ =>
    [BVHNode.set_leaf j (e - j) (BVHNode.set_bounds (range_bounds prims idx j e) BVHNode.zero)]
  | n + 1, j, k =>
    BVHNode.set_right (k + 2) (BVHNode.set_left (k + 1)
      (BVHNode.set_internal (BVHNode.set_bounds (range_bounds prims idx j e) BVHNode.zero)))
    :: BVHNode.set_leaf j (j + 1 - j)
      (BVHNode.set_bounds (range_bounds prims idx j (j + 1)) BVHNode.zero)
    :: spine_nodes prims idx e n (j + 1) (k + 2)

end SplitSpecDefs

section FirstAloneDefs

variable {F : Type} [LinearOrderedField F]

/-- The box is not inverted: `min ≤ max` on every axis. -/
def ValidBox (b : AABB F) : Prop :=
  b.min.x ≤ b.max.x ∧ b.min.y ≤ b.max.y ∧ b.min.z ≤ b.max.z

/-- The threshold `axis_min + split_bin * bin_width` of the bins laid over the box `B`. -/
def box_threshold (B : AABB F) (axis sb : Nat) : F :=
  B.min.get axis + (sb : F) * ((B.max.get axis - B.min.get axis) / 12)

end FirstAloneDefs


section SplitRoundedDefs

variable {F : Type} [LinearOrderedField F] [FloorRing F]

/-! ### The SAH search, rounded

`bvh_find_best_split` with a rounding `fl` after every float operation.  The unions of
boxes take minima and maxima, which do not round, so `range_bounds`, `sweep_bins` and the
bounds of the bins are as before; the centre of a box, the bin index, the areas, the cost
and the threshold of the partition are computed with rounding.  The constants `0.5f`,
`1.0f` and `2.0f` are floats; `0.0001f` is the float nearest to `1 / 10000`, and the
integers `num_bins`, `split_bin`, `left_count` and `right_count` are converted to float. -/

/-- The function `aabb_center`: `vec3_scale(vec3_add(box.min, box.max), 0.5f)`. -/
def aabb_center_rounded (fl : F → F) (box : AABB F) : Vec3 F :=
  vec3_scale_rounded fl (vec3_add_rounded fl box.min box.max) (1 / 2)

/-- The function `aabb_surface_area`: `2.0f * (d.x * d.y + d.y * d.z + d.z * d.x)`. -/
def aabb_surface_area_rounded (fl : F → F) (box : AABB F) : F :=
  let d := vec3_sub_rounded fl box.max box.min
  fl (2 * fl (fl (fl (d.x * d.y) + fl (d.y * d.z)) + fl (d.z * d.x)))

/-- The "Fill bins" loop. -/
def fill_bins_rounded (fl : F → F) (prims : List (Primitive F)) (prim_indices : List Nat)
    (start end_ : Nat) (axis : Nat) (axis_min bin_width : F) : List (Bin F) :=
  (List.range' start (end_ - start)).foldl
    (fun bins i =>
      let b := prim_bounds prims (prim_indices.getD i 0)
      let center := aabb_center_rounded fl b
      let pos := center.get axis
      let bin_idx := ⌊fl (fl (pos - axis_min) / bin_width)⌋₊
      let bin_idx := if bin_idx ≥ 12 then 12 - 1 else bin_idx
      let bin := bins.getD bin_idx Bin.zero
      let count := bin.count + 1
      if count = 1 then bins.set bin_idx ⟨b, count⟩
      else bins.set bin_idx ⟨aabb_union bin.bounds b, count⟩)
    (List.replicate 12 Bin.zero)

/-- The "Partition primitives" loop: returns the array and the final `left_idx`. -/
def partition_indices_rounded (fl : F → F) (prims : List (Primitive F)) (axis : Nat)
    (split_pos : F) (prim_indices : List Nat) (start end_ : Nat) : List Nat × Nat :=
  (List.range' start (end_ - start)).foldl
    (fun acc i =>
      let center := aabb_center_rounded fl (prim_bounds prims (acc.1.getD i 0))
      let pos := center.get axis
      if pos < split_pos then (swap_indices acc.1 acc.2 i, acc.2 + 1) else acc)
    (prim_indices, start)

/-- One iteration of the sweep loop over `split_bin`.  As in `sweep_step`, a candidate is
passed over when `parent_area` is `0`. -/
def sweep_step_rounded (fl : F → F) (prims : List (Primitive F)) (start end_ : Nat)
    (axis : Nat) (bounds : AABB F) (axis_min bin_width : F) (bins : List (Bin F))
    (acc : SplitCandidate F × List Nat) (split_bin : Nat) : SplitCandidate F × List Nat :=
  let left := sweep_bins bins 0 split_bin
  let right := sweep_bins bins split_bin 12
  let left_count := left.2
  let right_count := right.2
  if left_count = 0 ∨ right_count = 0 then acc
  else
    let traversal_cost : F := 1
    let intersect_cost : F := 1
    let left_area := aabb_surface_area_rounded fl left.1
    let right_area := aabb_surface_area_rounded fl right.1
    let parent_area := aabb_surface_area_rounded fl bounds
    if parent_area = 0 then acc
    else
      let cost := fl (traversal_cost +
        fl (fl (fl (fl (fl (left_count : F) * left_area) +
          fl (fl (right_count : F) * right_area)) / parent_area) * intersect_cost))
      if cost < acc.1.cost then
        let split_pos := fl (axis_min + fl (fl (split_bin : F) * bin_width))
        let part := partition_indices_rounded fl prims axis split_pos acc.2 start end_
        (⟨cost, axis, part.2⟩, part.1)
      else acc

/-- One iteration of the loop over `axis`. -/
def axis_step_rounded (fl : F → F) (prims : List (Primitive F)) (start end_ : Nat)
    (acc : SplitCandidate F × List Nat) (axis : Nat) : SplitCandidate F × List Nat :=
  let bounds := range_bounds prims acc.2 start end_
  let axis_min := bounds.min.get axis
  let axis_max := bounds.max.get axis
  if fl (axis_max - axis_min) < fl (1 / 10000) then acc
  else
    let bin_width := fl (fl (axis_max - axis_min) / fl 12)
    let bins := fill_bins_rounded fl prims acc.2 start end_ axis axis_min bin_width
    (List.range' 1 (12 - 1)).foldl
      (sweep_step_rounded fl prims start end_ axis bounds axis_min bin_width bins) acc

/-- The function `bvh_find_best_split`, every float operation rounded by `fl`. -/
def bvh_find_best_split_rounded (fl : F → F) (prims : List (Primitive F))
    (prim_indices : List Nat) (start end_ : Nat) : SplitCandidate F × List Nat :=
  let best : SplitCandidate F := ⟨FLT_MAX, 0, start + (end_ - start) / 2⟩
  (List.range' 0 3).foldl (axis_step_rounded fl prims start end_) (best, prim_indices)

/-! ### The candidates of the rounded search

The expressions `bvh_find_best_split_rounded` evaluates for one axis and one split bin. -/

/-- The value `pos` of the primitive `j`, as computed. -/
def center_pos_rounded (fl : F → F) (prims : List (Primitive F)) (axis : Nat) (j : Nat) : F :=
  (aabb_center_rounded fl (prim_bounds prims j)).get axis

/-- The bin the "Fill bins" loop puts the primitive `j` in, as computed. -/
def bin_index_rounded (fl : F → F) (prims : List (Primitive F)) (axis : Nat)
    (axis_min bin_width : F) (j : Nat) : Nat :=
  let bin_idx := ⌊fl (fl (center_pos_rounded fl prims axis j - axis_min) / bin_width)⌋₊
  if bin_idx ≥ 12 then 12 - 1 else bin_idx

/-- The body of the "Fill bins" loop for the primitive `j`. -/
def bin_step_rounded (fl : F → F) (prims : List (Primitive F)) (axis : Nat)
    (axis_min bin_width : F) (bins : List (Bin F)) (j : Nat) : List (Bin F) :=
  let b := prim_bounds prims j
  let bin_idx := bin_index_rounded fl prims axis axis_min bin_width j
  let bin := bins.getD bin_idx Bin.zero
  let count := bin.count + 1
  if count = 1 then bins.set bin_idx ⟨b, count⟩
  else bins.set bin_idx ⟨aabb_union bin.bounds b, count⟩

/-- The test `axis_max - axis_min < 0.0001f` that passes over an axis. -/
def axis_skipped_rounded (fl : F → F) (prims : List (Primitive F)) (prim_indices : List Nat)
    (start end_ : Nat) (axis : Nat) : Prop :=
  fl ((range_bounds prims prim_indices start end_).max.get axis -
    (range_bounds prims prim_indices start end_).min.get axis) < fl (1 / 10000)

/-- The value `bin_width` for the range `[start, end)` on `axis`, as computed. -/
def axis_bin_width_rounded (fl : F → F) (prims : List (Primitive F)) (prim_indices : List Nat)
    (start end_ : Nat) (axis : Nat) : F :=
  fl (fl ((range_bounds prims prim_indices start end_).max.get axis -
    (range_bounds prims prim_indices start end_).min.get axis) / fl 12)

/-- The bins of the range `[start, end)` on `axis`, as computed. -/
def axis_bins_rounded (fl : F → F) (prims : List (Primitive F)) (prim_indices : List Nat)
    (start end_ : Nat) (axis : Nat) : List (Bin F) :=
  fill_bins_rounded fl prims prim_indices start end_ axis
    ((range_bounds prims prim_indices start end_).min.get axis)
    (axis_bin_width_rounded fl prims prim_indices start end_ axis)

/-- The float `split_pos = axis_min + split_bin * bin_width` the partition compares with,
as computed. -/
def split_threshold_rounded (fl : F → F) (prims : List (Primitive F)) (prim_indices : List Nat)
    (start end_ : Nat) (axis split_bin : Nat) : F :=
  fl ((range_bounds prims prim_indices start end_).min.get axis +
    fl (fl (split_bin : F) * axis_bin_width_rounded fl prims prim_indices start end_ axis))

/-- The value `left_count` of the sweep for `split_bin`, as computed. -/
def left_count_rounded (fl : F → F) (prims : List (Primitive F)) (prim_indices : List Nat)
    (start end_ : Nat) (axis split_bin : Nat) : Nat :=
  (sweep_bins (axis_bins_rounded fl prims prim_indices start end_ axis) 0 split_bin).2

/-- The value `right_count` of the sweep for `split_bin`, as computed. -/
def right_count_rounded (fl : F → F) (prims : List (Primitive F)) (prim_indices : List Nat)
    (start end_ : Nat) (axis split_bin : Nat) : Nat :=
  (sweep_bins (axis_bins_rounded fl prims prim_indices start end_ axis) split_bin 12).2

/-- The value `cost` of the sweep for `(axis, split_bin)`, as computed. -/
def candidate_cost_rounded (fl : F → F) (prims : List (Primitive F)) (prim_indices : List Nat)
    (start end_ : Nat) (axis split_bin : Nat) : F :=
  let bins := axis_bins_rounded fl prims prim_indices start end_ axis
  let left := sweep_bins bins 0 split_bin
  let right := sweep_bins bins split_bin 12
  fl (1 + fl (fl (fl (fl (fl (left.2 : F) * aabb_surface_area_rounded fl left.1) +
    fl (fl (right.2 : F) * aabb_surface_area_rounded fl right.1)) /
      aabb_surface_area_rounded fl (range_bounds prims prim_indices start end_)) * 1))

/-- What holds of the best split `acc` while the loops of the rounded search run: the index
array is the range permuted, and either nothing was accepted or the candidate
`(a0, sb0)` was accepted last, on an axis that was not passed over and with both sides
non-empty, and the index array is the outcome of the partition for its threshold. -/
def PartitionedSoFar (fl : F → F) (prims : List (Primitive F)) (idx : List Nat) (s e : Nat)
    (acc : SplitCandidate F × List Nat) : Prop :=
  Within s e idx acc.2 ∧
  ((acc.1 = ⟨FLT_MAX, 0, s + (e - s) / 2⟩ ∧ acc.2 = idx) ∨
   ∃ a0 sb0 idx', a0 < 3 ∧ 1 ≤ sb0 ∧ sb0 ≤ 11 ∧
     ¬ axis_skipped_rounded fl prims idx s e a0 ∧
     left_count_rounded fl prims idx s e a0 sb0 ≠ 0 ∧
     right_count_rounded fl prims idx s e a0 sb0 ≠ 0 ∧
     acc.1.cost = candidate_cost_rounded fl prims idx s e a0 sb0 ∧
     acc.1.cost < FLT_MAX ∧
     acc.1.split_axis = a0 ∧
     Within s e idx idx' ∧
     acc.1.split_pos =
       (partition_indices_rounded fl prims a0
         (split_threshold_rounded fl prims idx s e a0 sb0) idx' s e).2 ∧
     acc.2 =
       (partition_indices_rounded fl prims a0
         (split_threshold_rounded fl prims idx s e a0 sb0) idx' s e).1)

end SplitRoundedDefs
section TraversalSpecDefs

variable {F : Type} [LinearOrderedField F]

/-! ### Notions used to state the traversal theorems -/

/-- The box `inner` lies inside the box `outer`. -/
def BoxLe (inner outer : AABB F) : Prop :=
  ∀ axis : Nat, outer.min.get axis ≤ inner.min.get axis ∧ inner.max.get axis ≤ outer.max.get axis

/-- An all-zero hit record. -/
def HitRecord.zero : HitRecord F := ⟨vec3_create 0 0 0, vec3_create 0 0 0, 0, false, none⟩

/-- The ray parameter `sphere_hit` accepts on `[t_min, t_max]`, if any. -/
def sphere_root (sqrtf : F → F) (s : Sphere F) (ray : Ray F) (t_min t_max : F) : Option F :=
  if sphere_disc s ray < 0 then none
  else if t_min ≤ sphere_root_near sqrtf s ray ∧ sphere_root_near sqrtf s ray ≤ t_max then
    some (sphere_root_near sqrtf s ray)
  else if t_min ≤ sphere_root_far sqrtf s ray ∧ sphere_root_far sqrtf s ray ≤ t_max then
    some (sphere_root_far sqrtf s ray)
  else none

/-- The ray parameter `triangle_hit` accepts on `[t_min, t_max]`, if any. -/
def triangle_root (tri : Triangle F) (ray : Ray F) (t_min t_max : F) : Option F :=
  if |triangle_det tri ray| < 1 / 10000000 then none
  else if triangle_u tri ray < 0 ∨ triangle_u tri ray > 1 then none
  else if triangle_v tri ray < 0 ∨ triangle_u tri ray + triangle_v tri ray > 1 then none
  else if triangle_t tri ray < t_min ∨ triangle_t tri ray > t_max then none
  else some (triangle_t tri ray)

/-- The ray parameter `primitive_hit` accepts for the primitive `p` on `[t_min, t_max]`. -/
def prim_root (sqrtf : F → F) (p : Primitive F) (ray : Ray F) (t_min t_max : F) : Option F :=
  match p.type with
  | .PRIMITIVE_SPHERE => sphere_root sqrtf p.sphere ray t_min t_max
  | .PRIMITIVE_TRIANGLE => triangle_root p.triangle ray t_min t_max
  | .PRIMITIVE_MESH => none

/-- The record `primitive_hit` leaves for a hit of `&prims[idx]` at parameter `t`: every
field is overwritten, so it does not depend on the record passed in. -/
def prim_record (p : Primitive F) (idx : Nat) (ray : Ray F) (t : F) : HitRecord F :=
  match p.type with
  | .PRIMITIVE_SPHERE =>
    { sphere_record p.sphere ray t HitRecord.zero with material := some idx }
  | .PRIMITIVE_TRIANGLE =>
    { triangle_record p.triangle ray t HitRecord.zero with material := some idx }
  | .PRIMITIVE_MESH => HitRecord.zero

/-- The accepted ray parameter of the primitive at position `idx`. -/
def root_at (sqrtf : F → F) (prims : List (Primitive F)) (ray : Ray F) (t_min t_max : F)
    (idx : Nat) : Option F :=
  match prims.get? idx with
  | none => none
  | some p => prim_root sqrtf p ray t_min t_max

/-- The record of a hit of the primitive at position `idx` at parameter `t`. -/
def record_at (prims : List (Primitive F)) (ray : Ray F) (idx : Nat) (t : F) : HitRecord F :=
  match prims.get? idx with
  | none => HitRecord.zero
  | some p => prim_record p idx ray t

end TraversalSpecDefs

section BoxSpecDefs

variable {F : Type} [LinearOrderedField F]

/-- The point `p` lies in the closed box. -/
def InBox (box : AABB F) (p : Vec3 F) : Prop :=
  (box.min.x ≤ p.x ∧ p.x ≤ box.max.x) ∧ (box.min.y ≤ p.y ∧ p.y ≤ box.max.y) ∧
    (box.min.z ≤ p.z ∧ p.z ≤ box.max.z)

/-- The point `p` lies in the interior of the box. -/
def StrictlyInBox (box : AABB F) (p : Vec3 F) : Prop :=
  (box.min.x < p.x ∧ p.x < box.max.x) ∧ (box.min.y < p.y ∧ p.y < box.max.y) ∧
    (box.min.z < p.z ∧ p.z < box.max.z)

/-- The point of the triangle with barycentric coordinates `u` and `v`:
`v0 + u (v1 - v0) + v (v2 - v0)`. -/
def triangle_point (tri : Triangle F) (u v : F) : Vec3 F :=
  vec3_add tri.v0 (vec3_add (vec3_scale (vec3_sub tri.v1 tri.v0) u)
    (vec3_scale (vec3_sub tri.v2 tri.v0) v))

end BoxSpecDefs

section ArrayBoundsDefs

variable {F : Type} [LinearOrderedField F]

/-- The union of the precomputed bounds of the primitives at the positions `lo ≤ i < hi` of
the array: `box = aabb_empty(); for (i = lo; i < hi; i++) box = aabb_union(box,
prims[i].bounds)`. -/
def array_bounds (prims : List (Primitive F)) (lo hi : Nat) : AABB F :=
  (List.range' lo (hi - lo)).foldl (fun box i => aabb_union box (prim_bounds prims i))
    aabb_empty

end ArrayBoundsDefs

section Examples

/-! ### Inputs of the worked examples -/

/-- The material of the worked examples. -/
def example_material : Material ℚ := material_lambertian ⟨1 / 2, 1 / 2, 1 / 2⟩

/-- Five unit spheres, as `scene_add_sphere` stores them. -/
def example_scene : List (Primitive ℚ) :=
  [primitive_sphere ⟨8, 0, 0⟩ 1 example_material,
   primitive_sphere ⟨4, 0, 3⟩ 1 example_material,
   primitive_sphere ⟨0, 0, 0⟩ 1 example_material,
   primitive_sphere ⟨0, 5, 0⟩ 1 example_material,
   primitive_sphere ⟨0, 0, 0⟩ 1 example_material]

/-- Four spheres with one and the same centre: every axis of the centres is degenerate. -/
def coincident_scene : List (Primitive ℚ) :=
  List.replicate 4 (primitive_sphere ⟨1, 2, 3⟩ 1 example_material)

/-- Three spheres on the x axis, all coordinates binary32 values: the centre of the second
one is the float that the search computes as threshold `axis_min + 2 * bin_width`. -/
def split_spheres : List (Primitive ℚ) :=
  [primitive_sphere ⟨218, 0, 0⟩ 8 example_material,
   primitive_sphere ⟨14050645 / 65536, 0, 0⟩ (1 / 2) example_material,
   primitive_sphere ⟨1827 / 8, 0, 0⟩ 8 example_material]

/-- One unit sphere centred at `(0, 0, 5)`. -/
def one_sphere : List (Primitive ℚ) := [primitive_sphere ⟨0, 0, 5⟩ 1 example_material]

/-- The ray from the origin along the z axis. -/
def z_ray : Ray ℚ := ⟨⟨0, 0, 0⟩, ⟨0, 0, 1⟩⟩

/-- Sixty-six spheres around the x axis: sphere `i < 65` has its centre at `i + 1/2` and the
radius `464 - i`, the last one its centre at `65 + 1/2` and the radius 400. -/
def nested_spheres : List (Primitive ℚ) :=
  (List.range 65).map (fun i =>
    primitive_sphere ⟨(i : ℚ) + 1 / 2, 0, 0⟩ (464 - (i : ℚ)) example_material)
  ++ [primitive_sphere ⟨131 / 2, 0, 0⟩ 400 example_material]

/-- A ray along the diagonal through the centre of the last sphere. -/
def diagonal_ray : Ray ℚ := ⟨⟨131 / 2 - 5000, -5000, -5000⟩, ⟨1, 1, 1⟩⟩

/-- Three spheres whose centres all fall in bin 6 on every axis: two of radius 1 and one of
radius 96 around the origin (bin width 16), listed by decreasing centre coordinate. -/
def unsorted_spheres : List (Primitive ℚ) :=
  [primitive_sphere ⟨2, 0, 0⟩ 1 example_material,
   primitive_sphere ⟨1, 0, 0⟩ 1 example_material,
   primitive_sphere ⟨0, 0, 0⟩ 96 example_material]

/-- The radius of the sphere `i` of `nested_spheres`. -/
def nested_radius (i : Nat) : ℚ := if i < 65 then 464 - (i : ℚ) else 400

/-- The bounds of the sphere `i` of `nested_spheres`. -/
def nested_prim_box (i : Nat) : AABB ℚ :=
  ⟨⟨(i : ℚ) + 1 / 2 - nested_radius i, -nested_radius i, -nested_radius i⟩,
   ⟨(i : ℚ) + 1 / 2 + nested_radius i, nested_radius i, nested_radius i⟩⟩

/-- The box of the range `[j, 66)` of `nested_spheres`. -/
def nested_box (j : Nat) : AABB ℚ :=
  ⟨⟨2 * (j : ℚ) - 927 / 2, (j : ℚ) - 464, (j : ℚ) - 464⟩,
   ⟨931 / 2, 464 - (j : ℚ), 464 - (j : ℚ)⟩⟩

end Examples


section Sampling

variable {F : Type} [LinearOrderedField F]

/-! ## vec3.h (the operations used by materials and shading) -/

def vec3_mul (a b : Vec3 F) : Vec3 F := vec3_create (a.x * b.x) (a.y * b.y) (a.z * b.z)

def vec3_reflect (v n : Vec3 F) : Vec3 F := vec3_sub v (vec3_scale n (2 * vec3_dot v n))

/-- Refraction: the C return value and `*refracted` after the call (unchanged
when the function returns false). -/
def vec3_refract (sqrtf : F → F) (v n : Vec3 F) (ni_over_nt : F) (refracted : Vec3 F) :
    Bool × Vec3 F :=
  let uv := vec3_normalize sqrtf v
  let dt := vec3_dot uv n
  let discriminant := 1 - ni_over_nt * ni_over_nt * (1 - dt * dt)
  if discriminant > 0 then
    (true, vec3_sub (vec3_scale (vec3_sub uv (vec3_scale n dt)) ni_over_nt)
      (vec3_scale n (sqrtf discriminant)))
  else (false, refracted)

def vec3_lerp (a b : Vec3 F) (t : F) : Vec3 F :=
  vec3_add (vec3_scale a (1 - t)) (vec3_scale b t)

/-! ## random.h

The PCG generator.  The two `uint64_t` fields are natural numbers, reduced
modulo `2^64` where the C arithmetic wraps. -/

structure RNG where
  state : Nat
  inc : Nat
deriving DecidableEq, Repr

def rng_init (seed : Nat) : RNG :=
  { state := seed % 2 ^ 64, inc := ((seed <<< 1) % 2 ^ 64) ||| 1 }

/-- Generate a random `uint32_t`: the value returned and the generator after the call. -/
def rng_uint32 (rng : RNG) : Nat × RNG :=
  let oldstate := rng.state % 2 ^ 64
  let state := (oldstate * 6364136223846793005 + rng.inc) % 2 ^ 64
  let xorshifted := (((oldstate >>> 18) ^^^ oldstate) >>> 27) % 2 ^ 32
  let rot := (oldstate >>> 59) % 2 ^ 32
  ((xorshifted >>> rot) ||| ((xorshifted <<< (((2 ^ 32 - rot) % 2 ^ 32) &&& 31)) % 2 ^ 32),
   { rng with state := state })

/-- Generate a random float in `[0, 1)`: a multiple of `2^-24`, exact in `float`. -/
def rng_float (rng : RNG) : F × RNG :=
  let r := rng_uint32 rng
  (((r.1 &&& 0xFFFFFF : Nat) : F) / 16777216, r.2)

def rng_float_range (rng : RNG) (min max : F) : F × RNG :=
  let r : F × RNG := rng_float rng
  (min + (max - min) * r.1, r.2)

/-- Generate a random vector in the unit sphere.  The C loop is `while (1)`:
`fuel` bounds the number of iterations and `none` means that no candidate
was accepted within them.  The three draws are taken in the order of the
arguments of `vec3_create` (C leaves the order of evaluation open). -/
def rng_in_unit_sphere : Nat → RNG → Option (Vec3 F × RNG)
  | 0, _ => none
  | fuel + 1, rng =>
    let x : F × RNG := rng_float_range rng (-1) 1
    let y : F × RNG := rng_float_range x.2 (-1) 1
    let z : F × RNG := rng_float_range y.2 (-1) 1
    let p := vec3_create x.1 y.1 z.1
    if vec3_length_squared p < 1 then some (p, z.2)
    else rng_in_unit_sphere fuel z.2

def rng_unit_vector (sqrtf : F → F) (fuel : Nat) (rng : RNG) : Option (Vec3 F × RNG) :=
  match rng_in_unit_sphere fuel rng with
  | none => none
  | some (p, rng) => some (vec3_normalize sqrtf p, rng)

/-- Generate a random vector in the unit disk (for depth of field), another
`while (1)` rejection loop. -/
def rng_in_unit_disk : Nat → RNG → Option (Vec3 F × RNG)
  | 0, _ => none
  | fuel + 1, rng =>
    let x : F × RNG := rng_float_range rng (-1) 1
    let y : F × RNG := rng_float_range x.2 (-1) 1
    let p := vec3_create x.1 y.1 0
    if vec3_length_squared p < 1 then some (p, y.2)
    else rng_in_unit_disk fuel y.2

end Sampling

section SamplerSpecDefs

/-! ### Notions used to state that the rejection loops of the sampler return -/

/-- The multiplier of the state update of `rng_uint32`. -/
def PCG_MULT : Nat := 6364136223846793005

/-- The sum `1 + M + ... + M^(n-1)` for the multiplier `M` of the generator. -/
def pcg_geom : Nat → Nat
  | 0 => 0
  | n + 1 => pcg_geom n * PCG_MULT + 1

/-- The state update of `rng_uint32`: the step of a linear congruential generator modulo
`2^64`. -/
def pcg_step (inc s : Nat) : Nat := (s % 2 ^ 64 * PCG_MULT + inc) % 2 ^ 64

/-- The state after `n` draws, in closed form. -/
def pcg_state_at (inc s n : Nat) : Nat := (s * PCG_MULT ^ n + inc * pcg_geom n) % 2 ^ 64

/-- The states from which `rng_float` draws a value in `[1/4, 3/4)`: the 64-bit state lies
in `[2^49, 3 * 2^49)`, where the rotation of the output is 0 and the two leading bits of
the 24 bits drawn are `01` or `10`. -/
def MiddleState (s : Nat) : Prop := 2 ^ 49 ≤ s % 2 ^ 64 ∧ s % 2 ^ 64 < 3 * 2 ^ 49

end SamplerSpecDefs

section Materials

variable {F : Type} [LinearOrderedField F]

/-! ## material.h -/

def material_dielectric (ior : F) : Material F :=
  { type := .MATERIAL_DIELECTRIC, albedo := vec3_create 1 1 1, roughness := 0, ior := ior,
    emission := vec3_create 0 0 0,
    blend_type1 := .MATERIAL_LAMBERTIAN, blend_type2 := .MATERIAL_LAMBERTIAN,
    albedo2 := vec3_create 0 0 0, roughness2 := 0, ior2 := 1,
    blend_mode := .BLEND_VERTICAL, blend_min := 0, blend_max := 1 }

def material_emissive (emission : Vec3 F) : Material F :=
  { type := .MATERIAL_EMISSIVE, albedo := vec3_create 0 0 0, roughness := 0, ior := 1,
    emission := emission,
    blend_type1 := .MATERIAL_LAMBERTIAN, blend_type2 := .MATERIAL_LAMBERTIAN,
    albedo2 := vec3_create 0 0 0, roughness2 := 0, ior2 := 1,
    blend_mode := .BLEND_VERTICAL, blend_min := 0, blend_max := 1 }

def material_blend (type1 : MaterialType) (albedo1 : Vec3 F) (param1 ior1 : F)
    (type2 : MaterialType) (albedo2 : Vec3 F) (param2 ior2 : F)
    (mode : BlendMode) (blend_min blend_max : F) : Material F :=
  { type := .MATERIAL_BLEND, albedo := albedo1, roughness := param1, ior := ior1,
    emission := vec3_create 0 0 0,
    blend_type1 := type1, blend_type2 := type2,
    albedo2 := albedo2, roughness2 := param2, ior2 := ior2,
    blend_mode := mode, blend_min := blend_min, blend_max := blend_max }

/-- Schlick approximation for Fresnel; `powf(x, 5.0f)` is `x ^ 5`. -/
def schlick (cosine ref_idx : F) : F :=
  let r0 := (1 - ref_idx) / (1 + ref_idx)
  let r0 := r0 * r0
  r0 + (1 - r0) * (1 - cosine) ^ 5

/-! ## material.c -/

/-- The outcome of `material_scatter`: the C return value and the
out-parameters `*attenuation`, `*scattered` and the generator after the call. -/
structure ScatterResult (F : Type) where
  scattered_ok : Bool
  attenuation : Vec3 F
  scattered : Ray F
  rng : RNG
deriving DecidableEq, Repr

/-- The Lambertian case of `material_scatter` (also the Lambertian case of
a blended material, with the blended albedo). -/
def scatter_lambertian (sqrtf : F → F) (sfuel : Nat) (albedo : Vec3 F) (rec : HitRecord F)
    (rng : RNG) : Option (ScatterResult F) :=
  match rng_unit_vector sqrtf sfuel rng with
  | none => none
  | some (u, rng) =>
    let scatter_direction := vec3_add rec.normal u
    let scatter_direction :=
      if vec3_length_squared scatter_direction < 1 / 1000 then rec.normal else scatter_direction
    some ⟨true, albedo, ray_create sqrtf rec.point scatter_direction, rng⟩

/-- The metal case of `material_scatter`. -/
def scatter_metal (sqrtf : F → F) (sfuel : Nat) (albedo : Vec3 F) (roughness : F)
    (ray_in : Ray F) (rec : HitRecord F) (rng : RNG) : Option (ScatterResult F) :=
  let reflected := vec3_reflect (vec3_normalize sqrtf ray_in.direction) rec.normal
  match rng_in_unit_sphere sfuel rng with
  | none => none
  | some (p, rng) =>
    let fuzz := vec3_scale p roughness
    let scattered := ray_create sqrtf rec.point (vec3_add reflected fuzz)
    some ⟨decide (vec3_dot scattered.direction rec.normal > 0), albedo, scattered, rng⟩

/-- The dielectric case of `material_scatter`.  `sqrtf` of a negative number
is NaN in C and the comparison `refraction_ratio * sin_theta > 1` is then false. -/
def scatter_dielectric (sqrtf : F → F) (mat : Material F) (ray_in : Ray F) (rec : HitRecord F)
    (rng : RNG) : ScatterResult F :=
  let attenuation := vec3_create 1 1 1
  let refraction_ratio := if rec.front_face then 1 / mat.ior else mat.ior
  let unit_direction := vec3_normalize sqrtf ray_in.direction
  let cos_theta := min (-vec3_dot unit_direction rec.normal) 1
  let sin_theta := sqrtf (1 - cos_theta * cos_theta)
  let cannot_refract := decide (refraction_ratio * sin_theta > 1)
  let refracted := vec3_create 0 0 0
  if cannot_refract then
    ⟨true, attenuation, ray_create sqrtf rec.point (vec3_reflect unit_direction rec.normal), rng⟩
  else
    let d : F × RNG := rng_float rng
    if schlick cos_theta refraction_ratio > d.1 then
      ⟨true, attenuation, ray_create sqrtf rec.point (vec3_reflect unit_direction rec.normal),
        d.2⟩
    else
      let r := vec3_refract sqrtf unit_direction rec.normal refraction_ratio refracted
      ⟨true, attenuation, ray_create sqrtf rec.point r.2, d.2⟩

/-- The dielectric case of a blended material.  `refracted` is an
uninitialised local that `vec3_refract` writes whenever it is read. -/
def scatter_blend_dielectric (sqrtf : F → F) (blended_ior : F) (ray_in : Ray F)
    (rec : HitRecord F) (rng : RNG) : ScatterResult F :=
  let attenuation := vec3_create 1 1 1
  let refraction_ratio := if rec.front_face then 1 / blended_ior else blended_ior
  let unit_direction := vec3_normalize sqrtf ray_in.direction
  let r := vec3_refract sqrtf unit_direction rec.normal refraction_ratio (vec3_create 0 0 0)
  if r.1 then
    let cos_theta := min (-vec3_dot unit_direction rec.normal) 1
    let d : F × RNG := rng_float rng
    if schlick cos_theta refraction_ratio > d.1 then
      ⟨true, attenuation, ray_create sqrtf rec.point (vec3_reflect unit_direction rec.normal),
        d.2⟩
    else ⟨true, attenuation, ray_create sqrtf rec.point r.2, d.2⟩
  else
    ⟨true, attenuation, ray_create sqrtf rec.point (vec3_reflect unit_direction rec.normal), rng⟩

/-- The blend factor of a blended material at a hit, clamped to `[0, 1]`.

For `blend_max = blend_min` the C code divides by `0.0f`: the quotient is `+inf` for a
positive numerator, `-inf` for a negative one and NaN for `0 / 0`.  `fmaxf(NaN, 0.0f)` is
`0.0f`, so the clamp `fminf(fmaxf(blend_factor, 0.0f), 1.0f)` gives `1` in the first case
and `0` in the other two.  The embedding has no infinities, so that case is written out. -/
def blend_factor (sqrtf : F → F) (mat : Material F) (rec : HitRecord F) : F :=
  let blend_factor :=
    match mat.blend_mode with
    | .BLEND_VERTICAL => rec.point.y
    | .BLEND_HORIZONTAL => rec.point.x
    | .BLEND_RADIAL => sqrtf (rec.point.x * rec.point.x + rec.point.z * rec.point.z)
  if mat.blend_max - mat.blend_min = 0 then
    if blend_factor - mat.blend_min > 0 then 1 else 0
  else
    let blend_factor := (blend_factor - mat.blend_min) / (mat.blend_max - mat.blend_min)
    min (max blend_factor 0) 1

/-- Material scattering.  `attenuation` and `scattered` are the contents of
the out-parameters before the call, returned unchanged by the branches that
do not write them.  `none` means that a rejection loop of the sampler did not
finish within `sfuel` iterations. -/
def material_scatter (sqrtf : F → F) (sfuel : Nat) (mat : Material F) (ray_in : Ray F)
    (rec : HitRecord F) (attenuation : Vec3 F) (scattered : Ray F) (rng : RNG) :
    Option (ScatterResult F) :=
  match mat.type with
  | .MATERIAL_LAMBERTIAN => scatter_lambertian sqrtf sfuel mat.albedo rec rng
  | .MATERIAL_METAL => scatter_metal sqrtf sfuel mat.albedo mat.roughness ray_in rec rng
  | .MATERIAL_DIELECTRIC => some (scatter_dielectric sqrtf mat ray_in rec rng)
  | .MATERIAL_EMISSIVE => some ⟨false, attenuation, scattered, rng⟩
  | .MATERIAL_BLEND =>
    let blend_factor := blend_factor sqrtf mat rec
    let blended_albedo := vec3_lerp mat.albedo mat.albedo2 blend_factor
    let blended_roughness := mat.roughness + blend_factor * (mat.roughness2 - mat.roughness)
    let blended_ior := mat.ior + blend_factor * (mat.ior2 - mat.ior)
    let active_type := if blend_factor < 1 / 2 then mat.blend_type1 else mat.blend_type2
    match active_type with
    | .MATERIAL_LAMBERTIAN => scatter_lambertian sqrtf sfuel blended_albedo rec rng
    | .MATERIAL_METAL => scatter_metal sqrtf sfuel blended_albedo blended_roughness ray_in rec rng
    | .MATERIAL_DIELECTRIC => some (scatter_blend_dielectric sqrtf blended_ior ray_in rec rng)
    | _ => some ⟨false, attenuation, scattered, rng⟩

/-! ### Named sub-expressions of the blend case of `material_scatter` -/

/-- The coordinate of the hit point that drives a blended material: `y` for a vertical, `x`
for a horizontal blend, the distance from the y axis for a radial one. -/
def blend_coordinate (sqrtf : F → F) (mode : BlendMode) (point : Vec3 F) : F :=
  match mode with
  | .BLEND_VERTICAL => point.y
  | .BLEND_HORIZONTAL => point.x
  | .BLEND_RADIAL => sqrtf (point.x * point.x + point.z * point.z)

/-- The local `active_type` of the blend case: the first type below a blend factor of
`0.5`, the second from `0.5` on. -/
def blend_active_type (sqrtf : F → F) (mat : Material F) (rec : HitRecord F) : MaterialType :=
  if blend_factor sqrtf mat rec < 1 / 2 then mat.blend_type1 else mat.blend_type2

end Materials

section PathTracing

variable {F : Type} [LinearOrderedField F] [FloorRing F]

/-! ## camera.h -/

structure Camera (F : Type) where
  origin : Vec3 F
  lower_left_corner : Vec3 F
  horizontal : Vec3 F
  vertical : Vec3 F
  u : Vec3 F
  v : Vec3 F
  w : Vec3 F
  lens_radius : F
deriving DecidableEq, Repr

/-- The camera ray through the image-plane point `(s, t)`.  `none` means that
the rejection loop of `rng_in_unit_disk` did not finish within `sfuel`
iterations. -/
def camera_get_ray (sqrtf : F → F) (sfuel : Nat) (cam : Camera F) (s t : F) (rng : RNG) :
    Option (Ray F × RNG) :=
  match rng_in_unit_disk sfuel rng with
  | none => none
  | some (p, rng) =>
    let rd := vec3_scale p cam.lens_radius
    let offset := vec3_add (vec3_scale cam.u rd.x) (vec3_scale cam.v rd.y)
    let ray_origin := vec3_add cam.origin offset
    let ray_target := vec3_add
      (vec3_add cam.lower_left_corner (vec3_scale cam.horizontal s))
      (vec3_scale cam.vertical t)
    let ray_direction := vec3_sub ray_target ray_origin
    some (ray_create sqrtf ray_origin ray_direction, rng)

/-! ## pathtracer.c: `trace_ray` -/

/-- Why an evaluation of `trace_ray` or `render_parallel` yields no colour. -/
inductive Fault where
  /-- A `while (1)` rejection loop of the sampler did not finish within the
  iterations granted. -/
  | sampler
  /-- The traversal `bvh_hit` left defined behaviour or ran out of iterations. -/
  | traversal
  /-- The hit record does not point to a material of the scene. -/
  | material_pointer
  /-- The recursion of `trace_ray` ran out of fuel. -/
  | recursion
deriving DecidableEq, Repr

/-- The value of `trace_ray`: the colour returned and the generator after
the call, or a fault. -/
inductive TraceResult (F : Type) where
  | ok (color : Vec3 F) (rng : RNG)
  | fault (f : Fault)
deriving DecidableEq, Repr

def RUSSIAN_ROULETTE_DEPTH : Nat := 5

/-- The constant `survival_probability = 0.8f`.  The draws of `rng_float` are
multiples of `2^-24` and the comparison with them is exact, so the constant
is the `float` nearest to `0.8`, which is `13421773 * 2^-24`. -/
def survival_probability : F := 13421773 / 16777216

/-- The material `rec.material` points to.  The primitives of a scene with
a BVH are the array `bvh->primitives`, which in C is the scene's own array,
reordered in place by `bvh_create`. -/
def scene_material (scene : Scene F) (rec : HitRecord F) : Option (Material F) :=
  match rec.material with
  | none => none
  | some idx =>
    match scene.bvh with
    | some bvh => (bvh.primitives.get? idx).map (fun p => p.material)
    | none => (scene.primitives.get? idx).map (fun p => p.material)

/-- The Russian-roulette step of `trace_ray` at `depth`: whether the path is
terminated, and the generator afterwards. -/
def russian_roulette (rng : RNG) (depth : Nat) : Bool × RNG :=
  if depth ≥ RUSSIAN_ROULETTE_DEPTH then
    let d : F × RNG := rng_float rng
    (decide (d.1 > survival_probability), d.2)
  else (false, rng)

/-- The last statement of `trace_ray`, `return vec3_mul(attenuation, scattered_color)`,
applied to the outcome of the recursive call. -/
def TraceResult.attenuate (attenuation : Vec3 F) : TraceResult F → TraceResult F
  | .ok scattered_color rng => .ok (vec3_mul attenuation scattered_color) rng
  | .fault f => .fault f

/-- The body of `trace_ray` from the intersection test on; `recurse` is the
recursive call `trace_ray(scene, &scattered, rng, depth + 1, max_depth)`.
The locals `rec`, `attenuation` and `scattered` are uninitialised in C and
written before they are read; they start zeroed here. -/
def trace_ray_shade (sqrtf : F → F) (sfuel : Nat) (scene : Scene F)
    (recurse : Ray F → RNG → TraceResult F) (ray : Ray F) (rng : RNG) : TraceResult F :=
  match scene_hit sqrtf scene ray (1 / 1000) FLT_MAX HitRecord.zero with
  | .done false _ => .ok scene.ambient_light rng
  | .done true rec =>
    match scene_material scene rec with
    | none => .fault .material_pointer
    | some mat =>
      if mat.type = .MATERIAL_EMISSIVE then .ok mat.emission rng
      else
        match material_scatter sqrtf sfuel mat ray rec (vec3_create 0 0 0)
            ⟨vec3_create 0 0 0, vec3_create 0 0 0⟩ rng with
        | none => .fault .sampler
        | some s =>
          if s.scattered_ok = false then .ok (vec3_create 0 0 0) s.rng
          else (recurse s.scattered s.rng).attenuate s.attenuation
  | _ => .fault .traversal

/-- Main path tracing function, by recursion on `fuel`. -/
def trace_ray_fuel (sqrtf : F → F) (sfuel : Nat) (scene : Scene F) :
    Nat → Ray F → RNG → Nat → Nat → TraceResult F
  | 0, _, _, _, _ => .fault .recursion
  | fuel + 1, ray, rng, depth, max_depth =>
    if depth ≥ max_depth then .ok (vec3_create 0 0 0) rng
    else
      let r : Bool × RNG := russian_roulette (F := F) rng depth
      if r.1 then .ok (vec3_create 0 0 0) r.2
      else
        trace_ray_shade sqrtf sfuel scene
          (fun scattered rng => trace_ray_fuel sqrtf sfuel scene fuel scattered rng (depth + 1)
            max_depth)
          ray r.2

/-- Main path tracing function.  Every recursive call raises `depth` and
the function returns at once when `depth ≥ max_depth`, so
`max_depth - depth + 1` units of fuel are never used up. -/
def trace_ray (sqrtf : F → F) (sfuel : Nat) (scene : Scene F) (ray : Ray F) (rng : RNG)
    (depth max_depth : Nat) : TraceResult F :=
  trace_ray_fuel sqrtf sfuel scene (max_depth - depth + 1) ray rng depth max_depth

end PathTracing

section Rendering

variable {F : Type} [LinearOrderedField F] [FloorRing F]

/-! ## pathtracer.c: `render_parallel` -/

/-- Render settings.  `cancel_flag` is the pointer to the cancel flag: `none`
for `NULL`, `some b` for a flag that holds `b` throughout the run. -/
structure RenderSettings where
  width : Nat
  height : Nat
  samples_per_pixel : Nat
  max_depth : Nat
  use_bvh : Bool
  use_nee : Bool
  num_threads : Nat
  cancel_flag : Option Bool
deriving DecidableEq, Repr

structure Image (F : Type) where
  pixels : List (Vec3 F)
  width : Nat
  height : Nat
deriving DecidableEq, Repr

def image_create (width height : Nat) : Image F :=
  { pixels := List.replicate ((width * height) % 2 ^ 32) (vec3_create 0 0 0),
    width := width, height := height }

/-- The test `settings->cancel_flag && *settings->cancel_flag`. -/
def RenderSettings.cancelled (settings : RenderSettings) : Bool :=
  match settings.cancel_flag with
  | none => false
  | some b => b

/-- One iteration of the multi-sampling loop of `render_parallel` for the
pixel in column `i` and row `j`: the colour of the sample and the generator
afterwards.  `output->width - 1` and `output->height - 1` are `uint32_t`
subtractions. -/
def render_sample (sqrtf : F → F) (sfuel : Nat) (scene : Scene F) (camera : Camera F)
    (settings : RenderSettings) (output : Image F) (i j : Nat) (rng : RNG) : TraceResult F :=
  let d : F × RNG := rng_float rng
  let u := ((i : F) + d.1) / (((output.width + 2 ^ 32 - 1) % 2 ^ 32 : Nat) : F)
  let e : F × RNG := rng_float d.2
  let v := ((j : F) + e.1) / (((output.height + 2 ^ 32 - 1) % 2 ^ 32 : Nat) : F)
  let v := 1 - v
  match camera_get_ray sqrtf sfuel camera u v e.2 with
  | none => .fault .sampler
  | some (ray, rng) => trace_ray sqrtf sfuel scene ray rng 0 settings.max_depth

/-- The multi-sampling loop `for (s = 0; s < samples_per_pixel; s++)` with
`n` iterations to go: the accumulated colour and the generator afterwards. -/
def render_samples (sqrtf : F → F) (sfuel : Nat) (scene : Scene F) (camera : Camera F)
    (settings : RenderSettings) (output : Image F) (i j : Nat) :
    Nat → Vec3 F → RNG → TraceResult F
  | 0, color, rng => .ok color rng
  | n + 1, color, rng =>
    match render_sample sqrtf sfuel scene camera settings output i j rng with
    | .fault f => .fault f
    | .ok sample_color rng =>
      render_samples sqrtf sfuel scene camera settings output i j n
        (vec3_add color sample_color) rng

/-- The body of the pixel loop for an uncancelled run: the colour written to
`output->pixels[pixel_idx]` and the generator of the thread afterwards. -/
def render_pixel (sqrtf : F → F) (sfuel : Nat) (scene : Scene F) (camera : Camera F)
    (settings : RenderSettings) (output : Image F) (pixel_idx : Nat) (rng : RNG) :
    TraceResult F :=
  let i := pixel_idx % output.width
  let j := pixel_idx / output.width
  match render_samples sqrtf sfuel scene camera settings output i j
      settings.samples_per_pixel (vec3_create 0 0 0) rng with
  | .fault f => .fault f
  | .ok color rng => .ok (vec3_div color (settings.samples_per_pixel : F)) rng

/-- The generators of the threads and the pixels written so far. -/
structure RenderState (F : Type) where
  rngs : Nat → RNG
  pixels : List (Vec3 F)

/-- The outcome of `render_parallel`: the image, or a fault. -/
inductive RenderResult (F : Type) where
  | ok (output : Image F)
  | fault (f : Fault)
deriving DecidableEq, Repr

/-- One iteration of the pixel loop, run by thread `thread`. -/
def render_step (sqrtf : F → F) (sfuel : Nat) (scene : Scene F) (camera : Camera F)
    (settings : RenderSettings) (output : Image F) (thread pixel_idx : Nat)
    (st : RenderState F) : Except Fault (RenderState F) :=
  match render_pixel sqrtf sfuel scene camera settings output pixel_idx (st.rngs thread) with
  | .fault f => .error f
  | .ok color rng =>
    .ok { rngs := Function.update st.rngs thread rng,
          pixels := st.pixels.set pixel_idx color }

/-- Multi-threaded rendering.  Each OpenMP thread owns a generator seeded
with `42 + 1000 * thread number`, and the loop over the pixels is shared
out in chunks of 16 (`schedule(dynamic, 16)`): `schedule c` is the thread
that runs chunk `c`.  A thread runs its chunks in increasing order and the
threads share nothing but the read-only scene and the image, where they
write different pixels, so the run is the sequential loop below with the
generator of the running thread.  The progress callback is left out.  When
the cancel flag is set every pixel is skipped. -/
def render_parallel (sqrtf : F → F) (sfuel : Nat) (schedule : Nat → Nat) (scene : Scene F)
    (camera : Camera F) (settings : RenderSettings) (output : Image F) : RenderResult F :=
  let total_pixels := (output.width * output.height) % 2 ^ 32
  if settings.cancelled then .ok output
  else
    let run := (List.range total_pixels).foldlM
      (fun st pixel_idx =>
        render_step sqrtf sfuel scene camera settings output (schedule (pixel_idx / 16))
          pixel_idx st)
      ({ rngs := fun thread => rng_init (42 + thread * 1000), pixels := output.pixels } :
        RenderState F)
    match run with
    | .error f => .fault f
    | .ok st => .ok { output with pixels := st.pixels }

end Rendering

section RoundedRendering

variable {F : Type} [LinearOrderedField F]

/-! ## pathtracer.c: the pixel loop of `render_parallel`, rounded

The arithmetic that `render_parallel` itself does, with a rounding `fl` after every
operation and every conversion to `float`: the sample position `(u, v)`, the sum of the
samples and its division by the number of samples.  The camera and `trace_ray` are the
readings of the sections above. -/

/-- One iteration of the multi-sampling loop of `render_parallel`, rounded. -/
def render_sample_rounded (fl sqrtf : F → F) (sfuel : Nat) (scene : Scene F)
    (camera : Camera F) (settings : RenderSettings) (output : Image F) (i j : Nat)
    (rng : RNG) : TraceResult F :=
  let d : F × RNG := rng_float rng
  let u := fl (fl (fl (i : F) + d.1) / fl (((output.width + 2 ^ 32 - 1) % 2 ^ 32 : Nat) : F))
  let e : F × RNG := rng_float d.2
  let v := fl (fl (fl (j : F) + e.1) / fl (((output.height + 2 ^ 32 - 1) % 2 ^ 32 : Nat) : F))
  let v := fl (1 - v)
  match camera_get_ray sqrtf sfuel camera u v e.2 with
  | none => .fault .sampler
  | some (ray, rng) => trace_ray sqrtf sfuel scene ray rng 0 settings.max_depth

/-- The multi-sampling loop with `n` iterations to go, rounded. -/
def render_samples_rounded (fl sqrtf : F → F) (sfuel : Nat) (scene : Scene F)
    (camera : Camera F) (settings : RenderSettings) (output : Image F) (i j : Nat) :
    Nat → Vec3 F → RNG → TraceResult F
  | 0, color, rng => .ok color rng
  | n + 1, color, rng =>
    match render_sample_rounded fl sqrtf sfuel scene camera settings output i j rng with
    | .fault f => .fault f
    | .ok sample_color rng =>
      render_samples_rounded fl sqrtf sfuel scene camera settings output i j n
        (vec3_add_rounded fl color sample_color) rng

/-- The body of the pixel loop for an uncancelled run, rounded. -/
def render_pixel_rounded (fl sqrtf : F → F) (sfuel : Nat) (scene : Scene F)
    (camera : Camera F) (settings : RenderSettings) (output : Image F) (pixel_idx : Nat)
    (rng : RNG) : TraceResult F :=
  let i := pixel_idx % output.width
  let j := pixel_idx / output.width
  match render_samples_rounded fl sqrtf sfuel scene camera settings output i j
      settings.samples_per_pixel (vec3_create 0 0 0) rng with
  | .fault f => .fault f
  | .ok color rng =>
    .ok (vec3_div_rounded fl color (fl (settings.samples_per_pixel : F))) rng

/-- One iteration of the pixel loop, run by thread `thread`, rounded. -/
def render_step_rounded (fl sqrtf : F → F) (sfuel : Nat) (scene : Scene F)
    (camera : Camera F) (settings : RenderSettings) (output : Image F)
    (thread pixel_idx : Nat) (st : RenderState F) : Except Fault (RenderState F) :=
  match render_pixel_rounded fl sqrtf sfuel scene camera settings output pixel_idx
      (st.rngs thread) with
  | .fault f => .error f
  | .ok color rng =>
    .ok { rngs := Function.update st.rngs thread rng,
          pixels := st.pixels.set pixel_idx color }

/-- Multi-threaded rendering as in `render_parallel`, with the arithmetic of the pixel loop
rounded by `fl`. -/
def render_parallel_rounded (fl sqrtf : F → F) (sfuel : Nat) (schedule : Nat → Nat)
    (scene : Scene F) (camera : Camera F) (settings : RenderSettings) (output : Image F) :
    RenderResult F :=
  let total_pixels := (output.width * output.height) % 2 ^ 32
  if settings.cancelled then .ok output
  else
    let run := (List.range total_pixels).foldlM
      (fun st pixel_idx =>
        render_step_rounded fl sqrtf sfuel scene camera settings output
          (schedule (pixel_idx / 16)) pixel_idx st)
      ({ rngs := fun thread => rng_init (42 + thread * 1000), pixels := output.pixels } :
        RenderState F)
    match run with
    | .error f => .fault f
    | .ok st => .ok { output with pixels := st.pixels }

end RoundedRendering

section RenderSpec

variable {F : Type} [LinearOrderedField F]

/-! ### Predicates used to state the rendering theorems -/

/-- The sample positions `(s, t)` that `render_parallel` hands to the camera for an image
of `width × height` pixels: column `i`, row `j` and two draws `d`, `e` in `[0, 1)`, with the
rounding `fl` of the pixel loop. -/
def CameraSample (fl : F → F) (width height : Nat) (s t : F) : Prop :=
  ∃ (i j : Nat) (d e : F), i < width ∧ j < height ∧ 0 ≤ d ∧ d < 1 ∧ 0 ≤ e ∧ e < 1 ∧
    s = fl (fl (fl (i : F) + d) / fl (((width + 2 ^ 32 - 1) % 2 ^ 32 : Nat) : F)) ∧
    t = fl (1 - fl (fl (fl (j : F) + e) / fl (((height + 2 ^ 32 - 1) % 2 ^ 32 : Nat) : F)))

/-- Every ray the camera makes for a sample position in `S` is traced, from depth 0, to the
colour `E` without moving the generator. -/
def UniformTrace (S : F → F → Prop) (sqrtf : F → F) (sfuel : Nat) (scene : Scene F)
    (camera : Camera F) (max_depth : Nat) (E : Vec3 F) : Prop :=
  ∀ (s t : F) (rng : RNG) (ray : Ray F) (rng' : RNG), S s t →
    camera_get_ray sqrtf sfuel camera s t rng = some (ray, rng') →
      trace_ray sqrtf sfuel scene ray rng' 0 max_depth = .ok E rng'

/-- The conditions under which the two dielectric branches of `material_scatter` are
compared: the normalised incoming direction and the normal are unit vectors, the index of
refraction is positive, the square root is exact at `1` and at `1 - cos²θ`, and the ray
does not arrive at the critical angle (the discriminant of `vec3_refract` is not 0). -/
def RegularIncidence (sqrtf : F → F) (ior : F) (ray_in : Ray F) (rec : HitRecord F) : Prop :=
  vec3_dot (vec3_normalize sqrtf ray_in.direction) (vec3_normalize sqrtf ray_in.direction) = 1 ∧
  vec3_dot rec.normal rec.normal = 1 ∧ sqrtf 1 = 1 ∧ 0 < ior ∧
  0 ≤ sqrtf (1 - vec3_dot (vec3_normalize sqrtf ray_in.direction) rec.normal *
    vec3_dot (vec3_normalize sqrtf ray_in.direction) rec.normal) ∧
  sqrtf (1 - vec3_dot (vec3_normalize sqrtf ray_in.direction) rec.normal *
      vec3_dot (vec3_normalize sqrtf ray_in.direction) rec.normal) *
    sqrtf (1 - vec3_dot (vec3_normalize sqrtf ray_in.direction) rec.normal *
      vec3_dot (vec3_normalize sqrtf ray_in.direction) rec.normal) =
    1 - vec3_dot (vec3_normalize sqrtf ray_in.direction) rec.normal *
      vec3_dot (vec3_normalize sqrtf ray_in.direction) rec.normal ∧
  (1 : F) - (if rec.front_face = true then 1 / ior else ior) *
      (if rec.front_face = true then 1 / ior else ior) *
      (1 - vec3_dot (vec3_normalize sqrtf ray_in.direction) rec.normal *
        vec3_dot (vec3_normalize sqrtf ray_in.direction) rec.normal) ≠ 0

end RenderSpec

section RenderRun

variable {F : Type} [LinearOrderedField F] [FloorRing F]

/-! ## pathtracer.c: `render_parallel` with the cancel flag and the progress callback

`render_parallel` above takes the cancel flag to be constant and leaves the progress
callback out.  The definitions below follow the same loop with both: the cancel flag is
written by another thread while the render runs, so each test of it reads a value the
render does not control, and the calls of `g_progress_callback` are recorded. -/

/-- The test `settings->cancel_flag && *settings->cancel_flag` made for pixel `pixel_idx`:
`k = 0` is the test at the top of the pixel loop and `k = s + 1` the test before sample
`s`.  `flag pixel_idx k` is the value the flag holds at that moment; it is read only when
the pointer is not `NULL`. -/
def cancel_read (settings : RenderSettings) (flag : Nat → Nat → Bool) (pixel_idx k : Nat) :
    Bool :=
  match settings.cancel_flag with
  | none => false
  | some _ => flag pixel_idx k

/-- The multi-sampling loop with its cancel test: `n` iterations to go, `s` the number
of the next sample, `cancel (s + 1)` the outcome of the test made before it (`break`). -/
def render_samples_run (sqrtf : F → F) (sfuel : Nat) (scene : Scene F) (camera : Camera F)
    (settings : RenderSettings) (output : Image F) (cancel : Nat → Bool) (i j : Nat) :
    Nat → Nat → Vec3 F → RNG → TraceResult F
  | 0, _, color, rng => .ok color rng
  | n + 1, s, color, rng =>
    if cancel (s + 1) then .ok color rng
    else
      match render_sample sqrtf sfuel scene camera settings output i j rng with
      | .fault f => .fault f
      | .ok sample_color rng =>
        render_samples_run sqrtf sfuel scene camera settings output cancel i j n (s + 1)
          (vec3_add color sample_color) rng

/-- The generators of the threads, the pixels written so far, the shared counter
`pixels_done` and the arguments of the calls of the progress callback, in the order of
the calls. -/
structure RunState (F : Type) where
  rngs : Nat → RNG
  pixels : List (Vec3 F)
  pixels_done : Nat
  progress : List F

/-- The progress update at the end of the pixel loop body.  `callback` tells whether
`g_progress_callback` is set; `pixels_done` is a `uint32_t`. -/
def report_progress (callback : Bool) (total_pixels : Nat) (st : RunState F) : RunState F :=
  if callback then
    let current_done := (st.pixels_done + 1) % 2 ^ 32
    { st with
      pixels_done := current_done,
      progress :=
        if current_done % 1000 = 0 then
          st.progress ++ [(current_done : F) / (total_pixels : F)]
        else st.progress }
  else st

/-- One iteration of the pixel loop, run by thread `thread`: skipped (`continue`) when
the cancel test at its top succeeds. -/
def render_run_step (sqrtf : F → F) (sfuel : Nat) (scene : Scene F) (camera : Camera F)
    (settings : RenderSettings) (output : Image F) (callback : Bool)
    (flag : Nat → Nat → Bool) (thread pixel_idx : Nat) (st : RunState F) :
    Except Fault (RunState F) :=
  if cancel_read settings flag pixel_idx 0 then .ok st
  else
    match render_samples_run sqrtf sfuel scene camera settings output
        (cancel_read settings flag pixel_idx) (pixel_idx % output.width)
        (pixel_idx / output.width) settings.samples_per_pixel 0 (vec3_create 0 0 0)
        (st.rngs thread) with
    | .fault f => .error f
    | .ok color rng =>
      .ok (report_progress callback ((output.width * output.height) % 2 ^ 32)
        { st with
          rngs := Function.update st.rngs thread rng,
          pixels := st.pixels.set pixel_idx
            (vec3_div color (settings.samples_per_pixel : F)) })

/-- The pixel loop over the pixels of the list: the state when the loop ends, or the state
reached and the fault when an iteration does not complete. -/
def render_run (sqrtf : F → F) (sfuel : Nat) (schedule : Nat → Nat) (scene : Scene F)
    (camera : Camera F) (settings : RenderSettings) (output : Image F) (callback : Bool)
    (flag : Nat → Nat → Bool) : List Nat → RunState F → RunState F × Option Fault
  | [], st => (st, none)
  | pixel_idx :: rest, st =>
    match render_run_step sqrtf sfuel scene camera settings output callback flag
        (schedule (pixel_idx / 16)) pixel_idx st with
    | .error f => (st, some f)
    | .ok st => render_run sqrtf sfuel schedule scene camera settings output callback flag
        rest st

/-- The state at the start of the pixel loop. -/
def render_start (output : Image F) : RunState F :=
  { rngs := fun thread => rng_init (42 + thread * 1000), pixels := output.pixels,
    pixels_done := 0, progress := [] }

/-- The run of `render_parallel` with the schedule of `render_parallel` above.  The shared
counter is incremented atomically and the callback is called in a critical section, so the
values the counter takes and the set of calls do not depend on the order in which the
threads complete their pixels; the loop below takes them in the order of the pixels. -/
def render_parallel_run (sqrtf : F → F) (sfuel : Nat) (schedule : Nat → Nat) (scene : Scene F)
    (camera : Camera F) (settings : RenderSettings) (output : Image F) (callback : Bool)
    (flag : Nat → Nat → Bool) : RunState F × Option Fault :=
  render_run sqrtf sfuel schedule scene camera settings output callback flag
    (List.range ((output.width * output.height) % 2 ^ 32)) (render_start output)

/-- The image after a run. -/
def RunState.image (output : Image F) (st : RunState F) : Image F :=
  { output with pixels := st.pixels }

/-- The state after the first `n` iterations of the pixel loop of a run. -/
def render_upto (sqrtf : F → F) (sfuel : Nat) (schedule : Nat → Nat) (scene : Scene F)
    (camera : Camera F) (settings : RenderSettings) (output : Image F) (callback : Bool)
    (flag : Nat → Nat → Bool) (n : Nat) : RunState F :=
  (render_run sqrtf sfuel schedule scene camera settings output callback flag
    (List.range n) (render_start output)).1

/-- The outcome of a run as `render_parallel` above reports it. -/
def run_result (output : Image F) (r : RunState F × Option Fault) : RenderResult F :=
  match r.2 with
  | none => .ok (RunState.image output r.1)
  | some f => .fault f

end RenderRun
section RadianceSpecDefs

variable {F : Type} [LinearOrderedField F]

/-- Every component of `v` lies in `[lo, hi]`. -/
def Vec3.within (v : Vec3 F) (lo hi : F) : Prop :=
  (lo ≤ v.x ∧ v.x ≤ hi) ∧ (lo ≤ v.y ∧ v.y ≤ hi) ∧ (lo ≤ v.z ∧ v.z ≤ hi)

/-- The albedo and the second blend albedo of the material have components in `[0, 1]`,
`blend_min < blend_max`, and its emission has components in `[0, M]`. -/
def Material.bounded (M : F) (mat : Material F) : Prop :=
  mat.albedo.within 0 1 ∧ mat.albedo2.within 0 1 ∧ mat.blend_min < mat.blend_max ∧
    mat.emission.within 0 M

/-- The materials `rec.material` can point to: those of the primitives of the scene and, when
there is a tree, of the primitives of the tree. -/
def scene_materials (scene : Scene F) : List (Material F) :=
  scene.primitives.map (fun p => p.material) ++
    match scene.bvh with
    | some bvh => bvh.primitives.map (fun p => p.material)
    | none => []

/-- The ambient radiance has components in `[0, M]` and every material of the scene is
bounded by `M`. -/
def Scene.bounded (M : F) (scene : Scene F) : Prop :=
  scene.ambient_light.within 0 M ∧ ∀ mat ∈ scene_materials scene, mat.bounded M

end RadianceSpecDefs


section ShadingExamples

/-! ### Inputs of the worked shading examples -/

/-- The scene of `one_sphere` without a BVH, with the ambient light `scene_create` sets. -/
def lambert_scene : Scene ℚ := ⟨one_sphere, 1, none, ⟨1 / 10, 1 / 10, 1 / 10⟩⟩

/-- One emissive sphere of radius 10 around the origin. -/
def emissive_scene : Scene ℚ :=
  ⟨[primitive_sphere ⟨0, 0, 0⟩ 10 (material_emissive ⟨4, 3, 2⟩)], 1, none,
   ⟨1 / 10, 1 / 10, 1 / 10⟩⟩

/-- One emissive sphere in front of `example_camera` that fills its frame. -/
def front_scene : Scene ℚ :=
  ⟨[primitive_sphere ⟨0, 0, -100⟩ 99 (material_emissive ⟨4, 3, 2⟩)], 1, none,
   ⟨1 / 10, 1 / 10, 1 / 10⟩⟩

/-- The 66 spheres of `nested_spheres` after `scene_build_bvh`. -/
def nested_scene : Scene ℚ :=
  ⟨nested_spheres, 66, bvh_create nested_spheres, ⟨1 / 10, 1 / 10, 1 / 10⟩⟩

/-- A scene without primitives and without a BVH. -/
def empty_scene : Scene ℚ := ⟨[], 0, none, ⟨1 / 10, 1 / 5, 3 / 10⟩⟩

/-- A scene without primitives whose ambient light is the C literal
`{0.1f, 0.2f, 0.3f}`. -/
def float_empty_scene : Scene ℚ := ⟨[], 0, none, ⟨f32 (1 / 10), f32 (1 / 5), f32 (3 / 10)⟩⟩

/-- A pinhole camera at the origin that looks along the negative z axis. -/
def example_camera : Camera ℚ :=
  ⟨⟨0, 0, 0⟩, ⟨-1, -1, -1⟩, ⟨2, 0, 0⟩, ⟨0, 2, 0⟩, ⟨1, 0, 0⟩, ⟨0, 1, 0⟩, ⟨0, 0, 1⟩, 0⟩

/-- Settings of a 3 × 2 render with three samples per pixel on two threads. -/
def example_settings : RenderSettings := ⟨3, 2, 3, 5, false, false, 2, none⟩

/-- Settings of a 3 × 2 render with one sample per pixel on two threads. -/
def one_sample_settings : RenderSettings := ⟨3, 2, 1, 5, false, false, 2, none⟩

/-- A schedule that hands the chunks to two threads in turn. -/
def example_schedule (chunk : Nat) : Nat := chunk % 2

/-- Settings of a 40 × 25 render with one sample per pixel on two threads. -/
def thousand_settings : RenderSettings := ⟨40, 25, 1, 5, false, false, 2, none⟩

/-- Settings of a 3 × 2 render whose cancel flag is set. -/
def cancelled_settings : RenderSettings := ⟨3, 2, 3, 5, false, false, 2, some true⟩

/-- A 3 × 2 image that holds an earlier render. -/
def painted_image : Image ℚ :=
  ⟨[⟨1, 2, 3⟩, ⟨4, 5, 6⟩, ⟨7, 8, 9⟩, ⟨1, 1, 1⟩, ⟨2, 2, 2⟩, ⟨3, 3, 3⟩], 3, 2⟩

end ShadingExamples

section CriticalExamples

/-- A hit from inside a surface with normal `(0, 0, 1)` (back face). -/
def critical_rec : HitRecord ℚ := ⟨⟨0, 0, 0⟩, ⟨0, 0, 1⟩, 1, false, some 0⟩

/-- A ray that arrives at `critical_rec` with `cos θ = 3/5`, `sin θ = 4/5`: for an index of
refraction of `5/4` on a back face this is the critical angle, `5/4 * 4/5 = 1`. -/
def critical_ray : Ray ℚ := ⟨⟨-4 / 5, 0, 3 / 5⟩, ⟨4 / 5, 0, -3 / 5⟩⟩

/-- A generator whose next draw, `2184993 / 4194304`, is above the reflectance at
`critical_ray`. -/
def critical_rng : RNG := ⟨9039304369631583671, 85⟩

/-- A blended material whose two parameter sets are the Dielectric of index `5/4`. -/
def glass_blend : Material ℚ :=
  material_blend .MATERIAL_DIELECTRIC ⟨1, 1, 1⟩ 0 (5 / 4) .MATERIAL_DIELECTRIC ⟨1, 1, 1⟩ 0 (5 / 4)
    .BLEND_VERTICAL 0 1

end CriticalExamples

/-! # Theorems -/

section GeometryLemmas

variable {F : Type} [LinearOrderedField F]

theorem sphere_hit_eq (sqrtf : F → F) (s : Sphere F) (ray : Ray F) (t_min t_max : F)
    (rec : HitRecord F) :
    sphere_hit sqrtf s ray t_min t_max rec =
      if sphere_disc s ray < 0 then (false, rec)
      else if t_min ≤ sphere_root_near sqrtf s ray ∧ sphere_root_near sqrtf s ray ≤ t_max then
        (true, sphere_record s ray (sphere_root_near sqrtf s ray) rec)
      else if t_min ≤ sphere_root_far sqrtf s ray ∧ sphere_root_far sqrtf s ray ≤ t_max then
        (true, sphere_record s ray (sphere_root_far sqrtf s ray) rec)
      else (false, rec) := by
  unfold sphere_hit
  simp only [← sphere_disc.eq_1, ← sphere_root_near.eq_1, ← sphere_root_far.eq_1]
  by_cases h0 : sphere_disc s ray < 0
  · simp only [h0, if_true]
  · simp only [h0, if_false]
    by_cases h1 : t_min ≤ sphere_root_near sqrtf s ray ∧ sphere_root_near sqrtf s ray ≤ t_max
    · have h1' : ¬ (sphere_root_near sqrtf s ray < t_min ∨ sphere_root_near sqrtf s ray > t_max) := by
        push_neg; exact h1
      simp only [h1, h1', if_true, if_false]; rfl
    · have h1' : (sphere_root_near sqrtf s ray < t_min ∨ sphere_root_near sqrtf s ray > t_max) := by
        by_contra hc; push_neg at hc; exact h1 hc
      simp only [h1, h1', if_true, if_false]
      by_cases h2 : t_min ≤ sphere_root_far sqrtf s ray ∧ sphere_root_far sqrtf s ray ≤ t_max
      · have h2' : ¬ (sphere_root_far sqrtf s ray < t_min ∨ sphere_root_far sqrtf s ray > t_max) := by
          push_neg; exact h2
        simp only [h2, h2', if_true, if_false]; rfl
      · have h2' : (sphere_root_far sqrtf s ray < t_min ∨ sphere_root_far sqrtf s ray > t_max) := by
          by_contra hc; push_neg at hc; exact h2 hc
        simp only [h2, h2', if_true, if_false]

theorem sphere_record_t (s : Sphere F) (ray : Ray F) (root : F) (rec : HitRecord F) :
    (sphere_record s ray root rec).t = root := rfl

theorem sphere_record_point (s : Sphere F) (ray : Ray F) (root : F) (rec : HitRecord F) :
    (sphere_record s ray root rec).point = ray_at ray root := rfl

theorem triangle_hit_eq (tri : Triangle F) (ray : Ray F) (t_min t_max : F) (rec : HitRecord F) :
    triangle_hit tri ray t_min t_max rec =
      if |triangle_det tri ray| < 1 / 10000000 then (false, rec)
      else if triangle_u tri ray < 0 ∨ triangle_u tri ray > 1 then (false, rec)
      else if triangle_v tri ray < 0 ∨ triangle_u tri ray + triangle_v tri ray > 1 then (false, rec)
      else if triangle_t tri ray < t_min ∨ triangle_t tri ray > t_max then (false, rec)
      else (true, triangle_record tri ray (triangle_t tri ray) rec) := by
  unfold triangle_hit
  simp only [← triangle_det.eq_1, ← triangle_u.eq_1, ← triangle_v.eq_1, ← triangle_t.eq_1]
  rfl

end GeometryLemmas


/-! ## The rounded readings of `sphere_hit` and `triangle_hit` -/

section RoundedLemmas

variable {F : Type} [LinearOrderedField F]

end RoundedLemmas
section ListLemmas

/-! ### List utilities -/

/-- An invariant indexed by the loop counter is carried through a `for` loop. -/
theorem foldl_range'_inv {α : Type} (P : Nat → α → Prop) (f : α → Nat → α) :
    ∀ (n s : Nat) (a : α), P s a →
      (∀ i a, s ≤ i → i < s + n → P i a → P (i + 1) (f a i)) →
      P (s + n) ((List.range' s n).foldl f a) := by
  intro n
  induction n with
  | zero => intro s a h0 _; simpa using h0
  | succ n ih =>
    intro s a h0 hstep
    rw [List.range'_succ, List.foldl_cons]
    have h1 : P (s + 1) (f a s) := hstep s a (le_refl _) (by omega) h0
    have := ih (s + 1) (f a s) h1 (fun i a hi hlt hp => hstep i a (by omega) (by omega) hp)
    rwa [show s + 1 + n = s + (n + 1) by omega] at this

/-- An invariant that does not mention the counter is carried through a loop. -/
theorem foldl_inv {α β : Type} (P : α → Prop) (f : α → β → α) (l : List β) (a : α)
    (h0 : P a) (hstep : ∀ a b, b ∈ l → P a → P (f a b)) : P (l.foldl f a) := by
  induction l generalizing a with
  | nil => exact h0
  | cons b l ih =>
    rw [List.foldl_cons]
    exact ih (f a b) (hstep a b (List.mem_cons_self _ _) h0)
      (fun a c hc hp => hstep a c (List.mem_cons_of_mem _ hc) hp)

theorem cons_set_perm (x : Nat) : ∀ (l : List Nat) (i : Nat), i < l.length →
    (l.getD i 0 :: l.set i x).Perm (x :: l) := by
  intro l
  induction l with
  | nil => intro i hi; simp at hi
  | cons z zs ih =>
    intro i hi
    cases i with
    | zero => simpa using List.Perm.swap x z zs
    | succ i =>
      have hi' : i < zs.length := by simpa using hi
      have h1 : ((z :: zs).getD (i + 1) 0 :: (z :: zs).set (i + 1) x).Perm
          (z :: zs.getD i 0 :: zs.set i x) := by
        simpa using List.Perm.swap z (zs.getD i 0) (zs.set i x)
      exact h1.trans (((ih i hi').cons z).trans (List.Perm.swap x z zs))

theorem swap_indices_perm : ∀ (l : List Nat) (a b : Nat), a < l.length → b < l.length →
    (swap_indices l a b).Perm l := by
  intro l
  induction l with
  | nil => intro a b ha; simp at ha
  | cons x xs ih =>
    intro a b ha hb
    cases a with
    | zero =>
      cases b with
      | zero => simp [swap_indices]
      | succ b =>
        have hb' : b < xs.length := by simpa using hb
        simpa [swap_indices] using cons_set_perm x xs b hb'
    | succ a =>
      have ha' : a < xs.length := by simpa using ha
      cases b with
      | zero =>
        have := cons_set_perm x xs a ha'
        simpa [swap_indices] using this
      | succ b =>
        have hb' : b < xs.length := by simpa using hb
        have := (ih a b ha' hb').cons x
        simpa [swap_indices] using this

theorem swap_indices_length (l : List Nat) (a b : Nat) : (swap_indices l a b).length = l.length := by
  simp [swap_indices]

theorem swap_indices_getElem? (l : List Nat) (a b i : Nat) (ha : i ≠ a) (hb : i ≠ b) :
    (swap_indices l a b)[i]? = l[i]? := by
  simp only [swap_indices]
  rw [List.getElem?_set_ne (Ne.symm hb), List.getElem?_set_ne (Ne.symm ha)]

theorem within_refl (s e : Nat) (idx : List Nat) : Within s e idx idx :=
  ⟨rfl, List.Perm.refl _, fun _ _ => rfl⟩

theorem within_trans {s e : Nat} {a b c : List Nat} (h1 : Within s e a b) (h2 : Within s e b c) :
    Within s e a c :=
  ⟨h2.1.trans h1.1, h2.2.1.trans h1.2.1, fun i hi => (h2.2.2 i hi).trans (h1.2.2 i hi)⟩

theorem within_mono {s e s' e' : Nat} {a b : List Nat} (h : Within s e a b)
    (hs : s' ≤ s) (he : e ≤ e') : Within s' e' a b :=
  ⟨h.1, h.2.1, fun i hi => h.2.2 i (by omega)⟩

theorem within_swap (s e : Nat) (idx : List Nat) (a b : Nat) (he : e ≤ idx.length)
    (ha : s ≤ a) (ha' : a < e) (hb : s ≤ b) (hb' : b < e) :
    Within s e idx (swap_indices idx a b) :=
  ⟨swap_indices_length _ _ _, swap_indices_perm _ _ _ (by omega) (by omega),
    fun i hi => swap_indices_getElem? _ _ _ _ (by omega) (by omega)⟩

theorem take_eq_of_within {s e : Nat} {idx idx' : List Nat} (h : Within s e idx idx') :
    idx'.take s = idx.take s := by
  apply List.ext_getElem?
  intro i
  rw [List.getElem?_take, List.getElem?_take]
  split
  · next hi => exact h.2.2 i (Or.inl hi)
  · rfl

theorem drop_eq_of_within {s e : Nat} {idx idx' : List Nat} (h : Within s e idx idx') :
    idx'.drop e = idx.drop e := by
  apply List.ext_getElem?
  intro i
  rw [List.getElem?_drop, List.getElem?_drop]
  exact h.2.2 (e + i) (Or.inr (by omega))

theorem slice_decomp (idx : List Nat) (s e : Nat) (hse : s ≤ e) :
    idx = idx.take s ++ (idx.drop s).take (e - s) ++ idx.drop e := by
  have : idx.drop e = (idx.drop s).drop (e - s) := by
    rw [List.drop_drop]; congr 1; omega
  rw [List.append_assoc, this, List.take_append_drop, List.take_append_drop]

theorem slice_perm_of_within {s e : Nat} {idx idx' : List Nat} (h : Within s e idx idx')
    (hse : s ≤ e) : ((idx'.drop s).take (e - s)).Perm ((idx.drop s).take (e - s)) := by
  have hp := h.2.1
  rw [slice_decomp idx s e hse, slice_decomp idx' s e hse, take_eq_of_within h,
    drop_eq_of_within h] at hp
  exact (List.perm_append_left_iff _).mp ((List.perm_append_right_iff _).mp hp)

theorem map_getD_range' (idx : List Nat) (s e : Nat) (he : e ≤ idx.length) :
    (List.range' s (e - s)).map (fun i => idx.getD i 0) = (idx.drop s).take (e - s) := by
  apply List.ext_getElem?
  intro i
  rw [List.getElem?_map, List.getElem?_take, List.getElem?_drop]
  by_cases hi : i < e - s
  · rw [if_pos hi, List.getElem?_range' _ _ hi]
    have : s + i < idx.length := by omega
    simp [List.getElem?_eq_getElem this]
  · rw [if_neg hi, List.getElem?_eq_none (by simpa using hi)]
    rfl

theorem modify_append_cons {α : Type} (f : α → α) (pre : List α) (x : α) (ext : List α) :
    List.modify f pre.length (pre ++ x :: ext) = pre ++ f x :: ext := by
  induction pre with
  | nil => rfl
  | cons a pre ih => simp [List.modify_succ_cons, ih]

theorem map_getD_range_self {α : Type} (l : List α) (d : α) :
    (List.range l.length).map (fun j => l.getD j d) = l := by
  apply List.ext_getElem?
  intro i
  rw [List.getElem?_map]
  by_cases hi : i < l.length
  · rw [List.getElem?_range hi]
    simp [List.getElem?_eq_getElem hi]
  · rw [List.getElem?_eq_none (by simpa using hi), List.getElem?_eq_none (by simpa using hi)]
    rfl

end ListLemmas

section BVHLemmas

variable {F : Type} [LinearOrderedField F]

theorem within_partition (prims : List (Primitive F)) (axis : Nat) (split_pos : F)
    (idx : List Nat) (s e : Nat) (hse : s ≤ e) (he : e ≤ idx.length) :
    Within s e idx (partition_indices prims axis split_pos idx s e).1 ∧
    s ≤ (partition_indices prims axis split_pos idx s e).2 ∧
    (partition_indices prims axis split_pos idx s e).2 ≤ e := by
  unfold partition_indices
  have key := foldl_range'_inv
    (fun i (acc : List Nat × Nat) => Within s e idx acc.1 ∧ s ≤ acc.2 ∧ acc.2 ≤ i)
    (fun acc i =>
      let center := aabb_center (prim_bounds prims (acc.1.getD i 0))
      let pos := center.get axis
      if pos < split_pos then (swap_indices acc.1 acc.2 i, acc.2 + 1) else acc)
    (e - s) s (idx, s) ⟨within_refl _ _ _, le_refl _, le_refl _⟩
    (by
      rintro i ⟨l, k⟩ hi hlt ⟨hw, hk1, hk2⟩
      dsimp only
      split
      · refine ⟨within_trans hw (within_swap s e l k i ?_ hk1 ?_ hi ?_), ?_, ?_⟩
        · rw [hw.1]; exact he
        · dsimp only at hk2; omega
        · omega
        · dsimp only; omega
        · dsimp only at hk2 ⊢; omega
      · exact ⟨hw, hk1, by dsimp only at hk2 ⊢; omega⟩)
  obtain ⟨h1, h2, h3⟩ := key
  exact ⟨h1, h2, by omega⟩

theorem within_sweep_step (prims : List (Primitive F)) (s e axis : Nat) (bounds : AABB F)
    (axis_min bin_width : F) (bins : List (Bin F)) (idx : List Nat)
    (acc : SplitCandidate F × List Nat) (split_bin : Nat)
    (hse : s ≤ e) (he : e ≤ idx.length) (hacc : Within s e idx acc.2) :
    Within s e idx (sweep_step prims s e axis bounds axis_min bin_width bins acc split_bin).2 := by
  unfold sweep_step
  dsimp only
  split
  · exact hacc
  split
  · exact hacc
  split
  · exact within_trans hacc (within_partition prims axis _ acc.2 s e hse (by rw [hacc.1]; exact he)).1
  · exact hacc

theorem within_qsort (prims : List (Primitive F)) (axis : Nat) (idx : List Nat) (s n : Nat)
    (he : s + n ≤ idx.length) :
    Within s (s + n) idx (qsort_indices prims axis idx s n) := by
  unfold qsort_indices
  set sorted := List.insertionSort (fun a b => sort_key prims axis a ≤ sort_key prims axis b)
    ((idx.drop s).take n) with hsorted
  have hperm : sorted.Perm ((idx.drop s).take n) := List.perm_insertionSort _ _
  have hlen : sorted.length = n := by
    rw [hperm.length_eq, List.length_take, List.length_drop]; omega
  have hdecomp : idx = idx.take s ++ (idx.drop s).take n ++ idx.drop (s + n) := by
    rw [List.append_assoc, ← List.drop_drop, List.take_append_drop, List.take_append_drop]
  refine ⟨?_, ?_, ?_⟩
  · simp only [List.length_append, List.length_take, List.length_drop, hlen]; omega
  · conv_rhs => rw [hdecomp]
    exact (List.Perm.append_left _ hperm).append_right _
  · intro i hi
    have htl : (idx.take s).length = s := by rw [List.length_take]; omega
    rcases hi with hi | hi
    · rw [List.append_assoc, List.getElem?_append_left (by omega), List.getElem?_take_of_lt hi]
    · rw [List.getElem?_append_right (by simp only [List.length_append, htl, hlen]; omega)]
      simp only [List.length_append, htl, hlen, List.getElem?_drop]
      congr 1; omega

theorem aabb_union_right_comm (b x y : AABB F) :
    aabb_union (aabb_union b x) y = aabb_union (aabb_union b y) x := by
  simp only [aabb_union, vec3_create, AABB.mk.injEq, Vec3.mk.injEq]
  have hmax : ∀ a b c : F, max (max a b) c = max (max a c) b := fun a b c => by
    rw [max_assoc, max_comm b c, ← max_assoc]
  exact ⟨⟨min_right_comm _ _ _, min_right_comm _ _ _, min_right_comm _ _ _⟩,
    hmax _ _ _, hmax _ _ _, hmax _ _ _⟩

theorem range_bounds_eq_foldl_map (prims : List (Primitive F)) (idx : List Nat) (s e : Nat) :
    range_bounds prims idx s e =
      ((List.range' s (e - s)).map (fun i => idx.getD i 0)).foldl
        (fun b j => aabb_union b (prim_bounds prims j)) aabb_empty := by
  rw [List.foldl_map]; rfl

/-- The bounds of a range only depend on the entries of the index array in the range. -/
theorem range_bounds_congr (prims : List (Primitive F)) (idx idx' : List Nat) (s e : Nat)
    (h : ∀ i, s ≤ i → i < e → idx'[i]? = idx[i]?) :
    range_bounds prims idx' s e = range_bounds prims idx s e := by
  rw [range_bounds_eq_foldl_map, range_bounds_eq_foldl_map]
  congr 1
  apply List.map_congr_left
  intro i hi
  rw [List.mem_range'_1] at hi
  simp only [List.getD_eq_getElem?_getD, h i hi.1 (by omega)]

/-- The bounds of a range are unchanged by a permutation of the range. -/
theorem range_bounds_within (prims : List (Primitive F)) (idx idx' : List Nat) (s e : Nat)
    (hse : s ≤ e) (he : e ≤ idx.length) (h : Within s e idx idx') :
    range_bounds prims idx' s e = range_bounds prims idx s e := by
  rw [range_bounds_eq_foldl_map, range_bounds_eq_foldl_map,
    map_getD_range' idx s e he, map_getD_range' idx' s e (by rw [h.1]; exact he)]
  haveI : RightCommutative (fun (b : AABB F) (j : Nat) => aabb_union b (prim_bounds prims j)) :=
    ⟨fun b x y => aabb_union_right_comm b _ _⟩
  exact (slice_perm_of_within h hse).foldl_eq _

end BVHLemmas

section SubtreeLemmas

variable {F : Type}

theorem subtree_lt_next {nodes : List (BVHNode F)} {bnd : Nat → Nat → AABB F}
    {i lo hi next : Nat} (h : Subtree nodes bnd i lo hi next) : i < next := by
  induction h with
  | leaf => omega
  | node _ _ _ _ _ _ _ _ _ _ _ _ _ _ _ _ ih1 ih2 => omega

theorem subtree_le {nodes : List (BVHNode F)} {bnd : Nat → Nat → AABB F}
    {i lo hi next : Nat} (h : Subtree nodes bnd i lo hi next) : lo ≤ hi := by
  induction h with
  | leaf => assumption
  | node => omega

/-- A subtree only depends on its own node slots and on the bounds of sub-ranges of its
own range. -/
theorem subtree_congr {nodes nodes' : List (BVHNode F)}
    {bnd bnd' : Nat → Nat → AABB F} {i lo hi next : Nat} (h : Subtree nodes bnd i lo hi next)
    (hn : ∀ j, i ≤ j → j < next → nodes'[j]? = nodes[j]?)
    (hb : ∀ lo' hi', lo ≤ lo' → hi' ≤ hi → bnd' lo' hi' = bnd lo' hi') :
    Subtree nodes' bnd' i lo hi next := by
  induction h with
  | leaf i lo hi n hget hl hf hc hle hle2 hbd =>
    exact Subtree.leaf i lo hi n ((hn i (le_refl _) (by omega)).trans hget) hl hf hc hle hle2
      (hbd.trans (hb lo hi (le_refl _) (le_refl _)).symm)
  | node i lo mid hi r next n hget hl hlt hrt h1 h2 hbd hs1 hs2 ih1 ih2 =>
    have hr1 := subtree_lt_next hs1
    have hr2 := subtree_lt_next hs2
    exact Subtree.node i lo mid hi r next n ((hn i (le_refl _) (by omega)).trans hget) hl hlt hrt
      h1 h2 (hbd.trans (hb lo hi (le_refl _) (le_refl _)).symm)
      (ih1 (fun j hj1 hj2 => hn j (by omega) (by omega))
        (fun lo' hi' h1' h2' => hb lo' hi' h1' (by omega)))
      (ih2 (fun j hj1 hj2 => hn j (by omega) (by omega))
        (fun lo' hi' h1' h2' => hb lo' hi' (by omega) h2'))

/-! ### Reading the tree -/

theorem leaves_of_subtree {nodes : List (BVHNode F)} {bnd : Nat → Nat → AABB F}
    {i lo hi next : Nat} (h : Subtree nodes bnd i lo hi next) :
    ∀ fuel, next - i ≤ fuel →
      ((bvh_leaves nodes fuel (some i)).map (fun p => List.range' p.1 p.2)).flatten
        = List.range' lo (hi - lo) ∧
      (lo < hi → ∀ p ∈ bvh_leaves nodes fuel (some i), 1 ≤ p.2 ∧ p.2 ≤ 2) := by
  induction h with
  | leaf i lo hi n hget hl hf hc hle hle2 hbd =>
    intro fuel hfuel
    obtain ⟨f, rfl⟩ : ∃ f, fuel = f + 1 := ⟨fuel - 1, by omega⟩
    have : bvh_leaves nodes (f + 1) (some i) = [(lo, hi - lo)] := by
      simp [bvh_leaves, hget, hl, hf, hc]
    rw [this]
    refine ⟨by simp, ?_⟩
    intro hlt p hp
    simp only [List.mem_singleton] at hp
    subst hp
    dsimp only
    omega
  | node i lo mid hi r next n hget hl hlt hrt h1 h2 hbd hs1 hs2 ih1 ih2 =>
    intro fuel hfuel
    have hr1 := subtree_lt_next hs1
    have hr2 := subtree_lt_next hs2
    obtain ⟨f, rfl⟩ : ∃ f, fuel = f + 1 := ⟨fuel - 1, by omega⟩
    have : bvh_leaves nodes (f + 1) (some i) =
        bvh_leaves nodes f (some (i + 1)) ++ bvh_leaves nodes f (some r) := by
      simp [bvh_leaves, hget, hl, hlt, hrt]
    rw [this]
    obtain ⟨ha1, ha2⟩ := ih1 f (by omega)
    obtain ⟨hb1, hb2⟩ := ih2 f (by omega)
    refine ⟨?_, ?_⟩
    · rw [List.map_append, List.flatten_append, ha1, hb1]
      have e1 : List.range' mid (hi - mid) = List.range' (lo + (mid - lo)) (hi - mid) := by
        congr 1; omega
      have e2 : hi - lo = (hi - mid) + (mid - lo) := by omega
      rw [e2, e1, List.range'_append_1]
    · intro _ p hp
      rcases List.mem_append.mp hp with hp | hp
      · exact ha2 h1 p hp
      · exact hb2 h2 p hp

theorem reachable_of_subtree {nodes : List (BVHNode F)} {bnd : Nat → Nat → AABB F}
    {i lo hi next : Nat} (h : Subtree nodes bnd i lo hi next) :
    ∀ fuel, next - i ≤ fuel →
      bvh_reachable nodes fuel (some i) = List.range' i (next - i) := by
  induction h with
  | leaf i lo hi n hget hl hf hc hle hle2 hbd =>
    intro fuel hfuel
    obtain ⟨f, rfl⟩ : ∃ f, fuel = f + 1 := ⟨fuel - 1, by omega⟩
    simp [bvh_reachable, hget, hl]
  | node i lo mid hi r next n hget hl hlt hrt h1 h2 hbd hs1 hs2 ih1 ih2 =>
    intro fuel hfuel
    have hr1 := subtree_lt_next hs1
    have hr2 := subtree_lt_next hs2
    obtain ⟨f, rfl⟩ : ∃ f, fuel = f + 1 := ⟨fuel - 1, by omega⟩
    have : bvh_reachable nodes (f + 1) (some i) =
        i :: (bvh_reachable nodes f (some (i + 1)) ++ bvh_reachable nodes f (some r)) := by
      simp [bvh_reachable, hget, hl, hlt, hrt]
    rw [this, ih1 f (by omega), ih2 f (by omega)]
    have e1 : next - i = (next - r + (r - (i + 1))) + 1 := by omega
    have e2 : List.range' r (next - r) = List.range' (i + 1 + (r - (i + 1))) (next - r) := by
      congr 1; omega
    rw [e1, List.range'_succ, e2, List.range'_append_1]

/-- Every slot of a subtree holds a leaf of one or two primitives (when the range is not
empty) or an internal node with two non-null children inside the subtree. -/
theorem nodes_of_subtree {nodes : List (BVHNode F)} {bnd : Nat → Nat → AABB F}
    {i lo hi next : Nat} (h : Subtree nodes bnd i lo hi next) (hne : lo < hi) :
    ∀ j, i ≤ j → j < next → ∃ n, nodes[j]? = some n ∧
      (n.is_leaf = true → 1 ≤ n.prim_count ∧ n.prim_count ≤ 2) ∧
      (n.is_leaf = false → ∃ l r, n.left = some l ∧ n.right = some r ∧
        l < next ∧ r < next) := by
  induction h with
  | leaf i lo hi n hget hl hf hc hle hle2 hbd =>
    intro j hj1 hj2
    obtain rfl : j = i := by omega
    exact ⟨n, hget, fun _ => by omega, fun hf => by simp [hl] at hf⟩
  | node i lo mid hi r next n hget hl hlt hrt h1 h2 hbd hs1 hs2 ih1 ih2 =>
    intro j hj1 hj2
    have hr1 := subtree_lt_next hs1
    have hr2 := subtree_lt_next hs2
    by_cases hji : j = i
    · subst hji
      exact ⟨n, hget, fun h => by simp [hl] at h,
        fun _ => ⟨j + 1, r, hlt, hrt, by omega, by omega⟩⟩
    by_cases hjr : j < r
    · obtain ⟨n', hg, hp1, hp2⟩ := ih1 h1 j (by omega) hjr
      refine ⟨n', hg, hp1, fun hf => ?_⟩
      obtain ⟨l, r', e1, e2, e3, e4⟩ := hp2 hf
      exact ⟨l, r', e1, e2, by omega, by omega⟩
    · exact ih2 h2 j (by omega) hj2

end SubtreeLemmas

section BuildLemmas

variable {F : Type} [LinearOrderedField F] [FloorRing F]

theorem within_axis_step (prims : List (Primitive F)) (s e : Nat) (idx : List Nat)
    (acc : SplitCandidate F × List Nat) (axis : Nat)
    (hse : s ≤ e) (he : e ≤ idx.length) (hacc : Within s e idx acc.2) :
    Within s e idx (axis_step prims s e acc axis).2 := by
  unfold axis_step
  dsimp only
  split
  · exact hacc
  · exact foldl_inv (fun a : SplitCandidate F × List Nat => Within s e idx a.2) _ _ _ hacc
      (fun a b _ ha => within_sweep_step prims s e axis _ _ _ _ idx a b hse he ha)

theorem within_find_best_split (prims : List (Primitive F)) (idx : List Nat) (s e : Nat)
    (hse : s ≤ e) (he : e ≤ idx.length) :
    Within s e idx (bvh_find_best_split prims idx s e).2 := by
  unfold bvh_find_best_split
  exact foldl_inv (fun a : SplitCandidate F × List Nat => Within s e idx a.2) _ _ _
    (within_refl _ _ _) (fun a b _ ha => within_axis_step prims s e idx a b hse he ha)

theorem choose_split_spec (prims : List (Primitive F)) (bounds : AABB F) (idx : List Nat)
    (s e : Nat) (hse : s + 3 ≤ e) (he : e ≤ idx.length) :
    Within s e idx (build_choose_split prims bounds idx s e).2.1 ∧
    (build_choose_split prims bounds idx s e).2.2 = false ∧
    s < (build_choose_split prims bounds idx s e).1 ∧
    (build_choose_split prims bounds idx s e).1 < e := by
  have hw := within_find_best_split prims idx s e (by omega) he
  unfold build_choose_split
  dsimp only
  split
  · refine ⟨?_, ?_, ?_, ?_⟩
    · have := within_qsort prims
        (if (vec3_sub bounds.max bounds.min).y > (vec3_sub bounds.max bounds.min).x ∧
            (vec3_sub bounds.max bounds.min).y > (vec3_sub bounds.max bounds.min).z then 1
          else if (vec3_sub bounds.max bounds.min).z > (vec3_sub bounds.max bounds.min).x then 2
          else 0)
        (bvh_find_best_split prims idx s e).2 s (e - s) (by rw [hw.1]; omega)
      rw [show s + (e - s) = e by omega] at this
      exact within_trans hw this
    · rw [decide_eq_false_iff_not]; omega
    · omega
    · omega
  · next h =>
    push_neg at h
    exact ⟨hw, rfl, h.1, h.2⟩

/-- The split position is strictly inside any range of three or more entries, and the
"still invalid" leaf is never taken. -/
theorem choose_split_inside (prims : List (Primitive F)) (bounds : AABB F) (idx : List Nat)
    (s e : Nat) (hse : s + 3 ≤ e) :
    (build_choose_split prims bounds idx s e).2.2 = false ∧
    s < (build_choose_split prims bounds idx s e).1 ∧
    (build_choose_split prims bounds idx s e).1 < e := by
  unfold build_choose_split
  dsimp only
  split
  · refine ⟨?_, ?_, ?_⟩
    · rw [decide_eq_false_iff_not]; omega
    · omega
    · omega
  · next h =>
    push_neg at h
    exact ⟨rfl, h.1, h.2⟩

theorem build_leaf_eq (prims : List (Primitive F)) (fuel : Nat) (st : BuildState F) (s e : Nat)
    (h : e - s ≤ 2) :
    bvh_build_recursive prims (fuel + 1) st s e =
      some (st.nodes.length,
        ⟨st.nodes ++ [BVHNode.set_leaf s (e - s)
          (BVHNode.set_bounds (range_bounds prims st.indices s e) BVHNode.zero)], st.indices⟩) := by
  rw [bvh_build_recursive]
  simp only [BuildState.node_idx, BuildState.alloc, BuildState.write, modify_append_cons, h,
    if_true]

theorem build_internal_eq (prims : List (Primitive F)) (fuel : Nat) (st : BuildState F)
    (s e : Nat) (h : ¬ e - s ≤ 2)
    (h2 : (build_choose_split prims (range_bounds prims st.indices s e) st.indices s e).2.2
      = false) :
    bvh_build_recursive prims (fuel + 1) st s e =
      match bvh_build_recursive prims fuel (build_state_left prims st s e) s
          (build_choose_split prims (range_bounds prims st.indices s e) st.indices s e).1 with
      | none => none
      | some (left, st1) =>
        match bvh_build_recursive prims fuel (st1.write st.nodes.length (BVHNode.set_left left))
            (build_choose_split prims (range_bounds prims st.indices s e) st.indices s e).1 e with
        | none => none
        | some (right, st2) =>
          some (st.nodes.length, st2.write st.nodes.length (BVHNode.set_right right)) := by
  rw [bvh_build_recursive]
  simp only [BuildState.node_idx, BuildState.alloc, BuildState.write, modify_append_cons, h, h2,
    if_false, build_state_left]
  rfl

theorem build_terminates (prims : List (Primitive F)) :
    ∀ (fuel : Nat) (st : BuildState F) (s e : Nat), e - s < fuel →
      ∃ r, bvh_build_recursive prims fuel st s e = some r := by
  intro fuel
  induction fuel with
  | zero => intro st s e h; omega
  | succ fuel ih =>
    intro st s e hfuel
    by_cases hsmall : e - s ≤ 2
    · exact ⟨_, build_leaf_eq prims fuel st s e hsmall⟩
    · obtain ⟨hvalid, hm1, hm2⟩ := choose_split_inside prims
        (range_bounds prims st.indices s e) st.indices s e (by omega)
      rw [build_internal_eq prims fuel st s e hsmall hvalid]
      obtain ⟨⟨l, st1⟩, h1⟩ := ih (build_state_left prims st s e) s
        (build_choose_split prims (range_bounds prims st.indices s e) st.indices s e).1
        (by omega)
      rw [h1]
      dsimp only
      obtain ⟨⟨r, st2⟩, h2⟩ := ih (st1.write st.nodes.length (BVHNode.set_left l))
        (build_choose_split prims (range_bounds prims st.indices s e) st.indices s e).1 e
        (by omega)
      rw [h2]
      exact ⟨_, rfl⟩

/-- What a call of `bvh_build_recursive` on the range `[s, e)` does: it returns (with fuel
above the range size), the node it returns is the slot at the old cursor, earlier slots are
untouched, the cursor advances by at least one and at most `2 (e - s) - 1` slots, the index
array is permuted inside `[s, e)` only, and the slots from the old cursor to the new one hold
a well-formed subtree over `[s, e)`. -/
theorem build_spec (prims : List (Primitive F)) :
    ∀ (fuel : Nat) (st : BuildState F) (s e : Nat), s ≤ e → e ≤ st.indices.length →
      e - s < fuel →
      ∃ st', bvh_build_recursive prims fuel st s e = some (st.nodes.length, st') ∧
        (∀ j, j < st.nodes.length → st'.nodes[j]? = st.nodes[j]?) ∧
        st.nodes.length < st'.nodes.length ∧
        st'.nodes.length + 1 ≤ st.nodes.length + 2 * max 1 (e - s) ∧
        Within s e st.indices st'.indices ∧
        Subtree st'.nodes (range_bounds prims st'.indices) st.nodes.length s e
          st'.nodes.length := by
  intro fuel
  induction fuel with
  | zero => intro st s e _ _ h; omega
  | succ fuel ih =>
    intro st s e hse he hfuel
    by_cases hsmall : e - s ≤ 2
    · -- leaf
      rw [build_leaf_eq prims fuel st s e hsmall]
      refine ⟨_, rfl, ?_, ?_, ?_, within_refl _ _ _, ?_⟩
      · intro j hj
        exact List.getElem?_append_left hj
      · simp
      · simp only [List.length_append, List.length_singleton]
        have : 1 ≤ max 1 (e - s) := le_max_left _ _
        omega
      · have hlen : (st.nodes ++ [BVHNode.set_leaf s (e - s)
            (BVHNode.set_bounds (range_bounds prims st.indices s e) BVHNode.zero)]).length
            = st.nodes.length + 1 := by simp
        rw [hlen]
        exact Subtree.leaf _ s e (BVHNode.set_leaf s (e - s)
          (BVHNode.set_bounds (range_bounds prims st.indices s e) BVHNode.zero))
          (by simp) rfl rfl rfl hse (by omega) rfl
    · -- internal node
      obtain ⟨hw, hvalid, hm1, hm2⟩ := choose_split_spec prims
        (range_bounds prims st.indices s e) st.indices s e (by omega) he
      rw [build_internal_eq prims fuel st s e hsmall hvalid]
      set m := (build_choose_split prims (range_bounds prims st.indices s e) st.indices s e).1
        with hm
      set idx1 := (build_choose_split prims (range_bounds prims st.indices s e)
        st.indices s e).2.1 with hidx1
      set n0 : BVHNode F := BVHNode.set_internal
        (BVHNode.set_bounds (range_bounds prims st.indices s e) BVHNode.zero) with hn0
      have hstL : build_state_left prims st s e = ⟨st.nodes ++ [n0], idx1⟩ := rfl
      have hLlen : (build_state_left prims st s e).nodes.length = st.nodes.length + 1 := by
        rw [hstL]; simp
      obtain ⟨st1, hb1, hpre1, hlt1, hcnt1, hw1, hsub1⟩ :=
        ih (build_state_left prims st s e) s m (by omega)
          (by rw [hstL]; show m ≤ idx1.length; rw [hw.1]; omega) (by omega)
      rw [hb1]
      dsimp only
      have hidx1' : (build_state_left prims st s e).indices = idx1 := rfl
      rw [hidx1'] at hw1
      rw [hLlen] at hb1 hpre1 hlt1 hcnt1 hsub1
      -- the state for the right call
      set st1w := st1.write st.nodes.length (BVHNode.set_left (st.nodes.length + 1)) with hst1w
      have hst1w_len : st1w.nodes.length = st1.nodes.length := by
        simp [hst1w, BuildState.write]
      have hst1w_idx : st1w.indices = st1.indices := rfl
      obtain ⟨st2, hb2, hpre2, hlt2, hcnt2, hw2, hsub2⟩ :=
        ih st1w m e (by omega)
          (by rw [hst1w_idx, hw1.1, hw.1]; exact he) (by omega)
      rw [hLlen, hb2]
      dsimp only
      rw [hst1w_len] at hb2 hpre2 hlt2 hcnt2 hsub2 ⊢
      rw [hst1w_idx] at hw2
      -- the final state
      have hfinal_len : (st2.write st.nodes.length
          (BVHNode.set_right st1.nodes.length)).nodes.length = st2.nodes.length := by
        simp [BuildState.write]
      have hmax1 : max 1 (m - s) = m - s := max_eq_right (by omega)
      have hmax2 : max 1 (e - m) = e - m := max_eq_right (by omega)
      have hmax : max 1 (e - s) = e - s := max_eq_right (by omega)
      rw [hmax1] at hcnt1
      rw [hmax2] at hcnt2
      have hwfin : Within s e st.indices st2.indices :=
        within_trans (within_trans hw (within_mono hw1 (le_refl _) (by omega)))
          (within_mono hw2 (by omega) (le_refl _))
      -- content of the root slot
      have hroot1 : st1.nodes[st.nodes.length]? = some n0 := by
        rw [hpre1 _ (by omega), hstL]
        simp
      have hroot1w : st1w.nodes[st.nodes.length]? =
          some (BVHNode.set_left (st.nodes.length + 1) n0) := by
        simp [hst1w, BuildState.write, List.getElem?_modify_eq, hroot1]
      have hroot2 : st2.nodes[st.nodes.length]? =
          some (BVHNode.set_left (st.nodes.length + 1) n0) := by
        rw [hpre2 _ (by omega), hroot1w]
      refine ⟨_, rfl, ?_, ?_, ?_, hwfin, ?_⟩
      · intro j hj
        simp only [BuildState.write]
        rw [List.getElem?_modify_ne _ _ (by omega), hpre2 _ (by omega)]
        simp only [hst1w, BuildState.write]
        rw [List.getElem?_modify_ne _ _ (by omega), hpre1 _ (by omega), hstL]
        exact List.getElem?_append_left hj
      · rw [hfinal_len]; omega
      · rw [hfinal_len, hmax]; omega
      · rw [hfinal_len]
        refine Subtree.node _ s m e st1.nodes.length _
          (BVHNode.set_right st1.nodes.length (BVHNode.set_left (st.nodes.length + 1) n0))
          ?_ rfl rfl rfl hm1 hm2 ?_ ?_ ?_
        · simp [BuildState.write, List.getElem?_modify_eq, hroot2]
        · show range_bounds prims st.indices s e = _
          exact (range_bounds_within prims st.indices st2.indices s e hse he hwfin).symm
        · refine subtree_congr hsub1 ?_ ?_
          · intro j hj1 hj2
            simp only [BuildState.write]
            rw [List.getElem?_modify_ne _ _ (by omega), hpre2 _ (by omega)]
            simp only [hst1w, BuildState.write]
            rw [List.getElem?_modify_ne _ _ (by omega)]
          · intro lo' hi' h1 h2
            exact range_bounds_congr prims st1.indices st2.indices lo' hi'
              (fun i _ hi2 => hw2.2.2 i (Or.inl (by omega)))
        · refine subtree_congr hsub2 ?_ ?_
          · intro j hj1 hj2
            simp only [BuildState.write]
            rw [List.getElem?_modify_ne _ _ (by omega)]
          · intro lo' hi' _ _
            rfl

/-- The cursor only moves forward: a call returns the slot at the old cursor and leaves the
cursor strictly beyond it. -/
theorem build_cursor_increases (prims : List (Primitive F)) :
    ∀ (fuel : Nat) (st : BuildState F) (s e : Nat) (r : Nat) (st' : BuildState F),
      bvh_build_recursive prims fuel st s e = some (r, st') →
      r = st.node_idx ∧ st.node_idx < st'.node_idx := by
  intro fuel
  induction fuel with
  | zero => intro st s e r st' h; simp [bvh_build_recursive] at h
  | succ fuel ih =>
    intro st s e r st' h
    by_cases hsmall : e - s ≤ 2
    · rw [build_leaf_eq prims fuel st s e hsmall] at h
      simp only [Option.some.injEq, Prod.mk.injEq] at h
      obtain ⟨rfl, rfl⟩ := h
      simp [BuildState.node_idx]
    · obtain ⟨hvalid, -, -⟩ := choose_split_inside prims
        (range_bounds prims st.indices s e) st.indices s e (by omega)
      rw [build_internal_eq prims fuel st s e hsmall hvalid] at h
      split at h
      · cases h
      · next l st1 h1 =>
        split at h
        · cases h
        · next r2 st2 h2 =>
          simp only [Option.some.injEq, Prod.mk.injEq] at h
          obtain ⟨rfl, rfl⟩ := h
          obtain ⟨-, hc1⟩ := ih _ _ _ _ _ h1
          obtain ⟨-, hc2⟩ := ih _ _ _ _ _ h2
          simp only [BuildState.node_idx, BuildState.write, build_state_left, List.length_modify,
            List.length_append, List.length_singleton] at hc1 hc2 ⊢
          exact ⟨trivial, by omega⟩

/-- What `bvh_create` returns for an array of `prims.length` primitives. -/
theorem bvh_create_spec (prims : List (Primitive F)) :
    ∃ bvh, bvh_create prims = some bvh ∧ bvh.root = some 0 ∧
      bvh.prim_count = prims.length ∧ bvh.node_count = bvh.nodes.length ∧
      0 < bvh.nodes.length ∧ bvh.nodes.length + 1 ≤ 2 * max 1 prims.length ∧
      Within 0 prims.length (List.range prims.length) bvh.indices ∧
      Subtree bvh.nodes (range_bounds prims bvh.indices) 0 0 prims.length bvh.nodes.length ∧
      bvh.primitives = (List.range prims.length).map
        (fun i => prims.getD (bvh.indices.getD i 0) Primitive.zero) := by
  obtain ⟨st, hb, -, hlt, hcnt, hw, hsub⟩ := build_spec prims (prims.length + 1)
    ⟨[], List.range prims.length⟩ 0 prims.length (Nat.zero_le _) (by simp) (by omega)
  simp only [List.length_nil, Nat.sub_zero, Nat.zero_add] at hb hlt hcnt hw hsub
  have hcreate : bvh_create prims = some
      { root := some 0,
        primitives := (List.range prims.length).map
          (fun i => prims.getD (st.indices.getD i 0) Primitive.zero),
        prim_count := prims.length, nodes := st.nodes, node_count := st.node_idx,
        indices := st.indices } := by
    unfold bvh_create
    simp only [hb]
  exact ⟨_, hcreate, rfl, rfl, rfl, hlt, hcnt, hw, hsub, rfl⟩

end BuildLemmas

section TraversalLemmas

variable {F : Type} [LinearOrderedField F]

theorem sphere_hit_eq_root (sqrtf : F → F) (s : Sphere F) (ray : Ray F) (t_min t_max : F)
    (rec : HitRecord F) :
    sphere_hit sqrtf s ray t_min t_max rec =
      match sphere_root sqrtf s ray t_min t_max with
      | none => (false, rec)
      | some t => (true, sphere_record s ray t rec) := by
  rw [sphere_hit_eq]
  unfold sphere_root
  split_ifs <;> rfl

theorem triangle_hit_eq_root (tri : Triangle F) (ray : Ray F) (t_min t_max : F)
    (rec : HitRecord F) :
    triangle_hit tri ray t_min t_max rec =
      match triangle_root tri ray t_min t_max with
      | none => (false, rec)
      | some t => (true, triangle_record tri ray t rec) := by
  rw [triangle_hit_eq]
  unfold triangle_root
  split_ifs <;> rfl

theorem primitive_hit_eq (sqrtf : F → F) (prims : List (Primitive F)) (idx : Nat) (ray : Ray F)
    (t_min t_max : F) (rec : HitRecord F) :
    primitive_hit sqrtf prims idx ray t_min t_max rec =
      match root_at sqrtf prims ray t_min t_max idx with
      | none => (false, rec)
      | some t => (true, record_at prims ray idx t) := by
  unfold primitive_hit root_at record_at
  cases hp : prims.get? idx with
  | none => rfl
  | some p =>
    dsimp only
    unfold prim_root prim_record
    cases ht : p.type with
    | PRIMITIVE_SPHERE =>
      dsimp only
      rw [sphere_hit_eq_root]
      cases sphere_root sqrtf p.sphere ray t_min t_max <;> rfl
    | PRIMITIVE_TRIANGLE =>
      dsimp only
      rw [triangle_hit_eq_root]
      cases triangle_root p.triangle ray t_min t_max <;> rfl
    | PRIMITIVE_MESH => rfl

theorem convex_ge (m a b c u v : F) (ha : m ≤ a) (hb : m ≤ b) (hc : m ≤ c)
    (hu : 0 ≤ u) (hv : 0 ≤ v) (huv : u + v ≤ 1) : m ≤ a + ((b - a) * u + (c - a) * v) := by
  have h1 : 0 ≤ (1 - u - v) * (a - m) := mul_nonneg (by linarith) (by linarith)
  have h2 : 0 ≤ u * (b - m) := mul_nonneg hu (by linarith)
  have h3 : 0 ≤ v * (c - m) := mul_nonneg hv (by linarith)
  nlinarith

theorem convex_le (m a b c u v : F) (ha : a ≤ m) (hb : b ≤ m) (hc : c ≤ m)
    (hu : 0 ≤ u) (hv : 0 ≤ v) (huv : u + v ≤ 1) : a + ((b - a) * u + (c - a) * v) ≤ m := by
  have h1 : 0 ≤ (1 - u - v) * (m - a) := mul_nonneg (by linarith) (by linarith)
  have h2 : 0 ≤ u * (m - b) := mul_nonneg hu (by linarith)
  have h3 : 0 ≤ v * (m - c) := mul_nonneg hv (by linarith)
  nlinarith

theorem bvh_hit_loop_done (sqrtf : F → F) (bvh : BVH F) (ray : Ray F) (t_min : F) (fuel : Nat)
    (st : TraverseState F) :
    bvh_hit_loop sqrtf bvh ray t_min (fuel + 1) [] st = .done st.hit_anything st.record := by
  rw [bvh_hit_loop]

theorem bvh_hit_loop_skip (sqrtf : F → F) (bvh : BVH F) (ray : Ray F) (t_min : F) (fuel : Nat)
    (i : Nat) (stack : List Nat) (st : TraverseState F) (n : BVHNode F)
    (hn : bvh.nodes[i]? = some n) (hbox : ¬ aabb_hit n.bounds ray t_min st.closest_so_far = true) :
    bvh_hit_loop sqrtf bvh ray t_min (fuel + 1) (i :: stack) st =
      bvh_hit_loop sqrtf bvh ray t_min fuel stack st := by
  rw [bvh_hit_loop]
  simp only [List.get?_eq_getElem?, hn]
  rw [if_pos hbox]

theorem bvh_hit_loop_leaf (sqrtf : F → F) (bvh : BVH F) (ray : Ray F) (t_min : F) (fuel : Nat)
    (i : Nat) (stack : List Nat) (st : TraverseState F) (n : BVHNode F)
    (hn : bvh.nodes[i]? = some n) (hbox : aabb_hit n.bounds ray t_min st.closest_so_far = true)
    (hleaf : n.is_leaf = true) :
    bvh_hit_loop sqrtf bvh ray t_min (fuel + 1) (i :: stack) st =
      bvh_hit_loop sqrtf bvh ray t_min fuel stack
        (bvh_hit_leaf sqrtf bvh.primitives ray t_min n st) := by
  rw [bvh_hit_loop]
  simp only [List.get?_eq_getElem?, hn]
  rw [if_neg (not_not.mpr hbox), if_pos hleaf]

theorem bvh_hit_loop_internal (sqrtf : F → F) (bvh : BVH F) (ray : Ray F) (t_min : F)
    (fuel : Nat) (i : Nat) (stack : List Nat) (st : TraverseState F) (n : BVHNode F) (l r : Nat)
    (hn : bvh.nodes[i]? = some n) (hbox : aabb_hit n.bounds ray t_min st.closest_so_far = true)
    (hleaf : n.is_leaf = false) (hl : n.left = some l) (hr : n.right = some r) :
    bvh_hit_loop sqrtf bvh ray t_min (fuel + 1) (i :: stack) st = .stack_overflow ∨
    bvh_hit_loop sqrtf bvh ray t_min (fuel + 1) (i :: stack) st =
      bvh_hit_loop sqrtf bvh ray t_min fuel (r :: l :: stack) st := by
  rw [bvh_hit_loop]
  simp only [List.get?_eq_getElem?, hn]
  rw [if_neg (not_not.mpr hbox), if_neg (by rw [hleaf]; exact Bool.false_ne_true), hl, hr]
  unfold push_node
  dsimp only
  by_cases h1 : stack.length < 64
  · rw [if_pos h1]
    dsimp only
    by_cases h2 : (l :: stack).length < 64
    · rw [if_pos h2]; exact Or.inr rfl
    · rw [if_neg h2]; exact Or.inl rfl
  · rw [if_neg h1]; exact Or.inl rfl

theorem boxLe_union_left (a b x : AABB F) (h : BoxLe x a) : BoxLe x (aabb_union a b) := by
  intro axis
  have := h axis
  rcases axis with _ | _ | axis <;>
    simp only [aabb_union, vec3_create, Vec3.get] at this ⊢ <;>
    exact ⟨le_trans (min_le_left _ _) this.1, le_trans this.2 (le_max_left _ _)⟩

theorem boxLe_union_right (a b : AABB F) : BoxLe b (aabb_union a b) := by
  intro axis
  rcases axis with _ | _ | axis <;>
    simp only [aabb_union, vec3_create, Vec3.get] <;>
    exact ⟨min_le_right _ _, le_max_right _ _⟩

/-- The box of a range encloses the bounds of every primitive of the range. -/
theorem range_bounds_encloses (prims : List (Primitive F)) (idx : List Nat) (lo hi k : Nat)
    (h1 : lo ≤ k) (h2 : k < hi) :
    BoxLe (prim_bounds prims (idx.getD k 0)) (range_bounds prims idx lo hi) := by
  unfold range_bounds
  have key := foldl_range'_inv
    (fun i (acc : AABB F) => ∀ j, lo ≤ j → j < i → BoxLe (prim_bounds prims (idx.getD j 0)) acc)
    (fun bounds i => aabb_union bounds (prim_bounds prims (idx.getD i 0)))
    (hi - lo) lo aabb_empty (fun j hj1 hj2 => by omega)
    (by
      intro i acc hi1 hi2 hacc j hj1 hj2
      by_cases hji : j = i
      · rw [hji]; exact boxLe_union_right _ _
      · exact boxLe_union_left _ _ _ (hacc j hj1 (by omega)))
  exact key k h1 (by omega)

/-- The array after `bvh_create` holds at position `k` the input primitive `indices[k]`, a
primitive of the input. -/
theorem bvh_create_primitive_at (prims : List (Primitive F)) (bvh : BVH F)
    (hw : Within 0 prims.length (List.range prims.length) bvh.indices)
    (hp : bvh.primitives = (List.range prims.length).map
        (fun i => prims.getD (bvh.indices.getD i 0) Primitive.zero))
    (k : Nat) (p : Primitive F) (hk : bvh.primitives.get? k = some p) :
    k < prims.length ∧ p ∈ prims ∧ p.bounds = prim_bounds prims (bvh.indices.getD k 0) := by
  rw [List.get?_eq_getElem?, hp, List.getElem?_map] at hk
  have hlen : bvh.indices.length = prims.length := by rw [hw.1, List.length_range]
  by_cases hkn : k < prims.length
  · rw [List.getElem?_range hkn, Option.map_some', Option.some.injEq] at hk
    have hk' : k < bvh.indices.length := by rw [hlen]; exact hkn
    have hj : bvh.indices.getD k 0 < prims.length := by
      rw [List.getD_eq_getElem _ _ hk']
      exact List.mem_range.mp (hw.2.1.mem_iff.mp (List.getElem_mem _))
    rw [List.getD_eq_getElem _ _ hj] at hk
    refine ⟨hkn, ?_, ?_⟩
    · rw [← hk]; exact List.getElem_mem _
    · unfold prim_bounds
      rw [List.get?_eq_getElem?, List.getElem?_eq_getElem hj, ← hk]
  · rw [List.getElem?_eq_none (by simpa using hkn)] at hk
    cases hk

end TraversalLemmas

/-! ### The order of boxes -/

section BoxOrderLemmas

variable {F : Type} [LinearOrderedField F]

theorem foldl_range'_congr {α : Type} (f g : α → Nat → α) :
    ∀ (n s : Nat) (a : α), (∀ i, s ≤ i → i < s + n → ∀ acc, f acc i = g acc i) →
      (List.range' s n).foldl f a = (List.range' s n).foldl g a := by
  intro n
  induction n with
  | zero => intro s a _; rfl
  | succ n ih =>
    intro s a h
    rw [List.range'_succ, List.foldl_cons, List.foldl_cons, h s (le_refl _) (by omega) a]
    exact ih (s + 1) _ (fun i h1 h2 acc => h i (by omega) (by omega) acc)

theorem boxLe_rfl (a : AABB F) : BoxLe a a := fun _ => ⟨le_refl _, le_refl _⟩

theorem boxLe_trans {a b c : AABB F} (h1 : BoxLe a b) (h2 : BoxLe b c) : BoxLe a c :=
  fun axis => ⟨le_trans (h2 axis).1 (h1 axis).1, le_trans (h1 axis).2 (h2 axis).2⟩

/-- The union of two boxes inside a box is inside that box. -/
theorem boxLe_union (a b x : AABB F) (ha : BoxLe a x) (hb : BoxLe b x) :
    BoxLe (aabb_union a b) x := by
  intro axis
  have h1 := ha axis
  have h2 := hb axis
  rcases axis with _ | _ | axis <;>
    simp only [aabb_union, vec3_create, Vec3.get] at h1 h2 ⊢ <;>
    exact ⟨le_min h1.1 h2.1, max_le h1.2 h2.2⟩

/-- The box of a range is the least box that encloses the empty box and the bounds of the
primitives of the range. -/
theorem range_bounds_least (prims : List (Primitive F)) (idx : List Nat) (lo hi : Nat)
    (box : AABB F) (h0 : BoxLe aabb_empty box)
    (h : ∀ k, lo ≤ k → k < hi → BoxLe (prim_bounds prims (idx.getD k 0)) box) :
    BoxLe (range_bounds prims idx lo hi) box := by
  unfold range_bounds
  exact foldl_range'_inv (fun _ (acc : AABB F) => BoxLe acc box)
    (fun bounds i => aabb_union bounds (prim_bounds prims (idx.getD i 0)))
    (hi - lo) lo aabb_empty h0
    (fun i acc hi1 hi2 hacc => boxLe_union _ _ _ hacc (h i hi1 (by omega)))

theorem range_bounds_ge_empty (prims : List (Primitive F)) (idx : List Nat) (lo hi : Nat) :
    BoxLe aabb_empty (range_bounds prims idx lo hi) := by
  unfold range_bounds
  exact foldl_range'_inv (fun _ (acc : AABB F) => BoxLe aabb_empty acc)
    (fun bounds i => aabb_union bounds (prim_bounds prims (idx.getD i 0)))
    (hi - lo) lo aabb_empty (boxLe_rfl _)
    (fun i acc _ _ hacc => boxLe_union_left _ _ _ hacc)

/-- The box of a range encloses the box of every range inside it. -/
theorem range_bounds_mono (prims : List (Primitive F)) (idx : List Nat) (lo hi lo' hi' : Nat)
    (h1 : lo ≤ lo') (h2 : hi' ≤ hi) :
    BoxLe (range_bounds prims idx lo' hi') (range_bounds prims idx lo hi) :=
  range_bounds_least prims idx lo' hi' _ (range_bounds_ge_empty prims idx lo hi)
    (fun k hk1 hk2 => range_bounds_encloses prims idx lo hi k (by omega) (by omega))

theorem boxLe_antisymm {a b : AABB F} (h1 : BoxLe a b) (h2 : BoxLe b a) : a = b := by
  have hx1 := h1 0
  have hy1 := h1 1
  have hz1 := h1 2
  have hx2 := h2 0
  have hy2 := h2 1
  have hz2 := h2 2
  simp only [Vec3.get] at hx1 hy1 hz1 hx2 hy2 hz2
  obtain ⟨⟨ax, ay, az⟩, ⟨ax', ay', az'⟩⟩ := a
  obtain ⟨⟨bx, b_y, bz⟩, ⟨bx', by', bz'⟩⟩ := b
  simp only [AABB.mk.injEq, Vec3.mk.injEq]
  dsimp only at hx1 hy1 hz1 hx2 hy2 hz2
  exact ⟨⟨le_antisymm hx2.1 hx1.1, le_antisymm hy2.1 hy1.1, le_antisymm hz2.1 hz1.1⟩,
    le_antisymm hx1.2 hx2.2, le_antisymm hy1.2 hy2.2, le_antisymm hz1.2 hz2.2⟩

end BoxOrderLemmas


/-! ## Traversal: what holds for every ray -/

section TraversalSoundLemmas

variable {F : Type} [LinearOrderedField F]

/-- A property of the traversal state that every primitive test preserves holds after the
leaf loop. -/
theorem bvh_hit_leaf_inv (sqrtf : F → F) (prims : List (Primitive F)) (ray : Ray F) (t_min : F)
    (P : TraverseState F → Prop)
    (hP : ∀ st k, P st → P (scan_primitive sqrtf prims ray t_min st k))
    (node : BVHNode F) (st : TraverseState F) (h : P st) :
    P (bvh_hit_leaf sqrtf prims ray t_min node st) := by
  unfold bvh_hit_leaf
  generalize List.range' 0 node.prim_count = l
  induction l generalizing st with
  | nil => exact h
  | cons a l ih => exact ih _ (hP st _ h)

end TraversalSoundLemmas

section TraversalInvariant

variable {F : Type} [LinearOrderedField F]

/-- Traversal of a subtree, whatever the ray: starting with the root of the subtree on top
of the stack, the loop either overflows the stack or pops back to the rest of the stack,
using at most one iteration per node, and a property of the state that every primitive
test preserves is kept. -/
theorem traverse_subtree_inv (sqrtf : F → F) (bvh : BVH F) (ray : Ray F) (t_min : F)
    (bnd : Nat → Nat → AABB F) (P : TraverseState F → Prop)
    (hP : ∀ st k, P st → P (scan_primitive sqrtf bvh.primitives ray t_min st k))
    {i lo hi next : Nat} (hsub : Subtree bvh.nodes bnd i lo hi next) :
    ∀ st, P st →
      ∃ st', P st' ∧
        ∀ (stack : List Nat) (fuel : Nat),
          bvh_hit_loop sqrtf bvh ray t_min (fuel + (next - i)) (i :: stack) st = .stack_overflow ∨
          ∃ fuel', fuel ≤ fuel' ∧
            bvh_hit_loop sqrtf bvh ray t_min (fuel + (next - i)) (i :: stack) st =
              bvh_hit_loop sqrtf bvh ray t_min fuel' stack st' := by
  induction hsub with
  | leaf i lo hi nd hget hl hf hc hle hle2 hbd =>
    intro st hv
    have hnext : ∀ fuel, fuel + (i + 1 - i) = fuel + 1 := fun fuel => by omega
    by_cases hbox : aabb_hit nd.bounds ray t_min st.closest_so_far = true
    · refine ⟨bvh_hit_leaf sqrtf bvh.primitives ray t_min nd st,
        bvh_hit_leaf_inv sqrtf bvh.primitives ray t_min P hP nd st hv, ?_⟩
      intro stack fuel
      rw [hnext]
      exact Or.inr ⟨fuel, le_refl _, bvh_hit_loop_leaf sqrtf bvh ray t_min fuel i stack st nd
        hget hbox hl⟩
    · refine ⟨st, hv, ?_⟩
      intro stack fuel
      rw [hnext]
      exact Or.inr ⟨fuel, le_refl _, bvh_hit_loop_skip sqrtf bvh ray t_min fuel i stack st nd
        hget hbox⟩
  | node i lo mid hi r next nd hget hl hlt hrt h1 h2 hbd hs1 hs2 ih1 ih2 =>
    intro st hv
    have hr1 := subtree_lt_next hs1
    have hr2 := subtree_lt_next hs2
    by_cases hbox : aabb_hit nd.bounds ray t_min st.closest_so_far = true
    · obtain ⟨st1, ha1, hloop1⟩ := ih2 st hv
      obtain ⟨st2, ha2, hloop2⟩ := ih1 st1 ha1
      refine ⟨st2, ha2, ?_⟩
      intro stack fuel
      have e0 : fuel + (next - i) = (fuel + (r - (i + 1)) + (next - r)) + 1 := by omega
      rw [e0]
      rcases bvh_hit_loop_internal sqrtf bvh ray t_min (fuel + (r - (i + 1)) + (next - r)) i
        stack st nd (i + 1) r hget hbox hl hlt hrt with hov | hstep
      · exact Or.inl hov
      rw [hstep]
      rcases hloop1 ((i + 1) :: stack) (fuel + (r - (i + 1))) with hov | ⟨f1, hf1, e1⟩
      · exact Or.inl hov
      rw [e1]
      have e2 : f1 = (f1 - (r - (i + 1))) + (r - (i + 1)) := by omega
      rw [e2]
      rcases hloop2 stack (f1 - (r - (i + 1))) with hov | ⟨f2, hf2, e3⟩
      · exact Or.inl hov
      exact Or.inr ⟨f2, by omega, e3⟩
    · refine ⟨st, hv, ?_⟩
      intro stack fuel
      have e0 : fuel + (next - i) = (fuel + (next - i) - 1) + 1 := by omega
      rw [e0]
      exact Or.inr ⟨fuel + (next - i) - 1, by omega,
        bvh_hit_loop_skip sqrtf bvh ray t_min _ i stack st nd hget hbox⟩

end TraversalInvariant

section TraversalSound

variable {F : Type} [LinearOrderedField F] [FloorRing F]

/-- The traversal of a tree built by `bvh_create` returns or overflows its stack, whatever
the ray, and a property of the state that every primitive test preserves holds of the
state it returns. -/
theorem bvh_hit_returns (sqrtf : F → F) (prims : List (Primitive F)) (bvh : BVH F)
    (hc : bvh_create prims = some bvh) (ray : Ray F) (t_min t_max : F) (rec : HitRecord F)
    (P : TraverseState F → Prop)
    (hP : ∀ st k, P st → P (scan_primitive sqrtf bvh.primitives ray t_min st k))
    (h0 : P ⟨false, t_max, rec⟩) :
    bvh_hit sqrtf bvh ray t_min t_max rec = .stack_overflow ∨
    ∃ st, P st ∧ bvh_hit sqrtf bvh ray t_min t_max rec = .done st.hit_anything st.record := by
  obtain ⟨bvh', hc', hroot, hpc, hnc, hpos, -, hw, hsub, hprims⟩ := bvh_create_spec prims
  rw [hc] at hc'
  obtain rfl : bvh = bvh' := Option.some.inj hc'
  obtain ⟨st, hst, hloop⟩ := traverse_subtree_inv sqrtf bvh ray t_min _ P hP hsub _ h0
  unfold bvh_hit
  rw [hroot, hnc]
  dsimp only
  rcases hloop [] 1 with hov | ⟨f, hf, e⟩
  · left
    rw [Nat.sub_zero, Nat.add_comm] at hov
    exact hov
  · right
    rw [Nat.sub_zero, Nat.add_comm] at e
    rw [e]
    obtain ⟨g, rfl⟩ : ∃ g, f = g + 1 := ⟨f - 1, by omega⟩
    exact ⟨st, hst, bvh_hit_loop_done sqrtf bvh ray t_min g st⟩

end TraversalSound

/-! ## The SAH search: candidates, bins and the partition -/

section SplitListLemmas

theorem getD_set {α : Type} (l : List α) (i j : Nat) (v d : α) :
    (l.set i v).getD j d = if i = j ∧ i < l.length then v else l.getD j d := by
  simp only [List.getD_eq_getElem?_getD, List.getElem?_set]
  by_cases hij : i = j
  · subst hij
    by_cases hi : i < l.length
    · simp [hi]
    · simp [hi, List.getElem?_eq_none (not_lt.mp hi)]
  · simp [hij]

theorem countP_split {α : Type} (p q r : α → Bool) (l : List α)
    (h : ∀ x, (r x = true ↔ (p x = true ∨ q x = true)) ∧ ¬ (p x = true ∧ q x = true)) :
    l.countP r = l.countP p + l.countP q := by
  induction l with
  | nil => rfl
  | cons x l ih =>
    rw [List.countP_cons, List.countP_cons, List.countP_cons, ih]
    obtain ⟨h1, h2⟩ := h x
    cases hp : p x <;> cases hq : q x <;> cases hr : r x <;> simp_all <;> omega

theorem swap_indices_getD (l : List Nat) (a b p : Nat) (ha : a < l.length) (hb : b < l.length) :
    (swap_indices l a b).getD p 0 =
      if p = b then l.getD a 0 else if p = a then l.getD b 0 else l.getD p 0 := by
  unfold swap_indices
  dsimp only
  rw [getD_set, getD_set, List.length_set]
  by_cases h1 : p = b
  · subst h1
    simp [hb]
  · by_cases h2 : p = a
    · subst h2
      simp [ha, h1, Ne.symm h1]
    · simp [h1, h2, Ne.symm h1, Ne.symm h2]

theorem take_succ_slice (idx : List Nat) (s i : Nat) (hsi : s ≤ i) (hi : i < idx.length) :
    (idx.drop s).take (i + 1 - s) = (idx.drop s).take (i - s) ++ [idx.getD i 0] := by
  rw [show i + 1 - s = (i - s) + 1 by omega, List.take_succ]
  congr 1
  rw [List.getElem?_drop, show s + (i - s) = i by omega, List.getElem?_eq_getElem hi]
  simp [List.getD_eq_getElem?_getD, List.getElem?_eq_getElem hi]

end SplitListLemmas

section SplitFieldLemmas

variable {F : Type} [LinearOrderedField F]

theorem aabb_union_comm (x y : AABB F) : aabb_union x y = aabb_union y x := by
  simp only [aabb_union, vec3_create, AABB.mk.injEq, Vec3.mk.injEq]
  exact ⟨⟨min_comm _ _, min_comm _ _, min_comm _ _⟩, max_comm _ _, max_comm _ _, max_comm _ _⟩

theorem bin_add_right_comm (bin : Bin F) (x y : AABB F) :
    Bin.add (Bin.add bin x) y = Bin.add (Bin.add bin y) x := by
  unfold Bin.add
  by_cases h : bin.count = 0
  · simp [h, aabb_union_comm x y]
  · simp [h, aabb_union_right_comm]

/-- The partition loop: the final `left_idx` is `start` plus the number of entries of the
range whose centre lies below the threshold, these entries fill the positions before
`left_idx`, and the others the positions from `left_idx` on. -/
theorem partition_spec (prims : List (Primitive F)) (axis : Nat) (thr : F) (idx : List Nat)
    (s e : Nat) (hse : s ≤ e) (he : e ≤ idx.length) :
    (partition_indices prims axis thr idx s e).2 =
      s + ((idx.drop s).take (e - s)).countP (fun j => decide (center_pos prims axis j < thr)) ∧
    (∀ p, s ≤ p → p < (partition_indices prims axis thr idx s e).2 →
      center_pos prims axis ((partition_indices prims axis thr idx s e).1.getD p 0) < thr) ∧
    (∀ p, (partition_indices prims axis thr idx s e).2 ≤ p → p < e →
      ¬ center_pos prims axis ((partition_indices prims axis thr idx s e).1.getD p 0) < thr) := by
  unfold partition_indices
  have key := foldl_range'_inv
    (fun i (acc : List Nat × Nat) =>
      acc.1.length = idx.length ∧ s ≤ acc.2 ∧ acc.2 ≤ i ∧
      acc.2 = s + ((idx.drop s).take (i - s)).countP
        (fun j => decide (center_pos prims axis j < thr)) ∧
      (∀ p, s ≤ p → p < acc.2 → center_pos prims axis (acc.1.getD p 0) < thr) ∧
      (∀ p, acc.2 ≤ p → p < i → ¬ center_pos prims axis (acc.1.getD p 0) < thr) ∧
      (∀ p, i ≤ p → acc.1.getD p 0 = idx.getD p 0))
    (fun acc i =>
      let center := aabb_center (prim_bounds prims (acc.1.getD i 0))
      let pos := center.get axis
      if pos < thr then (swap_indices acc.1 acc.2 i, acc.2 + 1) else acc)
    (e - s) s (idx, s)
    ⟨rfl, le_refl _, le_refl _, by simp, fun p h1 h2 => by dsimp only at h2; omega,
      fun p h1 h2 => by dsimp only at h1; omega, fun p _ => rfl⟩
    (by
      rintro i ⟨l, k⟩ hi hlt ⟨hlen, hk1, hk2, hcnt, hbelow, habove, hrest⟩
      dsimp only at hlen hk1 hk2 hcnt hbelow habove hrest ⊢
      have hil : i < idx.length := by omega
      have hx : l.getD i 0 = idx.getD i 0 := hrest i (le_refl _)
      have hpos : (aabb_center (prim_bounds prims (l.getD i 0))).get axis
          = center_pos prims axis (idx.getD i 0) := by rw [hx]; rfl
      rw [hpos, take_succ_slice idx s i hi hil, List.countP_append, List.countP_singleton]
      by_cases hb : center_pos prims axis (idx.getD i 0) < thr
      · rw [if_pos hb]
        dsimp only
        simp only [hb, decide_True, if_true]
        refine ⟨by rw [swap_indices_length]; exact hlen, by omega, by omega, by omega, ?_, ?_, ?_⟩
        · intro p hp1 hp2
          rw [swap_indices_getD l k i p (by omega) (by omega)]
          by_cases h1 : p = i
          · rw [if_pos h1]
            have : k = i := by omega
            rw [this, hx]; exact hb
          · rw [if_neg h1]
            by_cases h2 : p = k
            · rw [if_pos h2, hx]; exact hb
            · rw [if_neg h2]; exact hbelow p hp1 (by omega)
        · intro p hp1 hp2
          rw [swap_indices_getD l k i p (by omega) (by omega)]
          by_cases h1 : p = i
          · rw [if_pos h1]
            exact habove k (le_refl _) (by omega)
          · rw [if_neg h1, if_neg (by omega)]
            exact habove p (by omega) (by omega)
        · intro p hp
          rw [swap_indices_getD l k i p (by omega) (by omega), if_neg (by omega),
            if_neg (by omega)]
          exact hrest p (by omega)
      · rw [if_neg hb]
        dsimp only
        simp only [hb, decide_False, Bool.false_eq_true, if_false]
        refine ⟨hlen, hk1, by omega, by omega, hbelow, ?_, fun p hp => hrest p (by omega)⟩
        intro p hp1 hp2
        by_cases h1 : p = i
        · rw [h1, hx]; exact hb
        · exact habove p hp1 (by omega))
  obtain ⟨_, _, _, h4, h5, h6, _⟩ := key
  rw [show s + (e - s) = e by omega] at h4 h6
  exact ⟨h4, h5, h6⟩

end SplitFieldLemmas

section SplitLemmas

variable {F : Type} [LinearOrderedField F] [FloorRing F]

/-- The "Fill bins" loop as a fold over the entries of the range. -/
theorem fill_bins_eq_foldl (prims : List (Primitive F)) (idx : List Nat) (s e axis : Nat)
    (axis_min bin_width : F) (he : e ≤ idx.length) :
    fill_bins prims idx s e axis axis_min bin_width =
      ((idx.drop s).take (e - s)).foldl (bin_step prims axis axis_min bin_width)
        (List.replicate 12 Bin.zero) := by
  rw [← map_getD_range' idx s e he, List.foldl_map]
  rfl

theorem bin_step_eq (prims : List (Primitive F)) (axis : Nat) (axis_min bin_width : F)
    (bins : List (Bin F)) (j : Nat) :
    bin_step prims axis axis_min bin_width bins j =
      bins.set (bin_index prims axis axis_min bin_width j)
        (Bin.add (bins.getD (bin_index prims axis axis_min bin_width j) Bin.zero)
          (prim_bounds prims j)) := by
  unfold bin_step Bin.add
  dsimp only
  by_cases h : (bins.getD (bin_index prims axis axis_min bin_width j) Bin.zero).count = 0
  · rw [if_pos (by omega), if_pos h]
  · rw [if_neg (by omega), if_neg h]

/-- The body of the "Fill bins" loop gives the same bins for two primitives taken in
either order. -/
theorem bin_step_right_comm (prims : List (Primitive F)) (axis : Nat) (axis_min bin_width : F)
    (bins : List (Bin F)) (x y : Nat) :
    bin_step prims axis axis_min bin_width (bin_step prims axis axis_min bin_width bins x) y =
      bin_step prims axis axis_min bin_width (bin_step prims axis axis_min bin_width bins y) x := by
  simp only [bin_step_eq, getD_set]
  generalize bin_index prims axis axis_min bin_width x = i
  generalize bin_index prims axis axis_min bin_width y = j
  generalize prim_bounds prims x = bx
  generalize prim_bounds prims y = b_y
  by_cases hij : i = j
  · subst hij
    by_cases hi : i < bins.length
    · simp only [hi, and_self, if_true, List.set_set, bin_add_right_comm]
    · rw [List.set_eq_of_length_le (not_lt.mp hi), List.set_eq_of_length_le (not_lt.mp hi),
        List.set_eq_of_length_le (not_lt.mp hi), List.set_eq_of_length_le (not_lt.mp hi)]
  · have hji : ¬ j = i := fun h => hij h.symm
    simp only [hij, hji, false_and, if_false]
    exact List.set_comm _ _ _ hij

/-- The bins of a range are unchanged by a permutation of the range. -/
theorem fill_bins_within (prims : List (Primitive F)) (idx idx' : List Nat) (s e axis : Nat)
    (axis_min bin_width : F) (hse : s ≤ e) (he : e ≤ idx.length) (h : Within s e idx idx') :
    fill_bins prims idx' s e axis axis_min bin_width =
      fill_bins prims idx s e axis axis_min bin_width := by
  rw [fill_bins_eq_foldl _ _ _ _ _ _ _ he,
    fill_bins_eq_foldl _ _ _ _ _ _ _ (by rw [h.1]; exact he)]
  haveI : RightCommutative (bin_step prims axis axis_min bin_width) :=
    ⟨fun b x y => bin_step_right_comm prims axis axis_min bin_width b x y⟩
  exact (slice_perm_of_within h hse).foldl_eq _

/-- The loop over the axes works with the bounds and bins of the range as it was on entry:
the partitions in between only permute the range. -/
theorem axis_step_eq (prims : List (Primitive F)) (idx : List Nat) (s e : Nat)
    (acc : SplitCandidate F × List Nat) (axis : Nat)
    (hse : s ≤ e) (he : e ≤ idx.length) (hacc : Within s e idx acc.2) :
    axis_step prims s e acc axis =
      if (range_bounds prims idx s e).max.get axis - (range_bounds prims idx s e).min.get axis
          < 1 / 10000 then acc
      else (List.range' 1 (12 - 1)).foldl
        (sweep_step prims s e axis (range_bounds prims idx s e)
          ((range_bounds prims idx s e).min.get axis) (axis_bin_width prims idx s e axis)
          (axis_bins prims idx s e axis)) acc := by
  unfold axis_step axis_bins axis_bin_width
  dsimp only
  rw [range_bounds_within prims idx acc.2 s e hse he hacc,
    fill_bins_within prims idx acc.2 s e axis _ _ hse he hacc]

/-- A sweep iteration passes over a split that is not a candidate. -/
theorem sweep_step_none (prims : List (Primitive F)) (idx : List Nat) (s e axis sb : Nat)
    (acc : SplitCandidate F × List Nat)
    (hext : ¬ (range_bounds prims idx s e).max.get axis -
      (range_bounds prims idx s e).min.get axis < 1 / 10000)
    (hc : split_cost prims idx s e axis sb = none) :
    sweep_step prims s e axis (range_bounds prims idx s e)
      ((range_bounds prims idx s e).min.get axis) (axis_bin_width prims idx s e axis)
      (axis_bins prims idx s e axis) acc sb = acc := by
  unfold split_cost at hc
  simp only [hext, if_false] at hc
  unfold sweep_step
  dsimp only
  split_ifs at hc with h
  rw [if_pos h]

/-- A sweep iteration takes a candidate when its cost is below the best so far, and then
runs the partition for its threshold. -/
theorem sweep_step_some (prims : List (Primitive F)) (idx : List Nat) (s e axis sb : Nat)
    (acc : SplitCandidate F × List Nat) (c : F)
    (hpa : aabb_surface_area (range_bounds prims idx s e) ≠ 0)
    (hc : split_cost prims idx s e axis sb = some c) :
    sweep_step prims s e axis (range_bounds prims idx s e)
      ((range_bounds prims idx s e).min.get axis) (axis_bin_width prims idx s e axis)
      (axis_bins prims idx s e axis) acc sb =
      if c < acc.1.cost then
        (⟨c, axis, (partition_indices prims axis (split_threshold prims idx s e axis sb)
            acc.2 s e).2⟩,
          (partition_indices prims axis (split_threshold prims idx s e axis sb) acc.2 s e).1)
      else acc := by
  unfold split_cost at hc
  dsimp only at hc
  split_ifs at hc with hext h
  cases hc
  unfold sweep_step
  dsimp only
  rw [if_neg h, if_neg hpa]
  rfl

theorem bin_index_lt (prims : List (Primitive F)) (axis : Nat) (axis_min bin_width : F)
    (j : Nat) : bin_index prims axis axis_min bin_width j < 12 := by
  unfold bin_index
  dsimp only
  split_ifs <;> omega

/-- The primitives the "Fill bins" loop puts in a bin below `sb` are those whose centre lies
below the threshold `axis_min + sb * bin_width`. -/
theorem bin_index_lt_iff (prims : List (Primitive F)) (axis : Nat) (axis_min bin_width : F)
    (j sb : Nat) (hw : 0 < bin_width) (hsb1 : 1 ≤ sb) (hsb : sb ≤ 11) :
    bin_index prims axis axis_min bin_width j < sb ↔
      center_pos prims axis j < axis_min + (sb : F) * bin_width := by
  have hdiv : (center_pos prims axis j - axis_min) / bin_width < (sb : F) ↔
      center_pos prims axis j < axis_min + (sb : F) * bin_width := by
    rw [div_lt_iff₀ hw]
    constructor <;> intro h <;> linarith
  unfold bin_index
  dsimp only
  split_ifs with h
  · have h12 : (12 : F) ≤ (center_pos prims axis j - axis_min) / bin_width := by
      have := (Nat.le_floor_iff' (by norm_num : (12 : ℕ) ≠ 0)).mp h
      exact_mod_cast this
    have hsbF : (sb : F) ≤ 11 := by exact_mod_cast hsb
    constructor
    · intro h'; omega
    · intro h'
      rw [← hdiv] at h'
      linarith
  · rw [Nat.floor_lt' (by omega : sb ≠ 0), hdiv]

/-- The count of a bin after the "Fill bins" loop. -/
theorem foldl_bin_step_count (prims : List (Primitive F)) (axis : Nat) (axis_min bin_width : F)
    (l : List Nat) : ∀ (bins : List (Bin F)), bins.length = 12 → ∀ b,
      ((l.foldl (bin_step prims axis axis_min bin_width) bins).getD b Bin.zero).count =
        (bins.getD b Bin.zero).count +
          l.countP (fun j => decide (bin_index prims axis axis_min bin_width j = b)) := by
  induction l with
  | nil => intro bins _ b; simp
  | cons x l ih =>
    intro bins hlen b
    rw [List.foldl_cons, ih _ (by rw [bin_step_eq, List.length_set]; exact hlen) b,
      List.countP_cons, bin_step_eq, getD_set, hlen]
    have hx := bin_index_lt prims axis axis_min bin_width x
    by_cases hb : bin_index prims axis axis_min bin_width x = b
    · subst hb
      simp only [hx, and_self, if_true, Bin.add, decide_True]
      omega
    · simp only [hb, false_and, if_false, decide_False, Bool.false_eq_true]
      omega

theorem fill_bins_count (prims : List (Primitive F)) (idx : List Nat) (s e axis : Nat)
    (axis_min bin_width : F) (he : e ≤ idx.length) (b : Nat) :
    ((fill_bins prims idx s e axis axis_min bin_width).getD b Bin.zero).count =
      ((idx.drop s).take (e - s)).countP
        (fun j => decide (bin_index prims axis axis_min bin_width j = b)) := by
  rw [fill_bins_eq_foldl _ _ _ _ _ _ _ he, foldl_bin_step_count _ _ _ _ _ _ (by simp)]
  have : ((List.replicate 12 (Bin.zero : Bin F)).getD b Bin.zero).count = 0 := by
    simp only [List.getD_eq_getElem?_getD, List.getElem?_replicate]
    split_ifs <;> rfl
  rw [this, Nat.zero_add]

/-- The count of a sweep over the bins `lo ≤ i < hi`. -/
theorem sweep_bins_count (prims : List (Primitive F)) (idx : List Nat) (s e axis : Nat)
    (axis_min bin_width : F) (he : e ≤ idx.length) (lo hi : Nat) (hlo : lo ≤ hi) :
    (sweep_bins (fill_bins prims idx s e axis axis_min bin_width) lo hi).2 =
      ((idx.drop s).take (e - s)).countP
        (fun j => decide (lo ≤ bin_index prims axis axis_min bin_width j ∧
          bin_index prims axis axis_min bin_width j < hi)) := by
  unfold sweep_bins
  have key := foldl_range'_inv
    (fun i (acc : AABB F × Nat) => acc.2 = ((idx.drop s).take (e - s)).countP
      (fun j => decide (lo ≤ bin_index prims axis axis_min bin_width j ∧
        bin_index prims axis axis_min bin_width j < i)))
    (fun acc i =>
      let bin := (fill_bins prims idx s e axis axis_min bin_width).getD i Bin.zero
      if bin.count > 0 then (aabb_union acc.1 bin.bounds, acc.2 + bin.count) else acc)
    (hi - lo) lo (aabb_empty, 0)
    (by
      dsimp only
      symm
      rw [List.countP_eq_zero]
      intro j _
      simp only [decide_eq_true_eq]
      omega)
    (by
      rintro i ⟨bx, n⟩ hi1 hi2 hacc
      dsimp only at hacc ⊢
      have hsplit := countP_split
        (fun j => decide (lo ≤ bin_index prims axis axis_min bin_width j ∧
          bin_index prims axis axis_min bin_width j < i))
        (fun j => decide (bin_index prims axis axis_min bin_width j = i))
        (fun j => decide (lo ≤ bin_index prims axis axis_min bin_width j ∧
          bin_index prims axis axis_min bin_width j < i + 1))
        ((idx.drop s).take (e - s))
        (by intro x; simp only [decide_eq_true_eq]; omega)
      rw [hsplit, ← hacc, ← fill_bins_count prims idx s e axis axis_min bin_width he i]
      split_ifs with hc
      · rfl
      · dsimp only
        omega)
  rw [show lo + (hi - lo) = hi by omega] at key
  exact key

/-- For a candidate of the search, the bins are not degenerate, both sides hold a primitive,
the left count is the number of entries of the range with the centre below the threshold,
and the two counts add up to the size of the range. -/
theorem split_cost_counts (prims : List (Primitive F)) (idx : List Nat) (s e axis sb : Nat)
    (c : F) (he : e ≤ idx.length) (hsb1 : 1 ≤ sb) (hsb : sb ≤ 11)
    (hc : split_cost prims idx s e axis sb = some c) :
    left_count prims idx s e axis sb ≠ 0 ∧ right_count prims idx s e axis sb ≠ 0 ∧
    left_count prims idx s e axis sb =
      ((idx.drop s).take (e - s)).countP
        (fun j => decide (center_pos prims axis j < split_threshold prims idx s e axis sb)) ∧
    left_count prims idx s e axis sb + right_count prims idx s e axis sb = e - s := by
  unfold split_cost at hc
  dsimp only at hc
  split_ifs at hc with hext h
  have hw : 0 < axis_bin_width prims idx s e axis := by
    unfold axis_bin_width
    have : (0 : F) < 1 / 10000 := by norm_num
    have := lt_of_lt_of_le this (not_lt.mp hext)
    positivity
  have hl : left_count prims idx s e axis sb =
      ((idx.drop s).take (e - s)).countP (fun j => decide (0 ≤
        bin_index prims axis ((range_bounds prims idx s e).min.get axis)
          (axis_bin_width prims idx s e axis) j ∧
        bin_index prims axis ((range_bounds prims idx s e).min.get axis)
          (axis_bin_width prims idx s e axis) j < sb)) :=
    sweep_bins_count prims idx s e axis _ _ he 0 sb (Nat.zero_le _)
  have hr : right_count prims idx s e axis sb =
      ((idx.drop s).take (e - s)).countP (fun j => decide (sb ≤
        bin_index prims axis ((range_bounds prims idx s e).min.get axis)
          (axis_bin_width prims idx s e axis) j ∧
        bin_index prims axis ((range_bounds prims idx s e).min.get axis)
          (axis_bin_width prims idx s e axis) j < 12)) :=
    sweep_bins_count prims idx s e axis _ _ he sb 12 (by omega)
  refine ⟨fun h0 => h (Or.inl h0), fun h0 => h (Or.inr h0), ?_, ?_⟩
  · rw [hl]
    apply List.countP_congr
    intro j _
    simp only [decide_eq_true_eq, Nat.zero_le, true_and]
    exact bin_index_lt_iff prims axis _ _ j sb hw hsb1 hsb
  · rw [hl, hr, ← countP_split _ _ (fun _ => true)]
    · rw [List.countP_true, List.length_take, List.length_drop]
      omega
    · intro j
      have := bin_index_lt prims axis ((range_bounds prims idx s e).min.get axis)
        (axis_bin_width prims idx s e axis) j
      simp only [decide_eq_true_eq]
      refine ⟨⟨fun _ => ?_, fun _ => trivial⟩, ?_⟩ <;> omega

end SplitLemmas
/-! ## The SAH search with rounding -/

section SplitRoundedFieldLemmas

variable {F : Type} [LinearOrderedField F]

theorem within_partition_rounded (fl : F → F) (prims : List (Primitive F)) (axis : Nat)
    (split_pos : F) (idx : List Nat) (s e : Nat) (hse : s ≤ e) (he : e ≤ idx.length) :
    Within s e idx (partition_indices_rounded fl prims axis split_pos idx s e).1 ∧
    s ≤ (partition_indices_rounded fl prims axis split_pos idx s e).2 ∧
    (partition_indices_rounded fl prims axis split_pos idx s e).2 ≤ e := by
  unfold partition_indices_rounded
  have key := foldl_range'_inv
    (fun i (acc : List Nat × Nat) => Within s e idx acc.1 ∧ s ≤ acc.2 ∧ acc.2 ≤ i)
    (fun acc i =>
      let center := aabb_center_rounded fl (prim_bounds prims (acc.1.getD i 0))
      let pos := center.get axis
      if pos < split_pos then (swap_indices acc.1 acc.2 i, acc.2 + 1) else acc)
    (e - s) s (idx, s) ⟨within_refl _ _ _, le_refl _, le_refl _⟩
    (by
      rintro i ⟨l, k⟩ hi hlt ⟨hw, hk1, hk2⟩
      dsimp only
      split
      · refine ⟨within_trans hw (within_swap s e l k i ?_ hk1 ?_ hi ?_), ?_, ?_⟩
        · rw [hw.1]; exact he
        · dsimp only at hk2; omega
        · omega
        · dsimp only; omega
        · dsimp only at hk2 ⊢; omega
      · exact ⟨hw, hk1, by dsimp only at hk2 ⊢; omega⟩)
  obtain ⟨h1, h2, h3⟩ := key
  exact ⟨h1, h2, by omega⟩

/-- The partition loop: the final `left_idx` is `start` plus the number of entries of the
range whose centre lies below the threshold, these entries fill the positions before
`left_idx`, and the others the positions from `left_idx` on. -/
theorem partition_rounded_spec (fl : F → F) (prims : List (Primitive F)) (axis : Nat) (thr : F)
    (idx : List Nat) (s e : Nat) (hse : s ≤ e) (he : e ≤ idx.length) :
    (partition_indices_rounded fl prims axis thr idx s e).2 =
      s + ((idx.drop s).take (e - s)).countP
        (fun j => decide (center_pos_rounded fl prims axis j < thr)) ∧
    (∀ p, s ≤ p → p < (partition_indices_rounded fl prims axis thr idx s e).2 →
      center_pos_rounded fl prims axis
        ((partition_indices_rounded fl prims axis thr idx s e).1.getD p 0) < thr) ∧
    (∀ p, (partition_indices_rounded fl prims axis thr idx s e).2 ≤ p → p < e →
      ¬ center_pos_rounded fl prims axis
        ((partition_indices_rounded fl prims axis thr idx s e).1.getD p 0) < thr) := by
  unfold partition_indices_rounded
  have key := foldl_range'_inv
    (fun i (acc : List Nat × Nat) =>
      acc.1.length = idx.length ∧ s ≤ acc.2 ∧ acc.2 ≤ i ∧
      acc.2 = s + ((idx.drop s).take (i - s)).countP
        (fun j => decide (center_pos_rounded fl prims axis j < thr)) ∧
      (∀ p, s ≤ p → p < acc.2 → center_pos_rounded fl prims axis (acc.1.getD p 0) < thr) ∧
      (∀ p, acc.2 ≤ p → p < i →
        ¬ center_pos_rounded fl prims axis (acc.1.getD p 0) < thr) ∧
      (∀ p, i ≤ p → acc.1.getD p 0 = idx.getD p 0))
    (fun acc i =>
      let center := aabb_center_rounded fl (prim_bounds prims (acc.1.getD i 0))
      let pos := center.get axis
      if pos < thr then (swap_indices acc.1 acc.2 i, acc.2 + 1) else acc)
    (e - s) s (idx, s)
    ⟨rfl, le_refl _, le_refl _, by simp, fun p h1 h2 => by dsimp only at h2; omega,
      fun p h1 h2 => by dsimp only at h1; omega, fun p _ => rfl⟩
    (by
      rintro i ⟨l, k⟩ hi hlt ⟨hlen, hk1, hk2, hcnt, hbelow, habove, hrest⟩
      dsimp only at hlen hk1 hk2 hcnt hbelow habove hrest ⊢
      have hil : i < idx.length := by omega
      have hx : l.getD i 0 = idx.getD i 0 := hrest i (le_refl _)
      have hpos : (aabb_center_rounded fl (prim_bounds prims (l.getD i 0))).get axis
          = center_pos_rounded fl prims axis (idx.getD i 0) := by rw [hx]; rfl
      rw [hpos, take_succ_slice idx s i hi hil, List.countP_append, List.countP_singleton]
      by_cases hb : center_pos_rounded fl prims axis (idx.getD i 0) < thr
      · rw [if_pos hb]
        dsimp only
        simp only [hb, decide_True, if_true]
        refine ⟨by rw [swap_indices_length]; exact hlen, by omega, by omega, by omega, ?_, ?_, ?_⟩
        · intro p hp1 hp2
          rw [swap_indices_getD l k i p (by omega) (by omega)]
          by_cases h1 : p = i
          · rw [if_pos h1]
            have : k = i := by omega
            rw [this, hx]; exact hb
          · rw [if_neg h1]
            by_cases h2 : p = k
            · rw [if_pos h2, hx]; exact hb
            · rw [if_neg h2]; exact hbelow p hp1 (by omega)
        · intro p hp1 hp2
          rw [swap_indices_getD l k i p (by omega) (by omega)]
          by_cases h1 : p = i
          · rw [if_pos h1]
            exact habove k (le_refl _) (by omega)
          · rw [if_neg h1, if_neg (by omega)]
            exact habove p (by omega) (by omega)
        · intro p hp
          rw [swap_indices_getD l k i p (by omega) (by omega), if_neg (by omega),
            if_neg (by omega)]
          exact hrest p (by omega)
      · rw [if_neg hb]
        dsimp only
        simp only [hb, decide_False, Bool.false_eq_true, if_false]
        refine ⟨hlen, hk1, by omega, by omega, hbelow, ?_, fun p hp => hrest p (by omega)⟩
        intro p hp1 hp2
        by_cases h1 : p = i
        · rw [h1, hx]; exact hb
        · exact habove p hp1 (by omega))
  obtain ⟨_, _, _, h4, h5, h6, _⟩ := key
  rw [show s + (e - s) = e by omega] at h4 h6
  exact ⟨h4, h5, h6⟩

end SplitRoundedFieldLemmas

section SplitRoundedLemmas

variable {F : Type} [LinearOrderedField F] [FloorRing F]

/-- The "Fill bins" loop as a fold over the entries of the range. -/
theorem fill_bins_rounded_eq_foldl (fl : F → F) (prims : List (Primitive F)) (idx : List Nat)
    (s e axis : Nat)
    (axis_min bin_width : F) (he : e ≤ idx.length) :
    fill_bins_rounded fl prims idx s e axis axis_min bin_width =
      ((idx.drop s).take (e - s)).foldl (bin_step_rounded fl prims axis axis_min bin_width)
        (List.replicate 12 Bin.zero) := by
  rw [← map_getD_range' idx s e he, List.foldl_map]
  rfl

theorem bin_step_rounded_eq (fl : F → F) (prims : List (Primitive F)) (axis : Nat)
    (axis_min bin_width : F)
    (bins : List (Bin F)) (j : Nat) :
    bin_step_rounded fl prims axis axis_min bin_width bins j =
      bins.set (bin_index_rounded fl prims axis axis_min bin_width j)
        (Bin.add (bins.getD (bin_index_rounded fl prims axis axis_min bin_width j) Bin.zero)
          (prim_bounds prims j)) := by
  unfold bin_step_rounded Bin.add
  dsimp only
  by_cases h : (bins.getD (bin_index_rounded fl prims axis axis_min bin_width j) Bin.zero).count = 0
  · rw [if_pos (by omega), if_pos h]
  · rw [if_neg (by omega), if_neg h]

/-- The body of the "Fill bins" loop gives the same bins for two primitives taken in
either order. -/
theorem bin_step_rounded_right_comm (fl : F → F) (prims : List (Primitive F)) (axis : Nat)
    (axis_min bin_width : F)
    (bins : List (Bin F)) (x y : Nat) :
    bin_step_rounded fl prims axis axis_min bin_width
        (bin_step_rounded fl prims axis axis_min bin_width bins x) y =
      bin_step_rounded fl prims axis axis_min bin_width
        (bin_step_rounded fl prims axis axis_min bin_width bins y) x := by
  simp only [bin_step_rounded_eq, getD_set]
  generalize bin_index_rounded fl prims axis axis_min bin_width x = i
  generalize bin_index_rounded fl prims axis axis_min bin_width y = j
  generalize prim_bounds prims x = bx
  generalize prim_bounds prims y = b_y
  by_cases hij : i = j
  · subst hij
    by_cases hi : i < bins.length
    · simp only [hi, and_self, if_true, List.set_set, bin_add_right_comm]
    · rw [List.set_eq_of_length_le (not_lt.mp hi), List.set_eq_of_length_le (not_lt.mp hi),
        List.set_eq_of_length_le (not_lt.mp hi), List.set_eq_of_length_le (not_lt.mp hi)]
  · have hji : ¬ j = i := fun h => hij h.symm
    simp only [hij, hji, false_and, if_false]
    exact List.set_comm _ _ _ hij

/-- The bins of a range are unchanged by a permutation of the range. -/
theorem fill_bins_rounded_within (fl : F → F) (prims : List (Primitive F))
    (idx idx' : List Nat) (s e axis : Nat)
    (axis_min bin_width : F) (hse : s ≤ e) (he : e ≤ idx.length) (h : Within s e idx idx') :
    fill_bins_rounded fl prims idx' s e axis axis_min bin_width =
      fill_bins_rounded fl prims idx s e axis axis_min bin_width := by
  rw [fill_bins_rounded_eq_foldl _ _ _ _ _ _ _ _ he,
    fill_bins_rounded_eq_foldl _ _ _ _ _ _ _ _ (by rw [h.1]; exact he)]
  haveI : RightCommutative (bin_step_rounded fl prims axis axis_min bin_width) :=
    ⟨fun b x y => bin_step_rounded_right_comm fl prims axis axis_min bin_width b x y⟩
  exact (slice_perm_of_within h hse).foldl_eq _

theorem bin_index_rounded_lt (fl : F → F) (prims : List (Primitive F)) (axis : Nat)
    (axis_min bin_width : F)
    (j : Nat) : bin_index_rounded fl prims axis axis_min bin_width j < 12 := by
  unfold bin_index_rounded
  dsimp only
  split_ifs <;> omega

/-- The count of a bin after the "Fill bins" loop. -/
theorem foldl_bin_step_rounded_count (fl : F → F) (prims : List (Primitive F)) (axis : Nat)
    (axis_min bin_width : F)
    (l : List Nat) : ∀ (bins : List (Bin F)), bins.length = 12 → ∀ b,
      ((l.foldl (bin_step_rounded fl prims axis axis_min bin_width) bins).getD b Bin.zero).count =
        (bins.getD b Bin.zero).count +
          l.countP
            (fun j => decide (bin_index_rounded fl prims axis axis_min bin_width j = b)) := by
  induction l with
  | nil => intro bins _ b; simp
  | cons x l ih =>
    intro bins hlen b
    rw [List.foldl_cons, ih _ (by rw [bin_step_rounded_eq, List.length_set]; exact hlen) b,
      List.countP_cons, bin_step_rounded_eq, getD_set, hlen]
    have hx := bin_index_rounded_lt fl prims axis axis_min bin_width x
    by_cases hb : bin_index_rounded fl prims axis axis_min bin_width x = b
    · subst hb
      simp only [hx, and_self, if_true, Bin.add, decide_True]
      omega
    · simp only [hb, false_and, if_false, decide_False, Bool.false_eq_true]
      omega

theorem fill_bins_rounded_count (fl : F → F) (prims : List (Primitive F)) (idx : List Nat)
    (s e axis : Nat)
    (axis_min bin_width : F) (he : e ≤ idx.length) (b : Nat) :
    ((fill_bins_rounded fl prims idx s e axis axis_min bin_width).getD b Bin.zero).count =
      ((idx.drop s).take (e - s)).countP
        (fun j => decide (bin_index_rounded fl prims axis axis_min bin_width j = b)) := by
  rw [fill_bins_rounded_eq_foldl _ _ _ _ _ _ _ _ he,
    foldl_bin_step_rounded_count _ _ _ _ _ _ _ (by simp)]
  have : ((List.replicate 12 (Bin.zero : Bin F)).getD b Bin.zero).count = 0 := by
    simp only [List.getD_eq_getElem?_getD, List.getElem?_replicate]
    split_ifs <;> rfl
  rw [this, Nat.zero_add]

/-- The count of a sweep over the bins `lo ≤ i < hi`. -/
theorem sweep_bins_rounded_count (fl : F → F) (prims : List (Primitive F)) (idx : List Nat)
    (s e axis : Nat)
    (axis_min bin_width : F) (he : e ≤ idx.length) (lo hi : Nat) (hlo : lo ≤ hi) :
    (sweep_bins (fill_bins_rounded fl prims idx s e axis axis_min bin_width) lo hi).2 =
      ((idx.drop s).take (e - s)).countP
        (fun j => decide (lo ≤ bin_index_rounded fl prims axis axis_min bin_width j ∧
          bin_index_rounded fl prims axis axis_min bin_width j < hi)) := by
  unfold sweep_bins
  have key := foldl_range'_inv
    (fun i (acc : AABB F × Nat) => acc.2 = ((idx.drop s).take (e - s)).countP
      (fun j => decide (lo ≤ bin_index_rounded fl prims axis axis_min bin_width j ∧
        bin_index_rounded fl prims axis axis_min bin_width j < i)))
    (fun acc i =>
      let bin := (fill_bins_rounded fl prims idx s e axis axis_min bin_width).getD i Bin.zero
      if bin.count > 0 then (aabb_union acc.1 bin.bounds, acc.2 + bin.count) else acc)
    (hi - lo) lo (aabb_empty, 0)
    (by
      dsimp only
      symm
      rw [List.countP_eq_zero]
      intro j _
      simp only [decide_eq_true_eq]
      omega)
    (by
      rintro i ⟨bx, n⟩ hi1 hi2 hacc
      dsimp only at hacc ⊢
      have hsplit := countP_split
        (fun j => decide (lo ≤ bin_index_rounded fl prims axis axis_min bin_width j ∧
          bin_index_rounded fl prims axis axis_min bin_width j < i))
        (fun j => decide (bin_index_rounded fl prims axis axis_min bin_width j = i))
        (fun j => decide (lo ≤ bin_index_rounded fl prims axis axis_min bin_width j ∧
          bin_index_rounded fl prims axis axis_min bin_width j < i + 1))
        ((idx.drop s).take (e - s))
        (by intro x; simp only [decide_eq_true_eq]; omega)
      rw [hsplit, ← hacc,
        ← fill_bins_rounded_count fl prims idx s e axis axis_min bin_width he i]
      split_ifs with hc
      · rfl
      · dsimp only
        omega)
  rw [show lo + (hi - lo) = hi by omega] at key
  exact key
/-- The loop over the axes of the rounded search works with the bounds and bins of the range
as it was on entry: the partitions in between only permute the range. -/
theorem axis_step_rounded_eq (fl : F → F) (prims : List (Primitive F)) (idx : List Nat)
    (s e : Nat) (acc : SplitCandidate F × List Nat) (axis : Nat)
    (hse : s ≤ e) (he : e ≤ idx.length) (hacc : Within s e idx acc.2) :
    axis_step_rounded fl prims s e acc axis =
      if fl ((range_bounds prims idx s e).max.get axis -
          (range_bounds prims idx s e).min.get axis) < fl (1 / 10000) then acc
      else (List.range' 1 (12 - 1)).foldl
        (sweep_step_rounded fl prims s e axis (range_bounds prims idx s e)
          ((range_bounds prims idx s e).min.get axis)
          (axis_bin_width_rounded fl prims idx s e axis)
          (axis_bins_rounded fl prims idx s e axis)) acc := by
  unfold axis_step_rounded axis_bins_rounded axis_bin_width_rounded
  dsimp only
  rw [range_bounds_within prims idx acc.2 s e hse he hacc,
    fill_bins_rounded_within fl prims idx acc.2 s e axis _ _ hse he hacc]

/-- One iteration of the sweep loop keeps the invariant of the rounded search. -/
theorem sweep_step_rounded_inv (fl : F → F) (prims : List (Primitive F)) (idx : List Nat)
    (s e a k : Nat) (acc : SplitCandidate F × List Nat) (hse : s ≤ e) (he : e ≤ idx.length)
    (ha : a < 3) (hk1 : 1 ≤ k) (hk : k ≤ 11)
    (hext : ¬ axis_skipped_rounded fl prims idx s e a)
    (h : PartitionedSoFar fl prims idx s e acc) :
    PartitionedSoFar fl prims idx s e
      (sweep_step_rounded fl prims s e a (range_bounds prims idx s e)
        ((range_bounds prims idx s e).min.get a) (axis_bin_width_rounded fl prims idx s e a)
        (axis_bins_rounded fl prims idx s e a) acc k) := by
  obtain ⟨hw, hbest⟩ := h
  have hmax : acc.1.cost ≤ FLT_MAX := by
    rcases hbest with ⟨h1, _⟩ | ⟨a0, sb0, idx', _, _, _, _, _, _, _, h5, _⟩
    · rw [h1]
    · exact le_of_lt h5
  unfold sweep_step_rounded
  dsimp only
  split_ifs with h0 hpa hlt
  · exact ⟨hw, hbest⟩
  · exact ⟨hw, hbest⟩
  · refine ⟨within_trans hw
      (within_partition_rounded fl prims a _ acc.2 s e hse (by rw [hw.1]; exact he)).1, ?_⟩
    exact Or.inr ⟨a, k, acc.2, ha, hk1, hk, hext, fun h1 => h0 (Or.inl h1),
      fun h1 => h0 (Or.inr h1), rfl, lt_of_lt_of_le hlt hmax, rfl, hw, rfl, rfl⟩
  · exact ⟨hw, hbest⟩

/-- One iteration of the loop over the axes keeps the invariant of the rounded search. -/
theorem axis_step_rounded_inv (fl : F → F) (prims : List (Primitive F)) (idx : List Nat)
    (s e a : Nat) (acc : SplitCandidate F × List Nat) (hse : s ≤ e) (he : e ≤ idx.length)
    (ha : a < 3) (h : PartitionedSoFar fl prims idx s e acc) :
    PartitionedSoFar fl prims idx s e (axis_step_rounded fl prims s e acc a) := by
  rw [axis_step_rounded_eq fl prims idx s e acc a hse he h.1]
  by_cases hext : fl ((range_bounds prims idx s e).max.get a -
      (range_bounds prims idx s e).min.get a) < fl (1 / 10000)
  · rw [if_pos hext]
    exact h
  · rw [if_neg hext]
    exact foldl_range'_inv
      (fun _ (acc' : SplitCandidate F × List Nat) => PartitionedSoFar fl prims idx s e acc')
      (sweep_step_rounded fl prims s e a (range_bounds prims idx s e)
        ((range_bounds prims idx s e).min.get a) (axis_bin_width_rounded fl prims idx s e a)
        (axis_bins_rounded fl prims idx s e a)) (12 - 1) 1 acc h
      (fun k acc' hk1 hk hb =>
        sweep_step_rounded_inv fl prims idx s e a k acc' hse he ha hk1 (by omega) hext hb)

/-- What the rounded SAH search returns: see `PartitionedSoFar`. -/
theorem find_best_split_rounded_inv (fl : F → F) (prims : List (Primitive F))
    (idx : List Nat) (s e : Nat) (hse : s ≤ e) (he : e ≤ idx.length) :
    PartitionedSoFar fl prims idx s e (bvh_find_best_split_rounded fl prims idx s e) := by
  unfold bvh_find_best_split_rounded
  exact foldl_range'_inv
    (fun _ (acc : SplitCandidate F × List Nat) => PartitionedSoFar fl prims idx s e acc)
    (axis_step_rounded fl prims s e) 3 0 (⟨FLT_MAX, 0, s + (e - s) / 2⟩, idx)
    ⟨within_refl _ _ _, Or.inl ⟨rfl, rfl⟩⟩
    (fun a acc _ ha hb => axis_step_rounded_inv fl prims idx s e a acc hse he (by omega) hb)

/-- The two counts of a sweep of the rounded bins add up to the size of the range. -/
theorem sweep_counts_rounded (fl : F → F) (prims : List (Primitive F)) (idx : List Nat)
    (s e axis sb : Nat) (hse : s ≤ e) (he : e ≤ idx.length) (hsb : sb ≤ 11) :
    left_count_rounded fl prims idx s e axis sb =
      ((idx.drop s).take (e - s)).countP (fun j => decide
        (bin_index_rounded fl prims axis ((range_bounds prims idx s e).min.get axis)
          (axis_bin_width_rounded fl prims idx s e axis) j < sb)) ∧
    left_count_rounded fl prims idx s e axis sb + right_count_rounded fl prims idx s e axis sb
      = e - s := by
  have hl : left_count_rounded fl prims idx s e axis sb =
      ((idx.drop s).take (e - s)).countP (fun j => decide (0 ≤
        bin_index_rounded fl prims axis ((range_bounds prims idx s e).min.get axis)
          (axis_bin_width_rounded fl prims idx s e axis) j ∧
        bin_index_rounded fl prims axis ((range_bounds prims idx s e).min.get axis)
          (axis_bin_width_rounded fl prims idx s e axis) j < sb)) :=
    sweep_bins_rounded_count fl prims idx s e axis _ _ he 0 sb (Nat.zero_le _)
  have hr : right_count_rounded fl prims idx s e axis sb =
      ((idx.drop s).take (e - s)).countP (fun j => decide (sb ≤
        bin_index_rounded fl prims axis ((range_bounds prims idx s e).min.get axis)
          (axis_bin_width_rounded fl prims idx s e axis) j ∧
        bin_index_rounded fl prims axis ((range_bounds prims idx s e).min.get axis)
          (axis_bin_width_rounded fl prims idx s e axis) j < 12)) :=
    sweep_bins_rounded_count fl prims idx s e axis _ _ he sb 12 (by omega)
  refine ⟨?_, ?_⟩
  · rw [hl]
    apply List.countP_congr
    intro j _
    simp only [decide_eq_true_eq, Nat.zero_le, true_and]
  · rw [hl, hr, ← countP_split _ _ (fun _ => true)]
    · rw [List.countP_true, List.length_take, List.length_drop]
      omega
    · intro j
      have := bin_index_rounded_lt fl prims axis ((range_bounds prims idx s e).min.get axis)
        (axis_bin_width_rounded fl prims idx s e axis) j
      simp only [decide_eq_true_eq]
      refine ⟨⟨fun _ => ?_, fun _ => trivial⟩, ?_⟩ <;> omega

/-- Without rounding, the rounded expressions of the search are the exact ones. -/
theorem split_rounded_exact (fl : F → F) (hfl : ∀ x, fl x = x) (prims : List (Primitive F))
    (idx : List Nat) (s e axis sb : Nat) (axis_min bin_width : F) (j : Nat) :
    center_pos_rounded fl prims axis j = center_pos prims axis j ∧
    bin_index_rounded fl prims axis axis_min bin_width j
      = bin_index prims axis axis_min bin_width j ∧
    axis_bin_width_rounded fl prims idx s e axis = axis_bin_width prims idx s e axis ∧
    split_threshold_rounded fl prims idx s e axis sb = split_threshold prims idx s e axis sb ∧
    (axis_skipped_rounded fl prims idx s e axis ↔
      (range_bounds prims idx s e).max.get axis - (range_bounds prims idx s e).min.get axis
        < 1 / 10000) := by
  have hc : center_pos_rounded fl prims axis j = center_pos prims axis j := by
    simp only [center_pos_rounded, center_pos, aabb_center_rounded, aabb_center,
      vec3_scale_rounded, vec3_add_rounded, vec3_scale, vec3_add, hfl]
  have hb : axis_bin_width_rounded fl prims idx s e axis = axis_bin_width prims idx s e axis := by
    simp only [axis_bin_width_rounded, axis_bin_width, hfl]
  refine ⟨hc, ?_, hb, ?_, ?_⟩
  · simp only [bin_index_rounded, bin_index, hc, hfl]
  · simp only [split_threshold_rounded, split_threshold, hb, hfl]
  · simp only [axis_skipped_rounded, hfl]

end SplitRoundedLemmas

section SpineLemmas

variable {F : Type} [LinearOrderedField F] [FloorRing F]

/-- When the split of every range `[i, e)` with `j ≤ i < j + n` is `i + 1` and leaves the
index array as it is, the build of `[j, e)` yields the nodes of `spine_nodes`. -/
theorem build_spine (prims : List (Primitive F)) (idx : List Nat) (e : Nat) :
    ∀ (n j : Nat) (nodes : List (BVHNode F)) (fuel : Nat), n < fuel → e - (j + n) ≤ 2 →
      (∀ i, j ≤ i → i < j + n → ¬ e - i ≤ 2 ∧
        build_choose_split prims (range_bounds prims idx i e) idx i e = (i + 1, idx, false)) →
      bvh_build_recursive prims fuel ⟨nodes, idx⟩ j e =
        some (nodes.length, ⟨nodes ++ spine_nodes prims idx e n j nodes.length, idx⟩) := by
  intro n
  induction n with
  | zero =>
    intro j nodes fuel hfuel hsmall _
    obtain ⟨f, rfl⟩ : ∃ f, fuel = f + 1 := ⟨fuel - 1, by omega⟩
    rw [build_leaf_eq prims f ⟨nodes, idx⟩ j e (by simpa using hsmall)]
    rfl
  | succ n ih =>
    intro j nodes fuel hfuel hsmall hsplit
    obtain ⟨f, rfl⟩ : ∃ f, fuel = f + 1 := ⟨fuel - 1, by omega⟩
    obtain ⟨f', rfl⟩ : ∃ f', f = f' + 1 := ⟨f - 1, by omega⟩
    obtain ⟨hbig, hsp⟩ := hsplit j (le_refl _) (by omega)
    rw [build_internal_eq prims (f' + 1) ⟨nodes, idx⟩ j e hbig (by rw [hsp])]
    simp only [hsp, build_state_left]
    rw [build_leaf_eq prims f' _ j (j + 1) (by omega)]
    simp only [BuildState.write, List.length_append, List.length_singleton,
      List.append_assoc, List.singleton_append, modify_append_cons]
    have := ih (j + 1)
      (nodes ++ [BVHNode.set_left (nodes.length + 1)
          (BVHNode.set_internal (BVHNode.set_bounds (range_bounds prims idx j e) BVHNode.zero)),
        BVHNode.set_leaf j (j + 1 - j)
          (BVHNode.set_bounds (range_bounds prims idx j (j + 1)) BVHNode.zero)])
      (f' + 1) (by omega) (by rw [show j + 1 + n = j + (n + 1) by omega]; exact hsmall)
      (fun i hi1 hi2 => hsplit i (by omega) (by omega))
    simp only [List.length_append, List.length_cons, List.length_singleton, List.length_nil,
      List.append_assoc, List.cons_append, List.nil_append] at this
    rw [this]
    simp only [modify_append_cons, spine_nodes]

/-- What `bvh_create` returns, read off the result of the recursive build. -/
theorem bvh_create_of_build (prims : List (Primitive F)) (n root : Nat) (st : BuildState F)
    (hn : prims.length = n)
    (h : bvh_build_recursive prims (n + 1) ⟨[], List.range n⟩ 0 n = some (root, st)) :
    bvh_create prims =
      some { root := some root,
             primitives := (List.range n).map (fun i =>
               prims.getD (st.indices.getD i 0) Primitive.zero),
             prim_count := n, nodes := st.nodes, node_count := st.nodes.length,
             indices := st.indices } := by
  subst hn
  unfold bvh_create
  simp only [h]
  rfl

end SpineLemmas
/-! ### A range whose first entry is split off

The cost of a candidate is bounded, so a range with one candidate is split there; and a
traversal down a right spine fills the stack. -/

section CostBound

variable {F : Type} [LinearOrderedField F]

theorem validBox_union (a b : AABB F) (hb : ValidBox b) : ValidBox (aabb_union a b) := by
  obtain ⟨h1, h2, h3⟩ := hb
  simp only [ValidBox, aabb_union, vec3_create]
  exact ⟨le_trans (min_le_right _ _) (le_trans h1 (le_max_right _ _)),
    le_trans (min_le_right _ _) (le_trans h2 (le_max_right _ _)),
    le_trans (min_le_right _ _) (le_trans h3 (le_max_right _ _))⟩

/-- The surface area of a box that is not inverted is at most that of a box around it. -/
theorem surface_area_mono (a b : AABB F) (ha : ValidBox a) (hab : BoxLe a b) :
    aabb_surface_area a ≤ aabb_surface_area b := by
  obtain ⟨h1, h2, h3⟩ := ha
  have hx := hab 0
  have hy := hab 1
  have hz := hab 2
  simp only [Vec3.get] at hx hy hz
  obtain ⟨⟨ax, ay, az⟩, ⟨ax', ay', az'⟩⟩ := a
  obtain ⟨⟨bx, b_y, bz⟩, ⟨bx', by', bz'⟩⟩ := b
  simp only [aabb_surface_area, vec3_sub, vec3_create] at *
  have e1 : 0 ≤ ax' - ax := by linarith
  have e2 : 0 ≤ ay' - ay := by linarith
  have e3 : 0 ≤ az' - az := by linarith
  have f1 : ax' - ax ≤ bx' - bx := by linarith
  have f2 : ay' - ay ≤ by' - b_y := by linarith
  have f3 : az' - az ≤ bz' - bz := by linarith
  have g1 := mul_le_mul f1 f2 e2 (le_trans e1 f1)
  have g2 := mul_le_mul f2 f3 e3 (le_trans e2 f2)
  have g3 := mul_le_mul f3 f1 e1 (le_trans e3 f3)
  linarith

/-- A sweep over bins that are inside `P` and not inverted gives a box inside `P` that is
not inverted when the sweep met a primitive. -/
theorem sweep_bins_good (bins : List (Bin F)) (P : AABB F) (lo hi : Nat)
    (h0 : BoxLe aabb_empty P)
    (hinv : ∀ b, (bins.getD b Bin.zero).count ≠ 0 →
      ValidBox (bins.getD b Bin.zero).bounds ∧ BoxLe (bins.getD b Bin.zero).bounds P) :
    BoxLe (sweep_bins bins lo hi).1 P ∧
    ((sweep_bins bins lo hi).2 ≠ 0 → ValidBox (sweep_bins bins lo hi).1) := by
  unfold sweep_bins
  exact foldl_range'_inv
    (fun _ (acc : AABB F × Nat) => BoxLe acc.1 P ∧ (acc.2 ≠ 0 → ValidBox acc.1))
    (fun acc i =>
      let bin := bins.getD i Bin.zero
      if bin.count > 0 then (aabb_union acc.1 bin.bounds, acc.2 + bin.count) else acc)
    (hi - lo) lo (aabb_empty, 0) ⟨h0, fun h => absurd rfl h⟩
    (by
      rintro i ⟨bx, n⟩ _ _ ⟨hle, hval⟩
      dsimp only at hle hval ⊢
      split_ifs with hc
      · obtain ⟨hv', hle'⟩ := hinv i (by omega)
        exact ⟨boxLe_union _ _ _ hle hle', fun _ => validBox_union _ _ hv'⟩
      · exact ⟨hle, hval⟩)

theorem bin_width_pos (prims : List (Primitive F)) (idx : List Nat) (s e axis : Nat)
    (hext : ¬ (range_bounds prims idx s e).max.get axis -
      (range_bounds prims idx s e).min.get axis < 1 / 10000) :
    0 < axis_bin_width prims idx s e axis := by
  unfold axis_bin_width
  have h1 : (0 : F) < 1 / 10000 := by norm_num
  have h2 := lt_of_lt_of_le h1 (not_lt.mp hext)
  positivity

/-- The thresholds of the split bins do not decrease. -/
theorem split_threshold_mono (prims : List (Primitive F)) (idx : List Nat) (s e axis : Nat)
    (sb sb' : Nat) (hw : 0 ≤ axis_bin_width prims idx s e axis) (h : sb ≤ sb') :
    split_threshold prims idx s e axis sb ≤ split_threshold prims idx s e axis sb' := by
  unfold split_threshold
  have : (sb : F) ≤ (sb' : F) := by exact_mod_cast h
  have := mul_le_mul_of_nonneg_right this hw
  linarith

theorem swap_indices_self (l : List Nat) (a : Nat) : swap_indices l a a = l := by
  unfold swap_indices
  dsimp only
  apply List.ext_getElem?
  intro k
  rw [List.getElem?_set, List.getElem?_set]
  by_cases hk : a = k
  · subst hk
    by_cases ha : a < l.length
    · simp [ha, List.getD_eq_getElem?_getD, List.getElem?_eq_getElem ha]
    · simp [ha, List.getElem?_eq_none (not_lt.mp ha)]
  · simp [hk]

/-- When the first entry of the range is the only one with its centre below the threshold,
the partition loop leaves the index array as it is and returns `start + 1`. -/
theorem partition_first_only (prims : List (Primitive F)) (axis : Nat) (thr : F)
    (idx : List Nat) (s e : Nat) (hse : s < e)
    (h0 : center_pos prims axis (idx.getD s 0) < thr)
    (h1 : ∀ i, s < i → i < e → ¬ center_pos prims axis (idx.getD i 0) < thr) :
    partition_indices prims axis thr idx s e = (idx, s + 1) := by
  unfold partition_indices
  obtain ⟨n, hn⟩ : ∃ n, e - s = n + 1 := ⟨e - s - 1, by omega⟩
  rw [hn, List.range'_succ, List.foldl_cons]
  have hfirst : (aabb_center (prim_bounds prims (idx.getD s 0))).get axis < thr := h0
  dsimp only
  rw [if_pos hfirst, swap_indices_self]
  have key := foldl_range'_inv
    (fun _ (acc : List Nat × Nat) => acc = (idx, s + 1))
    (fun acc i =>
      let center := aabb_center (prim_bounds prims (acc.1.getD i 0))
      let pos := center.get axis
      if pos < thr then (swap_indices acc.1 acc.2 i, acc.2 + 1) else acc)
    n (s + 1) (idx, s + 1) rfl
    (by
      intro i acc hi1 hi2 hacc
      subst hacc
      dsimp only
      have : ¬ (aabb_center (prim_bounds prims (idx.getD i 0))).get axis < thr :=
        h1 i (by omega) (by omega)
      rw [if_neg this])
  exact key

/-- The internal nodes of `spine_nodes`: slot `2 m` holds the node of the range
`[j + m, e)`, with the slots `2 m + 1` and `2 m + 2` as children. -/
theorem spine_nodes_internal (prims : List (Primitive F)) (idx : List Nat) (e : Nat) :
    ∀ (n j k m : Nat), m < n →
      (spine_nodes prims idx e n j k)[2 * m]? =
        some (BVHNode.set_right (k + 2 * m + 2) (BVHNode.set_left (k + 2 * m + 1)
          (BVHNode.set_internal
            (BVHNode.set_bounds (range_bounds prims idx (j + m) e) BVHNode.zero)))) := by
  intro n
  induction n with
  | zero => intro j k m h; omega
  | succ n ih =>
    intro j k m h
    cases m with
    | zero => rfl
    | succ m =>
      rw [spine_nodes, show 2 * (m + 1) = 2 * m + 1 + 1 by ring, List.getElem?_cons_succ,
        List.getElem?_cons_succ, ih (j + 1) (k + 2) m (by omega)]
      have e1 : k + 2 + 2 * m + 2 = k + (2 * m + 1 + 1) + 2 := by omega
      have e2 : k + 2 + 2 * m + 1 = k + (2 * m + 1 + 1) + 1 := by omega
      have e3 : j + 1 + m = j + (m + 1) := by omega
      rw [e1, e2, e3]

/-- A traversal that goes down a right spine of 64 internal nodes whose boxes the ray hits
overflows the stack: below the node of depth `m` the stack holds `m` left children, and at
depth 63 the push of the right child is the 65th entry. -/
theorem spine_overflow (sqrtf : F → F) (bvh : BVH F) (ray : Ray F) (t_min : F)
    (st : TraverseState F)
    (hnode : ∀ m, m < 64 → ∃ n, bvh.nodes[2 * m]? = some n ∧ n.is_leaf = false ∧
      n.left = some (2 * m + 1) ∧ n.right = some (2 * m + 2) ∧
      aabb_hit n.bounds ray t_min st.closest_so_far = true) :
    ∀ (d m : Nat) (stack : List Nat) (fuel : Nat), m + d = 63 → stack.length = m → d < fuel →
      bvh_hit_loop sqrtf bvh ray t_min fuel (2 * m :: stack) st = .stack_overflow := by
  intro d
  induction d with
  | zero =>
    intro m stack fuel hm hlen hfuel
    obtain ⟨f, rfl⟩ : ∃ f, fuel = f + 1 := ⟨fuel - 1, by omega⟩
    obtain ⟨n, hn, hleaf, hl, hr, hbox⟩ := hnode m (by omega)
    rw [bvh_hit_loop]
    simp only [List.get?_eq_getElem?, hn]
    rw [if_neg (not_not.mpr hbox), if_neg (by rw [hleaf]; exact Bool.false_ne_true), hl, hr]
    unfold push_node
    dsimp only
    rw [if_pos (by omega)]
    dsimp only
    rw [if_neg (by simp only [List.length_cons]; omega)]
  | succ d ih =>
    intro m stack fuel hm hlen hfuel
    obtain ⟨f, rfl⟩ : ∃ f, fuel = f + 1 := ⟨fuel - 1, by omega⟩
    obtain ⟨n, hn, hleaf, hl, hr, hbox⟩ := hnode m (by omega)
    rw [bvh_hit_loop]
    simp only [List.get?_eq_getElem?, hn]
    rw [if_neg (not_not.mpr hbox), if_neg (by rw [hleaf]; exact Bool.false_ne_true), hl, hr]
    unfold push_node
    dsimp only
    rw [if_pos (by omega)]
    dsimp only
    rw [if_pos (by simp only [List.length_cons]; omega)]
    dsimp only
    have := ih (m + 1) ((2 * m + 1) :: stack) f (by omega)
      (by simp only [List.length_cons]; omega) (by omega)
    rw [show 2 * (m + 1) = 2 * m + 2 by ring] at this
    exact this

end CostBound

section FirstAloneLemmas

variable {F : Type} [LinearOrderedField F] [FloorRing F]

/-- The "Fill bins" loop keeps every bin that holds a primitive inside the box `P` and not
inverted, when the bounds of the primitives are. -/
theorem foldl_bin_step_good (prims : List (Primitive F)) (axis : Nat) (axis_min bin_width : F)
    (P : AABB F) (l : List Nat)
    (hl : ∀ j ∈ l, ValidBox (prim_bounds prims j) ∧ BoxLe (prim_bounds prims j) P) :
    ∀ (bins : List (Bin F)),
      (∀ b, (bins.getD b Bin.zero).count ≠ 0 →
        ValidBox (bins.getD b Bin.zero).bounds ∧ BoxLe (bins.getD b Bin.zero).bounds P) →
      ∀ b, ((l.foldl (bin_step prims axis axis_min bin_width) bins).getD b Bin.zero).count ≠ 0 →
        ValidBox ((l.foldl (bin_step prims axis axis_min bin_width) bins).getD b
          Bin.zero).bounds ∧
        BoxLe ((l.foldl (bin_step prims axis axis_min bin_width) bins).getD b Bin.zero).bounds
          P := by
  induction l with
  | nil => intro bins hinv b hb; exact hinv b hb
  | cons x l ih =>
    intro bins hinv
    rw [List.foldl_cons]
    apply ih (fun j hj => hl j (List.mem_cons_of_mem _ hj))
    intro b hb
    obtain ⟨hv, hle⟩ := hl x (List.mem_cons_self _ _)
    rw [bin_step_eq, getD_set] at hb ⊢
    split_ifs at hb ⊢ with hc
    · unfold Bin.add
      dsimp only
      split_ifs with h0
      · exact ⟨hv, hle⟩
      · obtain ⟨hv', hle'⟩ := hinv _ h0
        exact ⟨validBox_union _ _ hv, boxLe_union _ _ _ hle' hle⟩
    · exact hinv b hb

/-- The SAH cost of a candidate is at most `1 +` the number of primitives of the range,
when the bounds of the primitives are not inverted and the box of the range has a positive
surface area. -/
theorem split_cost_le (prims : List (Primitive F)) (idx : List Nat) (s e axis sb : Nat)
    (c : F) (he : e ≤ idx.length) (hsb1 : 1 ≤ sb) (hsb : sb ≤ 11)
    (hvalid : ∀ i, s ≤ i → i < e → ValidBox (prim_bounds prims (idx.getD i 0)))
    (hpa : 0 < aabb_surface_area (range_bounds prims idx s e))
    (hc : split_cost prims idx s e axis sb = some c) :
    c ≤ 1 + ((e - s : Nat) : F) := by
  obtain ⟨hl0, hr0, -, hsum⟩ := split_cost_counts prims idx s e axis sb c he hsb1 hsb hc
  have hgood : ∀ j ∈ (idx.drop s).take (e - s),
      ValidBox (prim_bounds prims j) ∧
      BoxLe (prim_bounds prims j) (range_bounds prims idx s e) := by
    intro j hj
    rw [← map_getD_range' idx s e he, List.mem_map] at hj
    obtain ⟨i, hi, rfl⟩ := hj
    rw [List.mem_range'_1] at hi
    exact ⟨hvalid i hi.1 (by omega), range_bounds_encloses prims idx s e i hi.1 (by omega)⟩
  have hbins : ∀ b, ((axis_bins prims idx s e axis).getD b Bin.zero).count ≠ 0 →
      ValidBox ((axis_bins prims idx s e axis).getD b Bin.zero).bounds ∧
      BoxLe ((axis_bins prims idx s e axis).getD b Bin.zero).bounds
        (range_bounds prims idx s e) := by
    unfold axis_bins
    rw [fill_bins_eq_foldl _ _ _ _ _ _ _ he]
    apply foldl_bin_step_good prims axis _ _ _ _ hgood
    intro b hb
    exfalso
    apply hb
    simp only [List.getD_eq_getElem?_getD, List.getElem?_replicate]
    split_ifs <;> rfl
  have h0 := range_bounds_ge_empty prims idx s e
  obtain ⟨hL1, hL2⟩ := sweep_bins_good (axis_bins prims idx s e axis)
    (range_bounds prims idx s e) 0 sb h0 hbins
  obtain ⟨hR1, hR2⟩ := sweep_bins_good (axis_bins prims idx s e axis)
    (range_bounds prims idx s e) sb 12 h0 hbins
  unfold left_count at hl0 hsum
  unfold right_count at hr0 hsum
  have hAL := surface_area_mono _ _ (hL2 hl0) hL1
  have hAR := surface_area_mono _ _ (hR2 hr0) hR1
  unfold split_cost at hc
  dsimp only at hc
  split_ifs at hc with hext h
  simp only [Option.some.injEq] at hc
  rw [← hc, ← hsum]
  push_cast
  rw [mul_one, add_le_add_iff_left, div_le_iff₀ hpa]
  have e1 := mul_le_mul_of_nonneg_left hAL
    (Nat.cast_nonneg (sweep_bins (axis_bins prims idx s e axis) 0 sb).2 : (0 : F) ≤ _)
  have e2 := mul_le_mul_of_nonneg_left hAR
    (Nat.cast_nonneg (sweep_bins (axis_bins prims idx s e axis) sb 12).2 : (0 : F) ≤ _)
  linarith

/-- A split bin with no centre of the range below its threshold is no candidate: its left
side is empty. -/
theorem split_cost_none_left (prims : List (Primitive F)) (idx : List Nat) (s e axis sb : Nat)
    (he : e ≤ idx.length) (hsb1 : 1 ≤ sb) (hsb : sb ≤ 11)
    (h : ∀ i, s ≤ i → i < e →
      ¬ center_pos prims axis (idx.getD i 0) < split_threshold prims idx s e axis sb) :
    split_cost prims idx s e axis sb = none := by
  unfold split_cost
  dsimp only
  by_cases hext : (range_bounds prims idx s e).max.get axis -
      (range_bounds prims idx s e).min.get axis < 1 / 10000
  · rw [if_pos hext]
  · rw [if_neg hext]
    have hw := bin_width_pos prims idx s e axis hext
    have hl : (sweep_bins (axis_bins prims idx s e axis) 0 sb).2 = 0 := by
      unfold axis_bins
      rw [sweep_bins_count prims idx s e axis _ _ he 0 sb (Nat.zero_le _), List.countP_eq_zero]
      intro j hj
      rw [← map_getD_range' idx s e he, List.mem_map] at hj
      obtain ⟨i, hi, rfl⟩ := hj
      rw [List.mem_range'_1] at hi
      simp only [decide_eq_true_eq, not_and]
      intro _ hlt
      exact h i hi.1 (by omega)
        ((bin_index_lt_iff prims axis _ _ _ sb hw hsb1 hsb).mp hlt)
    rw [if_pos (Or.inl hl)]

/-- A split bin with every centre of the range below its threshold is no candidate: its
right side is empty. -/
theorem split_cost_none_right (prims : List (Primitive F)) (idx : List Nat) (s e axis sb : Nat)
    (he : e ≤ idx.length) (hsb1 : 1 ≤ sb) (hsb : sb ≤ 11)
    (h : ∀ i, s ≤ i → i < e →
      center_pos prims axis (idx.getD i 0) < split_threshold prims idx s e axis sb) :
    split_cost prims idx s e axis sb = none := by
  unfold split_cost
  dsimp only
  by_cases hext : (range_bounds prims idx s e).max.get axis -
      (range_bounds prims idx s e).min.get axis < 1 / 10000
  · rw [if_pos hext]
  · rw [if_neg hext]
    have hw := bin_width_pos prims idx s e axis hext
    have hr : (sweep_bins (axis_bins prims idx s e axis) sb 12).2 = 0 := by
      unfold axis_bins
      rw [sweep_bins_count prims idx s e axis _ _ he sb 12 (by omega), List.countP_eq_zero]
      intro j hj
      rw [← map_getD_range' idx s e he, List.mem_map] at hj
      obtain ⟨i, hi, rfl⟩ := hj
      rw [List.mem_range'_1] at hi
      simp only [decide_eq_true_eq, not_and]
      intro hle _
      have := (bin_index_lt_iff prims axis _ _ (idx.getD i 0) sb hw hsb1 hsb).mpr
        (h i hi.1 (by omega))
      omega
    rw [if_pos (Or.inr hr)]

/-- A split bin with a centre of the range below its threshold and another one not below
it is a candidate, on an axis that is not passed over. -/
theorem split_cost_some (prims : List (Primitive F)) (idx : List Nat) (s e axis sb : Nat)
    (he : e ≤ idx.length) (hsb1 : 1 ≤ sb) (hsb : sb ≤ 11)
    (hext : ¬ (range_bounds prims idx s e).max.get axis -
      (range_bounds prims idx s e).min.get axis < 1 / 10000)
    (i i' : Nat) (hi : s ≤ i ∧ i < e) (hi' : s ≤ i' ∧ i' < e)
    (h : center_pos prims axis (idx.getD i 0) < split_threshold prims idx s e axis sb)
    (h' : ¬ center_pos prims axis (idx.getD i' 0) < split_threshold prims idx s e axis sb) :
    ∃ c, split_cost prims idx s e axis sb = some c := by
  have hw := bin_width_pos prims idx s e axis hext
  have hmem : ∀ k, s ≤ k ∧ k < e → idx.getD k 0 ∈ (idx.drop s).take (e - s) := by
    intro k hk
    rw [← map_getD_range' idx s e he, List.mem_map]
    exact ⟨k, by rw [List.mem_range'_1]; omega, rfl⟩
  have hl : (sweep_bins (axis_bins prims idx s e axis) 0 sb).2 ≠ 0 := by
    unfold axis_bins
    rw [sweep_bins_count prims idx s e axis _ _ he 0 sb (Nat.zero_le _)]
    intro h0
    rw [List.countP_eq_zero] at h0
    have := h0 _ (hmem i hi)
    simp only [decide_eq_true_eq, not_and] at this
    exact this (Nat.zero_le _) ((bin_index_lt_iff prims axis _ _ _ sb hw hsb1 hsb).mpr h)
  have hr : (sweep_bins (axis_bins prims idx s e axis) sb 12).2 ≠ 0 := by
    unfold axis_bins
    rw [sweep_bins_count prims idx s e axis _ _ he sb 12 (by omega)]
    intro h0
    rw [List.countP_eq_zero] at h0
    have := h0 _ (hmem i' hi')
    simp only [decide_eq_true_eq, not_and] at this
    have hb := bin_index_lt prims axis ((range_bounds prims idx s e).min.get axis)
      (axis_bin_width prims idx s e axis) (idx.getD i' 0)
    have hnlt : ¬ bin_index prims axis ((range_bounds prims idx s e).min.get axis)
        (axis_bin_width prims idx s e axis) (idx.getD i' 0) < sb :=
      fun hlt => h' ((bin_index_lt_iff prims axis _ _ _ sb hw hsb1 hsb).mp hlt)
    exact this (by omega) hb
  unfold split_cost
  dsimp only
  rw [if_neg hext, if_neg (by push_neg; exact ⟨hl, hr⟩)]
  exact ⟨_, rfl⟩

/-- Sweep iterations over split bins that are no candidates change nothing. -/
theorem foldl_sweep_step_none (prims : List (Primitive F)) (idx : List Nat) (s e axis : Nat)
    (hext : ¬ (range_bounds prims idx s e).max.get axis -
      (range_bounds prims idx s e).min.get axis < 1 / 10000)
    (l : List Nat) (h : ∀ sb ∈ l, split_cost prims idx s e axis sb = none)
    (acc : SplitCandidate F × List Nat) :
    l.foldl (sweep_step prims s e axis (range_bounds prims idx s e)
      ((range_bounds prims idx s e).min.get axis) (axis_bin_width prims idx s e axis)
      (axis_bins prims idx s e axis)) acc = acc := by
  induction l with
  | nil => rfl
  | cons x l ih =>
    rw [List.foldl_cons, sweep_step_none prims idx s e axis x acc hext
      (h x (List.mem_cons_self _ _))]
    exact ih (fun sb hsb => h sb (List.mem_cons_of_mem _ hsb))

/-- An axis without candidate leaves the best split as it is. -/
theorem axis_step_none (prims : List (Primitive F)) (idx : List Nat) (s e axis : Nat)
    (acc : SplitCandidate F × List Nat) (hse : s ≤ e) (he : e ≤ idx.length)
    (hacc : acc.2 = idx)
    (h : ∀ sb, 1 ≤ sb → sb ≤ 11 → split_cost prims idx s e axis sb = none) :
    axis_step prims s e acc axis = acc := by
  rw [axis_step_eq prims idx s e acc axis hse he (by rw [hacc]; exact within_refl _ _ _)]
  split
  · rfl
  · next hext =>
    apply foldl_sweep_step_none prims idx s e axis hext
    intro sb hsb
    rw [List.mem_range'_1] at hsb
    exact h sb hsb.1 (by omega)

/-- The split of a range whose first entry alone lies below the middle threshold of the
x axis, with every centre between the thresholds 5 and 7 of the x axis and between the
thresholds 6 and 7 of the y and z axes: the SAH search has one candidate, bin 6 of the
x axis, its partition moves nothing, and the range is split after its first entry. -/
theorem choose_split_first_alone (prims : List (Primitive F)) (bounds B : AABB F)
    (idx : List Nat) (s e : Nat) (h3 : s + 3 ≤ e) (he : e ≤ idx.length)
    (hB : range_bounds prims idx s e = B)
    (hvalid : ∀ i, s ≤ i → i < e → ValidBox (prim_bounds prims (idx.getD i 0)))
    (hpa : 0 < aabb_surface_area B) (hn : 1 + ((e - s : Nat) : F) < FLT_MAX)
    (hext : ¬ B.max.get 0 - B.min.get 0 < 1 / 10000)
    (hx0 : center_pos prims 0 (idx.getD s 0) < box_threshold B 0 6)
    (hx1 : ∀ i, s < i → i < e → ¬ center_pos prims 0 (idx.getD i 0) < box_threshold B 0 6)
    (hx : ∀ i, s ≤ i → i < e →
      ¬ center_pos prims 0 (idx.getD i 0) < box_threshold B 0 5 ∧
      center_pos prims 0 (idx.getD i 0) < box_threshold B 0 7)
    (hyz : ∀ axis, axis = 1 ∨ axis = 2 → ∀ i, s ≤ i → i < e →
      ¬ center_pos prims axis (idx.getD i 0) < box_threshold B axis 6 ∧
      center_pos prims axis (idx.getD i 0) < box_threshold B axis 7) :
    build_choose_split prims bounds idx s e = (s + 1, idx, false) := by
  have hthr : ∀ axis sb, split_threshold prims idx s e axis sb = box_threshold B axis sb := by
    intro axis sb
    unfold split_threshold axis_bin_width box_threshold
    rw [hB]
  have hext0 : ¬ (range_bounds prims idx s e).max.get 0 -
      (range_bounds prims idx s e).min.get 0 < 1 / 10000 := by rw [hB]; exact hext
  -- no candidate on an axis whose centres all lie between two consecutive thresholds
  have hnone : ∀ axis lo, 1 ≤ lo → lo ≤ 10 →
      (∀ i, s ≤ i → i < e →
        ¬ center_pos prims axis (idx.getD i 0) < box_threshold B axis lo) →
      (∀ i, s ≤ i → i < e →
        center_pos prims axis (idx.getD i 0) < box_threshold B axis (lo + 1)) →
      ∀ sb, 1 ≤ sb → sb ≤ 11 → sb ≤ lo ∨ lo + 1 ≤ sb →
        split_cost prims idx s e axis sb = none := by
    intro axis lo hlo1 hlo2 hge hlt sb hsb1 hsb hcase
    by_cases hsmall : (range_bounds prims idx s e).max.get axis -
        (range_bounds prims idx s e).min.get axis < 1 / 10000
    · unfold split_cost
      dsimp only
      rw [if_pos hsmall]
    · have hw := le_of_lt (bin_width_pos prims idx s e axis hsmall)
      rcases hcase with hc | hc
      · apply split_cost_none_left prims idx s e axis sb he hsb1 hsb
        intro i hi1 hi2 hlt'
        apply hge i hi1 hi2
        rw [← hthr]
        exact lt_of_lt_of_le hlt' (split_threshold_mono prims idx s e axis sb lo hw hc)
      · apply split_cost_none_right prims idx s e axis sb he hsb1 hsb
        intro i hi1 hi2
        have := hlt i hi1 hi2
        rw [← hthr] at this
        exact lt_of_lt_of_le this (split_threshold_mono prims idx s e axis (lo + 1) sb hw hc)
  have hx5 : ∀ sb, 1 ≤ sb → sb ≤ 5 → split_cost prims idx s e 0 sb = none := by
    intro sb h1 h2
    apply split_cost_none_left prims idx s e 0 sb he h1 (by omega)
    intro i hi1 hi2 hlt'
    apply (hx i hi1 hi2).1
    rw [← hthr]
    exact lt_of_lt_of_le hlt' (split_threshold_mono prims idx s e 0 sb 5
      (le_of_lt (bin_width_pos prims idx s e 0 hext0)) h2)
  have hx7 : ∀ sb, 7 ≤ sb → sb ≤ 11 → split_cost prims idx s e 0 sb = none := by
    intro sb h1 h2
    apply split_cost_none_right prims idx s e 0 sb he (by omega) h2
    intro i hi1 hi2
    have := (hx i hi1 hi2).2
    rw [← hthr] at this
    exact lt_of_lt_of_le this (split_threshold_mono prims idx s e 0 7 sb
      (le_of_lt (bin_width_pos prims idx s e 0 hext0)) h1)
  obtain ⟨c, hc⟩ := split_cost_some prims idx s e 0 6 he (by omega) (by omega) hext0 s (s + 1)
    ⟨le_refl _, by omega⟩ ⟨by omega, by omega⟩ (by rw [hthr]; exact hx0)
    (by rw [hthr]; exact hx1 (s + 1) (by omega) (by omega))
  have hcle := split_cost_le prims idx s e 0 6 c he (by omega) (by omega) hvalid
    (by rw [hB]; exact hpa) hc
  have hclt : c < FLT_MAX := lt_of_le_of_lt hcle hn
  have hpart : partition_indices prims 0 (split_threshold prims idx s e 0 6) idx s e
      = (idx, s + 1) :=
    partition_first_only prims 0 _ idx s e (by omega) (by rw [hthr]; exact hx0)
      (fun i hi1 hi2 => by rw [hthr]; exact hx1 i hi1 hi2)
  have hA0 : axis_step prims s e (⟨FLT_MAX, 0, s + (e - s) / 2⟩, idx) 0
      = (⟨c, 0, s + 1⟩, idx) := by
    rw [axis_step_eq prims idx s e _ 0 (by omega) he (within_refl _ _ _), if_neg hext0]
    have hlist : List.range' 1 (12 - 1) = List.range' 1 5 ++ 6 :: List.range' 7 5 := by
      decide
    rw [hlist, List.foldl_append, List.foldl_cons,
      foldl_sweep_step_none prims idx s e 0 hext0 (List.range' 1 5)
        (fun sb hsb => by
          rw [List.mem_range'_1] at hsb
          exact hx5 sb hsb.1 (by omega)),
      sweep_step_some prims idx s e 0 6 _ c (by rw [hB]; exact ne_of_gt hpa) hc]
    dsimp only
    rw [if_pos hclt, hpart]
    exact foldl_sweep_step_none prims idx s e 0 hext0 (List.range' 7 5)
      (fun sb hsb => by
        rw [List.mem_range'_1] at hsb
        exact hx7 sb hsb.1 (by omega)) _
  have hA : ∀ axis, axis = 1 ∨ axis = 2 →
      axis_step prims s e (⟨c, 0, s + 1⟩, idx) axis = (⟨c, 0, s + 1⟩, idx) := by
    intro axis hax
    apply axis_step_none prims idx s e axis _ (by omega) he rfl
    intro sb hsb1 hsb
    exact hnone axis 6 (by omega) (by omega)
      (fun i hi1 hi2 => (hyz axis hax i hi1 hi2).1)
      (fun i hi1 hi2 => (hyz axis hax i hi1 hi2).2) sb hsb1 hsb (by omega)
  have hfound : bvh_find_best_split prims idx s e = (⟨c, 0, s + 1⟩, idx) := by
    unfold bvh_find_best_split
    have hl3 : List.range' 0 3 = [0, 1, 2] := by decide
    rw [hl3]
    simp only [List.foldl_cons, List.foldl_nil]
    rw [hA0, hA 1 (Or.inl rfl), hA 2 (Or.inr rfl)]
  unfold build_choose_split
  dsimp only
  rw [hfound]
  dsimp only
  rw [if_neg (by omega)]

end FirstAloneLemmas


/-! ## The sampler: the rejection loops return -/

section SamplerPeriod

theorem pcg_geom_add (m n : Nat) :
    pcg_geom (m + n) = pcg_geom m * PCG_MULT ^ n + pcg_geom n := by
  induction n with
  | zero => simp [pcg_geom]
  | succ n ih =>
    rw [← Nat.add_assoc, pcg_geom, ih, pcg_geom, pow_succ]
    ring

theorem pcg_mult_pow_mod4 (n : Nat) : PCG_MULT ^ n % 4 = 1 := by
  rw [Nat.pow_mod]
  have : PCG_MULT % 4 = 1 := by decide
  rw [this, one_pow]
  rfl

theorem pcg_pow_eq (n : Nat) : PCG_MULT ^ n = (PCG_MULT - 1) * pcg_geom n + 1 := by
  induction n with
  | zero => simp [pcg_geom]
  | succ n ih =>
    rw [pow_succ, pcg_geom]
    have h1 : 1 ≤ PCG_MULT := by decide
    have : PCG_MULT = (PCG_MULT - 1) + 1 := by omega
    nlinarith [ih]

theorem pcg_geom_two_mul (m : Nat) : pcg_geom (2 * m) = pcg_geom m * (PCG_MULT ^ m + 1) := by
  rw [two_mul, pcg_geom_add]; ring

theorem pcg_geom_odd (n : Nat) (h : n % 2 = 1) : pcg_geom n % 2 = 1 := by
  induction n using Nat.strong_induction_on with
  | _ n ih =>
    obtain ⟨k, rfl⟩ : ∃ k, n = 2 * k + 1 := ⟨n / 2, by omega⟩
    rw [pcg_geom, pcg_geom_two_mul]
    have h4 := pcg_mult_pow_mod4 k
    have : (PCG_MULT ^ k + 1) % 2 = 0 := by omega
    rw [Nat.add_mod, Nat.mul_mod, Nat.mul_mod (pcg_geom k), this]
    simp

/-- The 2-adic valuation of the geometric sum is that of its length. -/
theorem pcg_geom_dvd (k n : Nat) (hn : 0 < n) : 2 ^ k ∣ pcg_geom n ↔ 2 ^ k ∣ n := by
  induction n using Nat.strong_induction_on generalizing k with
  | _ n ih =>
    rcases Nat.even_or_odd n with ⟨m, hm⟩ | hodd
    · have hm2 : n = 2 * m := by omega
      subst hm2
      have hmpos : 0 < m := by omega
      rw [pcg_geom_two_mul]
      obtain ⟨q, hq⟩ : ∃ q, PCG_MULT ^ m + 1 = 2 * (2 * q + 1) := by
        have h4 := pcg_mult_pow_mod4 m
        exact ⟨(PCG_MULT ^ m + 1) / 4, by omega⟩
      rw [hq]
      cases k with
      | zero => simp
      | succ k =>
        have e1 : pcg_geom m * (2 * (2 * q + 1)) = 2 * (pcg_geom m * (2 * q + 1)) := by ring
        rw [e1, pow_succ, mul_comm (2 ^ k) 2, Nat.mul_dvd_mul_iff_left (by norm_num),
          Nat.mul_dvd_mul_iff_left (by norm_num)]
        rw [← ih m (by omega) k hmpos]
        have hc : Nat.Coprime (2 ^ k) (2 * q + 1) := by
          apply Nat.Coprime.pow_left
          exact Nat.coprime_two_left.mpr ⟨q, rfl⟩
        exact ⟨fun h => hc.dvd_of_dvd_mul_right h, fun h => Dvd.dvd.mul_right h _⟩
    · have h1 : n % 2 = 1 := Nat.odd_iff.mp hodd
      have h2 := pcg_geom_odd n h1
      cases k with
      | zero => simp
      | succ k =>
        constructor
        · intro h
          have : 2 ∣ pcg_geom n := Dvd.dvd.trans (Dvd.intro_left (2 ^ k) rfl) h
          omega
        · intro h
          have : 2 ∣ n := Dvd.dvd.trans (Dvd.intro_left (2 ^ k) rfl) h
          omega

theorem pcg_state_at_zero (inc s : Nat) : pcg_state_at inc s 0 = s % 2 ^ 64 := by
  simp [pcg_state_at, pcg_geom]

theorem pcg_state_at_succ (inc s n : Nat) :
    pcg_state_at inc s (n + 1) = pcg_step inc (pcg_state_at inc s n) := by
  unfold pcg_state_at pcg_step
  rw [Nat.mod_mod, pcg_geom, pow_succ]
  have : (s * (PCG_MULT ^ n * PCG_MULT) + inc * (pcg_geom n * PCG_MULT + 1))
      = (s * PCG_MULT ^ n + inc * pcg_geom n) * PCG_MULT + inc := by ring
  rw [this]
  conv_lhs => rw [Nat.add_mod, Nat.mul_mod]
  conv_rhs => rw [Nat.add_mod, Nat.mul_mod, Nat.mod_mod]

theorem pcg_step_mod (inc s : Nat) : pcg_step inc (s % 2 ^ 64) = pcg_step inc s := by
  unfold pcg_step
  rw [Nat.mod_mod]

theorem pcg_state_at_add (inc s m n : Nat) :
    pcg_state_at inc s (m + n) = pcg_state_at inc (pcg_state_at inc s m) n := by
  induction n with
  | zero =>
    rw [Nat.add_zero, pcg_state_at_zero]
    unfold pcg_state_at
    rw [Nat.mod_mod]
  | succ n ih => rw [← Nat.add_assoc, pcg_state_at_succ, ih, pcg_state_at_succ]

/-- Advancing by `d` steps changes the state by `pcg_geom d * ((M - 1) * state + inc)`. -/
theorem pcg_state_at_shift (inc s d : Nat) :
    pcg_state_at inc s d
      = (s + pcg_geom d * ((PCG_MULT - 1) * s + inc)) % 2 ^ 64 := by
  unfold pcg_state_at
  rw [pcg_pow_eq d]
  congr 1
  ring

theorem pcg_odd_factor (inc s : Nat) (hinc : inc % 2 = 1) :
    Nat.Coprime (2 ^ 64) ((PCG_MULT - 1) * s + inc) := by
  apply Nat.Coprime.pow_left
  rw [Nat.coprime_two_left]
  rw [Nat.odd_iff, Nat.add_mod, Nat.mul_mod]
  have : (PCG_MULT - 1) % 2 = 0 := by decide
  rw [this, hinc]
  simp

/-- A generator with odd increment returns to a state only after a multiple of `2^64`
steps. -/
theorem pcg_state_at_eq_iff (inc s d : Nat) (hinc : inc % 2 = 1) (hd : 0 < d) :
    pcg_state_at inc s d = s % 2 ^ 64 ↔ 2 ^ 64 ∣ d := by
  rw [pcg_state_at_shift, ← pcg_geom_dvd 64 d hd]
  have hc := pcg_odd_factor inc s hinc
  constructor
  · intro h
    have h1 : s + pcg_geom d * ((PCG_MULT - 1) * s + inc) ≡ s + 0 [MOD 2 ^ 64] := by
      rw [Nat.add_zero]; exact h
    have h2 := Nat.ModEq.add_left_cancel' s h1
    have h3 := (Nat.modEq_zero_iff_dvd).mp h2
    exact hc.dvd_of_dvd_mul_right h3
  · intro h
    have h3 : 2 ^ 64 ∣ pcg_geom d * ((PCG_MULT - 1) * s + inc) := Dvd.dvd.mul_right h _
    have h2 : pcg_geom d * ((PCG_MULT - 1) * s + inc) ≡ 0 [MOD 2 ^ 64] :=
      (Nat.modEq_zero_iff_dvd).mpr h3
    have h1 := Nat.ModEq.add_left s h2
    rw [Nat.add_zero] at h1
    exact h1

/-- A generator with odd increment has the full period `2^64`: from every state it reaches
every 64-bit state within `2^64` steps. -/
theorem pcg_full_period (inc s t : Nat) (hinc : inc % 2 = 1) (ht : t < 2 ^ 64) :
    ∃ j, j < 2 ^ 64 ∧ pcg_state_at inc s j = t := by
  let g : Fin (2 ^ 64) → Fin (2 ^ 64) :=
    fun j => ⟨pcg_state_at inc s j, Nat.mod_lt _ (by norm_num)⟩
  have hinj : Function.Injective g := by
    intro i j hij
    have hij' : pcg_state_at inc s i = pcg_state_at inc s j := congrArg Fin.val hij
    by_contra hne
    rcases Nat.lt_or_gt_of_ne (fun h => hne (Fin.ext h)) with hlt | hlt
    · have e : pcg_state_at inc s j = pcg_state_at inc (pcg_state_at inc s i) (j.val - i.val) := by
        rw [← pcg_state_at_add]; congr 1; omega
      rw [← hij'] at e
      have hmod : pcg_state_at inc s i % 2 ^ 64 = pcg_state_at inc s i :=
        Nat.mod_eq_of_lt (Nat.mod_lt _ (by norm_num))
      have := (pcg_state_at_eq_iff inc (pcg_state_at inc s i) (j.val - i.val) hinc
        (by omega)).mp (by rw [hmod]; exact e.symm)
      have hlt2 : j.val - i.val < 2 ^ 64 := by have := j.isLt; omega
      exact absurd (Nat.le_of_dvd (by omega) this) (by omega)
    · have e : pcg_state_at inc s i = pcg_state_at inc (pcg_state_at inc s j) (i.val - j.val) := by
        rw [← pcg_state_at_add]; congr 1; omega
      rw [hij'] at e
      have hmod : pcg_state_at inc s j % 2 ^ 64 = pcg_state_at inc s j :=
        Nat.mod_eq_of_lt (Nat.mod_lt _ (by norm_num))
      have := (pcg_state_at_eq_iff inc (pcg_state_at inc s j) (i.val - j.val) hinc
        (by omega)).mp (by rw [hmod]; exact e.symm)
      have hlt2 : i.val - j.val < 2 ^ 64 := by have := i.isLt; omega
      exact absurd (Nat.le_of_dvd (by omega) this) (by omega)
  obtain ⟨j, hj⟩ := (Finite.injective_iff_surjective.mp hinj) ⟨t, ht⟩
  exact ⟨j.val, j.isLt, congrArg Fin.val hj⟩

/-- After `2^64` steps a generator with odd increment is back in its state. -/
theorem pcg_state_at_period (inc s j : Nat) (hinc : inc % 2 = 1) :
    pcg_state_at inc s (j + 2 ^ 64) = pcg_state_at inc s j := by
  rw [pcg_state_at_add]
  have := (pcg_state_at_eq_iff inc (pcg_state_at inc s j) (2 ^ 64) hinc (by norm_num)).mpr
    (dvd_refl _)
  rw [this]
  exact Nat.mod_eq_of_lt (Nat.mod_lt _ (by norm_num))

/-- Three short vectors of the lattice `{(x, y, z) : y ≡ M x, z ≡ M y (mod 2^64)}` of the
PCG multiplier `M` span it with determinant `-2^128`; rounding the coordinates of a target
in that basis gives a lattice point within `2^43` of the target in every component. -/
theorem pcg_lattice_point (t1 t2 t3 : ℤ) :
    ∃ x y z : ℤ, (2 ^ 64 : ℤ) ∣ 6364136223846793005 * x - y ∧
      (2 ^ 64 : ℤ) ∣ 6364136223846793005 * y - z ∧
      |t1 - x| ≤ 2 ^ 43 ∧ |t2 - y| ≤ 2 ^ 43 ∧ |t3 - z| ≤ 2 ^ 43 := by
  set a1 : ℚ := ((t1 : ℚ) * 14557561680417145720143872 + t2 * 43348243706483033566609408
    + t3 * (-38559081563322486066511872)) / (-340282366920938463463374607431768211456)
    with ha1
  set a2 : ℚ := ((t1 : ℚ) * 18328924719310768709828608 + t2 * (-24237066357982537610952704)
    + t3 * (-35814556533291905267531776)) / (-340282366920938463463374607431768211456)
    with ha2
  set a3 : ℚ := ((t1 : ℚ) * (-46081682243325314925068288) + t2 * (-7327065192821507611426816)
    + t3 * 151595342797745095180288) / (-340282366920938463463374607431768211456)
    with ha3
  have e1 := abs_le.mp (abs_sub_round a1)
  have e2 := abs_le.mp (abs_sub_round a2)
  have e3 := abs_le.mp (abs_sub_round a3)
  generalize round a1 = n1 at e1
  generalize round a2 = n2 at e2
  generalize round a3 = n3 at e3
  have k1 : (t1 : ℚ) = a1 * 781967691603 + a2 * (-810954487658) + a3 * 7308804055591 := by
    rw [ha1, ha2, ha3]; ring
  have k2 : (t2 : ℚ) = a1 * (-4841909526889) + a2 * 5215258438750 + a3 * 544764893659 := by
    rw [ha1, ha2, ha3]; ring
  have k3 : (t3 : ℚ) = a1 * 3676893481355 + a2 * 5556843294342 + a3 * 3371785891967 := by
    rw [ha1, ha2, ha3]; ring
  clear_value a1 a2 a3
  refine ⟨n1 * 781967691603 + n2 * (-810954487658) + n3 * 7308804055591,
    n1 * (-4841909526889) + n2 * 5215258438750 + n3 * 544764893659,
    n1 * 3676893481355 + n2 * 5556843294342 + n3 * 3371785891967, ?_, ?_, ?_, ?_, ?_⟩
  · exact ⟨n1 * 269779257094 + n2 * (-279779716690) + n3 * 2521541170481, by ring⟩
  · exact ⟨n1 * (-1670461285175) + n2 * 1799266852413 + n3 * 187944169408, by ring⟩
  · rw [← Int.cast_le (R := ℚ), Int.cast_abs]
    push_cast
    rw [k1, abs_le]
    constructor <;> linarith
  · rw [← Int.cast_le (R := ℚ), Int.cast_abs]
    push_cast
    rw [k2, abs_le]
    constructor <;> linarith
  · rw [← Int.cast_le (R := ℚ), Int.cast_abs]
    push_cast
    rw [k3, abs_le]
    constructor <;> linarith

theorem shiftRight_xor (a b k : Nat) : (a ^^^ b) >>> k = (a >>> k) ^^^ (b >>> k) := by
  apply Nat.eq_of_testBit_eq
  intro j
  simp only [Nat.testBit_shiftRight, Nat.testBit_xor]


/-- From a state in `[2^49, 3 * 2^49)` the rotation of `rng_uint32` is 0 and the low 24
bits of the output are the bits 27 to 50 of the state. -/
theorem rng_uint32_middle (rng : RNG) (h : MiddleState rng.state) :
    2 ^ 22 ≤ (rng_uint32 rng).1 &&& 0xFFFFFF ∧ (rng_uint32 rng).1 &&& 0xFFFFFF < 3 * 2 ^ 22 := by
  obtain ⟨h1, h2⟩ := h
  unfold rng_uint32
  dsimp only
  generalize rng.state % 2 ^ 64 = s at h1 h2
  have hrot : (s >>> 59) % 2 ^ 32 = 0 := by
    rw [Nat.shiftRight_eq_div_pow, Nat.div_eq_of_lt (by omega)]
    rfl
  rw [hrot]
  have hy : ((s >>> 18) ^^^ s) >>> 27 >>> 22 = s >>> 49 := by
    rw [← Nat.shiftRight_add, shiftRight_xor, ← Nat.shiftRight_add]
    have : s >>> (18 + (27 + 22)) = 0 := by
      rw [Nat.shiftRight_eq_div_pow, Nat.div_eq_of_lt (by omega)]
    rw [this, Nat.zero_xor]
  generalize ((s >>> 18) ^^^ s) >>> 27 = x at hy
  rw [Nat.shiftRight_eq_div_pow, Nat.shiftRight_eq_div_pow] at hy
  have hx1 : 2 ^ 22 ≤ x := by omega
  have hx2 : x < 3 * 2 ^ 22 := by omega
  have hx : x % 2 ^ 32 = x := Nat.mod_eq_of_lt (by omega)
  have e0 : ((2 ^ 32 - 0) % 2 ^ 32) &&& 31 = 0 := by decide
  rw [hx, e0, Nat.shiftLeft_zero, Nat.shiftRight_zero, hx, Nat.or_self]
  have e1 : (0xFFFFFF : Nat) = 2 ^ 24 - 1 := by decide
  rw [e1, Nat.and_pow_two_sub_one_eq_mod, Nat.mod_eq_of_lt (by omega)]
  exact ⟨hx1, hx2⟩


/-- For every increment there is a 64-bit state from which three successive states of the
generator lie in `[2^49, 3 * 2^49)`. -/
theorem pcg_middle_triple (inc : Nat) :
    ∃ s, s < 2 ^ 64 ∧ MiddleState s ∧ MiddleState (pcg_step inc s) ∧
      MiddleState (pcg_step inc (pcg_step inc s)) := by
  obtain ⟨x, y, z, ⟨k1, hk1⟩, ⟨k2, hk2⟩, hx, hy, hz⟩ := pcg_lattice_point (2 ^ 50)
    (2 ^ 50 - inc) (2 ^ 50 - 6364136223846793005 * inc - inc)
  rw [abs_le] at hx hy hz
  -- the three states as integers
  have hx0 : 0 ≤ x := by linarith
  obtain ⟨s, rfl⟩ := Int.eq_ofNat_of_zero_le hx0
  have hy0 : 0 ≤ y + inc := by linarith
  obtain ⟨s1, hs1⟩ := Int.eq_ofNat_of_zero_le hy0
  have hz0 : 0 ≤ z + 6364136223846793005 * inc + inc := by linarith
  obtain ⟨s2, hs2⟩ := Int.eq_ofNat_of_zero_le hz0
  have bs : 2 ^ 49 ≤ s ∧ s < 3 * 2 ^ 49 := by
    constructor <;> · zify; linarith
  have bs1 : 2 ^ 49 ≤ s1 ∧ s1 < 3 * 2 ^ 49 := by
    constructor <;> · zify; linarith
  have bs2 : 2 ^ 49 ≤ s2 ∧ s2 < 3 * 2 ^ 49 := by
    constructor <;> · zify; linarith
  have e1 : pcg_step inc s = s1 := by
    unfold pcg_step PCG_MULT
    rw [Nat.mod_eq_of_lt (by omega : s < 2 ^ 64)]
    have hmod : (s * 6364136223846793005 + inc) % 2 ^ 64 = s1 % 2 ^ 64 := by
      zify
      exact Int.emod_eq_emod_iff_emod_sub_eq_zero.mpr
        (Int.emod_eq_zero_of_dvd ⟨k1, by rw [← hs1]; linarith⟩)
    rw [hmod, Nat.mod_eq_of_lt (by omega)]
  have e2 : pcg_step inc s1 = s2 := by
    unfold pcg_step PCG_MULT
    rw [Nat.mod_eq_of_lt (by omega : s1 < 2 ^ 64)]
    have hmod : (s1 * 6364136223846793005 + inc) % 2 ^ 64 = s2 % 2 ^ 64 := by
      zify
      exact Int.emod_eq_emod_iff_emod_sub_eq_zero.mpr
        (Int.emod_eq_zero_of_dvd ⟨k2, by rw [← hs2, ← hs1]; linarith⟩)
    rw [hmod, Nat.mod_eq_of_lt (by omega)]
  refine ⟨s, by omega, ?_, ?_, ?_⟩
  · unfold MiddleState
    rw [Nat.mod_eq_of_lt (by omega)]
    exact bs
  · rw [e1]
    unfold MiddleState
    rw [Nat.mod_eq_of_lt (by omega)]
    exact bs1
  · rw [e1, e2]
    unfold MiddleState
    rw [Nat.mod_eq_of_lt (by omega)]
    exact bs2

theorem middleState_mod (s : Nat) : MiddleState (s % 2 ^ 64) ↔ MiddleState s := by
  unfold MiddleState
  rw [Nat.mod_mod]

theorem pcg_state_at_two (inc s : Nat) :
    pcg_state_at inc s 2 = pcg_step inc (pcg_step inc s) := by
  rw [show (2 : Nat) = 0 + 1 + 1 by rfl, pcg_state_at_succ, pcg_state_at_succ,
    pcg_state_at_zero, pcg_step_mod]

theorem pcg_state_at_three (inc s : Nat) :
    pcg_state_at inc s 3 = pcg_step inc (pcg_step inc (pcg_step inc s)) := by
  rw [show (3 : Nat) = 0 + 1 + 1 + 1 by rfl, pcg_state_at_succ, pcg_state_at_succ,
    pcg_state_at_succ, pcg_state_at_zero, pcg_step_mod]

end SamplerPeriod

section SamplerReturns

variable {F : Type} [LinearOrderedField F]

/-- The draw of `rng_float` from a middle state lies in `[1/4, 3/4)`. -/
theorem rng_float_middle (rng : RNG) (h : MiddleState rng.state) :
    (1 / 4 : F) ≤ (rng_float rng : F × RNG).1 ∧ (rng_float rng : F × RNG).1 < 3 / 4 := by
  obtain ⟨h1, h2⟩ := rng_uint32_middle rng h
  unfold rng_float
  dsimp only
  generalize (rng_uint32 rng).1 &&& 0xFFFFFF = x at h1 h2
  have c1 : ((2 ^ 22 : Nat) : F) ≤ (x : F) := by exact_mod_cast h1
  have c2 : (x : F) < ((3 * 2 ^ 22 : Nat) : F) := by exact_mod_cast h2
  push_cast at c1 c2
  constructor
  · rw [le_div_iff₀ (by norm_num)]
    linarith
  · rw [div_lt_iff₀ (by norm_num)]
    linarith

/-- The coordinate `rng_float_range(rng, -1, 1)` drawn from a middle state has a square of
at most `1/4`. -/
theorem rng_float_range_middle (rng : RNG) (h : MiddleState rng.state) :
    (rng_float_range rng (-1) 1 : F × RNG).1 * (rng_float_range rng (-1) 1 : F × RNG).1
      ≤ 1 / 4 := by
  obtain ⟨h1, h2⟩ := rng_float_middle (F := F) rng h
  unfold rng_float_range
  dsimp only
  generalize (rng_float rng : F × RNG).1 = f at h1 h2
  nlinarith

theorem rng_float_range_rng (rng : RNG) (a b : F) :
    (rng_float_range rng a b : F × RNG).2 = ⟨pcg_step rng.inc rng.state, rng.inc⟩ := rfl

/-- An iteration of `rng_in_unit_sphere` that starts in three successive middle states
accepts its candidate. -/
theorem rng_in_unit_sphere_accepts (rng : RNG) (fuel : Nat)
    (h0 : MiddleState rng.state) (h1 : MiddleState (pcg_step rng.inc rng.state))
    (h2 : MiddleState (pcg_step rng.inc (pcg_step rng.inc rng.state))) :
    ∃ p rng', (rng_in_unit_sphere (fuel + 1) rng : Option (Vec3 F × RNG)) = some (p, rng') := by
  have c0 := rng_float_range_middle (F := F) rng h0
  have c1 := rng_float_range_middle (F := F) (rng_float_range rng (-1) 1 : F × RNG).2
    (by rw [rng_float_range_rng]; exact h1)
  have c2 := rng_float_range_middle (F := F)
    (rng_float_range (rng_float_range rng (-1) 1 : F × RNG).2 (-1) 1 : F × RNG).2
    (by rw [rng_float_range_rng, rng_float_range_rng]; exact h2)
  unfold rng_in_unit_sphere
  dsimp only
  rw [if_pos]
  · exact ⟨_, _, rfl⟩
  · simp only [vec3_length_squared, vec3_dot, vec3_create]
    linarith

/-- If the state after `3 k` draws starts three successive middle states, the loop of
`rng_in_unit_sphere` returns within `k + 1` iterations. -/
theorem rng_in_unit_sphere_within (k : Nat) : ∀ (rng : RNG) (fuel : Nat), k < fuel →
    MiddleState (pcg_state_at rng.inc rng.state (3 * k)) →
    MiddleState (pcg_step rng.inc (pcg_state_at rng.inc rng.state (3 * k))) →
    MiddleState (pcg_step rng.inc (pcg_step rng.inc (pcg_state_at rng.inc rng.state (3 * k)))) →
    ∃ p rng', (rng_in_unit_sphere fuel rng : Option (Vec3 F × RNG)) = some (p, rng') := by
  induction k with
  | zero =>
    intro rng fuel hf h0 h1 h2
    obtain ⟨f, rfl⟩ : ∃ f, fuel = f + 1 := ⟨fuel - 1, by omega⟩
    rw [Nat.mul_zero, pcg_state_at_zero] at h0 h1 h2
    rw [pcg_step_mod] at h1 h2
    exact rng_in_unit_sphere_accepts rng f ((middleState_mod _).mp h0) h1 h2
  | succ k ih =>
    intro rng fuel hf h0 h1 h2
    obtain ⟨f, rfl⟩ : ∃ f, fuel = f + 1 := ⟨fuel - 1, by omega⟩
    unfold rng_in_unit_sphere
    dsimp only
    split_ifs with hacc
    · exact ⟨_, _, rfl⟩
    · have e : pcg_state_at rng.inc rng.state (3 * (k + 1))
          = pcg_state_at rng.inc
              (pcg_step rng.inc (pcg_step rng.inc (pcg_step rng.inc rng.state))) (3 * k) := by
        rw [show 3 * (k + 1) = 3 + 3 * k by ring, pcg_state_at_add, pcg_state_at_three]
      rw [e] at h0 h1 h2
      exact ih _ f (by omega) h0 h1 h2

/-- The rejection loop of `rng_in_unit_sphere` returns from every state of a generator
with odd increment, within `2^64` iterations. -/
theorem rng_in_unit_sphere_returns (rng : RNG) (fuel : Nat) (hinc : rng.inc % 2 = 1)
    (hfuel : 2 ^ 64 ≤ fuel) :
    ∃ p rng', (rng_in_unit_sphere fuel rng : Option (Vec3 F × RNG)) = some (p, rng') := by
  obtain ⟨s0, hs0, m0, m1, m2⟩ := pcg_middle_triple rng.inc
  obtain ⟨j, hj, hjs⟩ := pcg_full_period rng.inc rng.state s0 hinc hs0
  obtain ⟨k, hk, hks⟩ : ∃ k, k < 2 ^ 64 ∧ pcg_state_at rng.inc rng.state (3 * k) = s0 := by
    have h3 : j % 3 = 0 ∨ j % 3 = 1 ∨ j % 3 = 2 := by omega
    rcases h3 with h | h | h
    · exact ⟨j / 3, by omega, by rw [show 3 * (j / 3) = j by omega]; exact hjs⟩
    · refine ⟨(j + 2 ^ 64 + 2 ^ 64) / 3, by omega, ?_⟩
      rw [show 3 * ((j + 2 ^ 64 + 2 ^ 64) / 3) = j + 2 ^ 64 + 2 ^ 64 by omega,
        pcg_state_at_period _ _ _ hinc, pcg_state_at_period _ _ _ hinc]
      exact hjs
    · refine ⟨(j + 2 ^ 64) / 3, by omega, ?_⟩
      rw [show 3 * ((j + 2 ^ 64) / 3) = j + 2 ^ 64 by omega, pcg_state_at_period _ _ _ hinc]
      exact hjs
  exact rng_in_unit_sphere_within k rng fuel (by omega) (by rw [hks]; exact m0)
    (by rw [hks]; exact m1) (by rw [hks]; exact m2)

/-- An iteration of `rng_in_unit_disk` that starts in two successive middle states accepts
its candidate. -/
theorem rng_in_unit_disk_accepts (rng : RNG) (fuel : Nat)
    (h0 : MiddleState rng.state) (h1 : MiddleState (pcg_step rng.inc rng.state)) :
    ∃ p rng', (rng_in_unit_disk (fuel + 1) rng : Option (Vec3 F × RNG)) = some (p, rng') := by
  have c0 := rng_float_range_middle (F := F) rng h0
  have c1 := rng_float_range_middle (F := F) (rng_float_range rng (-1) 1 : F × RNG).2
    (by rw [rng_float_range_rng]; exact h1)
  unfold rng_in_unit_disk
  dsimp only
  rw [if_pos]
  · exact ⟨_, _, rfl⟩
  · simp only [vec3_length_squared, vec3_dot, vec3_create]
    linarith

theorem rng_in_unit_disk_within (k : Nat) : ∀ (rng : RNG) (fuel : Nat), k < fuel →
    MiddleState (pcg_state_at rng.inc rng.state (2 * k)) →
    MiddleState (pcg_step rng.inc (pcg_state_at rng.inc rng.state (2 * k))) →
    ∃ p rng', (rng_in_unit_disk fuel rng : Option (Vec3 F × RNG)) = some (p, rng') := by
  induction k with
  | zero =>
    intro rng fuel hf h0 h1
    obtain ⟨f, rfl⟩ : ∃ f, fuel = f + 1 := ⟨fuel - 1, by omega⟩
    rw [Nat.mul_zero, pcg_state_at_zero] at h0 h1
    rw [pcg_step_mod] at h1
    exact rng_in_unit_disk_accepts rng f ((middleState_mod _).mp h0) h1
  | succ k ih =>
    intro rng fuel hf h0 h1
    obtain ⟨f, rfl⟩ : ∃ f, fuel = f + 1 := ⟨fuel - 1, by omega⟩
    unfold rng_in_unit_disk
    dsimp only
    split_ifs with hacc
    · exact ⟨_, _, rfl⟩
    · have e : pcg_state_at rng.inc rng.state (2 * (k + 1))
          = pcg_state_at rng.inc (pcg_step rng.inc (pcg_step rng.inc rng.state)) (2 * k) := by
        rw [show 2 * (k + 1) = 2 + 2 * k by ring, pcg_state_at_add, pcg_state_at_two]
      rw [e] at h0 h1
      exact ih _ f (by omega) h0 h1

/-- The rejection loop of `rng_in_unit_disk` returns from every state of a generator with
odd increment, within `2^64` iterations. -/
theorem rng_in_unit_disk_returns (rng : RNG) (fuel : Nat) (hinc : rng.inc % 2 = 1)
    (hfuel : 2 ^ 64 ≤ fuel) :
    ∃ p rng', (rng_in_unit_disk fuel rng : Option (Vec3 F × RNG)) = some (p, rng') := by
  obtain ⟨s0, hs0, m0, m1, m2⟩ := pcg_middle_triple rng.inc
  obtain ⟨j, hj, hjs⟩ := pcg_full_period rng.inc rng.state s0 hinc hs0
  rcases Nat.even_or_odd j with ⟨i, hi⟩ | ⟨i, hi⟩
  · refine rng_in_unit_disk_within i rng fuel (by omega) ?_ ?_
    · rw [show 2 * i = j by omega, hjs]; exact m0
    · rw [show 2 * i = j by omega, hjs]; exact m1
  · have e : pcg_state_at rng.inc rng.state (2 * (i + 1)) = pcg_step rng.inc s0 := by
      rw [show 2 * (i + 1) = j + 1 by omega, pcg_state_at_succ, hjs]
    refine rng_in_unit_disk_within (i + 1) rng fuel (by omega) ?_ ?_
    · rw [e]; exact m1
    · rw [e]; exact m2

end SamplerReturns
section BuildClaims

variable {F : Type} [LinearOrderedField F] [FloorRing F]

/-- C3: `bvh_create` returns, and the index ranges `[first_prim_idx, first_prim_idx +
prim_count)` of the leaves of its tree, read left to right and concatenated, are exactly
`0, 1, ..., N - 1`: pairwise disjoint, covering `[0, N)`, every primitive in one leaf. -/
theorem bvh_create_leaves_partition (prims : List (Primitive F)) :
    ∃ bvh, bvh_create prims = some bvh ∧
      ((bvh_leaves bvh.nodes bvh.node_count bvh.root).map
        (fun p => List.range' p.1 p.2)).flatten = List.range prims.length := by
  obtain ⟨bvh, hc, hroot, -, hnc, -, -, -, hsub, -⟩ := bvh_create_spec prims
  refine ⟨bvh, hc, ?_⟩
  rw [hroot, hnc, (leaves_of_subtree hsub bvh.nodes.length (by omega)).1, List.range_eq_range']
  rfl

/-- C4: for a non-empty array, every leaf of the tree built by `bvh_create` holds one or
two primitives, and every reachable node is such a leaf or an internal node with two
non-null children. -/
theorem bvh_create_leaf_size_and_arity (prims : List (Primitive F)) (hne : prims ≠ []) :
    ∃ bvh, bvh_create prims = some bvh ∧
      (∀ p ∈ bvh_leaves bvh.nodes bvh.node_count bvh.root, 1 ≤ p.2 ∧ p.2 ≤ 2) ∧
      (∀ i ∈ bvh_reachable bvh.nodes bvh.node_count bvh.root,
        ∃ n, bvh.nodes[i]? = some n ∧
          (n.is_leaf = true → 1 ≤ n.prim_count ∧ n.prim_count ≤ 2) ∧
          (n.is_leaf = false → ∃ l r, n.left = some l ∧ n.right = some r)) := by
  obtain ⟨bvh, hc, hroot, -, hnc, -, -, -, hsub, -⟩ := bvh_create_spec prims
  have hpos : 0 < prims.length := List.length_pos.mpr hne
  refine ⟨bvh, hc, ?_, ?_⟩
  · rw [hroot, hnc]
    exact (leaves_of_subtree hsub bvh.nodes.length (by omega)).2 hpos
  · rw [hroot, hnc, reachable_of_subtree hsub bvh.nodes.length (by omega)]
    intro i hi
    rw [List.mem_range'_1] at hi
    obtain ⟨n, hg, h1, h2⟩ := nodes_of_subtree hsub hpos i hi.1 (by omega)
    refine ⟨n, hg, h1, fun hf => ?_⟩
    obtain ⟨l, r, e1, e2, -, -⟩ := h2 hf
    exact ⟨l, r, e1, e2⟩

theorem bvh_create_leaf_size_and_arity_witness :
    ∃ bvh, bvh_create example_scene = some bvh ∧
      (∀ p ∈ bvh_leaves bvh.nodes bvh.node_count bvh.root, 1 ≤ p.2 ∧ p.2 ≤ 2) ∧
      (∀ i ∈ bvh_reachable bvh.nodes bvh.node_count bvh.root,
        ∃ n, bvh.nodes[i]? = some n ∧
          (n.is_leaf = true → 1 ≤ n.prim_count ∧ n.prim_count ≤ 2) ∧
          (n.is_leaf = false → ∃ l r, n.left = some l ∧ n.right = some r)) :=
  bvh_create_leaf_size_and_arity example_scene (by decide)

/-- C5: `bvh_create` only reorders: `indices` is a permutation of `0 .. N-1`, the
primitive at position `i` of the array after the call is the input primitive at position
`indices[i]`, and the array after the call is a permutation of the input array. -/
theorem bvh_create_reorders (prims : List (Primitive F)) :
    ∃ bvh, bvh_create prims = some bvh ∧
      bvh.indices.Perm (List.range prims.length) ∧
      bvh.primitives.length = prims.length ∧
      (∀ i, i < prims.length → bvh.primitives[i]? = prims[bvh.indices.getD i 0]?) ∧
      bvh.primitives.Perm prims := by
  obtain ⟨bvh, hc, -, -, -, -, -, hw, -, hprims⟩ := bvh_create_spec prims
  have hlen : bvh.indices.length = prims.length := by rw [hw.1, List.length_range]
  have hmem : ∀ j ∈ bvh.indices, j < prims.length := fun j hj =>
    List.mem_range.mp (hw.2.1.mem_iff.mp hj)
  refine ⟨bvh, hc, hw.2.1, ?_, ?_, ?_⟩
  · rw [hprims, List.length_map, List.length_range]
  · intro i hi
    have hi' : i < bvh.indices.length := by rw [hlen]; exact hi
    have hj : bvh.indices.getD i 0 < prims.length := by
      rw [List.getD_eq_getElem _ _ hi']
      exact hmem _ (List.getElem_mem _)
    rw [hprims, List.getElem?_map, List.getElem?_range hi, Option.map_some',
      List.getD_eq_getElem _ _ hj, List.getElem?_eq_getElem hj]
  · have h1 : bvh.primitives = bvh.indices.map (fun j => prims.getD j Primitive.zero) := by
      rw [hprims, ← hlen]
      conv_rhs => rw [← map_getD_range_self bvh.indices 0]
      rw [List.map_map]
      rfl
    rw [h1]
    have h2 := hw.2.1.map (fun j => prims.getD j Primitive.zero)
    rw [map_getD_range_self] at h2
    exact h2

/-- C6: on every range `[s, e)` and every state, `bvh_build_recursive` returns when given
more fuel (nesting depth) than the range has entries; and whenever it recurses (more than
two entries) the split position is strictly inside the range, so both recursive calls are
on non-empty, strictly smaller sub-ranges and the forced leaf is never needed. -/
theorem bvh_build_recursive_terminates (prims : List (Primitive F)) (fuel : Nat)
    (st : BuildState F) (s e : Nat) (hfuel : e - s < fuel) :
    (∃ node st', bvh_build_recursive prims fuel st s e = some (node, st')) ∧
    (2 < e - s →
      (build_choose_split prims (range_bounds prims st.indices s e) st.indices s e).2.2 = false ∧
      s < (build_choose_split prims (range_bounds prims st.indices s e) st.indices s e).1 ∧
      (build_choose_split prims (range_bounds prims st.indices s e) st.indices s e).1 < e) := by
  refine ⟨?_, fun h => choose_split_inside prims _ _ s e (by omega)⟩
  obtain ⟨⟨node, st'⟩, h⟩ := build_terminates prims fuel st s e hfuel
  exact ⟨node, st', h⟩

theorem bvh_build_recursive_terminates_witness :
    (∃ node st', bvh_build_recursive coincident_scene 5 ⟨[], [0, 1, 2, 3]⟩ 0 4
      = some (node, st')) ∧
    (2 < 4 - 0 →
      (build_choose_split coincident_scene (range_bounds coincident_scene [0, 1, 2, 3] 0 4)
        [0, 1, 2, 3] 0 4).2.2 = false ∧
      0 < (build_choose_split coincident_scene (range_bounds coincident_scene [0, 1, 2, 3] 0 4)
        [0, 1, 2, 3] 0 4).1 ∧
      (build_choose_split coincident_scene (range_bounds coincident_scene [0, 1, 2, 3] 0 4)
        [0, 1, 2, 3] 0 4).1 < 4) :=
  bvh_build_recursive_terminates coincident_scene 5 ⟨[], [0, 1, 2, 3]⟩ 0 4 (by decide)

/-- C7: for `N ≥ 1` primitives the build hands out at most `2N - 1` node slots:
`bvh_create` returns with `node_count ≤ 2N - 1` nodes, every node pointer reachable from
the root is below `node_count`, the `uint32_t` expression `2 * count - 1` passed to
`calloc` is `2N - 1` (for `N ≤ 2^31`), and every call of `bvh_build_recursive` writes its
node at the old cursor and leaves the cursor strictly larger. -/
theorem bvh_create_node_count (prims : List (Primitive F)) (hne : 1 ≤ prims.length) :
    (∃ bvh, bvh_create prims = some bvh ∧
      bvh.node_count = bvh.nodes.length ∧
      bvh.node_count ≤ 2 * prims.length - 1 ∧
      (∀ i ∈ bvh_reachable bvh.nodes bvh.node_count bvh.root, i < bvh.node_count)) ∧
    (prims.length ≤ 2 ^ 31 → bvh_node_capacity prims.length = 2 * prims.length - 1) ∧
    (∀ fuel (st : BuildState F) s e node st',
      bvh_build_recursive prims fuel st s e = some (node, st') →
      node = st.node_idx ∧ st.node_idx < st'.node_idx) := by
  refine ⟨?_, ?_, fun fuel st s e node st' h => build_cursor_increases prims fuel st s e node st' h⟩
  · obtain ⟨bvh, hc, hroot, -, hnc, -, hcnt, -, hsub, -⟩ := bvh_create_spec prims
    have hmax : max 1 prims.length = prims.length := max_eq_right hne
    rw [hmax] at hcnt
    refine ⟨bvh, hc, hnc, by omega, ?_⟩
    rw [hroot, hnc, reachable_of_subtree hsub bvh.nodes.length (by omega)]
    intro i hi
    rw [List.mem_range'_1] at hi
    omega
  · intro h
    unfold bvh_node_capacity
    have : 2 * prims.length + 2 ^ 32 - 1 = (2 * prims.length - 1) + 2 ^ 32 := by omega
    rw [this, Nat.add_mod_right, Nat.mod_eq_of_lt]
    have : (2 : Nat) ^ 32 = 2 * 2 ^ 31 := by norm_num
    omega

theorem bvh_create_node_count_witness :
    (∃ bvh, bvh_create example_scene = some bvh ∧
      bvh.node_count = bvh.nodes.length ∧
      bvh.node_count ≤ 2 * example_scene.length - 1 ∧
      (∀ i ∈ bvh_reachable bvh.nodes bvh.node_count bvh.root, i < bvh.node_count)) ∧
    (example_scene.length ≤ 2 ^ 31 →
      bvh_node_capacity example_scene.length = 2 * example_scene.length - 1) ∧
    (∀ fuel (st : BuildState ℚ) s e node st',
      bvh_build_recursive example_scene fuel st s e = some (node, st') →
      node = st.node_idx ∧ st.node_idx < st'.node_idx) :=
  bvh_create_node_count example_scene (by decide)

end BuildClaims

section TraversalSoundClaims

variable {F : Type} [LinearOrderedField F] [FloorRing F]

end TraversalSoundClaims

section TraversalExamples

end TraversalExamples

/-! ## Centroid rays, orientation of normals, degenerate primitives -/

section GeometryClaims

variable {F : Type} [LinearOrderedField F]

end GeometryClaims

section DegenerateExamples

end DegenerateExamples

section SphereClaims

variable {F : Type} [LinearOrderedField F]

end SphereClaims

section SphereExamples

end SphereExamples

section GeometryClaims2

variable {F : Type} [LinearOrderedField F]

end GeometryClaims2

/-! ## Path tracing: `trace_ray` -/

section TraceLemmas

variable {F : Type} [LinearOrderedField F]

/-- One unfolding of `trace_ray` below the maximum depth: the roulette step, then the
intersection test and shading, with `trace_ray` at `depth + 1` as the recursive call. -/
theorem trace_ray_eq (sqrtf : F → F) (sfuel : Nat) (scene : Scene F) (ray : Ray F) (rng : RNG)
    (depth max_depth : Nat) (hd : depth < max_depth) :
    trace_ray sqrtf sfuel scene ray rng depth max_depth =
      if (russian_roulette (F := F) rng depth).1 = true then
        .ok (vec3_create 0 0 0) (russian_roulette (F := F) rng depth).2
      else
        trace_ray_shade sqrtf sfuel scene
          (fun scattered g => trace_ray sqrtf sfuel scene scattered g (depth + 1) max_depth)
          ray (russian_roulette (F := F) rng depth).2 := by
  have h1 : max_depth - depth + 1 = (max_depth - (depth + 1) + 1) + 1 := by omega
  unfold trace_ray
  rw [h1]
  conv_lhs => unfold trace_ray_fuel
  rw [if_neg (by omega)]

/-- Shading never reports that the recursion ran out of fuel unless the recursive call
does. -/
theorem trace_ray_shade_no_recursion_fault (sqrtf : F → F) (sfuel : Nat) (scene : Scene F)
    (recurse : Ray F → RNG → TraceResult F) (ray : Ray F) (rng : RNG)
    (hrec : ∀ r g, recurse r g ≠ .fault .recursion) :
    trace_ray_shade sqrtf sfuel scene recurse ray rng ≠ .fault .recursion := by
  unfold trace_ray_shade
  split
  · simp
  · split
    · simp
    · split
      · simp
      · split
        · simp
        · split
          · simp
          · intro hc
            cases h : recurse _ _ with
            | ok c g => rw [h] at hc; simp [TraceResult.attenuate] at hc
            | fault f =>
              rw [h] at hc
              simp only [TraceResult.attenuate, TraceResult.fault.injEq] at hc
              exact hrec _ _ (hc ▸ h)
  · simp

/-- The fuel that `trace_ray` grants itself is never used up: the recursion is at most
`max_depth - depth` deep. -/
theorem trace_ray_fuel_enough (sqrtf : F → F) (sfuel : Nat) (scene : Scene F) (max_depth : Nat) :
    ∀ (fuel : Nat) (ray : Ray F) (rng : RNG) (depth : Nat), max_depth - depth < fuel →
      trace_ray_fuel sqrtf sfuel scene fuel ray rng depth max_depth ≠ .fault .recursion := by
  intro fuel
  induction fuel with
  | zero => intro _ _ _ h; omega
  | succ n ih =>
    intro ray rng depth h
    unfold trace_ray_fuel
    by_cases h1 : depth ≥ max_depth
    · rw [if_pos h1]; simp
    · rw [if_neg h1]
      by_cases h2 : (russian_roulette (F := F) rng depth).1 = true
      · rw [if_pos h2]; simp
      · rw [if_neg h2]
        apply trace_ray_shade_no_recursion_fault
        intro r g
        exact ih r g (depth + 1) (by omega)

theorem trace_ray_terminates (sqrtf : F → F) (sfuel : Nat) (scene : Scene F) (ray : Ray F)
    (rng : RNG) (depth max_depth : Nat) :
    trace_ray sqrtf sfuel scene ray rng depth max_depth ≠ .fault .recursion :=
  trace_ray_fuel_enough sqrtf sfuel scene max_depth _ ray rng depth (by omega)

/-- The emissive short-circuit of the shading: a hit on an emissive material returns its
emission with the generator untouched, whatever the recursive call would do. -/
theorem trace_ray_shade_emissive (sqrtf : F → F) (sfuel : Nat) (scene : Scene F)
    (recurse : Ray F → RNG → TraceResult F) (ray : Ray F) (rng : RNG) (rec : HitRecord F)
    (mat : Material F)
    (hhit : scene_hit sqrtf scene ray (1 / 1000) FLT_MAX HitRecord.zero = .done true rec)
    (hmat : scene_material scene rec = some mat) (hem : mat.type = .MATERIAL_EMISSIVE) :
    trace_ray_shade sqrtf sfuel scene recurse ray rng = .ok mat.emission rng := by
  unfold trace_ray_shade
  rw [hhit]
  simp only [hmat, hem, if_true]

/-- A miss returns the ambient light with the generator untouched. -/
theorem trace_ray_shade_miss (sqrtf : F → F) (sfuel : Nat) (scene : Scene F)
    (recurse : Ray F → RNG → TraceResult F) (ray : Ray F) (rng : RNG) (rec : HitRecord F)
    (hhit : scene_hit sqrtf scene ray (1 / 1000) FLT_MAX HitRecord.zero = .done false rec) :
    trace_ray_shade sqrtf sfuel scene recurse ray rng = .ok scene.ambient_light rng := by
  unfold trace_ray_shade
  rw [hhit]

/-- No roulette draw is taken at depth 0. -/
theorem russian_roulette_zero (rng : RNG) : russian_roulette (F := F) rng 0 = (false, rng) := by
  unfold russian_roulette
  rw [if_neg (by unfold RUSSIAN_ROULETTE_DEPTH; omega)]

/-- C15: `trace_ray` called with `depth ≥ max_depth` returns black and leaves the generator
as it was, for every scene, ray and generator: the check precedes the roulette draw and the
intersection test. -/
theorem trace_ray_black_at_max_depth (sqrtf : F → F) (sfuel : Nat) (scene : Scene F)
    (ray : Ray F) (rng : RNG) (depth max_depth : Nat) (hd : depth ≥ max_depth) :
    trace_ray sqrtf sfuel scene ray rng depth max_depth = .ok (vec3_create 0 0 0) rng := by
  unfold trace_ray trace_ray_fuel
  rw [if_pos hd]

theorem trace_ray_black_at_max_depth_witness :
    trace_ray qsqrt 10 lambert_scene z_ray (rng_init 42) 7 7
      = .ok (vec3_create 0 0 0) (rng_init 42) :=
  trace_ray_black_at_max_depth qsqrt 10 lambert_scene z_ray (rng_init 42) 7 7 (by decide)

/-- C19: below the maximum depth, at `depth < 5` no roulette draw is taken and `trace_ray`
goes on to the intersection test with the generator as it was; at `depth ≥ 5` exactly one
draw `rng_float` is taken first: when it is greater than `survival_probability` the path
ends with black, otherwise `trace_ray` goes on to the intersection test with the generator
after that one draw. -/
theorem trace_ray_russian_roulette (sqrtf : F → F) (sfuel : Nat) (scene : Scene F)
    (ray : Ray F) (rng : RNG) (depth max_depth : Nat) (hd : depth < max_depth) :
    (depth < 5 →
      trace_ray sqrtf sfuel scene ray rng depth max_depth =
        trace_ray_shade sqrtf sfuel scene
          (fun scattered g => trace_ray sqrtf sfuel scene scattered g (depth + 1) max_depth)
          ray rng) ∧
    (5 ≤ depth → (rng_float (F := F) rng).1 > survival_probability →
      trace_ray sqrtf sfuel scene ray rng depth max_depth =
        .ok (vec3_create 0 0 0) (rng_float (F := F) rng).2) ∧
    (5 ≤ depth → ¬ (rng_float (F := F) rng).1 > survival_probability →
      trace_ray sqrtf sfuel scene ray rng depth max_depth =
        trace_ray_shade sqrtf sfuel scene
          (fun scattered g => trace_ray sqrtf sfuel scene scattered g (depth + 1) max_depth)
          ray (rng_float (F := F) rng).2) ∧
    (rng_float (F := F) rng).2 = (rng_uint32 rng).2 := by
  rw [trace_ray_eq sqrtf sfuel scene ray rng depth max_depth hd]
  unfold russian_roulette RUSSIAN_ROULETTE_DEPTH
  refine ⟨?_, ?_, ?_, rfl⟩
  · intro h
    rw [if_neg (show ¬ depth ≥ 5 by omega)]
    simp only [Bool.false_eq_true, if_false]
  · intro h hgt
    rw [if_pos (show depth ≥ 5 from h)]
    simp only [hgt, decide_True, if_true]
  · intro h hgt
    rw [if_pos (show depth ≥ 5 from h)]
    simp only [hgt, decide_False, Bool.false_eq_true, if_false]

end TraceLemmas

section TraceExamples

theorem trace_ray_russian_roulette_witness :
    trace_ray qsqrt 10 lambert_scene z_ray ⟨8279056057372099200, 85⟩ 5 7
      = .ok (vec3_create 0 0 0) (rng_float (F := ℚ) ⟨8279056057372099200, 85⟩).2 ∧
    (rng_float (F := ℚ) ⟨8279056057372099200, 85⟩).1 = 125669 / 131072 :=
  ⟨(trace_ray_russian_roulette qsqrt 10 lambert_scene z_ray ⟨8279056057372099200, 85⟩ 5 7
      (by decide)).2.1 (by decide) (by decide!), by decide!⟩

end TraceExamples


/-! ## The sampler in `material_scatter`, `camera_get_ray` and `trace_ray` -/

section SamplerUse

variable {F : Type} [LinearOrderedField F]

/-- The increment `rng_init` sets is odd, whatever the seed. -/
theorem rng_init_inc (seed : Nat) : (rng_init seed).inc % 2 = 1 := by
  unfold rng_init
  dsimp only
  rw [Nat.or_mod_two_eq_one]
  right
  rfl

theorem rng_float_inc (rng : RNG) : (rng_float rng : F × RNG).2.inc = rng.inc := rfl

theorem rng_float_range_inc (rng : RNG) (a b : F) :
    (rng_float_range rng a b : F × RNG).2.inc = rng.inc := rfl

/-- The rejection loop of `rng_in_unit_sphere` leaves the increment of the generator as it
is. -/
theorem rng_in_unit_sphere_inc : ∀ (fuel : Nat) (rng : RNG) (p : Vec3 F) (rng' : RNG),
    rng_in_unit_sphere fuel rng = some (p, rng') → rng'.inc = rng.inc := by
  intro fuel
  induction fuel with
  | zero => intro rng p rng' h; cases h
  | succ n ih =>
    intro rng p rng' h
    unfold rng_in_unit_sphere at h
    dsimp only at h
    split_ifs at h
    · simp only [Option.some.injEq, Prod.mk.injEq] at h
      rw [← h.2]
      rfl
    · rw [ih _ p rng' h]
      rfl

/-- The rejection loop of `rng_in_unit_disk` leaves the increment of the generator as it
is. -/
theorem rng_in_unit_disk_inc : ∀ (fuel : Nat) (rng : RNG) (p : Vec3 F) (rng' : RNG),
    rng_in_unit_disk fuel rng = some (p, rng') → rng'.inc = rng.inc := by
  intro fuel
  induction fuel with
  | zero => intro rng p rng' h; cases h
  | succ n ih =>
    intro rng p rng' h
    unfold rng_in_unit_disk at h
    dsimp only at h
    split_ifs at h
    · simp only [Option.some.injEq, Prod.mk.injEq] at h
      rw [← h.2]
      rfl
    · rw [ih _ p rng' h]
      rfl

theorem russian_roulette_inc (rng : RNG) (depth : Nat) :
    (russian_roulette (F := F) rng depth).2.inc = rng.inc := by
  unfold russian_roulette
  split <;> rfl

theorem scatter_lambertian_returns (sqrtf : F → F) (sfuel : Nat) (albedo : Vec3 F)
    (rec : HitRecord F) (rng : RNG) (hinc : rng.inc % 2 = 1) (hfuel : 2 ^ 64 ≤ sfuel) :
    ∃ s, scatter_lambertian sqrtf sfuel albedo rec rng = some s ∧ s.rng.inc = rng.inc := by
  obtain ⟨p, rng', h⟩ := rng_in_unit_sphere_returns (F := F) rng sfuel hinc hfuel
  have hi := rng_in_unit_sphere_inc sfuel rng p rng' h
  unfold scatter_lambertian rng_unit_vector
  rw [h]
  exact ⟨_, rfl, hi⟩

theorem scatter_metal_returns (sqrtf : F → F) (sfuel : Nat) (albedo : Vec3 F) (roughness : F)
    (ray_in : Ray F) (rec : HitRecord F) (rng : RNG) (hinc : rng.inc % 2 = 1)
    (hfuel : 2 ^ 64 ≤ sfuel) :
    ∃ s, scatter_metal sqrtf sfuel albedo roughness ray_in rec rng = some s ∧
      s.rng.inc = rng.inc := by
  obtain ⟨p, rng', h⟩ := rng_in_unit_sphere_returns (F := F) rng sfuel hinc hfuel
  have hi := rng_in_unit_sphere_inc sfuel rng p rng' h
  unfold scatter_metal
  rw [h]
  exact ⟨_, rfl, hi⟩

theorem scatter_dielectric_inc (sqrtf : F → F) (mat : Material F) (ray_in : Ray F)
    (rec : HitRecord F) (rng : RNG) :
    (scatter_dielectric sqrtf mat ray_in rec rng).rng.inc = rng.inc := by
  unfold scatter_dielectric
  dsimp only
  split_ifs <;> rfl

theorem scatter_blend_dielectric_inc (sqrtf : F → F) (ior : F) (ray_in : Ray F)
    (rec : HitRecord F) (rng : RNG) :
    (scatter_blend_dielectric sqrtf ior ray_in rec rng).rng.inc = rng.inc := by
  unfold scatter_blend_dielectric
  dsimp only
  split_ifs <;> rfl

/-- With a generator of odd increment and `2^64` iterations granted to the rejection loops,
`material_scatter` returns, and leaves the increment of the generator as it is. -/
theorem material_scatter_returns (sqrtf : F → F) (sfuel : Nat) (mat : Material F)
    (ray_in : Ray F) (rec : HitRecord F) (attenuation : Vec3 F) (scattered : Ray F) (rng : RNG)
    (hinc : rng.inc % 2 = 1) (hfuel : 2 ^ 64 ≤ sfuel) :
    ∃ s, material_scatter sqrtf sfuel mat ray_in rec attenuation scattered rng = some s ∧
      s.rng.inc = rng.inc := by
  unfold material_scatter
  cases mat.type with
  | MATERIAL_LAMBERTIAN => exact scatter_lambertian_returns sqrtf sfuel _ rec rng hinc hfuel
  | MATERIAL_METAL => exact scatter_metal_returns sqrtf sfuel _ _ ray_in rec rng hinc hfuel
  | MATERIAL_DIELECTRIC => exact ⟨_, rfl, scatter_dielectric_inc sqrtf mat ray_in rec rng⟩
  | MATERIAL_EMISSIVE => exact ⟨_, rfl, rfl⟩
  | MATERIAL_BLEND =>
    dsimp only
    split
    · exact scatter_lambertian_returns sqrtf sfuel _ rec rng hinc hfuel
    · exact scatter_metal_returns sqrtf sfuel _ _ ray_in rec rng hinc hfuel
    · exact ⟨_, rfl, scatter_blend_dielectric_inc sqrtf _ ray_in rec rng⟩
    · exact ⟨_, rfl, rfl⟩

/-- With a generator of odd increment and `2^64` iterations granted to the rejection loop,
`camera_get_ray` returns, and leaves the increment of the generator as it is. -/
theorem camera_get_ray_returns (sqrtf : F → F) (sfuel : Nat) (camera : Camera F) (s t : F)
    (rng : RNG) (hinc : rng.inc % 2 = 1) (hfuel : 2 ^ 64 ≤ sfuel) :
    ∃ ray rng', camera_get_ray sqrtf sfuel camera s t rng = some (ray, rng') ∧
      rng'.inc = rng.inc := by
  obtain ⟨p, rng', h⟩ := rng_in_unit_disk_returns (F := F) rng sfuel hinc hfuel
  have hi := rng_in_unit_disk_inc sfuel rng p rng' h
  unfold camera_get_ray
  rw [h]
  exact ⟨_, _, rfl, hi⟩

/-- A primitive test keeps the record of a state that has a hit pointing to a primitive of
the array. -/
theorem scan_primitive_material (sqrtf : F → F) (prims : List (Primitive F)) (ray : Ray F)
    (t_min : F) (st : TraverseState F) (k : Nat)
    (h : st.hit_anything = true → ∃ j p, st.record.material = some j ∧ prims.get? j = some p) :
    (scan_primitive sqrtf prims ray t_min st k).hit_anything = true →
      ∃ j p, (scan_primitive sqrtf prims ray t_min st k).record.material = some j ∧
        prims.get? j = some p := by
  unfold scan_primitive
  rw [primitive_hit_eq]
  cases hr : root_at sqrtf prims ray t_min st.closest_so_far k with
  | none => exact h
  | some t =>
    intro _
    dsimp only
    unfold root_at at hr
    unfold record_at
    cases hp : prims.get? k with
    | none => rw [hp] at hr; cases hr
    | some p =>
      rw [hp] at hr
      dsimp only at hr ⊢
      refine ⟨k, p, ?_, hp⟩
      unfold prim_root at hr
      unfold prim_record
      simp only [if_true]
      cases ht : p.type with
      | PRIMITIVE_SPHERE => rfl
      | PRIMITIVE_TRIANGLE => rfl
      | PRIMITIVE_MESH => rw [ht] at hr; cases hr

end SamplerUse

section TraceReturns

variable {F : Type} [LinearOrderedField F] [FloorRing F]

/-- The intersection test of a scene whose tree, if it has one, was built by `bvh_create`
returns or overflows the stack of the traversal, and the record of a hit points to a
material of the scene. -/
theorem scene_hit_returns (sqrtf : F → F) (scene : Scene F)
    (hbvh : ∀ bvh, scene.bvh = some bvh → ∃ prims, bvh_create prims = some bvh)
    (ray : Ray F) (t_min t_max : F) (rec0 : HitRecord F) :
    scene_hit sqrtf scene ray t_min t_max rec0 = .stack_overflow ∨
    scene_hit sqrtf scene ray t_min t_max rec0 = .done false rec0 ∨
    ∃ rec mat, scene_hit sqrtf scene ray t_min t_max rec0 = .done true rec ∧
      scene_material scene rec = some mat := by
  unfold scene_hit
  cases hb : scene.bvh with
  | none =>
    dsimp only
    right
    have key : ∀ (l : List Nat) (st : TraverseState F),
        (st.hit_anything = true →
          ∃ j p, st.record.material = some j ∧ scene.primitives.get? j = some p) →
        (st.hit_anything = false → st.record = rec0) →
        ((l.foldl (fun st i => scan_primitive sqrtf scene.primitives ray t_min st i) st).hit_anything
            = true →
          ∃ j p, (l.foldl (fun st i => scan_primitive sqrtf scene.primitives ray t_min st i)
              st).record.material = some j ∧ scene.primitives.get? j = some p) ∧
        ((l.foldl (fun st i => scan_primitive sqrtf scene.primitives ray t_min st i) st).hit_anything
            = false →
          (l.foldl (fun st i => scan_primitive sqrtf scene.primitives ray t_min st i) st).record
            = rec0) := by
      intro l
      induction l with
      | nil => intro st h1 h2; exact ⟨h1, h2⟩
      | cons a l ih =>
        intro st h1 h2
        rw [List.foldl_cons]
        refine ih _ (scan_primitive_material sqrtf scene.primitives ray t_min st a h1) ?_
        unfold scan_primitive
        rw [primitive_hit_eq]
        cases hr : root_at sqrtf scene.primitives ray t_min st.closest_so_far a with
        | none => exact h2
        | some t => intro hc; exact Bool.noConfusion hc
    obtain ⟨k1, k2⟩ := key (List.range' 0 scene.prim_count) ⟨false, t_max, rec0⟩
      (fun h => Bool.noConfusion h) (fun _ => rfl)
    unfold scene_hit_brute_force
    dsimp only
    generalize (List.range' 0 scene.prim_count).foldl
      (fun st i => scan_primitive sqrtf scene.primitives ray t_min st i)
      ⟨false, t_max, rec0⟩ = st at k1 k2
    cases hh : st.hit_anything with
    | false => left; rw [k2 hh]
    | true =>
      right
      obtain ⟨j, p, hj, hp⟩ := k1 hh
      refine ⟨st.record, p.material, rfl, ?_⟩
      unfold scene_material
      rw [hj, hb]
      dsimp only
      rw [hp]
      rfl
  | some bvh =>
    dsimp only
    obtain ⟨prims, hc⟩ := hbvh bvh hb
    rcases bvh_hit_returns sqrtf prims bvh hc ray t_min t_max rec0
      (fun st => (st.hit_anything = true →
          ∃ j p, st.record.material = some j ∧ bvh.primitives.get? j = some p) ∧
        (st.hit_anything = false → st.record = rec0))
      (fun st k h => ⟨scan_primitive_material sqrtf bvh.primitives ray t_min st k h.1, by
        unfold scan_primitive
        rw [primitive_hit_eq]
        cases hr : root_at sqrtf bvh.primitives ray t_min st.closest_so_far k with
        | none => exact h.2
        | some t => intro hc; exact Bool.noConfusion hc⟩)
      ⟨fun h => Bool.noConfusion h, fun _ => rfl⟩ with hov | ⟨st, ⟨k1, k2⟩, hd⟩
    · exact Or.inl hov
    · right
      rw [hd]
      cases hh : st.hit_anything with
      | false => left; rw [k2 hh]
      | true =>
        right
        obtain ⟨j, p, hj, hp⟩ := k1 hh
        refine ⟨st.record, p.material, rfl, ?_⟩
        unfold scene_material
        rw [hj, hb]
        dsimp only
        rw [hp]
        rfl

/-- With a generator of odd increment, `2^64` iterations granted to the rejection loops and
a tree built by `bvh_create`, `trace_ray` returns a colour, with the increment of the
generator as it was, unless the traversal of one of the rays of the path overflows its
stack. -/
theorem trace_ray_fuel_returns (sqrtf : F → F) (sfuel : Nat) (scene : Scene F)
    (max_depth : Nat) (hfuel : 2 ^ 64 ≤ sfuel)
    (hbvh : ∀ bvh, scene.bvh = some bvh → ∃ prims, bvh_create prims = some bvh) :
    ∀ (fuel : Nat) (ray : Ray F) (rng : RNG) (depth : Nat), rng.inc % 2 = 1 →
      max_depth - depth < fuel →
      (∃ color rng', trace_ray_fuel sqrtf sfuel scene fuel ray rng depth max_depth
          = .ok color rng' ∧ rng'.inc = rng.inc) ∨
      (trace_ray_fuel sqrtf sfuel scene fuel ray rng depth max_depth = .fault .traversal ∧
        ∃ r, scene_hit sqrtf scene r (1 / 1000) FLT_MAX HitRecord.zero = .stack_overflow) := by
  intro fuel
  induction fuel with
  | zero => intro _ _ _ _ h; omega
  | succ n ih =>
    intro ray rng depth hinc h
    unfold trace_ray_fuel
    by_cases h1 : depth ≥ max_depth
    · rw [if_pos h1]; exact Or.inl ⟨_, _, rfl, rfl⟩
    rw [if_neg h1]
    have hri := russian_roulette_inc (F := F) rng depth
    dsimp only
    by_cases h2 : (russian_roulette (F := F) rng depth).1 = true
    · rw [if_pos h2]; exact Or.inl ⟨_, _, rfl, hri⟩
    rw [if_neg h2]
    generalize (russian_roulette (F := F) rng depth).2 = g at hri
    have hg : g.inc % 2 = 1 := by rw [hri]; exact hinc
    unfold trace_ray_shade
    rcases scene_hit_returns sqrtf scene hbvh ray (1 / 1000) FLT_MAX HitRecord.zero with
      hov | hmiss | ⟨rec, mat, hhit, hmat⟩
    · rw [hov]; exact Or.inr ⟨rfl, ray, hov⟩
    · rw [hmiss]; exact Or.inl ⟨_, _, rfl, hri⟩
    · rw [hhit]
      dsimp only
      rw [hmat]
      dsimp only
      by_cases he : mat.type = .MATERIAL_EMISSIVE
      · rw [if_pos he]; exact Or.inl ⟨_, _, rfl, hri⟩
      rw [if_neg he]
      obtain ⟨s, hs, hsi⟩ := material_scatter_returns sqrtf sfuel mat ray rec (vec3_create 0 0 0)
        ⟨vec3_create 0 0 0, vec3_create 0 0 0⟩ g hg hfuel
      rw [hs]
      dsimp only
      by_cases hok : s.scattered_ok = false
      · rw [if_pos hok]; exact Or.inl ⟨_, _, rfl, by rw [hsi, hri]⟩
      rw [if_neg hok]
      rcases ih s.scattered s.rng (depth + 1) (by rw [hsi]; exact hg) (by omega) with
        ⟨c, g', hc, hgi⟩ | ⟨hf, hr⟩
      · rw [hc]
        exact Or.inl ⟨_, _, rfl, by rw [hgi, hsi, hri]⟩
      · rw [hf]
        exact Or.inr ⟨rfl, hr⟩

end TraceReturns


/-! ## Rendering: `render_parallel` -/

section PixelLemmas

variable {F : Type} [LinearOrderedField F]

/-- The draws of `rng_float` lie in `[0, 1)`. -/
theorem rng_float_bounds (rng : RNG) :
    0 ≤ (rng_float (F := F) rng).1 ∧ (rng_float (F := F) rng).1 < 1 := by
  have hk : (rng_uint32 rng).1 &&& 0xFFFFFF = (rng_uint32 rng).1 % 2 ^ 24 :=
    Nat.and_pow_two_sub_one_eq_mod _ 24
  have hlt : (rng_uint32 rng).1 % 2 ^ 24 < 2 ^ 24 := Nat.mod_lt _ (by norm_num)
  have hval : (rng_float (F := F) rng).1 =
      (((rng_uint32 rng).1 % 2 ^ 24 : Nat) : F) / 2 ^ 24 := by
    simp only [rng_float]
    rw [hk]
    norm_num
  rw [hval]
  refine ⟨by positivity, ?_⟩
  rw [div_lt_one (by positivity)]
  exact_mod_cast hlt

/-- The mean of one sample is the sample, when the rounding leaves 1 and the components of
the sample as they are. -/
theorem pixel_mean_one (fl : F → F) (E : Vec3 F) (h1 : fl 1 = 1)
    (hE : fl E.x = E.x ∧ fl E.y = E.y ∧ fl E.z = E.z) :
    pixel_mean_rounded fl E 1 = E := by
  obtain ⟨ex, ey, ez⟩ := E
  obtain ⟨hx, hy, hz⟩ := hE
  dsimp only at hx hy hz
  simp only [pixel_mean_rounded, pixel_sum_rounded, vec3_div_rounded, vec3_scale_rounded,
    vec3_add_rounded, vec3_create, Nat.cast_one, zero_add, h1, div_one, mul_one, hx, hy, hz]

/-- Without rounding the mean of `n ≥ 1` equal samples is the sample. -/
theorem pixel_mean_exact (fl : F → F) (E : Vec3 F) (n : Nat) (hn : 1 ≤ n)
    (hfl : ∀ x, fl x = x) : pixel_mean_rounded fl E n = E := by
  have hsum : ∀ (k : Nat) (c : Vec3 F),
      pixel_sum_rounded fl E k c = vec3_add c (vec3_scale E (k : F)) := by
    intro k
    induction k with
    | zero =>
      intro c
      obtain ⟨x, y, z⟩ := c
      simp [pixel_sum_rounded, vec3_add, vec3_scale, vec3_create]
    | succ k ih =>
      intro c
      obtain ⟨x, y, z⟩ := c
      obtain ⟨ex, ey, ez⟩ := E
      rw [pixel_sum_rounded, ih]
      simp only [vec3_add_rounded, vec3_add, vec3_scale, vec3_create, hfl, Nat.cast_add,
        Nat.cast_one, Vec3.mk.injEq]
      refine ⟨?_, ?_, ?_⟩ <;> ring
  have hn0 : (n : F) ≠ 0 := by
    have : (0 : F) < (n : F) := by exact_mod_cast hn
    exact ne_of_gt this
  unfold pixel_mean_rounded
  rw [hsum]
  obtain ⟨ex, ey, ez⟩ := E
  simp only [vec3_div_rounded, vec3_scale_rounded, vec3_add, vec3_scale, vec3_create, hfl,
    Vec3.mk.injEq]
  refine ⟨?_, ?_, ?_⟩ <;> field_simp

end PixelLemmas

section RenderLemmas

variable {F : Type} [LinearOrderedField F]

/-- One sample of a pixel of the image in a scene where every ray the render makes is
traced to `E`: the sample is `E`, and the generator keeps its increment. -/
theorem render_sample_uniform (fl sqrtf : F → F) (sfuel : Nat) (scene : Scene F)
    (camera : Camera F) (settings : RenderSettings) (output : Image F) (E : Vec3 F)
    (H : UniformTrace (CameraSample fl output.width output.height) sqrtf sfuel scene camera
      settings.max_depth E)
    (hfuel : 2 ^ 64 ≤ sfuel) (i j : Nat) (hi : i < output.width) (hj : j < output.height)
    (rng : RNG) (hinc : rng.inc % 2 = 1) :
    ∃ rng', render_sample_rounded fl sqrtf sfuel scene camera settings output i j rng
        = .ok E rng' ∧ rng'.inc = rng.inc := by
  unfold render_sample_rounded
  dsimp only
  obtain ⟨d0, d1⟩ := rng_float_bounds (F := F) rng
  obtain ⟨e0, e1⟩ := rng_float_bounds (F := F) (rng_float (F := F) rng).2
  obtain ⟨ray, rng', hr, hri⟩ := camera_get_ray_returns sqrtf sfuel camera
    (fl (fl (fl (i : F) + (rng_float (F := F) rng).1) /
      fl (((output.width + 2 ^ 32 - 1) % 2 ^ 32 : Nat) : F)))
    (fl (1 - fl (fl (fl (j : F) + (rng_float (F := F) (rng_float (F := F) rng).2).1) /
      fl (((output.height + 2 ^ 32 - 1) % 2 ^ 32 : Nat) : F))))
    (rng_float (F := F) (rng_float (F := F) rng).2).2 hinc hfuel
  rw [hr]
  dsimp only
  exact ⟨rng', H _ _ _ ray rng' ⟨i, j, _, _, hi, hj, d0, d1, e0, e1, rfl, rfl⟩ hr, hri⟩

theorem render_samples_uniform (fl sqrtf : F → F) (sfuel : Nat) (scene : Scene F)
    (camera : Camera F) (settings : RenderSettings) (output : Image F) (E : Vec3 F)
    (H : UniformTrace (CameraSample fl output.width output.height) sqrtf sfuel scene camera
      settings.max_depth E)
    (hfuel : 2 ^ 64 ≤ sfuel) (i j : Nat) (hi : i < output.width) (hj : j < output.height) :
    ∀ (n : Nat) (color : Vec3 F) (rng : RNG), rng.inc % 2 = 1 →
      ∃ rng', render_samples_rounded fl sqrtf sfuel scene camera settings output i j n color
          rng = .ok (pixel_sum_rounded fl E n color) rng' ∧ rng'.inc = rng.inc := by
  intro n
  induction n with
  | zero => intro color rng _; exact ⟨rng, rfl, rfl⟩
  | succ n ih =>
    intro color rng hinc
    unfold render_samples_rounded
    obtain ⟨rng', h, hri⟩ := render_sample_uniform fl sqrtf sfuel scene camera settings output
      E H hfuel i j hi hj rng hinc
    rw [h]
    dsimp only
    obtain ⟨rng'', h2, hri2⟩ := ih (vec3_add_rounded fl color E) rng' (by rw [hri]; exact hinc)
    exact ⟨rng'', by rw [h2]; rfl, by rw [hri2, hri]⟩

theorem render_pixel_uniform (fl sqrtf : F → F) (sfuel : Nat) (scene : Scene F)
    (camera : Camera F) (settings : RenderSettings) (output : Image F) (E : Vec3 F)
    (H : UniformTrace (CameraSample fl output.width output.height) sqrtf sfuel scene camera
      settings.max_depth E)
    (hfuel : 2 ^ 64 ≤ sfuel) (pixel_idx : Nat) (hpix : pixel_idx < output.width * output.height)
    (rng : RNG) (hinc : rng.inc % 2 = 1) :
    ∃ rng', render_pixel_rounded fl sqrtf sfuel scene camera settings output pixel_idx rng
        = .ok (pixel_mean_rounded fl E settings.samples_per_pixel) rng' ∧
      rng'.inc = rng.inc := by
  have hw : 0 < output.width := by
    rcases Nat.eq_zero_or_pos output.width with h | h
    · rw [h, Nat.zero_mul] at hpix; omega
    · exact h
  have hi : pixel_idx % output.width < output.width := Nat.mod_lt _ hw
  have hj : pixel_idx / output.width < output.height :=
    (Nat.div_lt_iff_lt_mul hw).mpr (by rw [Nat.mul_comm]; exact hpix)
  unfold render_pixel_rounded
  dsimp only
  obtain ⟨rng', h, hri⟩ := render_samples_uniform fl sqrtf sfuel scene camera settings output
    E H hfuel _ _ hi hj settings.samples_per_pixel (vec3_create 0 0 0) rng hinc
  rw [h]
  exact ⟨rng', rfl, hri⟩

theorem set_replicate_append_drop {α : Type} (E : α) (l : List α) (k : Nat)
    (hk : k < l.length) :
    (List.replicate k E ++ l.drop k).set k E = List.replicate (k + 1) E ++ l.drop (k + 1) := by
  rw [List.set_append_right _ _ (by simp), List.length_replicate, Nat.sub_self,
    List.drop_eq_getElem_cons hk, List.set_cons_zero, List.replicate_succ', List.append_assoc]
  rfl

/-- The pixel loop over the first `k` pixels: they all receive the mean of
`samples_per_pixel` samples `E`, the others keep their content, and every generator keeps an
odd increment. -/
theorem render_fold_uniform (fl sqrtf : F → F) (sfuel : Nat) (schedule : Nat → Nat)
    (scene : Scene F) (camera : Camera F) (settings : RenderSettings) (output : Image F)
    (E : Vec3 F)
    (H : UniformTrace (CameraSample fl output.width output.height) sqrtf sfuel scene camera
      settings.max_depth E)
    (hfuel : 2 ^ 64 ≤ sfuel) (st0 : RenderState F)
    (hst0 : ∀ thread, (st0.rngs thread).inc % 2 = 1) :
    ∀ k : Nat, k ≤ st0.pixels.length → k ≤ output.width * output.height →
      ∃ st, (List.range k).foldlM
          (fun st pixel_idx =>
            render_step_rounded fl sqrtf sfuel scene camera settings output
              (schedule (pixel_idx / 16)) pixel_idx st) st0 = .ok st ∧
          st.pixels = List.replicate k (pixel_mean_rounded fl E settings.samples_per_pixel)
            ++ st0.pixels.drop k ∧
          ∀ thread, (st.rngs thread).inc % 2 = 1 := by
  intro k
  induction k with
  | zero =>
    intro _ _
    exact ⟨st0, rfl, by simp, hst0⟩
  | succ k ih =>
    intro hk hk2
    rw [List.range_succ, List.foldlM_append]
    obtain ⟨st, h, hp, hst⟩ := ih (by omega) (by omega)
    rw [h]
    simp only [List.foldlM, Except.bind, bind, pure, Except.pure]
    unfold render_step_rounded
    obtain ⟨rng', h2, hri⟩ := render_pixel_uniform fl sqrtf sfuel scene camera settings output
      E H hfuel k (by omega) (st.rngs (schedule (k / 16))) (hst _)
    rw [h2]
    refine ⟨_, rfl, ?_, ?_⟩
    · dsimp only
      rw [hp]
      exact set_replicate_append_drop _ st0.pixels k (by omega)
    · intro thread
      dsimp only
      by_cases ht : thread = schedule (k / 16)
      · rw [ht, Function.update_same, hri]
        exact hst _
      · rw [Function.update_noteq ht]
        exact hst _

/-- An uncancelled render of a scene where every ray the render makes is traced to `E`
returns, and every pixel of the image receives the mean of `samples_per_pixel` samples
`E`. -/
theorem render_parallel_uniform (fl sqrtf : F → F) (sfuel : Nat) (schedule : Nat → Nat)
    (scene : Scene F) (camera : Camera F) (settings : RenderSettings) (output : Image F)
    (E : Vec3 F)
    (H : UniformTrace (CameraSample fl output.width output.height) sqrtf sfuel scene camera
      settings.max_depth E)
    (hfuel : 2 ^ 64 ≤ sfuel) (hcancel : settings.cancelled = false)
    (hlen : output.pixels.length = (output.width * output.height) % 2 ^ 32) :
    render_parallel_rounded fl sqrtf sfuel schedule scene camera settings output =
      .ok { output with
            pixels := List.replicate ((output.width * output.height) % 2 ^ 32)
              (pixel_mean_rounded fl E settings.samples_per_pixel) } := by
  unfold render_parallel_rounded
  simp only [hcancel, Bool.false_eq_true, if_false]
  obtain ⟨st, h, hp, -⟩ := render_fold_uniform fl sqrtf sfuel schedule scene camera settings
    output E H hfuel
    { rngs := fun thread => rng_init (42 + thread * 1000), pixels := output.pixels }
    (fun thread => rng_init_inc _)
    ((output.width * output.height) % 2 ^ 32) (le_of_eq hlen.symm) (Nat.mod_le _ _)
  rw [h]
  simp only [hp]
  rw [← hlen, List.drop_length, List.append_nil]

end RenderLemmas

section EmptyScene

variable {F : Type} [LinearOrderedField F] [FloorRing F]

theorem bvh_create_nil :
    bvh_create ([] : List (Primitive F)) =
      some { root := some 0, primitives := [], prim_count := 0,
             nodes := [BVHNode.set_leaf 0 0 (BVHNode.set_bounds (range_bounds [] [] 0 0) BVHNode.zero)],
             node_count := 1, indices := [] } := by
  rfl

/-- The traversal of the tree built for no primitives never reports a hit. -/
theorem bvh_hit_nil (sqrtf : F → F) (bvh : BVH F) (ray : Ray F) (t_min t_max : F)
    (rec : HitRecord F) (hb : bvh_create ([] : List (Primitive F)) = some bvh) :
    bvh_hit sqrtf bvh ray t_min t_max rec = .done false rec := by
  rw [bvh_create_nil] at hb
  cases hb
  generalize hnode : BVHNode.set_leaf 0 0
    (BVHNode.set_bounds (range_bounds ([] : List (Primitive F)) [] 0 0) BVHNode.zero) = node
  have hleaf : node.is_leaf = true := by rw [← hnode]; rfl
  have hcount : node.prim_count = 0 := by rw [← hnode]; rfl
  generalize hb : (BVH.mk (some 0) [] 0 [node] 1 [] : BVH F) = b
  have hn : b.nodes[0]? = some node := by rw [← hb]; rfl
  have hstart : bvh_hit sqrtf b ray t_min t_max rec =
      bvh_hit_loop sqrtf b ray t_min 2 [0]
        { hit_anything := false, closest_so_far := t_max, record := rec } := by
    rw [← hb]; rfl
  rw [hstart]
  by_cases hbox : aabb_hit node.bounds ray t_min t_max = true
  · rw [bvh_hit_loop_leaf sqrtf b ray t_min 1 0 [] _ node hn hbox hleaf, bvh_hit_loop_done]
    unfold bvh_hit_leaf
    rw [hcount]
    rfl
  · rw [bvh_hit_loop_skip sqrtf b ray t_min 1 0 [] _ node hn hbox, bvh_hit_loop_done]

/-- A scene without primitives is never hit, with or without a BVH. -/
theorem scene_hit_empty (sqrtf : F → F) (scene : Scene F) (ray : Ray F) (t_min t_max : F)
    (rec : HitRecord F) (hprims : scene.prim_count = 0)
    (hbvh : scene.bvh = none ∨ scene.bvh = bvh_create []) :
    scene_hit sqrtf scene ray t_min t_max rec = .done false rec := by
  unfold scene_hit
  rcases hbvh with h | h
  · rw [h]
    simp only [scene_hit_brute_force, hprims]
    rfl
  · cases hb : scene.bvh with
    | none => rw [hb] at h; rw [bvh_create_nil] at h; cases h
    | some bvh =>
      simp only
      exact bvh_hit_nil sqrtf bvh ray t_min t_max rec (by rw [← h, hb])

end EmptyScene

/-! ### A sphere that covers every ray of a camera -/

section QSqrt

theorem lt_two_pow_bit_length : ∀ (fuel n : Nat), n ≤ fuel → n < 2 ^ bit_length fuel n := by
  intro fuel
  induction fuel with
  | zero => intro n h; simp [bit_length]; omega
  | succ f ih =>
    intro n h
    unfold bit_length
    split
    · next h0 => simp [h0]
    · next h0 =>
      have := ih (n / 2) (by omega)
      rw [pow_succ]
      omega

theorem isqrt_bits_spec (n : Nat) : ∀ (b r : Nat), r * r ≤ n → n < (r + 2 ^ b) * (r + 2 ^ b) →
    isqrt_bits n b r * isqrt_bits n b r ≤ n ∧
      n < (isqrt_bits n b r + 1) * (isqrt_bits n b r + 1) := by
  intro b
  induction b with
  | zero => intro r h1 h2; simpa [isqrt_bits] using ⟨h1, h2⟩
  | succ b ih =>
    intro r h1 h2
    unfold isqrt_bits
    split
    · next h =>
      apply ih _ h
      have : r + 2 ^ b + 2 ^ b = r + 2 ^ (b + 1) := by rw [pow_succ]; ring
      rw [this]; exact h2
    · next h => exact ih r h1 (not_le.mp h)

theorem isqrt_eq_sqrt (n : Nat) : isqrt n = Nat.sqrt n := by
  have hlt : n < (0 + 2 ^ (bit_length n n / 2 + 1)) * (0 + 2 ^ (bit_length n n / 2 + 1)) := by
    rw [zero_add, ← pow_add]
    have h1 : n < 2 ^ bit_length n n := lt_two_pow_bit_length n n le_rfl
    have h2 : 2 ^ bit_length n n ≤ 2 ^ (bit_length n n / 2 + 1 + (bit_length n n / 2 + 1)) :=
      Nat.pow_le_pow_right (by norm_num) (by omega)
    omega
  obtain ⟨h1, h2⟩ := isqrt_bits_spec n _ 0 (by simp) hlt
  exact Nat.eq_sqrt.mpr ⟨h1, h2⟩

theorem nat_sqrt_bounds (n : Nat) (hn : 0 < n) :
    0 < Nat.sqrt n ∧ Nat.sqrt n ^ 2 ≤ n ∧ n < 4 * Nat.sqrt n ^ 2 := by
  have hpos : 0 < Nat.sqrt n := Nat.sqrt_pos.mpr hn
  refine ⟨hpos, Nat.sqrt_le' n, ?_⟩
  have h := Nat.lt_succ_sqrt' n
  have : Nat.succ (Nat.sqrt n) ^ 2 ≤ 4 * Nat.sqrt n ^ 2 := by
    have : Nat.succ (Nat.sqrt n) ≤ 2 * Nat.sqrt n := by omega
    calc Nat.succ (Nat.sqrt n) ^ 2 ≤ (2 * Nat.sqrt n) ^ 2 := Nat.pow_le_pow_left this 2
      _ = 4 * Nat.sqrt n ^ 2 := by ring
  omega

/-- The truncated square root is within a factor 2 of the square root. -/
theorem qsqrt_bounds (x : ℚ) (hx : 0 < x) :
    0 < qsqrt x ∧ x < 4 * qsqrt x ^ 2 ∧ qsqrt x ^ 2 < 4 * x := by
  have hnum : 0 < x.num := Rat.num_pos.mpr hx
  have hnum' : 0 < x.num.toNat := by omega
  obtain ⟨p0, p1, p2⟩ := nat_sqrt_bounds x.num.toNat hnum'
  obtain ⟨q0, q1, q2⟩ := nat_sqrt_bounds x.den x.den_pos
  have hx_eq : x = (x.num.toNat : ℚ) / (x.den : ℚ) := by
    have h1 : ((x.num.toNat : ℤ) : ℚ) = (x.num : ℚ) := by
      rw [Int.toNat_of_nonneg (le_of_lt hnum)]
    have h2 : ((x.num.toNat : ℕ) : ℚ) = ((x.num.toNat : ℤ) : ℚ) := by norm_cast
    rw [h2, h1]
    exact (Rat.num_div_den x).symm
  set N := x.num.toNat
  set D := x.den
  set p := Nat.sqrt N
  set q := Nat.sqrt D
  have hp0 : (0 : ℚ) < p := by exact_mod_cast p0
  have hq0 : (0 : ℚ) < q := by exact_mod_cast q0
  have hD0 : (0 : ℚ) < D := by exact_mod_cast x.den_pos
  have hp1 : (p : ℚ) ^ 2 ≤ N := by exact_mod_cast p1
  have hp2 : (N : ℚ) < 4 * (p : ℚ) ^ 2 := by exact_mod_cast p2
  have hq1 : (q : ℚ) ^ 2 ≤ D := by exact_mod_cast q1
  have hq2 : (D : ℚ) < 4 * (q : ℚ) ^ 2 := by exact_mod_cast q2
  have hq : qsqrt x = (p : ℚ) / (q : ℚ) := by
    unfold qsqrt
    rw [isqrt_eq_sqrt, isqrt_eq_sqrt]
  rw [hq]
  refine ⟨div_pos hp0 hq0, ?_, ?_⟩
  · rw [hx_eq, div_pow, div_lt_iff₀ hD0]
    have : 4 * ((p : ℚ) ^ 2 / (q : ℚ) ^ 2) * D = (4 * (p : ℚ) ^ 2) * (D / (q : ℚ) ^ 2) := by
      field_simp
    rw [this]
    have h1 : (1 : ℚ) ≤ D / (q : ℚ) ^ 2 := by
      rw [le_div_iff₀ (by positivity)]; linarith
    nlinarith
  · rw [hx_eq, div_pow, div_lt_iff₀ (by positivity)]
    have : 4 * ((N : ℚ) / D) * (q : ℚ) ^ 2 = (N : ℚ) * (4 * (q : ℚ) ^ 2 / D) := by
      field_simp
      ring
    rw [this]
    have h1 : (1 : ℚ) < 4 * (q : ℚ) ^ 2 / D := by
      rw [lt_div_iff₀ hD0]; linarith
    have hN0 : (0 : ℚ) < N := by exact_mod_cast hnum'
    nlinarith

end QSqrt
section CoverExample

/-- Every ray of `example_camera` starts in the origin and has the normalised direction
of a vector with third component `-1`. -/
theorem example_camera_ray (sfuel : Nat) (s t : ℚ) (rng : RNG) (ray : Ray ℚ) (rng' : RNG)
    (h : camera_get_ray qsqrt sfuel example_camera s t rng = some (ray, rng')) :
    ∃ dx dy : ℚ, ray = ⟨⟨0, 0, 0⟩, vec3_normalize qsqrt ⟨dx, dy, -1⟩⟩ := by
  unfold camera_get_ray at h
  split at h
  · simp at h
  · next p g hp =>
    simp only [Option.some.injEq, Prod.mk.injEq] at h
    obtain ⟨h1, -⟩ := h
    refine ⟨-1 + 2 * s - 0, -1 + 2 * t - 0, ?_⟩
    rw [← h1]
    simp only [example_camera, ray_create, vec3_add, vec3_sub, vec3_scale, vec3_create,
      mul_zero, zero_mul, add_zero, mul_one, zero_add, sub_zero]

/-- A normalised ray from the centre of the sphere of radius 10 hits it. -/
theorem sphere_hit_from_center (dx dy : ℚ) (rec : HitRecord ℚ) :
    (sphere_hit qsqrt ⟨⟨0, 0, 0⟩, 10⟩ ⟨⟨0, 0, 0⟩, vec3_normalize qsqrt ⟨dx, dy, -1⟩⟩
      (1 / 1000) FLT_MAX rec).1 = true := by
  have hD : (0 : ℚ) < dx * dx + dy * dy + -1 * -1 := by nlinarith [mul_self_nonneg dx, mul_self_nonneg dy]
  obtain ⟨k0, k1, k2⟩ := qsqrt_bounds _ hD
  generalize hk : qsqrt (dx * dx + dy * dy + -1 * -1) = k at k0 k1 k2
  generalize hDD : dx * dx + dy * dy + -1 * -1 = D at hD k1 k2 hk
  have ha : vec3_dot (vec3_normalize qsqrt ⟨dx, dy, -1⟩) (vec3_normalize qsqrt ⟨dx, dy, -1⟩)
      = D / k ^ 2 := by
    simp only [vec3_normalize, vec3_div, vec3_length, vec3_length_squared, vec3_dot, vec3_scale,
      vec3_create]
    rw [hDD, hk, ← hDD]
    simp only [div_eq_mul_inv]
    ring
  have hhb : vec3_dot (vec3_sub (⟨0, 0, 0⟩ : Vec3 ℚ) ⟨0, 0, 0⟩)
      (vec3_normalize qsqrt ⟨dx, dy, -1⟩) = 0 := by
    simp [vec3_dot, vec3_sub, vec3_create]
  have ha0 : (0 : ℚ) < D / k ^ 2 := by positivity
  have ha1 : D / k ^ 2 < 4 := by rw [div_lt_iff₀ (by positivity)]; linarith
  have ha2 : 1 / 4 < D / k ^ 2 := by rw [lt_div_iff₀ (by positivity)]; linarith
  have hdisc : sphere_disc ⟨⟨0, 0, 0⟩, 10⟩
      ⟨⟨0, 0, 0⟩, vec3_normalize qsqrt ⟨dx, dy, -1⟩⟩ = 100 * (D / k ^ 2) := by
    unfold sphere_disc
    dsimp only
    rw [hhb, ha]
    simp [vec3_dot, vec3_sub, vec3_create]
    ring
  generalize D / k ^ 2 = a at ha ha0 ha1 ha2 hdisc
  obtain ⟨w0, w1, w2⟩ := qsqrt_bounds (100 * a) (by linarith)
  have hw2 : 2 < qsqrt (100 * a) := by nlinarith
  have hw40 : qsqrt (100 * a) < 40 := by nlinarith
  have hfl : (40 : ℚ) ≤ FLT_MAX * (1 / 4) := by unfold FLT_MAX; norm_num
  rw [sphere_hit_eq]
  rw [if_neg (by rw [hdisc]; linarith)]
  have hnear : sphere_root_near qsqrt ⟨⟨0, 0, 0⟩, 10⟩
      ⟨⟨0, 0, 0⟩, vec3_normalize qsqrt ⟨dx, dy, -1⟩⟩ = -qsqrt (100 * a) / a := by
    unfold sphere_root_near
    dsimp only
    rw [hhb, ha, hdisc]
    ring
  have hfar : sphere_root_far qsqrt ⟨⟨0, 0, 0⟩, 10⟩
      ⟨⟨0, 0, 0⟩, vec3_normalize qsqrt ⟨dx, dy, -1⟩⟩ = qsqrt (100 * a) / a := by
    unfold sphere_root_far
    dsimp only
    rw [hhb, ha, hdisc]
    ring
  rw [hnear, hfar]
  have hneg : -qsqrt (100 * a) / a < 0 := by
    rw [neg_div]; exact neg_neg_of_pos (div_pos w0 ha0)
  rw [if_neg (by intro hc; linarith [hc.1])]
  have h1 : (1 / 1000 : ℚ) ≤ qsqrt (100 * a) / a := by
    rw [le_div_iff₀ ha0]; nlinarith
  have h2 : qsqrt (100 * a) / a ≤ FLT_MAX := by
    rw [div_le_iff₀ ha0]; nlinarith
  rw [if_pos ⟨h1, h2⟩]

/-- Every ray of `example_camera` hits the sphere of `emissive_scene`. -/
theorem emissive_scene_cover (sfuel : Nat) (s t : ℚ) (rng : RNG) (ray : Ray ℚ) (rng' : RNG)
    (h : camera_get_ray qsqrt sfuel example_camera s t rng = some (ray, rng')) :
    ∃ rec mat, scene_hit qsqrt emissive_scene ray (1 / 1000) FLT_MAX HitRecord.zero
        = .done true rec ∧
      scene_material emissive_scene rec = some mat ∧ mat.type = .MATERIAL_EMISSIVE ∧
      mat.emission = ⟨4, 3, 2⟩ := by
  obtain ⟨dx, dy, rfl⟩ := example_camera_ray sfuel s t rng ray rng' h
  have hs := sphere_hit_from_center dx dy HitRecord.zero
  refine ⟨{ (sphere_hit qsqrt ⟨⟨0, 0, 0⟩, 10⟩ ⟨⟨0, 0, 0⟩, vec3_normalize qsqrt ⟨dx, dy, -1⟩⟩
      (1 / 1000) FLT_MAX HitRecord.zero).2 with material := some 0 },
    material_emissive ⟨4, 3, 2⟩, ?_, rfl, rfl, rfl⟩
  simp only [scene_hit, emissive_scene, scene_hit_brute_force, List.range', List.foldl,
    scan_primitive, primitive_hit, primitive_sphere, sphere_create, List.get?_cons_zero]
  simp only [hs, if_true]

/-- The ray of `example_camera` for the position `(s, t)` starts in the origin and has the
normalised direction of `(2 s - 1, 2 t - 1, -1)`. -/
theorem example_camera_ray_at (sfuel : Nat) (s t : ℚ) (rng : RNG) (ray : Ray ℚ) (rng' : RNG)
    (h : camera_get_ray qsqrt sfuel example_camera s t rng = some (ray, rng')) :
    ray = ⟨⟨0, 0, 0⟩, vec3_normalize qsqrt ⟨-1 + 2 * s - 0, -1 + 2 * t - 0, -1⟩⟩ := by
  unfold camera_get_ray at h
  split at h
  · simp at h
  · next p g hp =>
    simp only [Option.some.injEq, Prod.mk.injEq] at h
    obtain ⟨h1, -⟩ := h
    rw [← h1]
    simp only [example_camera, ray_create, vec3_add, vec3_sub, vec3_scale, vec3_create,
      mul_zero, zero_mul, add_zero, mul_one, zero_add, sub_zero]

/-- A normalised ray from the origin whose direction lies within the cone
`dx² + dy² ≤ 13` around the negative z axis hits the sphere of radius 99 around
`(0, 0, -100)`. -/
theorem sphere_hit_in_front (dx dy : ℚ) (hcone : dx * dx + dy * dy ≤ 13) (rec : HitRecord ℚ) :
    (sphere_hit qsqrt ⟨⟨0, 0, -100⟩, 99⟩ ⟨⟨0, 0, 0⟩, vec3_normalize qsqrt ⟨dx, dy, -1⟩⟩
      (1 / 1000) FLT_MAX rec).1 = true := by
  have hD : (0 : ℚ) < dx * dx + dy * dy + -1 * -1 := by
    nlinarith [mul_self_nonneg dx, mul_self_nonneg dy]
  have hD14 : dx * dx + dy * dy + -1 * -1 ≤ 14 := by linarith
  obtain ⟨k0, k1, k2⟩ := qsqrt_bounds _ hD
  generalize hk : qsqrt (dx * dx + dy * dy + -1 * -1) = k at k0 k1 k2
  generalize hDD : dx * dx + dy * dy + -1 * -1 = D at hD hD14 k1 k2 hk
  have ha : vec3_dot (vec3_normalize qsqrt ⟨dx, dy, -1⟩) (vec3_normalize qsqrt ⟨dx, dy, -1⟩)
      = D / k ^ 2 := by
    simp only [vec3_normalize, vec3_div, vec3_length, vec3_length_squared, vec3_dot, vec3_scale,
      vec3_create]
    rw [hDD, hk, ← hDD]
    simp only [div_eq_mul_inv]
    ring
  have hhb : vec3_dot (vec3_sub (⟨0, 0, 0⟩ : Vec3 ℚ) ⟨0, 0, -100⟩)
      (vec3_normalize qsqrt ⟨dx, dy, -1⟩) = -(100 / k) := by
    simp only [vec3_normalize, vec3_div, vec3_length, vec3_length_squared, vec3_dot, vec3_scale,
      vec3_sub, vec3_create]
    rw [hDD, hk]
    simp only [div_eq_mul_inv]
    ring
  have hcc : vec3_dot (vec3_sub (⟨0, 0, 0⟩ : Vec3 ℚ) ⟨0, 0, -100⟩)
      (vec3_sub (⟨0, 0, 0⟩ : Vec3 ℚ) ⟨0, 0, -100⟩) - 99 * 99 = 199 := by
    simp only [vec3_dot, vec3_sub, vec3_create]
    norm_num
  have hk2 : (0 : ℚ) < k ^ 2 := by positivity
  have ha0 : (0 : ℚ) < D / k ^ 2 := by positivity
  have ha1 : D / k ^ 2 < 4 := by rw [div_lt_iff₀ hk2]; linarith
  have ha2 : 1 / 4 < D / k ^ 2 := by rw [lt_div_iff₀ hk2]; linarith
  have hdisc : sphere_disc ⟨⟨0, 0, -100⟩, 99⟩
      ⟨⟨0, 0, 0⟩, vec3_normalize qsqrt ⟨dx, dy, -1⟩⟩ = (10000 - 199 * D) / k ^ 2 := by
    unfold sphere_disc
    dsimp only
    rw [hhb, ha, hcc]
    field_simp
    ring
  have hdpos : (0 : ℚ) < (10000 - 199 * D) / k ^ 2 := by
    apply div_pos _ hk2
    linarith
  obtain ⟨w0, w1, w2⟩ := qsqrt_bounds _ hdpos
  rw [sphere_hit_eq]
  rw [if_neg (by rw [hdisc]; exact not_lt.mpr (le_of_lt hdpos))]
  split_ifs with h1 h2
  · rfl
  · rfl
  · exfalso
    apply h2
    have hfar : sphere_root_far qsqrt ⟨⟨0, 0, -100⟩, 99⟩
        ⟨⟨0, 0, 0⟩, vec3_normalize qsqrt ⟨dx, dy, -1⟩⟩
        = (100 / k + qsqrt ((10000 - 199 * D) / k ^ 2)) / (D / k ^ 2) := by
      unfold sphere_root_far
      dsimp only
      rw [hhb, ha, hdisc, neg_neg]
    rw [hfar]
    generalize qsqrt ((10000 - 199 * D) / k ^ 2) = w at w0 w1 w2
    have hkhalf : 1 / 2 < k := by nlinarith
    have hk8 : k < 8 := by nlinarith
    have h100 : 100 / k < 200 := by
      rw [div_lt_iff₀ k0]; linarith
    have h100p : 0 < 100 / k := by positivity
    have hdle : (10000 - 199 * D) / k ^ 2 < 40000 := by
      rw [div_lt_iff₀ hk2]; nlinarith
    have hw400 : w < 400 := by nlinarith
    have hfl : (2400 : ℚ) ≤ FLT_MAX := by unfold FLT_MAX; norm_num
    have h100l : 12 < 100 / k := by
      rw [lt_div_iff₀ k0]; linarith
    have hbig : 2400 * (D / k ^ 2) ≤ FLT_MAX * (D / k ^ 2) :=
      mul_le_mul_of_nonneg_right hfl (le_of_lt ha0)
    constructor
    · rw [le_div_iff₀ ha0]
      linarith
    · rw [div_le_iff₀ ha0]
      linarith

/-- Every ray that `example_camera` makes for a sample position of a 3 × 2 image hits the
sphere of `front_scene`. -/
theorem front_scene_cover (sfuel : Nat) (s t : ℚ) (rng : RNG) (ray : Ray ℚ) (rng' : RNG)
    (hS : CameraSample (fun x => x) 3 2 s t)
    (h : camera_get_ray qsqrt sfuel example_camera s t rng = some (ray, rng')) :
    ∃ rec mat, scene_hit qsqrt front_scene ray (1 / 1000) FLT_MAX HitRecord.zero
        = .done true rec ∧
      scene_material front_scene rec = some mat ∧ mat.type = .MATERIAL_EMISSIVE ∧
      mat.emission = ⟨4, 3, 2⟩ := by
  have hray := example_camera_ray_at sfuel s t rng ray rng' h
  obtain ⟨i, j, d, e, hi, hj, hd0, hd1, he0, he1, hs, ht⟩ := hS
  have hW : (3 + 2 ^ 32 - 1) % 2 ^ 32 = 2 := by norm_num
  have hH : (2 + 2 ^ 32 - 1) % 2 ^ 32 = 1 := by norm_num
  rw [hW] at hs
  rw [hH] at ht
  simp only [Nat.cast_ofNat, Nat.cast_one, div_one] at hs ht
  have hi2 : (i : ℚ) ≤ 2 := by exact_mod_cast Nat.lt_succ_iff.mp hi
  have hj1 : (j : ℚ) ≤ 1 := by exact_mod_cast Nat.lt_succ_iff.mp hj
  have hi0 : (0 : ℚ) ≤ i := Nat.cast_nonneg i
  have hj0 : (0 : ℚ) ≤ j := Nat.cast_nonneg j
  have hx1 : -1 ≤ -1 + 2 * s - 0 := by rw [hs]; linarith
  have hx2 : -1 + 2 * s - 0 ≤ 2 := by rw [hs]; linarith
  have hy1 : -3 ≤ -1 + 2 * t - 0 := by rw [ht]; linarith
  have hy2 : -1 + 2 * t - 0 ≤ 1 := by rw [ht]; linarith
  have hcone : (-1 + 2 * s - 0) * (-1 + 2 * s - 0) + (-1 + 2 * t - 0) * (-1 + 2 * t - 0)
      ≤ 13 := by nlinarith
  have hs' := sphere_hit_in_front _ _ hcone HitRecord.zero
  rw [hray]
  refine ⟨{ (sphere_hit qsqrt ⟨⟨0, 0, -100⟩, 99⟩
      ⟨⟨0, 0, 0⟩, vec3_normalize qsqrt ⟨-1 + 2 * s - 0, -1 + 2 * t - 0, -1⟩⟩
      (1 / 1000) FLT_MAX HitRecord.zero).2 with material := some 0 },
    material_emissive ⟨4, 3, 2⟩, ?_, rfl, rfl, rfl⟩
  simp only [scene_hit, front_scene, scene_hit_brute_force, List.range', List.foldl,
    scan_primitive, primitive_hit, primitive_sphere, sphere_create, List.get?_cons_zero]
  simp only [hs', if_true]

end CoverExample

/-! ### Renders of uniform colour -/

section RenderClaims

variable {F : Type} [LinearOrderedField F] [FloorRing F]

/-- In a scene without primitives every ray is traced to the ambient light. -/
theorem uniformTrace_empty (S : F → F → Prop) (sqrtf : F → F) (sfuel : Nat) (scene : Scene F)
    (camera : Camera F) (max_depth : Nat) (hprims : scene.prim_count = 0)
    (hbvh : scene.bvh = none ∨ scene.bvh = bvh_create []) (hdepth : 1 ≤ max_depth) :
    UniformTrace S sqrtf sfuel scene camera max_depth scene.ambient_light := by
  intro s t rng ray rng' _ _
  rw [trace_ray_eq sqrtf sfuel scene ray rng' 0 max_depth (by omega), russian_roulette_zero]
  simp only [Bool.false_eq_true, if_false]
  exact trace_ray_shade_miss sqrtf sfuel scene _ ray rng' HitRecord.zero
    (scene_hit_empty sqrtf scene ray _ _ _ hprims hbvh)

/-- C16 (amended): for a scene with zero primitives (without a BVH, or with the BVH built
for it) and ambient radiance `A`, an uncancelled `render_parallel` with at least one sample
per pixel and `max_depth ≥ 1` returns (`2^64` iterations are enough for the rejection loop of
the lens sampler) and writes to every pixel the mean of `samples_per_pixel` samples `A` as
the pixel loop computes it, `((0 + A) + ... + A) * (1 / samples_per_pixel)` with every
operation rounded, for every camera and every schedule of the threads.  That value is `A`
for one sample per pixel, when `A` is made of `float` values, and it is `A` whenever no
operation rounds. -/
theorem render_parallel_empty_scene (fl sqrtf : F → F) (sfuel : Nat) (schedule : Nat → Nat)
    (scene : Scene F) (camera : Camera F) (settings : RenderSettings) (output : Image F)
    (hprims : scene.prim_count = 0) (hbvh : scene.bvh = none ∨ scene.bvh = bvh_create [])
    (hspp : 1 ≤ settings.samples_per_pixel) (hdepth : 1 ≤ settings.max_depth)
    (hcancel : settings.cancelled = false)
    (hlen : output.pixels.length = (output.width * output.height) % 2 ^ 32)
    (hfuel : 2 ^ 64 ≤ sfuel) :
    render_parallel_rounded fl sqrtf sfuel schedule scene camera settings output =
      .ok { output with
            pixels := List.replicate ((output.width * output.height) % 2 ^ 32)
              (pixel_mean_rounded fl scene.ambient_light settings.samples_per_pixel) } ∧
    (settings.samples_per_pixel = 1 → fl 1 = 1 →
      fl scene.ambient_light.x = scene.ambient_light.x ∧
        fl scene.ambient_light.y = scene.ambient_light.y ∧
        fl scene.ambient_light.z = scene.ambient_light.z →
      pixel_mean_rounded fl scene.ambient_light settings.samples_per_pixel
        = scene.ambient_light) ∧
    ((∀ x, fl x = x) →
      pixel_mean_rounded fl scene.ambient_light settings.samples_per_pixel
        = scene.ambient_light) := by
  refine ⟨?_, fun h1 hone hA => ?_, fun hfl => ?_⟩
  · exact render_parallel_uniform fl sqrtf sfuel schedule scene camera settings output
      scene.ambient_light
      (uniformTrace_empty _ sqrtf sfuel scene camera settings.max_depth hprims hbvh hdepth)
      hfuel hcancel hlen
  · rw [h1]
    exact pixel_mean_one fl scene.ambient_light hone hA
  · exact pixel_mean_exact fl scene.ambient_light settings.samples_per_pixel hspp hfl

end RenderClaims

section RenderExamples

/-- C16 as stated fails in binary32: with three samples per pixel and the ambient radiance
`A = (0.1f, 0.2f, 0.3f)` the pixel loop computes `((0 + A) + A) + A` and multiplies by
`1.0f / 3.0f`, each step rounded, and the first two components of every pixel come out one
unit in the last place above those of `A`. -/
theorem render_parallel_empty_scene_counterexample :
    float_empty_scene.ambient_light
      = ⟨13421773 / 134217728, 13421773 / 67108864, 5033165 / 16777216⟩ ∧
    pixel_mean_rounded f32 float_empty_scene.ambient_light 3
      = ⟨13421774 / 134217728, 13421774 / 67108864, 5033165 / 16777216⟩ ∧
    render_parallel_rounded f32 qsqrt 20 example_schedule float_empty_scene example_camera
        example_settings (image_create 3 2)
      = .ok ⟨List.replicate 6 ⟨13421774 / 134217728, 13421774 / 67108864,
          5033165 / 16777216⟩, 3, 2⟩ := by
  refine ⟨?_, ?_, ?_⟩ <;> decide!

theorem render_parallel_empty_scene_witness :
    render_parallel_rounded f32 qsqrt (2 ^ 64) example_schedule float_empty_scene
        example_camera one_sample_settings (image_create 3 2)
      = .ok ⟨List.replicate 6 float_empty_scene.ambient_light, 3, 2⟩ ∧
    render_parallel_rounded f32 qsqrt (2 ^ 64) example_schedule
        { float_empty_scene with bvh := bvh_create [] } example_camera example_settings
        (image_create 3 2)
      = .ok ⟨List.replicate 6 (pixel_mean_rounded f32 float_empty_scene.ambient_light 3),
          3, 2⟩ :=
  ⟨((render_parallel_empty_scene f32 qsqrt (2 ^ 64) example_schedule float_empty_scene
        example_camera one_sample_settings (image_create 3 2) rfl (Or.inl rfl) (by decide)
        (by decide) rfl (by decide) (le_refl _)).1).trans
      (by rw [(render_parallel_empty_scene f32 qsqrt (2 ^ 64) example_schedule
        float_empty_scene example_camera one_sample_settings (image_create 3 2) rfl
        (Or.inl rfl) (by decide) (by decide) rfl (by decide) (le_refl _)).2.1 rfl
        (by decide!) (by decide!)]; rfl),
   (render_parallel_empty_scene f32 qsqrt (2 ^ 64) example_schedule
      { float_empty_scene with bvh := bvh_create [] } example_camera example_settings
      (image_create 3 2) rfl (Or.inr rfl) (by decide) (by decide) rfl (by decide)
      (le_refl _)).1⟩

end RenderExamples

section EmissiveClaims

variable {F : Type} [LinearOrderedField F]

/-- A camera whose every ray for a sample position in `S` hits an emissive material of
emission `E` first is traced to `E` on these rays. -/
theorem uniformTrace_emissive (S : F → F → Prop) (sqrtf : F → F) (sfuel : Nat)
    (scene : Scene F) (camera : Camera F) (max_depth : Nat) (E : Vec3 F)
    (hdepth : 1 ≤ max_depth)
    (hcover : ∀ (s t : F) (rng : RNG) (ray : Ray F) (rng' : RNG), S s t →
      camera_get_ray sqrtf sfuel camera s t rng = some (ray, rng') →
      ∃ rec mat, scene_hit sqrtf scene ray (1 / 1000) FLT_MAX HitRecord.zero = .done true rec ∧
        scene_material scene rec = some mat ∧ mat.type = .MATERIAL_EMISSIVE ∧
        mat.emission = E) :
    UniformTrace S sqrtf sfuel scene camera max_depth E := by
  intro s t rng ray rng' hS h
  obtain ⟨rec, mat, hhit, hmat, hem, hE⟩ := hcover s t rng ray rng' hS h
  rw [trace_ray_eq sqrtf sfuel scene ray rng' 0 max_depth (by omega), russian_roulette_zero]
  simp only [Bool.false_eq_true, if_false]
  rw [← hE]
  exact trace_ray_shade_emissive sqrtf sfuel scene _ ray rng' rec mat hhit hmat hem

/-- C17: when the hit that `scene_hit` reports for a ray is on an emissive material,
`trace_ray` at depth 0 with `max_depth ≥ 1` returns that material's emission and leaves the
generator untouched, whatever the recursive call would return: the material is not scattered
and the path is not continued.  Hence, when every ray the camera makes for the sample
positions of the image hits a material of emission `E` first, an uncancelled render with one
sample per pixel returns (`2^64` iterations are enough for the rejection loop of the lens
sampler) and writes `E` to every pixel; the arithmetic of the pixel loop is rounded by any
`fl` that leaves 1 and the components of `E` as they are. -/
theorem trace_ray_emissive (sqrtf : F → F) (sfuel : Nat) (scene : Scene F) (max_depth : Nat)
    (hdepth : 1 ≤ max_depth) :
    (∀ (ray : Ray F) (rng : RNG) (rec : HitRecord F) (mat : Material F),
      scene_hit sqrtf scene ray (1 / 1000) FLT_MAX HitRecord.zero = .done true rec →
      scene_material scene rec = some mat → mat.type = .MATERIAL_EMISSIVE →
      trace_ray sqrtf sfuel scene ray rng 0 max_depth = .ok mat.emission rng ∧
      ∀ recurse, trace_ray_shade sqrtf sfuel scene recurse ray rng = .ok mat.emission rng) ∧
    (∀ (fl : F → F) (schedule : Nat → Nat) (camera : Camera F) (settings : RenderSettings)
      (output : Image F) (E : Vec3 F),
      settings.max_depth = max_depth → settings.samples_per_pixel = 1 →
      settings.cancelled = false →
      output.pixels.length = (output.width * output.height) % 2 ^ 32 →
      2 ^ 64 ≤ sfuel → fl 1 = 1 → fl E.x = E.x ∧ fl E.y = E.y ∧ fl E.z = E.z →
      (∀ (s t : F) (rng : RNG) (ray : Ray F) (rng' : RNG),
        CameraSample fl output.width output.height s t →
        camera_get_ray sqrtf sfuel camera s t rng = some (ray, rng') →
        ∃ rec mat,
          scene_hit sqrtf scene ray (1 / 1000) FLT_MAX HitRecord.zero = .done true rec ∧
          scene_material scene rec = some mat ∧ mat.type = .MATERIAL_EMISSIVE ∧
          mat.emission = E) →
      render_parallel_rounded fl sqrtf sfuel schedule scene camera settings output =
        .ok { output with
              pixels := List.replicate ((output.width * output.height) % 2 ^ 32) E }) := by
  constructor
  · intro ray rng rec mat hhit hmat hem
    refine ⟨?_, fun recurse =>
      trace_ray_shade_emissive sqrtf sfuel scene recurse ray rng rec mat hhit hmat hem⟩
    rw [trace_ray_eq sqrtf sfuel scene ray rng 0 max_depth (by omega), russian_roulette_zero]
    simp only [Bool.false_eq_true, if_false]
    exact trace_ray_shade_emissive sqrtf sfuel scene _ ray rng rec mat hhit hmat hem
  · intro fl schedule camera settings output E hmd hspp hcancel hlen hfuel h1 hE hcover
    rw [render_parallel_uniform fl sqrtf sfuel schedule scene camera settings output E
      (uniformTrace_emissive _ sqrtf sfuel scene camera settings.max_depth E (by omega) hcover)
      hfuel hcancel hlen, hspp, pixel_mean_one fl E h1 hE]

end EmissiveClaims

section EmissiveExamples

theorem trace_ray_emissive_witness :
    trace_ray qsqrt (2 ^ 64) emissive_scene z_ray (rng_init 42) 0 5
      = .ok ⟨4, 3, 2⟩ (rng_init 42) ∧
    render_parallel_rounded f32 qsqrt (2 ^ 64) example_schedule emissive_scene example_camera
        one_sample_settings (image_create 3 2)
      = .ok ⟨List.replicate 6 ⟨4, 3, 2⟩, 3, 2⟩ ∧
    render_parallel_rounded (fun x => x) qsqrt (2 ^ 64) example_schedule front_scene
        example_camera one_sample_settings (image_create 3 2)
      = .ok ⟨List.replicate 6 ⟨4, 3, 2⟩, 3, 2⟩ :=
  ⟨((trace_ray_emissive qsqrt (2 ^ 64) emissive_scene 5 (by decide)).1 z_ray (rng_init 42)
      ⟨⟨0, 0, 10⟩, ⟨0, 0, -1⟩, 10, false, some 0⟩ (material_emissive ⟨4, 3, 2⟩)
      (by decide!) (by decide!) rfl).1,
   (trace_ray_emissive qsqrt (2 ^ 64) emissive_scene 5 (by decide)).2 f32 example_schedule
      example_camera one_sample_settings (image_create 3 2) ⟨4, 3, 2⟩ rfl rfl rfl (by decide)
      (le_refl _) (by decide!) ⟨by decide!, by decide!, by decide!⟩
      (fun s t rng ray rng' _ h => emissive_scene_cover (2 ^ 64) s t rng ray rng' h),
   (trace_ray_emissive qsqrt (2 ^ 64) front_scene 5 (by decide)).2 (fun x => x)
      example_schedule example_camera one_sample_settings (image_create 3 2) ⟨4, 3, 2⟩ rfl rfl
      rfl (by decide) (le_refl _) rfl ⟨rfl, rfl, rfl⟩
      (fun s t rng ray rng' hS h => front_scene_cover (2 ^ 64) s t rng ray rng' hS h)⟩

end EmissiveExamples

/-! ### Lambertian scattering -/

section ScatterClaims

variable {F : Type} [LinearOrderedField F]

theorem rng_unit_vector_eq_none (sqrtf : F → F) (sfuel : Nat) (rng : RNG) :
    rng_unit_vector sqrtf sfuel rng = none ↔ rng_in_unit_sphere (F := F) sfuel rng = none := by
  unfold rng_unit_vector
  split <;> simp_all

end ScatterClaims

section ScatterExamples

/-- The witness, evaluated: the first candidate of the generator seeded with 42 is
accepted. -/
theorem material_scatter_lambertian_value :
    material_scatter qsqrt 10 example_material z_ray
        ⟨⟨0, 0, 4⟩, ⟨0, 0, -1⟩, 4, true, some 0⟩ ⟨0, 0, 0⟩ ⟨⟨0, 0, 0⟩, ⟨0, 0, 0⟩⟩ (rng_init 42)
      = some ⟨true, ⟨1 / 2, 1 / 2, 1 / 2⟩,
          ⟨⟨0, 0, 4⟩, ⟨2203469 / 2609802, -447290 / 1304901, -537475 / 1304901⟩⟩,
          ⟨10119774474348493948, 85⟩⟩ := by
  decide!

end ScatterExamples

/-! ## Materials: mirror reflection, dielectric at normal incidence, blending -/

section MaterialClaims

variable {F : Type} [LinearOrderedField F]

/-- Normalising a unit vector with `sqrtf 1 = 1` leaves it as it is. -/
theorem normalize_of_unit (sqrtf : F → F) (w : Vec3 F) (hw : vec3_dot w w = 1)
    (hs1 : sqrtf 1 = 1) : vec3_normalize sqrtf w = w := by
  obtain ⟨x, y, z⟩ := w
  simp only [vec3_normalize, vec3_div, vec3_length, vec3_length_squared, hw, hs1, vec3_scale,
    vec3_create, div_one, mul_one]

end MaterialClaims

section MaterialExamples

end MaterialExamples

section DielectricClaims

variable {F : Type} [LinearOrderedField F]

end DielectricClaims

section DielectricExamples

end DielectricExamples

section BlendClaims

variable {F : Type} [LinearOrderedField F]

end BlendClaims

section BlendExamples

end BlendExamples

section BlendVariantClaims

variable {F : Type} [LinearOrderedField F]

/-- Cauchy-Schwarz for unit vectors. -/
theorem dot_sq_le_one (u n : Vec3 F) (hu : vec3_dot u u = 1) (hn : vec3_dot n n = 1) :
    vec3_dot u n * vec3_dot u n ≤ 1 := by
  obtain ⟨x, y, z⟩ := u
  obtain ⟨nx, ny, nz⟩ := n
  simp only [vec3_dot] at hu hn ⊢
  nlinarith [sq_nonneg (x * ny - y * nx), sq_nonneg (y * nz - z * ny),
    sq_nonneg (z * nx - x * nz)]

/-- The dielectric branch of a blended material does what the Dielectric material does with
the same index of refraction, away from the critical angle. -/
theorem scatter_blend_dielectric_eq (sqrtf : F → F) (mat : Material F) (ray_in : Ray F)
    (rec : HitRecord F) (rng : RNG) (hreg : RegularIncidence sqrtf mat.ior ray_in rec) :
    scatter_blend_dielectric sqrtf mat.ior ray_in rec rng =
      scatter_dielectric sqrtf mat ray_in rec rng := by
  obtain ⟨hu, hn, hs1, hior, hsin0, hsin2, hcrit⟩ := hreg
  have hsin := And.intro hsin0 hsin2
  have hcs := dot_sq_le_one _ _ hu hn
  have hnn := normalize_of_unit sqrtf _ hu hs1
  unfold scatter_blend_dielectric scatter_dielectric vec3_refract
  simp only [hnn]
  generalize hratio : (if rec.front_face = true then 1 / mat.ior else mat.ior) = ratio at hcrit ⊢
  have hrpos : 0 < ratio := by
    rw [← hratio]; split
    · exact one_div_pos.mpr hior
    · exact hior
  generalize hdt : vec3_dot (vec3_normalize sqrtf ray_in.direction) rec.normal = dt
    at hcs hsin hcrit ⊢
  have hcos : min (-dt) 1 = -dt := min_eq_left (by nlinarith)
  rw [hcos]
  have hsq : (-dt) * (-dt) = dt * dt := by ring
  rw [hsq]
  obtain ⟨hs0, hs2⟩ := hsin
  generalize hs : sqrtf (1 - dt * dt) = s at hs0 hs2 ⊢
  by_cases hdisc : 1 - ratio * ratio * (1 - dt * dt) > 0
  · have hcan : ¬ ratio * s > 1 := by
      intro hc
      have : ratio * s * (ratio * s) > 1 := by nlinarith
      have h2 : ratio * s * (ratio * s) = ratio * ratio * (1 - dt * dt) := by
        rw [← hs2]; ring
      linarith
    simp only [hdisc, if_true, hcan, decide_False, Bool.false_eq_true, if_false]
  · have hlt : 1 - ratio * ratio * (1 - dt * dt) < 0 :=
      lt_of_le_of_ne (not_lt.mp hdisc) hcrit
    have hcan : ratio * s > 1 := by
      by_contra hc
      push_neg at hc
      have h0 : 0 ≤ ratio * s := mul_nonneg (le_of_lt hrpos) hs0
      have : ratio * s * (ratio * s) ≤ 1 := by nlinarith
      have h2 : ratio * s * (ratio * s) = ratio * ratio * (1 - dt * dt) := by
        rw [← hs2]; ring
      linarith
    simp only [hdisc, if_false, Bool.false_eq_true, hcan, decide_True, if_true]

/-- A blended material with `blend_min = blend_max`: the quotient by zero is clamped to `1`
where the blend coordinate exceeds the bound and to `0` elsewhere, so the material behaves
as its second type above the bound and as its first type at or below it. -/
theorem blend_factor_degenerate (sqrtf : F → F) (mat : Material F) (rec : HitRecord F)
    (h : mat.blend_max = mat.blend_min) :
    blend_factor sqrtf mat rec =
      (if blend_coordinate sqrtf mat.blend_mode rec.point > mat.blend_min then 1 else 0) ∧
    blend_active_type sqrtf mat rec =
      (if blend_coordinate sqrtf mat.blend_mode rec.point > mat.blend_min then mat.blend_type2
       else mat.blend_type1) := by
  have heq : blend_factor sqrtf mat rec =
      (if blend_coordinate sqrtf mat.blend_mode rec.point > mat.blend_min then 1 else 0) := by
    unfold blend_factor blend_coordinate
    rw [if_pos (by rw [h, sub_self])]
    simp only [gt_iff_lt, sub_pos]
  refine ⟨heq, ?_⟩
  unfold blend_active_type
  rw [heq]
  split_ifs with h1 h2 h2
  · exact absurd h2 (by norm_num)
  · rfl
  · rfl
  · exact absurd h2 (by norm_num)

end BlendVariantClaims

section BlendVariantExamples

end BlendVariantExamples

/-! ## The uniform sampler -/

section SamplerClaims

variable {F : Type} [LinearOrderedField F]

/-- C27: for every generator state `rng_float` returns `k / 2^24` where `k < 2^24` is the
low 24 bits of the 32-bit draw, so the value lies in `[0, 1)` and is never 1; the generator
afterwards has the same increment and the state `state * 6364136223846793005 + inc`
reduced modulo `2^64`. -/
theorem rng_float_unit_interval (rng : RNG) :
    (rng_float (F := F) rng).1 = (((rng_uint32 rng).1 % 2 ^ 24 : Nat) : F) / 2 ^ 24 ∧
    (rng_uint32 rng).1 % 2 ^ 24 < 2 ^ 24 ∧
    0 ≤ (rng_float (F := F) rng).1 ∧ (rng_float (F := F) rng).1 < 1 ∧
    (rng_float (F := F) rng).2 =
      { state := (rng.state % 2 ^ 64 * 6364136223846793005 + rng.inc) % 2 ^ 64,
        inc := rng.inc } := by
  have hk : (rng_uint32 rng).1 &&& 0xFFFFFF = (rng_uint32 rng).1 % 2 ^ 24 :=
    Nat.and_pow_two_sub_one_eq_mod _ 24
  have hlt : (rng_uint32 rng).1 % 2 ^ 24 < 2 ^ 24 := Nat.mod_lt _ (by norm_num)
  have hval : (rng_float (F := F) rng).1 =
      (((rng_uint32 rng).1 % 2 ^ 24 : Nat) : F) / 2 ^ 24 := by
    simp only [rng_float]
    rw [hk]
    norm_num
  refine ⟨hval, hlt, ?_, ?_, rfl⟩
  · rw [hval]
    positivity
  · rw [hval, div_lt_one (by positivity)]
    exact_mod_cast hlt

end SamplerClaims

/-! ## Progress reports and cancellation of a render -/

section RunLemmas

variable {F : Type} [LinearOrderedField F]

/-- What the progress counter and the recorded calls satisfy after `n` iterations of the
pixel loop. -/
theorem report_progress_inv (callback : Bool) (total n : Nat) (st : RunState F)
    (hn : n + 1 < 2 ^ 32) (hdone : st.pixels_done ≤ n)
    (hprog : st.progress = (List.range (st.pixels_done / 1000)).map
      (fun m => (((1000 * (m + 1) : Nat)) : F) / (total : F))) :
    (report_progress callback total st).pixels_done ≤ n + 1 ∧
    (report_progress callback total st).progress =
      (List.range ((report_progress callback total st).pixels_done / 1000)).map
        (fun m => (((1000 * (m + 1) : Nat)) : F) / (total : F)) ∧
    (report_progress callback total st).pixels = st.pixels ∧
    (report_progress callback total st).rngs = st.rngs ∧
    (callback = false → report_progress callback total st = st) := by
  cases callback with
  | false =>
    have he : report_progress false total st = st := rfl
    rw [he]
    exact ⟨by omega, hprog, rfl, rfl, fun _ => rfl⟩
  | true =>
    have hmod : (st.pixels_done + 1) % 2 ^ 32 = st.pixels_done + 1 :=
      Nat.mod_eq_of_lt (by omega)
    simp only [report_progress, if_true, hmod]
    refine ⟨by omega, ?_, trivial, trivial, fun h => by cases h⟩
    split_ifs with h
    · have hq : (st.pixels_done + 1) / 1000 = st.pixels_done / 1000 + 1 := by omega
      have hd : st.pixels_done + 1 = 1000 * (st.pixels_done / 1000 + 1) := by omega
      rw [hq, List.range_succ, List.map_append, ← hprog, List.map_singleton, ← hd]
    · have hq : (st.pixels_done + 1) / 1000 = st.pixels_done / 1000 := by omega
      rw [hq, hprog]

/-- The pixel loop skips a pixel whose first cancel test succeeds. -/
theorem render_run_cons_skip (sqrtf : F → F) (sfuel : Nat) (schedule : Nat → Nat)
    (scene : Scene F) (camera : Camera F) (settings : RenderSettings) (output : Image F)
    (callback : Bool) (flag : Nat → Nat → Bool) (p : Nat) (ps : List Nat) (st : RunState F)
    (hc : cancel_read settings flag p 0 = true) :
    render_run sqrtf sfuel schedule scene camera settings output callback flag (p :: ps) st
      = render_run sqrtf sfuel schedule scene camera settings output callback flag ps st := by
  rw [render_run, render_run_step, if_pos hc]

/-- The pixel loop stops at a pixel whose samples do not complete. -/
theorem render_run_cons_fault (sqrtf : F → F) (sfuel : Nat) (schedule : Nat → Nat)
    (scene : Scene F) (camera : Camera F) (settings : RenderSettings) (output : Image F)
    (callback : Bool) (flag : Nat → Nat → Bool) (p : Nat) (ps : List Nat) (st : RunState F)
    (f : Fault) (hc : ¬ cancel_read settings flag p 0 = true)
    (hs : render_samples_run sqrtf sfuel scene camera settings output
      (cancel_read settings flag p) (p % output.width) (p / output.width)
      settings.samples_per_pixel 0 (vec3_create 0 0 0) (st.rngs (schedule (p / 16)))
        = .fault f) :
    render_run sqrtf sfuel schedule scene camera settings output callback flag (p :: ps) st
      = (st, some f) := by
  rw [render_run, render_run_step, if_neg hc, hs]

/-- The pixel loop writes the averaged colour of a pixel whose samples complete, reports
the progress and goes on. -/
theorem render_run_cons_ok (sqrtf : F → F) (sfuel : Nat) (schedule : Nat → Nat)
    (scene : Scene F) (camera : Camera F) (settings : RenderSettings) (output : Image F)
    (callback : Bool) (flag : Nat → Nat → Bool) (p : Nat) (ps : List Nat) (st : RunState F)
    (color : Vec3 F) (rng : RNG) (hc : ¬ cancel_read settings flag p 0 = true)
    (hs : render_samples_run sqrtf sfuel scene camera settings output
      (cancel_read settings flag p) (p % output.width) (p / output.width)
      settings.samples_per_pixel 0 (vec3_create 0 0 0) (st.rngs (schedule (p / 16)))
        = .ok color rng) :
    render_run sqrtf sfuel schedule scene camera settings output callback flag (p :: ps) st
      = render_run sqrtf sfuel schedule scene camera settings output callback flag ps
          (report_progress callback ((output.width * output.height) % 2 ^ 32)
            { st with
              rngs := Function.update st.rngs (schedule (p / 16)) rng,
              pixels := st.pixels.set p
                (vec3_div color (settings.samples_per_pixel : F)) }) := by
  rw [render_run, render_run_step, if_neg hc, hs]

/-- The invariant of the pixel loop: after the pixels of `ps`, started with `k` iterations
behind it, the counter is at most `k + ps.length`, the recorded calls are the multiples
of 1000 up to the counter divided by the total, and the number of pixels is unchanged. -/
theorem render_run_inv (sqrtf : F → F) (sfuel : Nat) (schedule : Nat → Nat) (scene : Scene F)
    (camera : Camera F) (settings : RenderSettings) (output : Image F) (callback : Bool)
    (flag : Nat → Nat → Bool) (ps : List Nat) (k : Nat) (st : RunState F)
    (hk : k + ps.length < 2 ^ 32) (hdone : st.pixels_done ≤ k)
    (hprog : st.progress = (List.range (st.pixels_done / 1000)).map
      (fun m => (((1000 * (m + 1) : Nat)) : F) /
        (((output.width * output.height) % 2 ^ 32 : Nat) : F))) :
    (render_run sqrtf sfuel schedule scene camera settings output callback flag ps st).1.pixels_done
      ≤ k + ps.length ∧
    (render_run sqrtf sfuel schedule scene camera settings output callback flag ps st).1.progress
      = (List.range ((render_run sqrtf sfuel schedule scene camera settings output callback
          flag ps st).1.pixels_done / 1000)).map
        (fun m => (((1000 * (m + 1) : Nat)) : F) /
          (((output.width * output.height) % 2 ^ 32 : Nat) : F)) ∧
    (render_run sqrtf sfuel schedule scene camera settings output callback flag ps
      st).1.pixels.length = st.pixels.length ∧
    (callback = false →
      (render_run sqrtf sfuel schedule scene camera settings output callback flag ps
        st).1.pixels_done = st.pixels_done ∧
      (render_run sqrtf sfuel schedule scene camera settings output callback flag ps
        st).1.progress = st.progress) := by
  induction ps generalizing k st with
  | nil => exact ⟨by simpa [render_run] using hdone, by simpa [render_run] using hprog, rfl,
      fun _ => ⟨rfl, rfl⟩⟩
  | cons p ps ih =>
    simp only [List.length_cons] at hk ⊢
    by_cases hc : cancel_read settings flag p 0 = true
    · rw [render_run_cons_skip _ _ _ _ _ _ _ _ _ _ _ _ hc]
      obtain ⟨h1, h2, h3, h4⟩ := ih (k + 1) st (by omega) (by omega) hprog
      exact ⟨by omega, h2, h3, h4⟩
    · cases hs : render_samples_run sqrtf sfuel scene camera settings output
          (cancel_read settings flag p) (p % output.width) (p / output.width)
          settings.samples_per_pixel 0 (vec3_create 0 0 0) (st.rngs (schedule (p / 16))) with
      | fault f =>
        rw [render_run_cons_fault _ _ _ _ _ _ _ _ _ _ _ _ f hc hs]
        exact ⟨by show st.pixels_done ≤ _; omega, hprog, rfl, fun _ => ⟨rfl, rfl⟩⟩
      | ok color rng =>
        rw [render_run_cons_ok _ _ _ _ _ _ _ _ _ _ _ _ color rng hc hs]
        obtain ⟨g1, g2, g3, g4, g5⟩ := report_progress_inv callback
          ((output.width * output.height) % 2 ^ 32) k
          ({ st with
              rngs := Function.update st.rngs (schedule (p / 16)) rng,
              pixels := st.pixels.set p (vec3_div color (settings.samples_per_pixel : F)) } :
            RunState F) (by omega) hdone hprog
        obtain ⟨h1, h2, h3, h4⟩ := ih (k + 1) _ (by omega) g1 g2
        refine ⟨by omega, h2, ?_, ?_⟩
        · rw [h3, g3, List.length_set]
        · intro hcb
          rw [(h4 hcb).1, (h4 hcb).2, g5 hcb]
          exact ⟨rfl, rfl⟩

/-- A run in which every test at the top of the pixel loop finds the flag set leaves the
state as it is. -/
theorem render_run_cancelled (sqrtf : F → F) (sfuel : Nat) (schedule : Nat → Nat)
    (scene : Scene F) (camera : Camera F) (settings : RenderSettings) (output : Image F)
    (callback : Bool) (flag : Nat → Nat → Bool) (ps : List Nat) (st : RunState F)
    (hstart : ∀ pixel_idx, cancel_read settings flag pixel_idx 0 = true) :
    render_run sqrtf sfuel schedule scene camera settings output callback flag ps st
      = (st, none) := by
  induction ps with
  | nil => rfl
  | cons p ps ih =>
    rw [render_run_cons_skip _ _ _ _ _ _ _ _ _ _ _ _ (hstart p)]
    exact ih

end RunLemmas

section RunLink

variable {F : Type} [LinearOrderedField F]

/-- Without a cancellation the multi-sampling loop is the loop of `render_samples`. -/
theorem render_samples_run_never (sqrtf : F → F) (sfuel : Nat) (scene : Scene F)
    (camera : Camera F) (settings : RenderSettings) (output : Image F) (cancel : Nat → Bool)
    (hcancel : ∀ k, cancel k = false) (i j n s : Nat) (color : Vec3 F) (rng : RNG) :
    render_samples_run sqrtf sfuel scene camera settings output cancel i j n s color rng
      = render_samples sqrtf sfuel scene camera settings output i j n color rng := by
  induction n generalizing s color rng with
  | zero => rfl
  | succ n ih =>
    rw [render_samples_run, render_samples, hcancel]
    simp only [Bool.false_eq_true, if_false]
    cases render_sample sqrtf sfuel scene camera settings output i j rng with
    | fault f => rfl
    | ok c r => exact ih _ _ _

/-- The pixel loop of a run whose cancel tests all fail is the loop of `render_parallel`. -/
theorem render_run_eq_fold (sqrtf : F → F) (sfuel : Nat) (schedule : Nat → Nat)
    (scene : Scene F) (camera : Camera F) (settings : RenderSettings) (output : Image F)
    (callback : Bool) (flag : Nat → Nat → Bool)
    (hflag : ∀ p k, cancel_read settings flag p k = false) (ps : List Nat)
    (st : RunState F) (ost : RenderState F) (hr : ost.rngs = st.rngs)
    (hp : ost.pixels = st.pixels) :
    run_result output
        (render_run sqrtf sfuel schedule scene camera settings output callback flag ps st)
      = match ps.foldlM
          (fun st pixel_idx =>
            render_step sqrtf sfuel scene camera settings output (schedule (pixel_idx / 16))
              pixel_idx st) ost with
        | .error f => .fault f
        | .ok s => .ok { output with pixels := s.pixels } := by
  induction ps generalizing st ost with
  | nil =>
    simp only [List.foldlM, pure, Except.pure, render_run, run_result, RunState.image, hp]
  | cons p ps ih =>
    have hc : ¬ cancel_read settings flag p 0 = true := by simp [hflag p 0]
    have hsame := render_samples_run_never sqrtf sfuel scene camera settings output
      (cancel_read settings flag p) (hflag p) (p % output.width) (p / output.width)
      settings.samples_per_pixel 0 (vec3_create 0 0 0) (st.rngs (schedule (p / 16)))
    rw [List.foldlM_cons]
    cases hs : render_samples sqrtf sfuel scene camera settings output (p % output.width)
        (p / output.width) settings.samples_per_pixel (vec3_create 0 0 0)
        (st.rngs (schedule (p / 16))) with
    | fault f =>
      have hst : render_step sqrtf sfuel scene camera settings output (schedule (p / 16)) p ost
          = .error f := by
        unfold render_step render_pixel
        simp only [hr, hs]
      rw [render_run_cons_fault _ _ _ _ _ _ _ _ _ _ _ _ f hc (hsame.trans hs), hst]
      rfl
    | ok color rng =>
      have hst : render_step sqrtf sfuel scene camera settings output (schedule (p / 16)) p ost
          = .ok { rngs := Function.update st.rngs (schedule (p / 16)) rng,
                  pixels := st.pixels.set p
                    (vec3_div color (settings.samples_per_pixel : F)) } := by
        unfold render_step render_pixel
        simp only [hr, hs, hp]
      rw [render_run_cons_ok _ _ _ _ _ _ _ _ _ _ _ _ color rng hc (hsame.trans hs), hst]
      simp only [bind, Except.bind]
      apply ih
      · cases callback <;> simp [report_progress]
      · cases callback <;> simp [report_progress]

/-- With a cancel flag that keeps its value and whatever the callback, a run ends as
`render_parallel` above says. -/
theorem render_parallel_run_eq (sqrtf : F → F) (sfuel : Nat) (schedule : Nat → Nat)
    (scene : Scene F) (camera : Camera F) (settings : RenderSettings) (output : Image F)
    (callback : Bool) :
    run_result output (render_parallel_run sqrtf sfuel schedule scene camera settings output
      callback (fun _ _ => settings.cancelled))
      = render_parallel sqrtf sfuel schedule scene camera settings output := by
  have hread : ∀ p k, cancel_read settings (fun _ _ => settings.cancelled) p k
      = settings.cancelled := by
    intro p k
    unfold cancel_read RenderSettings.cancelled
    cases settings.cancel_flag <;> rfl
  unfold render_parallel
  by_cases hc : settings.cancelled = true
  · rw [if_pos hc]
    unfold render_parallel_run
    rw [render_run_cancelled _ _ _ _ _ _ _ _ _ _ _ (fun p => (hread p 0).trans hc)]
    rfl
  · rw [if_neg hc]
    exact (render_run_eq_fold sqrtf sfuel schedule scene camera settings output callback _
      (fun p k => (hread p k).trans (by simpa using hc)) _ (render_start output)
      { rngs := fun thread => rng_init (42 + thread * 1000), pixels := output.pixels }
      rfl rfl).trans rfl

end RunLink

section RunClaims

variable {F : Type} [LinearOrderedField F]

/-- C25: at every point of a run of `render_parallel`, cancelled or not, the progress
callback has been called once for each multiple of 1000 the counter of completed pixels has
reached, with the value `completed / total`.  The counter is at most the number of pixels
gone through, so there are at most `total / 1000` calls (hence at most
`total / 1000 + 1`), and every reported value lies in `[0, 1]`.  Without a callback
nothing is reported. -/
theorem render_parallel_progress (sqrtf : F → F) (sfuel : Nat) (schedule : Nat → Nat)
    (scene : Scene F) (camera : Camera F) (settings : RenderSettings) (output : Image F)
    (callback : Bool) (flag : Nat → Nat → Bool) (n : Nat)
    (hn : n ≤ (output.width * output.height) % 2 ^ 32) :
    (render_upto sqrtf sfuel schedule scene camera settings output callback flag
      n).pixels_done ≤ n ∧
    (render_upto sqrtf sfuel schedule scene camera settings output callback flag n).progress
      = (List.range ((render_upto sqrtf sfuel schedule scene camera settings output callback
          flag n).pixels_done / 1000)).map
        (fun m => (((1000 * (m + 1) : Nat)) : F) /
          (((output.width * output.height) % 2 ^ 32 : Nat) : F)) ∧
    (render_upto sqrtf sfuel schedule scene camera settings output callback flag
      n).progress.length ≤ ((output.width * output.height) % 2 ^ 32) / 1000 ∧
    (render_upto sqrtf sfuel schedule scene camera settings output callback flag
      n).progress.length ≤ ((output.width * output.height) % 2 ^ 32) / 1000 + 1 ∧
    (∀ x ∈ (render_upto sqrtf sfuel schedule scene camera settings output callback flag
      n).progress, 0 ≤ x ∧ x ≤ 1) ∧
    (callback = false →
      (render_upto sqrtf sfuel schedule scene camera settings output callback flag
        n).progress = []) := by
  have htot : (output.width * output.height) % 2 ^ 32 < 2 ^ 32 := Nat.mod_lt _ (by norm_num)
  obtain ⟨h1, h2, -, h4⟩ := render_run_inv sqrtf sfuel schedule scene camera settings output
    callback flag (List.range n) 0 (render_start output)
    (by rw [List.length_range]; omega) (Nat.le_refl 0) (by simp [render_start])
  rw [List.length_range, Nat.zero_add] at h1
  have hlen : (render_upto sqrtf sfuel schedule scene camera settings output callback flag
      n).progress.length ≤ ((output.width * output.height) % 2 ^ 32) / 1000 := by
    unfold render_upto
    rw [h2, List.length_map, List.length_range]
    exact Nat.div_le_div_right (h1.trans hn)
  refine ⟨h1, h2, hlen, hlen.trans (Nat.le_succ _), ?_, fun hcb => (h4 hcb).2⟩
  intro x hx
  unfold render_upto at hx
  rw [h2, List.mem_map] at hx
  obtain ⟨m, hm, rfl⟩ := hx
  rw [List.mem_range] at hm
  have hle : 1000 * (m + 1) ≤ (output.width * output.height) % 2 ^ 32 := by
    have := Nat.div_mul_le_self (render_run sqrtf sfuel schedule scene camera settings output
      callback flag (List.range n) (render_start output)).1.pixels_done 1000
    omega
  have hpos : (0 : F) < (((output.width * output.height) % 2 ^ 32 : Nat) : F) := by
    have : 0 < (output.width * output.height) % 2 ^ 32 := by omega
    exact_mod_cast this
  refine ⟨by positivity, ?_⟩
  rw [div_le_one hpos]
  exact_mod_cast hle

/-- C26: when the cancel flag is set at the first test of every pixel, the run of
`render_parallel` ends in the state it started from: no pixel is written, no generator is
advanced (no sample is traced), the counter stays 0 and the callback is not called, so the
image is the one passed in.  In every run, whatever the flag does, the image keeps its
width, its height and its number of pixels. -/
theorem render_parallel_cancelled (sqrtf : F → F) (sfuel : Nat) (schedule : Nat → Nat)
    (scene : Scene F) (camera : Camera F) (settings : RenderSettings) (output : Image F)
    (callback : Bool) (flag : Nat → Nat → Bool)
    (hflag : settings.cancel_flag.isSome = true) (hstart : ∀ pixel_idx, flag pixel_idx 0 = true) :
    render_parallel_run sqrtf sfuel schedule scene camera settings output callback flag
      = (render_start output, none) ∧
    RunState.image output (render_parallel_run sqrtf sfuel schedule scene camera settings
      output callback flag).1 = output ∧
    ∀ (settings' : RenderSettings) (callback' : Bool) (flag' : Nat → Nat → Bool) (n : Nat),
      (RunState.image output (render_upto sqrtf sfuel schedule scene camera settings' output
        callback' flag' n)).width = output.width ∧
      (RunState.image output (render_upto sqrtf sfuel schedule scene camera settings' output
        callback' flag' n)).height = output.height ∧
      (RunState.image output (render_upto sqrtf sfuel schedule scene camera settings' output
        callback' flag' n)).pixels.length = output.pixels.length := by
  have hrun : render_parallel_run sqrtf sfuel schedule scene camera settings output callback
      flag = (render_start output, none) := by
    apply render_run_cancelled
    intro p
    unfold cancel_read
    cases hcf : settings.cancel_flag with
    | none => rw [hcf] at hflag; cases hflag
    | some b => exact hstart p
  refine ⟨hrun, by rw [hrun]; rfl, ?_⟩
  intro settings' callback' flag' n
  refine ⟨rfl, rfl, ?_⟩
  -- the loop only overwrites elements of the pixel array
  have key : ∀ (ps : List Nat) (st : RunState F),
      (render_run sqrtf sfuel schedule scene camera settings' output callback' flag' ps
        st).1.pixels.length = st.pixels.length := by
    intro ps
    induction ps with
    | nil => intro st; rfl
    | cons p ps ih =>
      intro st
      by_cases hc : cancel_read settings' flag' p 0 = true
      · rw [render_run_cons_skip _ _ _ _ _ _ _ _ _ _ _ _ hc]
        exact ih st
      · cases hs : render_samples_run sqrtf sfuel scene camera settings' output
            (cancel_read settings' flag' p) (p % output.width) (p / output.width)
            settings'.samples_per_pixel 0 (vec3_create 0 0 0)
            (st.rngs (schedule (p / 16))) with
        | fault f => rw [render_run_cons_fault _ _ _ _ _ _ _ _ _ _ _ _ f hc hs]
        | ok color rng =>
          rw [render_run_cons_ok _ _ _ _ _ _ _ _ _ _ _ _ color rng hc hs, ih]
          cases callback' with
          | false => exact List.length_set _ _ _
          | true => exact List.length_set _ _ _
  exact key _ _

end RunClaims

section RunExamples

set_option maxRecDepth 100000 in
theorem render_parallel_progress_witness :
    1000 ≤ (40 * 25) % 2 ^ 32 ∧
    (render_upto qsqrt 10 example_schedule empty_scene example_camera thousand_settings
      (image_create 40 25) true (fun _ _ => false) 1000).progress.length ≤ 1 ∧
    (render_upto qsqrt 10 example_schedule empty_scene example_camera thousand_settings
      (image_create 40 25) true (fun _ _ => false) 1000).progress = [1] ∧
    (render_upto qsqrt 10 example_schedule empty_scene example_camera thousand_settings
      (image_create 40 25) true (fun _ _ => false) 1000).pixels_done = 1000 :=
  ⟨by decide,
   (render_parallel_progress qsqrt 10 example_schedule empty_scene example_camera
      thousand_settings (image_create 40 25) true (fun _ _ => false) 1000 (by decide)).2.2.1,
   by decide!, by decide!⟩

theorem render_parallel_cancelled_witness :
    cancelled_settings.cancel_flag.isSome = true ∧
    render_parallel_run qsqrt 0 example_schedule lambert_scene example_camera
      cancelled_settings painted_image true (fun _ _ => true)
      = (render_start painted_image, none) :=
  ⟨rfl, (render_parallel_cancelled qsqrt 0 example_schedule lambert_scene example_camera
      cancelled_settings painted_image true (fun _ _ => true) rfl (fun _ => rfl)).1⟩

end RunExamples

section SplitClaims

variable {F : Type} [LinearOrderedField F] [FloorRing F]

/-- C30 (amended): for the search with every float operation rounded by `fl`, on a range
`[s, e)` of the index array: when a candidate was accepted (the cost returned is below the
initial `FLT_MAX`), the cost and the axis returned are those of a candidate
`(axis, split_bin)` on an axis that was not passed over, with both bin counts non-zero; on
return the range is a permutation of its previous contents and the rest of the array is
untouched; every entry of the range whose computed centre coordinate on that axis is below
the computed threshold `axis_min + split_bin * bin_width` stands before every entry for
which it is not; `split_pos - s` is the number of entries below the threshold, so
`s ≤ split_pos ≤ e`.  The left bin count is the number of entries with a bin index below
`split_bin`: when the bin index and the threshold test agree on every entry of the range,
`split_pos - s` is the left bin count and `s < split_pos < e`.  Without rounding they
agree. -/
theorem bvh_find_best_split_partition (fl : F → F) (prims : List (Primitive F))
    (idx : List Nat) (s e : Nat) (hse : s ≤ e) (he : e ≤ idx.length)
    (hfin : (bvh_find_best_split_rounded fl prims idx s e).1.cost < FLT_MAX) :
    ∃ axis sb, axis < 3 ∧ 1 ≤ sb ∧ sb ≤ 11 ∧
      ¬ axis_skipped_rounded fl prims idx s e axis ∧
      left_count_rounded fl prims idx s e axis sb ≠ 0 ∧
      right_count_rounded fl prims idx s e axis sb ≠ 0 ∧
      (bvh_find_best_split_rounded fl prims idx s e).1.cost
        = candidate_cost_rounded fl prims idx s e axis sb ∧
      (bvh_find_best_split_rounded fl prims idx s e).1.split_axis = axis ∧
      Within s e idx (bvh_find_best_split_rounded fl prims idx s e).2 ∧
      (∀ p q, s ≤ p → p < e → s ≤ q → q < e →
        center_pos_rounded fl prims axis
            ((bvh_find_best_split_rounded fl prims idx s e).2.getD p 0)
          < split_threshold_rounded fl prims idx s e axis sb →
        ¬ center_pos_rounded fl prims axis
            ((bvh_find_best_split_rounded fl prims idx s e).2.getD q 0)
          < split_threshold_rounded fl prims idx s e axis sb →
        p < q) ∧
      (bvh_find_best_split_rounded fl prims idx s e).1.split_pos - s =
        ((idx.drop s).take (e - s)).countP (fun j => decide
          (center_pos_rounded fl prims axis j
            < split_threshold_rounded fl prims idx s e axis sb)) ∧
      s ≤ (bvh_find_best_split_rounded fl prims idx s e).1.split_pos ∧
      (bvh_find_best_split_rounded fl prims idx s e).1.split_pos ≤ e ∧
      left_count_rounded fl prims idx s e axis sb =
        ((idx.drop s).take (e - s)).countP (fun j => decide
          (bin_index_rounded fl prims axis ((range_bounds prims idx s e).min.get axis)
            (axis_bin_width_rounded fl prims idx s e axis) j < sb)) ∧
      left_count_rounded fl prims idx s e axis sb + right_count_rounded fl prims idx s e axis sb
        = e - s ∧
      ((∀ j ∈ (idx.drop s).take (e - s),
          (bin_index_rounded fl prims axis ((range_bounds prims idx s e).min.get axis)
            (axis_bin_width_rounded fl prims idx s e axis) j < sb ↔
           center_pos_rounded fl prims axis j
            < split_threshold_rounded fl prims idx s e axis sb)) →
        (bvh_find_best_split_rounded fl prims idx s e).1.split_pos - s
          = left_count_rounded fl prims idx s e axis sb ∧
        s < (bvh_find_best_split_rounded fl prims idx s e).1.split_pos ∧
        (bvh_find_best_split_rounded fl prims idx s e).1.split_pos < e) ∧
      ((∀ x, fl x = x) → ∀ j,
        (bin_index_rounded fl prims axis ((range_bounds prims idx s e).min.get axis)
          (axis_bin_width_rounded fl prims idx s e axis) j < sb ↔
         center_pos_rounded fl prims axis j
          < split_threshold_rounded fl prims idx s e axis sb)) := by
  obtain ⟨hw, hbest⟩ := find_best_split_rounded_inv fl prims idx s e hse he
  rcases hbest with ⟨hb, _⟩ | ⟨a0, sb0, idx', g1, g2, g3, g4, g5, g6, g7, g8, g9, g10, g11, g12⟩
  · rw [hb] at hfin
    exact absurd hfin (lt_irrefl _)
  · obtain ⟨p1, p2, p3⟩ := partition_rounded_spec fl prims a0
      (split_threshold_rounded fl prims idx s e a0 sb0) idx' s e hse (by rw [g10.1]; exact he)
    obtain ⟨w1, w2, w3⟩ := within_partition_rounded fl prims a0
      (split_threshold_rounded fl prims idx s e a0 sb0) idx' s e hse (by rw [g10.1]; exact he)
    obtain ⟨c1, c2⟩ := sweep_counts_rounded fl prims idx s e a0 sb0 hse he g3
    have hcount : (bvh_find_best_split_rounded fl prims idx s e).1.split_pos =
        s + ((idx.drop s).take (e - s)).countP (fun j => decide
          (center_pos_rounded fl prims a0 j
            < split_threshold_rounded fl prims idx s e a0 sb0)) := by
      rw [g11, p1]
      congr 1
      exact (slice_perm_of_within g10 hse).countP_eq _
    refine ⟨a0, sb0, g1, g2, g3, g4, g5, g6, g7, g9, hw, ?_, by omega, by omega,
      by rw [g11]; exact w3, c1, c2, ?_, ?_⟩
    · intro p q hp1 hp2 hq1 hq2 hbelow habove
      rw [g12] at hbelow habove
      by_contra hpq
      have hq : q < (partition_indices_rounded fl prims a0
          (split_threshold_rounded fl prims idx s e a0 sb0) idx' s e).2 := by
        by_contra hq
        exact p3 p (by omega) hp2 hbelow
      exact habove (p2 q hq1 hq)
    · intro hagree
      have heq : left_count_rounded fl prims idx s e a0 sb0 =
          ((idx.drop s).take (e - s)).countP (fun j => decide
            (center_pos_rounded fl prims a0 j
              < split_threshold_rounded fl prims idx s e a0 sb0)) := by
        rw [c1]
        apply List.countP_congr
        intro j hj
        simp only [decide_eq_true_eq]
        exact hagree j hj
      omega
    · intro hfl j
      obtain ⟨e1, e2, e3, e4, e5⟩ := split_rounded_exact fl hfl prims idx s e a0 sb0
        ((range_bounds prims idx s e).min.get a0) (axis_bin_width prims idx s e a0) j
      rw [e3, e4, e1, e2]
      have hext := fun h => g4 (e5.mpr h)
      have hwpos : 0 < axis_bin_width prims idx s e a0 := by
        unfold axis_bin_width
        have : (0 : F) < 1 / 10000 := by norm_num
        have := lt_of_lt_of_le this (not_lt.mp hext)
        positivity
      exact bin_index_lt_iff prims a0 _ _ j sb0 hwpos g2 g3

end SplitClaims

section SplitExamples

/-- C30, as stated, fails in binary32: for the three spheres of `split_spheres` the search
accepts the candidate of axis 0 and split bin 2 (cost `12594351 / 4194304`, about 3.0027):
the second sphere, whose centre `14050645 / 65536` is exactly the computed threshold, is put
in bin 1, so the left bin count is 1 and the right one 2; the partition test `pos < split_pos`
is false for the three of them, so nothing is moved and `split_pos = start = 0`, not the left
bin count, and the left side is empty.  All bounds are binary32 values.  In exact arithmetic
the threshold is `10291 / 48`, above that centre, and `split_pos = 1`. -/
theorem bvh_find_best_split_partition_counterexample :
    bvh_find_best_split_rounded f32 split_spheres [0, 1, 2] 0 3
      = (⟨12594351 / 4194304, 0, 0⟩, [0, 1, 2]) ∧
    (12594351 / 4194304 : ℚ) < FLT_MAX ∧
    candidate_cost_rounded f32 split_spheres [0, 1, 2] 0 3 0 2 = 12594351 / 4194304 ∧
    left_count_rounded f32 split_spheres [0, 1, 2] 0 3 0 2 = 1 ∧
    right_count_rounded f32 split_spheres [0, 1, 2] 0 3 0 2 = 2 ∧
    split_threshold_rounded f32 split_spheres [0, 1, 2] 0 3 0 2 = 14050645 / 65536 ∧
    [0, 1, 2].map (center_pos_rounded f32 split_spheres 0) = [218, 14050645 / 65536, 1827 / 8] ∧
    [0, 1, 2].map (bin_index_rounded f32 split_spheres 0 210
      (axis_bin_width_rounded f32 split_spheres [0, 1, 2] 0 3 0)) = [3, 1, 8] ∧
    split_spheres.map (fun p => (p.bounds.min.x, p.bounds.max.x, f32 p.bounds.min.x,
        f32 p.bounds.max.x))
      = [(210, 226, 210, 226),
         (14017877 / 65536, 14083413 / 65536, 14017877 / 65536, 14083413 / 65536),
         (1763 / 8, 1891 / 8, 1763 / 8, 1891 / 8)] ∧
    split_threshold split_spheres [0, 1, 2] 0 3 0 2 = 10291 / 48 ∧
    bvh_find_best_split split_spheres [0, 1, 2] 0 3 = (⟨3303 / 1100, 0, 1⟩, [1, 0, 2]) := by
  refine ⟨?_, ?_, ?_, ?_, ?_, ?_, ?_, ?_, ?_, ?_, ?_⟩ <;> decide!

theorem bvh_find_best_split_partition_witness :
    (0 ≤ 5 ∧ 5 ≤ (List.range 5).length ∧
      (bvh_find_best_split_rounded f32 example_scene (List.range 5) 0 5).1.cost < FLT_MAX) ∧
    (∃ axis sb, axis < 3 ∧ 1 ≤ sb ∧ sb ≤ 11 ∧
      (bvh_find_best_split_rounded f32 example_scene (List.range 5) 0 5).1.split_axis = axis ∧
      Within 0 5 (List.range 5)
        (bvh_find_best_split_rounded f32 example_scene (List.range 5) 0 5).2 ∧
      (bvh_find_best_split_rounded f32 example_scene (List.range 5) 0 5).1.split_pos - 0 =
        (((List.range 5).drop 0).take (5 - 0)).countP (fun j => decide
          (center_pos_rounded f32 example_scene axis j
            < split_threshold_rounded f32 example_scene (List.range 5) 0 5 axis sb))) ∧
    bvh_find_best_split_rounded f32 example_scene (List.range 5) 0 5
      = (⟨9606309 / 4194304, 0, 3⟩, [2, 3, 4, 1, 0]) ∧
    left_count_rounded f32 example_scene (List.range 5) 0 5 0 2 = 3 ∧
    split_threshold_rounded f32 example_scene (List.range 5) 0 5 0 2 = 5592405 / 8388608 ∧
    (List.range 5).map (center_pos_rounded f32 example_scene 0) = [8, 4, 0, 0, 0] :=
  ⟨⟨by decide, by decide, by decide!⟩,
   (bvh_find_best_split_partition f32 example_scene (List.range 5) 0 5 (by decide) (by decide)
      (by decide!)).elim
      (fun axis h => h.elim (fun sb h => ⟨axis, sb, h.1, h.2.1, h.2.2.1, h.2.2.2.2.2.2.2.1,
        h.2.2.2.2.2.2.2.2.1, h.2.2.2.2.2.2.2.2.2.2.1⟩)),
   by decide!, by decide!, by decide!, by decide!⟩

end SplitExamples
/-! ## The traversal stack -/

section StackLemmas

variable {F : Type} [LinearOrderedField F]

/-- With a tree, `scene_hit` is the traversal `bvh_hit`. -/
theorem scene_hit_of_bvh (sqrtf : F → F) (scene : Scene F) (bvh : BVH F) (ray : Ray F)
    (t_min t_max : F) (rec : HitRecord F) (h : scene.bvh = some bvh) :
    scene_hit sqrtf scene ray t_min t_max rec = bvh_hit sqrtf bvh ray t_min t_max rec := by
  unfold scene_hit
  rw [h]

end StackLemmas

section StackExamples

set_option maxRecDepth 1000000 in
/-- The precomputed bounds of `nested_spheres`. -/
theorem nested_prim_bounds : ∀ i, i < 66 →
    prim_bounds nested_spheres ((List.range 66).getD i 0) = nested_prim_box i := by
  decide!

theorem nested_radius_range (i j : Nat) (hj : j ≤ 64) (hji : j ≤ i) (hi : i < 66) :
    399 ≤ nested_radius i ∧ nested_radius i ≤ 464 - (j : ℚ) ∧
    2 * (j : ℚ) - 464 ≤ (i : ℚ) - nested_radius i ∧
    (i : ℚ) + nested_radius i ≤ 465 := by
  have h1 : (j : ℚ) ≤ (i : ℚ) := by exact_mod_cast hji
  have h2 : (i : ℚ) ≤ 65 := by exact_mod_cast Nat.le_of_lt_succ hi
  have h3 : (j : ℚ) ≤ 64 := by exact_mod_cast hj
  unfold nested_radius
  by_cases h : i < 65
  · rw [if_pos h]
    have h4 : (i : ℚ) ≤ 64 := by exact_mod_cast Nat.le_of_lt_succ h
    refine ⟨?_, ?_, ?_, ?_⟩ <;> linarith
  · rw [if_neg h]
    have h4 : (i : ℚ) = 65 := by
      have : i = 65 := by omega
      rw [this]; norm_num
    refine ⟨?_, ?_, ?_, ?_⟩ <;> linarith

/-- The centres of `nested_spheres`. -/
theorem nested_center (i : Nat) (hi : i < 66) :
    center_pos nested_spheres 0 ((List.range 66).getD i 0) = (i : ℚ) + 1 / 2 ∧
    center_pos nested_spheres 1 ((List.range 66).getD i 0) = 0 ∧
    center_pos nested_spheres 2 ((List.range 66).getD i 0) = 0 := by
  unfold center_pos
  rw [nested_prim_bounds i hi]
  simp only [aabb_center, nested_prim_box, vec3_scale, vec3_add, vec3_create, Vec3.get]
  refine ⟨?_, ?_, ?_⟩ <;> ring

/-- The boxes of the ranges `[j, 66)` of `nested_spheres`. -/
theorem nested_range_bounds (j : Nat) (hj : j < 64) :
    range_bounds nested_spheres (List.range 66) j 66 = nested_box j := by
  have hjq : (j : ℚ) ≤ 63 := by exact_mod_cast Nat.le_of_lt_succ hj
  have hbig : (1000 : ℚ) ≤ FLT_MAX := by decide!
  apply boxLe_antisymm
  · apply range_bounds_least
    · intro axis
      rcases axis with _ | _ | axis <;>
        simp only [aabb_empty, nested_box, vec3_create, Vec3.get] <;>
        constructor <;> linarith
    · intro k hk1 hk2
      rw [nested_prim_bounds k hk2]
      obtain ⟨r1, r2, r3, r4⟩ := nested_radius_range k j (by omega) hk1 hk2
      intro axis
      rcases axis with _ | _ | axis <;>
        simp only [nested_prim_box, nested_box, Vec3.get] <;>
        constructor <;> linarith
  · have hj' := range_bounds_encloses nested_spheres (List.range 66) j 66 j (le_refl _)
      (by omega)
    have h65 := range_bounds_encloses nested_spheres (List.range 66) j 66 65 (by omega)
      (by omega)
    rw [nested_prim_bounds j (by omega)] at hj'
    rw [nested_prim_bounds 65 (by omega)] at h65
    have hrj : nested_radius j = 464 - (j : ℚ) := by
      unfold nested_radius
      rw [if_pos (by omega)]
    have hr65 : nested_radius 65 = 400 := by
      unfold nested_radius
      rw [if_neg (by omega)]
    intro axis
    have a0 := hj' axis
    have a1 := h65 axis
    rcases axis with _ | _ | axis <;>
      simp only [nested_prim_box, nested_box, Vec3.get, hrj, hr65] at a0 a1 ⊢ <;>
      push_cast at a0 a1 ⊢ <;>
      constructor <;> linarith

/-- The SAH search splits every range `[j, 66)` of `nested_spheres` after its first entry. -/
theorem nested_split (j : Nat) (hj : j < 64) :
    build_choose_split nested_spheres (range_bounds nested_spheres (List.range 66) j 66)
      (List.range 66) j 66 = (j + 1, List.range 66, false) := by
  have hjq : (j : ℚ) ≤ 63 := by exact_mod_cast Nat.le_of_lt_succ hj
  have hx6 : box_threshold (nested_box j) 0 6 = (j : ℚ) + 1 := by
    simp only [box_threshold, nested_box, Vec3.get]; push_cast; ring
  have hx5 : box_threshold (nested_box j) 0 5 = (j : ℚ) + 1 - (929 - 2 * (j : ℚ)) / 12 := by
    simp only [box_threshold, nested_box, Vec3.get]; push_cast; ring
  have hx7 : box_threshold (nested_box j) 0 7 = (j : ℚ) + 1 + (929 - 2 * (j : ℚ)) / 12 := by
    simp only [box_threshold, nested_box, Vec3.get]; push_cast; ring
  have hyz6 : ∀ axis, axis = 1 ∨ axis = 2 → box_threshold (nested_box j) axis 6 = 0 := by
    rintro axis (rfl | rfl) <;> simp only [box_threshold, nested_box, Vec3.get] <;>
      push_cast <;> ring
  have hyz7 : ∀ axis, axis = 1 ∨ axis = 2 →
      box_threshold (nested_box j) axis 7 = (464 - (j : ℚ)) / 6 := by
    rintro axis (rfl | rfl) <;> simp only [box_threshold, nested_box, Vec3.get] <;>
      push_cast <;> ring
  apply choose_split_first_alone nested_spheres _ (nested_box j) (List.range 66) j 66
    (by omega) (by simp) (nested_range_bounds j hj)
  · intro i hji hi
    rw [nested_prim_bounds i hi]
    obtain ⟨r1, -, -, -⟩ := nested_radius_range i j (by omega) hji hi
    simp only [ValidBox, nested_prim_box]
    refine ⟨?_, ?_, ?_⟩ <;> linarith
  · simp only [aabb_surface_area, nested_box, vec3_sub, vec3_create]
    nlinarith
  · have : ((66 - j : Nat) : ℚ) ≤ 66 := by exact_mod_cast Nat.sub_le 66 j
    have h2 : (67 : ℚ) < FLT_MAX := by decide!
    linarith
  · simp only [nested_box, Vec3.get]
    linarith
  · rw [(nested_center j (by omega)).1, hx6]
    linarith
  · intro i hji hi
    rw [(nested_center i hi).1, hx6]
    have : (j : ℚ) + 1 ≤ (i : ℚ) := by exact_mod_cast hji
    linarith
  · intro i hji hi
    rw [(nested_center i hi).1, hx5, hx7]
    have h1 : (j : ℚ) ≤ (i : ℚ) := by exact_mod_cast hji
    have h2 : (i : ℚ) ≤ 65 := by exact_mod_cast Nat.le_of_lt_succ hi
    constructor
    · linarith
    · linarith
  · intro axis hax i _ hi
    have hc : center_pos nested_spheres axis ((List.range 66).getD i 0) = 0 := by
      rcases hax with rfl | rfl
      · exact (nested_center i hi).2.1
      · exact (nested_center i hi).2.2
    rw [hc, hyz6 axis hax, hyz7 axis hax]
    constructor
    · exact lt_irrefl _
    · linarith

set_option maxRecDepth 100000 in
/-- The diagonal ray goes through the box of every range `[m, 66)` of `nested_spheres`. -/
theorem nested_box_hit : ∀ m, m < 64 →
    aabb_hit (nested_box m) diagonal_ray (1 / 1000) FLT_MAX = true := by
  decide!

/-- The tree `bvh_create` builds for `nested_spheres`. -/
theorem nested_bvh :
    bvh_create nested_spheres =
      some { root := some 0, primitives := nested_spheres, prim_count := 66,
             nodes := spine_nodes nested_spheres (List.range 66) 66 64 0 0,
             node_count := 129, indices := List.range 66 } := by
  have hb := build_spine nested_spheres (List.range 66) 66 64 0 [] (66 + 1) (by omega)
    (by omega) (fun i _ hi => ⟨by omega, nested_split i (by omega)⟩)
  rw [bvh_create_of_build nested_spheres 66 _ _ (by decide!) hb]
  have h1 : (List.range 66).map (fun i =>
      nested_spheres.getD ((List.range 66).getD i 0) Primitive.zero) = nested_spheres := by
    decide!
  have h2 : (spine_nodes nested_spheres (List.range 66) 66 64 0 0).length = 129 := by
    decide!
  simp only [List.nil_append, List.length_nil, h1, h2]

/-- On `diagonal_ray` the traversal of the tree of `nested_spheres` pushes a 65th entry on
its stack of 64, whatever record it starts with. -/
theorem nested_traversal_overflow (rec : HitRecord ℚ) :
    bvh_hit qsqrt
      { root := some 0, primitives := nested_spheres, prim_count := 66,
        nodes := spine_nodes nested_spheres (List.range 66) 66 64 0 0,
        node_count := 129, indices := List.range 66 }
      diagonal_ray (1 / 1000) FLT_MAX rec = .stack_overflow := by
  unfold bvh_hit
  dsimp only
  apply spine_overflow qsqrt _ diagonal_ray (1 / 1000) _ _ 63 0 [] (129 + 1) rfl rfl
    (by omega)
  intro m hm
  refine ⟨_, spine_nodes_internal nested_spheres (List.range 66) 66 64 0 0 m hm, rfl,
    by simp only [BVHNode.set_right, BVHNode.set_left, Nat.zero_add],
    by simp only [BVHNode.set_right, Nat.zero_add], ?_⟩
  simp only [BVHNode.set_right, BVHNode.set_left, BVHNode.set_internal, BVHNode.set_bounds,
    Nat.zero_add]
  rw [nested_range_bounds m hm]
  exact nested_box_hit m hm

/-- C28 fails: for the 66 spheres of `nested_spheres` the tree built by `bvh_create` has 129
nodes, its right spine is 64 internal nodes deep, and on `diagonal_ray` the traversal of
`bvh_hit` pushes a 65th entry on its stack of 64. -/
theorem bvh_hit_stack_overflow :
    ∃ bvh, bvh_create nested_spheres = some bvh ∧ bvh.node_count = 129 ∧
      bvh_hit qsqrt bvh diagonal_ray (1 / 1000) FLT_MAX rec0 = .stack_overflow :=
  ⟨_, nested_bvh, rfl, nested_traversal_overflow rec0⟩

theorem nested_scene_bvh : nested_scene.bvh = bvh_create nested_spheres := by
  unfold nested_scene
  dsimp only

/-- The intersection test of `nested_scene` on `diagonal_ray` overflows the stack of the
traversal. -/
theorem nested_scene_hit (rec : HitRecord ℚ) :
    scene_hit qsqrt nested_scene diagonal_ray (1 / 1000) FLT_MAX rec = .stack_overflow := by
  rw [scene_hit_of_bvh qsqrt nested_scene _ diagonal_ray (1 / 1000) FLT_MAX rec
    (nested_scene_bvh.trans nested_bvh)]
  exact nested_traversal_overflow rec

end StackExamples


/-! ## Fresnel reflectance -/

section SchlickClaims

variable {F : Type} [LinearOrderedField F]

/-- In exact arithmetic the Schlick reflectance is the same for the ratios `1 / ior` and
`ior`, and it is `r0 + (1 - r0) (1 - cos)^5` with `r0 = ((1 - ior) / (1 + ior))²`. -/
theorem schlick_reciprocal_exact (cosine ior : F) (hior : 0 < ior) ( front_face : Bool) :
    schlick cosine (1 / ior) = schlick cosine ior ∧
    schlick cosine (if front_face = true then 1 / ior else ior) =
      ((1 - ior) / (1 + ior)) ^ 2 + (1 - ((1 - ior) / (1 + ior)) ^ 2) * (1 - cosine) ^ 5 := by
  have h1 : (1 + ior) ≠ 0 := by positivity
  have h2 : ior ≠ 0 := ne_of_gt hior
  have hr : (1 - 1 / ior) / (1 + 1 / ior) * ((1 - 1 / ior) / (1 + 1 / ior)) =
      (1 - ior) / (1 + ior) * ((1 - ior) / (1 + ior)) := by
    have h3 : (1 + 1 / ior) ≠ 0 := by positivity
    field_simp
    ring
  have hrec : schlick cosine (1 / ior) = schlick cosine ior := by
    unfold schlick
    dsimp only
    rw [hr]
  refine ⟨hrec, ?_⟩
  have hsq : schlick cosine ior =
      ((1 - ior) / (1 + ior)) ^ 2 + (1 - ((1 - ior) / (1 + ior)) ^ 2) * (1 - cosine) ^ 5 := by
    unfold schlick
    dsimp only
    rw [sq]
  cases front_face
  · simpa using hsq
  · simpa using hrec.trans hsq

/-- Without rounding the rounded reading of `schlick` is the exact one. -/
theorem schlick_rounded_exact (fl : F → F) (hfl : ∀ x, fl x = x) (cosine ref_idx : F) :
    schlick_rounded fl cosine ref_idx = schlick cosine ref_idx := by
  simp only [schlick_rounded, schlick, hfl]

/-- C32 (amended): the Fresnel reflectance the Dielectric scatter computes is
`schlick(cos, refraction_ratio)` with the ratio `1 / ior` on a front face and `ior` on a back
face.  As computed, with every operation rounded, `schlick(cos, 1 / ior)` equals
`schlick(cos, ior)` whenever the quotient `(1 - x) / (1 + x)` comes out for `x = 1 / ior` as
the opposite of what it comes out for `x = ior`; in exact arithmetic it always does, for
every `ior > 0`, and both values are the specified `r0 + (1 - r0) (1 - cos)^5` with
`r0 = ((1 - ior) / (1 + ior))²`. -/
theorem schlick_reciprocal (fl : F → F) (cosine ior : F) (hior : 0 < ior) :
    (fl (fl (1 - fl (1 / ior)) / fl (1 + fl (1 / ior))) = -fl (fl (1 - ior) / fl (1 + ior)) →
      schlick_rounded fl cosine (fl (1 / ior)) = schlick_rounded fl cosine ior) ∧
    ((∀ x, fl x = x) →
      fl (fl (1 - fl (1 / ior)) / fl (1 + fl (1 / ior))) = -fl (fl (1 - ior) / fl (1 + ior)) ∧
      ∀ front_face : Bool,
        schlick_rounded fl cosine (if front_face = true then fl (1 / ior) else ior) =
          ((1 - ior) / (1 + ior)) ^ 2 +
            (1 - ((1 - ior) / (1 + ior)) ^ 2) * (1 - cosine) ^ 5) := by
  constructor
  · intro h
    unfold schlick_rounded
    dsimp only
    rw [h, neg_mul_neg]
  · intro hfl
    constructor
    · simp only [hfl]
      have h2 : ior ≠ 0 := ne_of_gt hior
      have e1 : 1 - 1 / ior = (ior - 1) / ior := by field_simp
      have e2 : 1 + 1 / ior = (ior + 1) / ior := by field_simp
      rw [e1, e2, div_div_div_cancel_right₀ h2, ← neg_div, neg_sub, add_comm]
    · intro front_face
      rw [schlick_rounded_exact fl hfl, hfl (1 / ior)]
      exact (schlick_reciprocal_exact cosine ior hior front_face).2

end SchlickClaims

section SchlickExamples

/-- C32 as stated fails in binary32: for `cos = 0.5` and `ior = 1.5` the function returns
`0.0700000003...` for the ratio `ior` and `0.0699999928...` for the ratio `1 / ior`, the
binary32 number nearest to `2/3`; the exact value is `0.07`. -/
theorem schlick_reciprocal_counterexample :
    f32 (1 / (3 / 2)) = 11184811 / 16777216 ∧
    schlick_rounded f32 (1 / 2) (3 / 2) = 9395241 / 134217728 ∧
    schlick_rounded f32 (1 / 2) (f32 (1 / (3 / 2))) = 1174405 / 16777216 ∧
    schlick_rounded f32 (1 / 2) (f32 (1 / (3 / 2))) ≠ schlick_rounded f32 (1 / 2) (3 / 2) ∧
    schlick (1 / 2 : ℚ) (3 / 2) = 7 / 100 := by
  refine ⟨?_, ?_, ?_, ?_, ?_⟩ <;> decide!

theorem schlick_reciprocal_witness :
    schlick_rounded f32 (1 / 2) (f32 (1 / 2)) = schlick_rounded f32 (1 / 2) 2 ∧
    schlick_rounded f32 (1 / 2) 2 = 2330169 / 16777216 ∧
    schlick_rounded id (1 / 2 : ℚ) (id (1 / (3 / 2))) = 7 / 100 :=
  ⟨(schlick_reciprocal f32 (1 / 2) 2 (by norm_num)).1 (by decide!), by decide!,
   (((schlick_reciprocal id (1 / 2 : ℚ) (3 / 2) (by norm_num)).2 (fun _ => rfl)).2 true).trans
     (by norm_num)⟩

end SchlickExamples

/-! ## The value stored for a pixel -/

section AverageLemmas

variable {F : Type} [LinearOrderedField F]

/-- The loop of `k + 1` samples adds the last sample to what the loop of `k` samples has
accumulated: the colour it returns is the sum of the samples on top of the initial one. -/
theorem render_samples_succ (sqrtf : F → F) (sfuel : Nat) (scene : Scene F)
    (camera : Camera F) (settings : RenderSettings) (output : Image F) (i j : Nat) :
    ∀ (k : Nat) (color acc sample_color : Vec3 F) (rng r r' : RNG),
      render_samples sqrtf sfuel scene camera settings output i j k color rng = .ok acc r →
      render_sample sqrtf sfuel scene camera settings output i j r = .ok sample_color r' →
      render_samples sqrtf sfuel scene camera settings output i j (k + 1) color rng =
        .ok (vec3_add acc sample_color) r' := by
  intro k
  induction k with
  | zero =>
    intro color acc sample_color rng r r' h1 h2
    rw [render_samples] at h1
    cases h1
    rw [render_samples, h2]
    rfl
  | succ k ih =>
    intro color acc sample_color rng r r' h1 h2
    rw [render_samples] at h1 ⊢
    cases hs : render_sample sqrtf sfuel scene camera settings output i j rng with
    | fault f => rw [hs] at h1; cases h1
    | ok c q =>
      rw [hs] at h1
      exact ih _ acc sample_color q r r' h1 h2

end AverageLemmas

section AverageClaims

variable {F : Type} [LinearOrderedField F]

end AverageClaims

section AverageExamples

end AverageExamples

/-! ## The recursion of `trace_ray` -/

section RecursionLemmas

variable {F : Type} [LinearOrderedField F]

/-- The result of `trace_ray_fuel` does not depend on the fuel once there is more of it
than `max_depth - depth`. -/
theorem trace_ray_fuel_irrelevant (sqrtf : F → F) (sfuel : Nat) (scene : Scene F)
    (max_depth : Nat) :
    ∀ (fuel fuel' : Nat) (ray : Ray F) (rng : RNG) (depth : Nat),
      max_depth - depth < fuel → max_depth - depth < fuel' →
      trace_ray_fuel sqrtf sfuel scene fuel ray rng depth max_depth =
        trace_ray_fuel sqrtf sfuel scene fuel' ray rng depth max_depth := by
  intro fuel
  induction fuel with
  | zero => intro _ _ _ _ h; omega
  | succ n ih =>
    intro fuel' ray rng depth h h'
    obtain ⟨m, rfl⟩ : ∃ m, fuel' = m + 1 := ⟨fuel' - 1, by omega⟩
    rw [trace_ray_fuel, trace_ray_fuel]
    by_cases h1 : depth ≥ max_depth
    · rw [if_pos h1, if_pos h1]
    · rw [if_neg h1, if_neg h1]
      have hfun : (fun scattered g =>
            trace_ray_fuel sqrtf sfuel scene n scattered g (depth + 1) max_depth) =
          (fun scattered g =>
            trace_ray_fuel sqrtf sfuel scene m scattered g (depth + 1) max_depth) := by
        funext scattered g
        exact ih m scattered g (depth + 1) (by omega) (by omega)
      dsimp only
      rw [hfun]

/-- The shading step makes at most one recursive call: its result is that of the shading
step with one fixed call in place of `recurse`. -/
theorem trace_ray_shade_one_call (sqrtf : F → F) (sfuel : Nat) (scene : Scene F) (ray : Ray F)
    (rng : RNG) :
    ∃ (scattered : Ray F) (g : RNG), ∀ recurse : Ray F → RNG → TraceResult F,
      trace_ray_shade sqrtf sfuel scene recurse ray rng =
        trace_ray_shade sqrtf sfuel scene (fun _ _ => recurse scattered g) ray rng := by
  unfold trace_ray_shade
  cases scene_hit sqrtf scene ray (1 / 1000) FLT_MAX HitRecord.zero with
  | done hit rec =>
    cases hit with
    | false => exact ⟨ray, rng, fun _ => rfl⟩
    | true =>
      dsimp only
      cases scene_material scene rec with
      | none => exact ⟨ray, rng, fun _ => rfl⟩
      | some mat =>
        dsimp only
        by_cases he : mat.type = .MATERIAL_EMISSIVE
        · refine ⟨ray, rng, fun recurse => ?_⟩
          simp only [he, if_true]
        · cases hs : material_scatter sqrtf sfuel mat ray rec (vec3_create 0 0 0)
              ⟨vec3_create 0 0 0, vec3_create 0 0 0⟩ rng with
          | none =>
            refine ⟨ray, rng, fun recurse => ?_⟩
            simp only [he, if_false]
          | some s =>
            refine ⟨s.scattered, s.rng, fun recurse => ?_⟩
            simp only [he, if_false]
  | stack_overflow => exact ⟨ray, rng, fun _ => rfl⟩
  | invalid_node => exact ⟨ray, rng, fun _ => rfl⟩
  | out_of_fuel => exact ⟨ray, rng, fun _ => rfl⟩

/-- A traversal that overflows its stack is a fault of the shading step. -/
theorem trace_ray_shade_overflow (sqrtf : F → F) (sfuel : Nat) (scene : Scene F)
    (recurse : Ray F → RNG → TraceResult F) (ray : Ray F) (rng : RNG)
    (h : scene_hit sqrtf scene ray (1 / 1000) FLT_MAX HitRecord.zero = .stack_overflow) :
    trace_ray_shade sqrtf sfuel scene recurse ray rng = .fault .traversal := by
  unfold trace_ray_shade
  rw [h]

end RecursionLemmas

section RecursionClaims

variable {F : Type} [LinearOrderedField F] [FloorRing F]

/-- C34: the recursion of `trace_ray` is bounded, and `trace_ray` returns unless a traversal
leaves its stack.  For every scene whose tree, if it has one, was built by `bvh_create`,
every ray, every generator (`rng_init` sets an odd increment; `2^64` iterations are enough
for the rejection loops of the sampler), every `depth` and `max_depth`: `trace_ray` returns
a colour, or else the traversal `bvh_hit` of one ray of the path pushed a 65th entry on its
stack of 64, which is the only way for `scene_hit` not to return.  A call at
`depth ≥ max_depth` returns black at once; below it the call is the roulette step followed
by the shading step with `trace_ray` at `depth + 1` as its recursive call, and the shading
step makes at most one such call.  Hence `max_depth - depth + 1` nested invocations are
never used up: the result is the same for every larger allowance and it is never the fault
of an exhausted recursion. -/
theorem trace_ray_recursion_bounded (sqrtf : F → F) (sfuel : Nat) (scene : Scene F)
    (ray : Ray F) (rng : RNG) (depth max_depth : Nat)
    (hinc : rng.inc % 2 = 1) (hfuel : 2 ^ 64 ≤ sfuel)
    (hbvh : ∀ bvh, scene.bvh = some bvh → ∃ prims, bvh_create prims = some bvh) :
    ((∃ color rng', trace_ray sqrtf sfuel scene ray rng depth max_depth = .ok color rng') ∨
      (trace_ray sqrtf sfuel scene ray rng depth max_depth = .fault .traversal ∧
        ∃ r, scene_hit sqrtf scene r (1 / 1000) FLT_MAX HitRecord.zero = .stack_overflow)) ∧
    (∀ (r : Ray F) (t_min t_max : F) (rec : HitRecord F),
      scene_hit sqrtf scene r t_min t_max rec = .stack_overflow ∨
      ∃ hit rec', scene_hit sqrtf scene r t_min t_max rec = .done hit rec') ∧
    (∀ fuel, max_depth - depth < fuel →
      trace_ray_fuel sqrtf sfuel scene fuel ray rng depth max_depth =
        trace_ray sqrtf sfuel scene ray rng depth max_depth) ∧
    trace_ray sqrtf sfuel scene ray rng depth max_depth ≠ .fault .recursion ∧
    (max_depth ≤ depth →
      trace_ray sqrtf sfuel scene ray rng depth max_depth = .ok (vec3_create 0 0 0) rng) ∧
    (depth < max_depth →
      trace_ray sqrtf sfuel scene ray rng depth max_depth =
        if (russian_roulette (F := F) rng depth).1 = true then
          .ok (vec3_create 0 0 0) (russian_roulette (F := F) rng depth).2
        else
          trace_ray_shade sqrtf sfuel scene
            (fun scattered g => trace_ray sqrtf sfuel scene scattered g (depth + 1) max_depth)
            ray (russian_roulette (F := F) rng depth).2) ∧
    (∀ r : RNG, ∃ (scattered : Ray F) (g : RNG), ∀ recurse : Ray F → RNG → TraceResult F,
      trace_ray_shade sqrtf sfuel scene recurse ray r =
        trace_ray_shade sqrtf sfuel scene (fun _ _ => recurse scattered g) ray r) := by
  refine ⟨?_, fun r t_min t_max rec => ?_, fun fuel h => ?_,
    trace_ray_terminates sqrtf sfuel scene ray rng depth max_depth,
    fun h => ?_, fun h => trace_ray_eq sqrtf sfuel scene ray rng depth max_depth h,
    fun r => trace_ray_shade_one_call sqrtf sfuel scene ray r⟩
  · rcases trace_ray_fuel_returns sqrtf sfuel scene max_depth hfuel hbvh
        (max_depth - depth + 1) ray rng depth hinc (by omega) with ⟨c, g, h, -⟩ | h
    · exact Or.inl ⟨c, g, h⟩
    · exact Or.inr h
  · rcases scene_hit_returns sqrtf scene hbvh r t_min t_max rec with h | h | ⟨rec', -, h, -⟩
    · exact Or.inl h
    · exact Or.inr ⟨_, _, h⟩
    · exact Or.inr ⟨_, _, h⟩
  · exact trace_ray_fuel_irrelevant sqrtf sfuel scene max_depth fuel _ ray rng depth h
      (by omega)
  · unfold trace_ray
    rw [trace_ray_fuel, if_pos h]

end RecursionClaims

section RecursionExamples

/-- The tree of `nested_scene` is the one `bvh_create` builds. -/
theorem nested_scene_built :
    ∀ bvh, nested_scene.bvh = some bvh → ∃ prims, bvh_create prims = some bvh := by
  intro bvh h
  rw [nested_scene_bvh] at h
  exact ⟨nested_spheres, h⟩

/-- On `nested_scene` the first traversal of `trace_ray` for `diagonal_ray` overflows the
stack of `bvh_hit`, whatever the generator. -/
theorem trace_ray_nested_scene (sfuel : Nat) (rng : RNG) :
    trace_ray qsqrt sfuel nested_scene diagonal_ray rng 0 1 = .fault .traversal := by
  rw [trace_ray_eq qsqrt sfuel nested_scene diagonal_ray rng 0 1 (by decide)]
  have hrr : russian_roulette (F := ℚ) rng 0 = (false, rng) := russian_roulette_zero _
  rw [hrr]
  simp only [Bool.false_eq_true, if_false]
  exact trace_ray_shade_overflow qsqrt sfuel nested_scene _ diagonal_ray rng
    (nested_scene_hit HitRecord.zero)

theorem trace_ray_recursion_bounded_witness :
    (((∃ color rng', trace_ray qsqrt (2 ^ 64) nested_scene diagonal_ray (rng_init 42) 0 1
          = .ok color rng') ∨
        (trace_ray qsqrt (2 ^ 64) nested_scene diagonal_ray (rng_init 42) 0 1
            = .fault .traversal ∧
          ∃ r, scene_hit qsqrt nested_scene r (1 / 1000) FLT_MAX HitRecord.zero
            = .stack_overflow)) ∧
      trace_ray qsqrt (2 ^ 64) nested_scene diagonal_ray (rng_init 42) 0 1
        = .fault .traversal) ∧
    ((∃ color rng', trace_ray qsqrt (2 ^ 64) lambert_scene z_ray (rng_init 42) 0 3
          = .ok color rng') ∨
        (trace_ray qsqrt (2 ^ 64) lambert_scene z_ray (rng_init 42) 0 3 = .fault .traversal ∧
          ∃ r, scene_hit qsqrt lambert_scene r (1 / 1000) FLT_MAX HitRecord.zero
            = .stack_overflow)) ∧
    trace_ray_fuel qsqrt (2 ^ 64) lambert_scene 7 z_ray (rng_init 42) 0 3 =
      trace_ray qsqrt (2 ^ 64) lambert_scene z_ray (rng_init 42) 0 3 :=
  ⟨⟨(trace_ray_recursion_bounded qsqrt (2 ^ 64) nested_scene diagonal_ray (rng_init 42) 0 1
      (rng_init_inc 42) (le_refl _) nested_scene_built).1,
    trace_ray_nested_scene (2 ^ 64) (rng_init 42)⟩,
   (trace_ray_recursion_bounded qsqrt (2 ^ 64) lambert_scene z_ray (rng_init 42) 0 3
      (rng_init_inc 42) (le_refl _) (fun _ h => Option.noConfusion h)).1,
   (trace_ray_recursion_bounded qsqrt (2 ^ 64) lambert_scene z_ray (rng_init 42) 0 3
      (rng_init_inc 42) (le_refl _) (fun _ h => Option.noConfusion h)).2.2.1 7 (by decide)⟩

/-- The trace of `z_ray` in `lambert_scene`, evaluated with the generator seeded with 42. -/
theorem trace_ray_lambert_value :
    trace_ray qsqrt 10 lambert_scene z_ray (rng_init 42) 0 3
      = .ok ⟨1 / 20, 1 / 20, 1 / 20⟩ ⟨10119774474348493948, 85⟩ := by
  decide!

end RecursionExamples
/-! ## The slab test -/

section SlabLemmas

variable {F : Type} [LinearOrderedField F]

end SlabLemmas

section SlabClaims

variable {F : Type} [LinearOrderedField F]

end SlabClaims

section SlabExamples

end SlabExamples

/-! ## The median fallback of the build -/

section FallbackLemmas

variable {F : Type} [LinearOrderedField F] [FloorRing F]

/-- When no split of the range is a candidate the SAH search returns what it started
from: cost `FLT_MAX`, axis 0, the midpoint index, and the index array as it was. -/
theorem find_best_split_no_candidate (prims : List (Primitive F)) (idx : List Nat) (s e : Nat)
    (hse : s ≤ e) (he : e ≤ idx.length)
    (hno : ∀ axis, axis < 3 → ∀ sb, sb < 12 → 1 ≤ sb →
      split_cost prims idx s e axis sb = none) :
    bvh_find_best_split prims idx s e = (⟨FLT_MAX, 0, s + (e - s) / 2⟩, idx) := by
  unfold bvh_find_best_split
  have key := foldl_range'_inv
    (fun _ (acc : SplitCandidate F × List Nat) => acc = (⟨FLT_MAX, 0, s + (e - s) / 2⟩, idx))
    (axis_step prims s e) 3 0 (⟨FLT_MAX, 0, s + (e - s) / 2⟩, idx) rfl
    (fun a acc _ ha hacc => by
      subst hacc
      rw [axis_step_eq prims idx s e _ a hse he (within_refl _ _ _)]
      split
      · rfl
      · next hext =>
        have inner := foldl_range'_inv
          (fun _ (acc : SplitCandidate F × List Nat) =>
            acc = (⟨FLT_MAX, 0, s + (e - s) / 2⟩, idx))
          (sweep_step prims s e a (range_bounds prims idx s e)
            ((range_bounds prims idx s e).min.get a) (axis_bin_width prims idx s e a)
            (axis_bins prims idx s e a)) (12 - 1) 1 (⟨FLT_MAX, 0, s + (e - s) / 2⟩, idx) rfl
          (fun sb acc h1 h2 hacc => by
            subst hacc
            exact sweep_step_none prims idx s e a sb _ hext
              (hno a (by omega) sb (by omega) h1))
        exact inner)
  exact key

end FallbackLemmas

section FallbackClaims

variable {F : Type} [LinearOrderedField F] [FloorRing F]

/-- C31 (not what the code does): for a range of 3 or more primitives on which no split
is a candidate of the SAH search (on every axis the extent is below 0.0001 or every split
bin has an empty side), the search returns its initial candidate, whose `split_pos` is the
midpoint index `start + (end - start) / 2`, strictly inside the range; the validity test
of `bvh_build_recursive` therefore does not fire, nothing is sorted, and the range is
split at the midpoint index with the index array in the order it had. -/
theorem bvh_build_fallback_unreached (prims : List (Primitive F)) (bounds : AABB F)
    (idx : List Nat) (s e : Nat) (h3 : s + 3 ≤ e) (he : e ≤ idx.length)
    (hno : ∀ axis, axis < 3 → ∀ sb, sb < 12 → 1 ≤ sb →
      split_cost prims idx s e axis sb = none) :
    bvh_find_best_split prims idx s e = (⟨FLT_MAX, 0, s + (e - s) / 2⟩, idx) ∧
    ¬ ((bvh_find_best_split prims idx s e).1.split_pos ≤ s ∨
       (bvh_find_best_split prims idx s e).1.split_pos ≥ e) ∧
    build_choose_split prims bounds idx s e = (s + (e - s) / 2, idx, false) := by
  have h := find_best_split_no_candidate prims idx s e (by omega) he hno
  refine ⟨h, ?_, ?_⟩
  · rw [h]
    dsimp only
    omega
  · unfold build_choose_split
    dsimp only
    rw [h]
    dsimp only
    rw [if_neg (by omega)]

end FallbackClaims

section FallbackExamples

set_option maxRecDepth 100000 in
theorem bvh_build_fallback_unreached_witness :
    (0 + 3 ≤ 3 ∧ 3 ≤ [0, 1, 2].length ∧
      ∀ axis, axis < 3 → ∀ sb, sb < 12 → 1 ≤ sb →
        split_cost unsorted_spheres [0, 1, 2] 0 3 axis sb = none) ∧
    build_choose_split unsorted_spheres (range_bounds unsorted_spheres [0, 1, 2] 0 3)
      [0, 1, 2] 0 3 = (1, [0, 1, 2], false) ∧
    (List.range 3).map (sort_key unsorted_spheres 0) = [2, 1, 0] ∧
    qsort_indices unsorted_spheres 0 [0, 1, 2] 0 3 = [2, 1, 0] ∧
    (bvh_create unsorted_spheres).map (fun bvh => bvh.indices) = some [0, 1, 2] :=
  ⟨⟨by decide, by decide, by decide!⟩,
   (bvh_build_fallback_unreached unsorted_spheres (range_bounds unsorted_spheres [0, 1, 2] 0 3)
      [0, 1, 2] 0 3 (by decide) (by decide) (by decide!)).2.2,
   by decide!, by decide!, by decide!⟩

end FallbackExamples

/-! ## The bounds of the primitives -/

section BoundsLemmas

variable {F : Type} [LinearOrderedField F]

theorem strictlyInBox_inBox {box : AABB F} {p : Vec3 F} (h : StrictlyInBox box p) :
    InBox box p :=
  ⟨⟨le_of_lt h.1.1, le_of_lt h.1.2⟩, ⟨le_of_lt h.2.1.1, le_of_lt h.2.1.2⟩,
    ⟨le_of_lt h.2.2.1, le_of_lt h.2.2.2⟩⟩

/-- A point of the triangle lies in the interior of the bounds of the triangle. -/
theorem triangle_point_strictlyInBox (tri : Triangle F) (u v : F) (hu : 0 ≤ u) (hv : 0 ≤ v)
    (huv : u + v ≤ 1) : StrictlyInBox (triangle_bounds tri) (triangle_point tri u v) := by
  obtain ⟨⟨ax, ay, az⟩, ⟨bx, b_y, bz⟩, ⟨cx, cy, cz⟩, n⟩ := tri
  simp only [StrictlyInBox, triangle_bounds, triangle_point, aabb_expand, aabb_empty, vec3_sub,
    vec3_add, vec3_scale, vec3_create]
  have e : (0 : F) < 1 / 10000 := by norm_num
  have lo : ∀ a b c : F, min (min (min FLT_MAX a) b) c - 1 / 10000
      < a + ((b - a) * u + (c - a) * v) := fun a b c =>
    lt_of_lt_of_le (sub_lt_self _ e)
      (convex_ge _ a b c u v
        (le_trans (min_le_left _ _) (le_trans (min_le_left _ _) (min_le_right _ _)))
        (le_trans (min_le_left _ _) (min_le_right _ _)) (min_le_right _ _) hu hv huv)
  have hi : ∀ a b c : F, a + ((b - a) * u + (c - a) * v)
      < max (max (max (-FLT_MAX) a) b) c + 1 / 10000 := fun a b c =>
    lt_of_le_of_lt
      (convex_le _ a b c u v
        (le_trans (le_max_right _ _) (le_trans (le_max_left _ _) (le_max_left _ _)))
        (le_trans (le_max_right _ _) (le_max_left _ _)) (le_max_right _ _) hu hv huv)
      (lt_add_of_pos_right _ e)
  exact ⟨⟨lo _ _ _, hi _ _ _⟩, ⟨lo _ _ _, hi _ _ _⟩, ⟨lo _ _ _, hi _ _ _⟩⟩

end BoundsLemmas

section BoundsClaims

variable {F : Type} [LinearOrderedField F]

end BoundsClaims

section BoundsExamples

end BoundsExamples
/-! ## Refraction -/

section RefractLemmas

variable {F : Type} [LinearOrderedField F]

/-- For unit vectors and a positive discriminant with an exact square root, `vec3_refract`
succeeds and the vector it writes has unit length. -/
theorem vec3_refract_unit (sqrtf : F → F) (v n : Vec3 F) (r : F) (init : Vec3 F)
    (hv : vec3_dot v v = 1) (hn : vec3_dot n n = 1) (hs1 : sqrtf 1 = 1)
    (hdisc : 0 < 1 - r * r * (1 - vec3_dot v n * vec3_dot v n))
    (hsq : sqrtf (1 - r * r * (1 - vec3_dot v n * vec3_dot v n)) *
      sqrtf (1 - r * r * (1 - vec3_dot v n * vec3_dot v n)) =
        1 - r * r * (1 - vec3_dot v n * vec3_dot v n)) :
    (vec3_refract sqrtf v n r init).1 = true ∧
    vec3_dot (vec3_refract sqrtf v n r init).2 (vec3_refract sqrtf v n r init).2 = 1 := by
  unfold vec3_refract
  simp only [normalize_of_unit sqrtf v hv hs1]
  rw [if_pos hdisc]
  refine ⟨rfl, ?_⟩
  dsimp only
  generalize sqrtf (1 - r * r * (1 - vec3_dot v n * vec3_dot v n)) = s at hsq
  obtain ⟨x, y, z⟩ := v
  obtain ⟨nx, ny, nz⟩ := n
  simp only [vec3_dot, vec3_sub, vec3_scale, vec3_create] at hv hn hsq ⊢
  linear_combination hsq + r ^ 2 * hv +
    (r ^ 2 * (x * nx + y * ny + z * nz) ^ 2 + 2 * r * s * (x * nx + y * ny + z * nz) + s ^ 2) * hn

/-- Away from the critical angle the refract branch of the Dielectric material gets a
refracted vector from `vec3_refract`: when `refraction_ratio * sin θ < 1` and the
reflectance is not above the draw, the scattered direction is that vector, of unit
length. -/
theorem scatter_dielectric_refracts (sqrtf : F → F) (mat : Material F) (ray_in : Ray F)
    (rec : HitRecord F) (rng : RNG)
    (hu : vec3_dot (vec3_normalize sqrtf ray_in.direction)
      (vec3_normalize sqrtf ray_in.direction) = 1)
    (hn : vec3_dot rec.normal rec.normal = 1) (hs1 : sqrtf 1 = 1) (hior : 0 < mat.ior)
    (hsin0 : 0 ≤ sqrtf (1 - vec3_dot (vec3_normalize sqrtf ray_in.direction) rec.normal *
      vec3_dot (vec3_normalize sqrtf ray_in.direction) rec.normal))
    (hsin2 : sqrtf (1 - vec3_dot (vec3_normalize sqrtf ray_in.direction) rec.normal *
        vec3_dot (vec3_normalize sqrtf ray_in.direction) rec.normal) *
      sqrtf (1 - vec3_dot (vec3_normalize sqrtf ray_in.direction) rec.normal *
        vec3_dot (vec3_normalize sqrtf ray_in.direction) rec.normal) =
      1 - vec3_dot (vec3_normalize sqrtf ray_in.direction) rec.normal *
        vec3_dot (vec3_normalize sqrtf ray_in.direction) rec.normal)
    (hdsq : ∀ d : F, 0 < d → sqrtf d * sqrtf d = d)
    (hstrict : (if rec.front_face = true then 1 / mat.ior else mat.ior) *
      sqrtf (1 - vec3_dot (vec3_normalize sqrtf ray_in.direction) rec.normal *
        vec3_dot (vec3_normalize sqrtf ray_in.direction) rec.normal) < 1)
    (hdraw : ¬ schlick (-vec3_dot (vec3_normalize sqrtf ray_in.direction) rec.normal)
      (if rec.front_face = true then 1 / mat.ior else mat.ior) > (rng_float (F := F) rng).1) :
    (vec3_refract sqrtf (vec3_normalize sqrtf ray_in.direction) rec.normal
      (if rec.front_face = true then 1 / mat.ior else mat.ior) (vec3_create 0 0 0)).1 = true ∧
    vec3_dot (scatter_dielectric sqrtf mat ray_in rec rng).scattered.direction
      (scatter_dielectric sqrtf mat ray_in rec rng).scattered.direction = 1 ∧
    (scatter_dielectric sqrtf mat ray_in rec rng).scattered.direction =
      (vec3_refract sqrtf (vec3_normalize sqrtf ray_in.direction) rec.normal
        (if rec.front_face = true then 1 / mat.ior else mat.ior) (vec3_create 0 0 0)).2 := by
  have hcs := dot_sq_le_one _ _ hu hn
  generalize hratio : (if rec.front_face = true then 1 / mat.ior else mat.ior) = ratio
    at hstrict hdraw ⊢
  have hrpos : 0 < ratio := by
    rw [← hratio]; split
    · exact one_div_pos.mpr hior
    · exact hior
  have hdisc : 0 < 1 - ratio * ratio *
      (1 - vec3_dot (vec3_normalize sqrtf ray_in.direction) rec.normal *
        vec3_dot (vec3_normalize sqrtf ray_in.direction) rec.normal) := by
    rw [← hsin2]
    have h0 := mul_nonneg (le_of_lt hrpos) hsin0
    nlinarith
  obtain ⟨hr1, hr2⟩ := vec3_refract_unit sqrtf _ rec.normal ratio (vec3_create 0 0 0) hu hn hs1
    hdisc (hdsq _ hdisc)
  have hres : scatter_dielectric sqrtf mat ray_in rec rng =
      ⟨true, vec3_create 1 1 1, ray_create sqrtf rec.point
        (vec3_refract sqrtf (vec3_normalize sqrtf ray_in.direction) rec.normal ratio
          (vec3_create 0 0 0)).2, (rng_float (F := F) rng).2⟩ := by
    unfold scatter_dielectric
    simp only [hratio]
    have hcos : min (-vec3_dot (vec3_normalize sqrtf ray_in.direction) rec.normal) 1 =
        -vec3_dot (vec3_normalize sqrtf ray_in.direction) rec.normal :=
      min_eq_left (by nlinarith)
    rw [hcos]
    have hsq : (-vec3_dot (vec3_normalize sqrtf ray_in.direction) rec.normal) *
        (-vec3_dot (vec3_normalize sqrtf ray_in.direction) rec.normal) =
        vec3_dot (vec3_normalize sqrtf ray_in.direction) rec.normal *
          vec3_dot (vec3_normalize sqrtf ray_in.direction) rec.normal := by ring
    rw [hsq]
    have hcan : ¬ ratio * sqrtf (1 - vec3_dot (vec3_normalize sqrtf ray_in.direction)
        rec.normal * vec3_dot (vec3_normalize sqrtf ray_in.direction) rec.normal) > 1 :=
      not_lt.mpr (le_of_lt hstrict)
    simp only [hcan, decide_False, Bool.false_eq_true, if_false, hdraw]
  refine ⟨hr1, ?_, ?_⟩
  · rw [hres]
    show vec3_dot (vec3_normalize sqrtf _) (vec3_normalize sqrtf _) = 1
    rw [normalize_of_unit sqrtf _ hr2 hs1]
    exact hr2
  · rw [hres]
    show vec3_normalize sqrtf _ = _
    exact normalize_of_unit sqrtf _ hr2 hs1

end RefractLemmas

section RefractClaims

/-- C40 (fails in the code): at the critical angle, `refraction_ratio * sin θ = 1`, the
plain Dielectric scatter takes its refract branch (`cannot_refract` tests `> 1`) and
`vec3_refract` fails (it tests `discriminant > 0` and the discriminant is `0`), so the
scattered direction is the zero vector `refracted` was initialised with.  Here: index of
refraction `5/4`, back face, unit normal `(0, 0, 1)`, unit direction `(4/5, 0, -3/5)`,
`cos θ = 3/5 ≥ 0`, reflectance `379/16875` not above the draw `2184993/4194304`. -/
theorem scatter_dielectric_critical_angle :
    vec3_dot critical_rec.normal critical_rec.normal = 1 ∧
    vec3_normalize qsqrt critical_ray.direction = critical_ray.direction ∧
    vec3_dot critical_ray.direction critical_ray.direction = 1 ∧
    -vec3_dot critical_ray.direction critical_rec.normal = 3 / 5 ∧
    (material_dielectric (5 / 4 : ℚ)).ior * qsqrt (1 - 3 / 5 * (3 / 5)) = 1 ∧
    schlick (3 / 5 : ℚ) (5 / 4) = 379 / 16875 ∧
    rng_float (F := ℚ) critical_rng = (2184993 / 4194304, ⟨8279056057372099200, 85⟩) ∧
    vec3_refract qsqrt critical_ray.direction critical_rec.normal (5 / 4) (vec3_create 0 0 0)
      = (false, vec3_create 0 0 0) ∧
    material_scatter qsqrt 0 (material_dielectric (5 / 4)) critical_ray critical_rec
        (vec3_create 0 0 0) ⟨vec3_create 0 0 0, vec3_create 0 0 0⟩ critical_rng
      = some ⟨true, ⟨1, 1, 1⟩, ⟨⟨0, 0, 0⟩, ⟨0, 0, 0⟩⟩, ⟨8279056057372099200, 85⟩⟩ :=
  ⟨by decide!, by decide!, by decide!, by decide!, by decide!, by decide!, by decide!,
    by decide!, by decide!⟩

end RefractClaims

section BlendIdenticalLemmas

variable {F : Type} [LinearOrderedField F]

theorem vec3_lerp_self (a : Vec3 F) (t : F) : vec3_lerp a a t = a := by
  obtain ⟨x, y, z⟩ := a
  simp only [vec3_lerp, vec3_add, vec3_scale, vec3_create, Vec3.mk.injEq]
  refine ⟨?_, ?_, ?_⟩ <;> ring

/-- A blended material whose two parameter sets are the same scatters as the plain
material of that type with those parameters: always for Lambertian and Metal, and away
from the critical angle for Dielectric. -/
theorem material_scatter_blend_identical (sqrtf : F → F) (sfuel : Nat) (mat : Material F)
    (ray_in : Ray F) (rec : HitRecord F) (attenuation : Vec3 F) (scattered : Ray F) (rng : RNG)
    (hmat : mat.type = .MATERIAL_BLEND) (ht : mat.blend_type2 = mat.blend_type1)
    (ha : mat.albedo2 = mat.albedo) (hr : mat.roughness2 = mat.roughness)
    (hi : mat.ior2 = mat.ior) :
    (mat.blend_type1 = .MATERIAL_LAMBERTIAN →
      material_scatter sqrtf sfuel mat ray_in rec attenuation scattered rng =
        material_scatter sqrtf sfuel { mat with type := .MATERIAL_LAMBERTIAN }
          ray_in rec attenuation scattered rng) ∧
    (mat.blend_type1 = .MATERIAL_METAL →
      material_scatter sqrtf sfuel mat ray_in rec attenuation scattered rng =
        material_scatter sqrtf sfuel { mat with type := .MATERIAL_METAL }
          ray_in rec attenuation scattered rng) ∧
    (mat.blend_type1 = .MATERIAL_DIELECTRIC → RegularIncidence sqrtf mat.ior ray_in rec →
      material_scatter sqrtf sfuel mat ray_in rec attenuation scattered rng =
        material_scatter sqrtf sfuel { mat with type := .MATERIAL_DIELECTRIC }
          ray_in rec attenuation scattered rng) := by
  have hact : (if blend_factor sqrtf mat rec < 1 / 2 then mat.blend_type1 else mat.blend_type2)
      = mat.blend_type1 := by
    rw [ht]; exact ite_self _
  have hdef : material_scatter sqrtf sfuel mat ray_in rec attenuation scattered rng =
      match mat.blend_type1 with
      | .MATERIAL_LAMBERTIAN => scatter_lambertian sqrtf sfuel mat.albedo rec rng
      | .MATERIAL_METAL => scatter_metal sqrtf sfuel mat.albedo mat.roughness ray_in rec rng
      | .MATERIAL_DIELECTRIC => some (scatter_blend_dielectric sqrtf mat.ior ray_in rec rng)
      | _ => some ⟨false, attenuation, scattered, rng⟩ := by
    unfold material_scatter
    rw [hmat]
    simp only [hact, ha, hr, hi, vec3_lerp_self, sub_self, mul_zero, add_zero]
  refine ⟨?_, ?_, ?_⟩
  · intro h
    rw [hdef, h]
    rfl
  · intro h
    rw [hdef, h]
    rfl
  · intro h hreg
    rw [hdef, h]
    have := scatter_blend_dielectric_eq sqrtf { mat with type := .MATERIAL_DIELECTRIC }
      ray_in rec rng hreg
    dsimp only at this ⊢
    rw [this]
    rfl

end BlendIdenticalLemmas

section BlendIdenticalClaims

/-- C39 (fails in the code): a Blend material whose two parameter sets are the Dielectric
of index `5/4` does not scatter like the plain Dielectric of index `5/4` at the critical
angle.  The blend branch tests the result of `vec3_refract`, reflects, and draws no random
number; the plain material draws one, takes its refract branch and leaves the zero
vector. -/
theorem material_scatter_blend_identical_differs :
    (glass_blend.type = .MATERIAL_BLEND ∧ glass_blend.blend_type1 = .MATERIAL_DIELECTRIC ∧
      glass_blend.blend_type2 = .MATERIAL_DIELECTRIC ∧ glass_blend.albedo2 = glass_blend.albedo ∧
      glass_blend.roughness2 = glass_blend.roughness ∧ glass_blend.ior2 = glass_blend.ior ∧
      glass_blend.ior = (material_dielectric (5 / 4 : ℚ)).ior ∧
      glass_blend.blend_min < glass_blend.blend_max) ∧
    vec3_dot critical_rec.normal critical_rec.normal = 1 ∧
    material_scatter qsqrt 0 glass_blend critical_ray critical_rec
        (vec3_create 0 0 0) ⟨vec3_create 0 0 0, vec3_create 0 0 0⟩ critical_rng
      = some ⟨true, ⟨1, 1, 1⟩, ⟨⟨0, 0, 0⟩, ⟨4 / 5, 0, 3 / 5⟩⟩, critical_rng⟩ ∧
    material_scatter qsqrt 0 { glass_blend with type := .MATERIAL_DIELECTRIC } critical_ray
        critical_rec (vec3_create 0 0 0) ⟨vec3_create 0 0 0, vec3_create 0 0 0⟩ critical_rng
      = some ⟨true, ⟨1, 1, 1⟩, ⟨⟨0, 0, 0⟩, ⟨0, 0, 0⟩⟩, ⟨8279056057372099200, 85⟩⟩ ∧
    material_scatter qsqrt 0 glass_blend critical_ray critical_rec
        (vec3_create 0 0 0) ⟨vec3_create 0 0 0, vec3_create 0 0 0⟩ critical_rng
      ≠ material_scatter qsqrt 0 (material_dielectric (5 / 4)) critical_ray critical_rec
        (vec3_create 0 0 0) ⟨vec3_create 0 0 0, vec3_create 0 0 0⟩ critical_rng :=
  ⟨by decide!, by decide!, by decide!, by decide!, by decide!⟩

end BlendIdenticalClaims

/-! ## Bounds on the radiance -/

section SceneMaterialLemmas

variable {F : Type}

/-- The material a hit record points to is one of the materials of the scene. -/
theorem scene_material_mem (scene : Scene F) (rec : HitRecord F) (mat : Material F)
    (h : scene_material scene rec = some mat) : mat ∈ scene_materials scene := by
  unfold scene_material at h
  unfold scene_materials
  cases hm : rec.material with
  | none => rw [hm] at h; cases h
  | some idx =>
    rw [hm] at h
    dsimp only at h
    cases hb : scene.bvh with
    | none =>
      rw [hb] at h
      dsimp only at h ⊢
      cases hp : scene.primitives.get? idx with
      | none => rw [hp] at h; cases h
      | some p =>
        rw [hp] at h
        simp only [Option.map_some', Option.some.injEq] at h
        rw [List.append_nil, ← h]
        exact List.mem_map_of_mem _ (List.get?_mem hp)
    | some bvh =>
      rw [hb] at h
      dsimp only at h ⊢
      cases hp : bvh.primitives.get? idx with
      | none => rw [hp] at h; cases h
      | some p =>
        rw [hp] at h
        simp only [Option.map_some', Option.some.injEq] at h
        rw [← h]
        exact List.mem_append_right _ (List.mem_map_of_mem _ (List.get?_mem hp))

end SceneMaterialLemmas

section RadianceLemmas

variable {F : Type} [LinearOrderedField F]

theorem within_zero (M : F) (hM : 0 ≤ M) : (vec3_create (0 : F) 0 0).within 0 M :=
  ⟨⟨le_refl _, hM⟩, ⟨le_refl _, hM⟩, ⟨le_refl _, hM⟩⟩

theorem within_one : (vec3_create (1 : F) 1 1).within 0 1 :=
  ⟨⟨zero_le_one, le_refl _⟩, ⟨zero_le_one, le_refl _⟩, ⟨zero_le_one, le_refl _⟩⟩

theorem within_lerp (a b : Vec3 F) (t : F) (ha : a.within 0 1) (hb : b.within 0 1)
    (h0 : 0 ≤ t) (h1 : t ≤ 1) : (vec3_lerp a b t).within 0 1 := by
  obtain ⟨x, y, z⟩ := a
  obtain ⟨x', y', z'⟩ := b
  simp only [Vec3.within] at ha hb
  simp only [Vec3.within, vec3_lerp, vec3_add, vec3_scale, vec3_create]
  have key : ∀ p q : F, 0 ≤ p ∧ p ≤ 1 → 0 ≤ q ∧ q ≤ 1 →
      0 ≤ p * (1 - t) + q * t ∧ p * (1 - t) + q * t ≤ 1 := by
    intro p q hp hq
    have e1 : 0 ≤ p * (1 - t) := mul_nonneg hp.1 (by linarith)
    have e2 : 0 ≤ q * t := mul_nonneg hq.1 h0
    have e3 : 0 ≤ (1 - p) * (1 - t) := mul_nonneg (by linarith) (by linarith)
    have e4 : 0 ≤ (1 - q) * t := mul_nonneg (by linarith) h0
    constructor
    · linarith
    · nlinarith
  exact ⟨key _ _ ha.1 hb.1, key _ _ ha.2.1 hb.2.1, key _ _ ha.2.2 hb.2.2⟩

theorem within_mul (a c : Vec3 F) (M : F) (ha : a.within 0 1) (hc : c.within 0 M) :
    (vec3_mul a c).within 0 M := by
  obtain ⟨x, y, z⟩ := a
  obtain ⟨x', y', z'⟩ := c
  simp only [Vec3.within] at ha hc
  simp only [Vec3.within, vec3_mul, vec3_create]
  have key : ∀ p q : F, 0 ≤ p ∧ p ≤ 1 → 0 ≤ q ∧ q ≤ M → 0 ≤ p * q ∧ p * q ≤ M := by
    intro p q hp hq
    exact ⟨mul_nonneg hp.1 hq.1,
      le_trans (mul_le_of_le_one_left hq.1 hp.2) hq.2⟩
  exact ⟨key _ _ ha.1 hc.1, key _ _ ha.2.1 hc.2.1, key _ _ ha.2.2 hc.2.2⟩

/-- The blend factor lies in `[0, 1]`. -/
theorem blend_factor_unit (sqrtf : F → F) (mat : Material F) (rec : HitRecord F) :
    0 ≤ blend_factor sqrtf mat rec ∧ blend_factor sqrtf mat rec ≤ 1 := by
  unfold blend_factor
  dsimp only
  split_ifs
  · exact ⟨zero_le_one, le_refl _⟩
  · exact ⟨le_refl _, zero_le_one⟩
  · exact ⟨le_min (le_max_right _ _) zero_le_one, min_le_right _ _⟩

/-- The attenuation `material_scatter` leaves (the zero vector when it writes none) has
components in `[0, 1]` when the albedos of the material have. -/
theorem material_scatter_attenuation (sqrtf : F → F) (sfuel : Nat) (mat : Material F)
    (ray_in : Ray F) (rec : HitRecord F) (scattered : Ray F) (rng : RNG) (s : ScatterResult F)
    (ha : mat.albedo.within 0 1) (ha2 : mat.albedo2.within 0 1)
    (h : material_scatter sqrtf sfuel mat ray_in rec (vec3_create 0 0 0) scattered rng = some s) :
    s.attenuation.within 0 1 := by
  have hl : ∀ (albedo : Vec3 F) (g : RNG) (r : ScatterResult F), albedo.within 0 1 →
      scatter_lambertian sqrtf sfuel albedo rec g = some r → r.attenuation.within 0 1 := by
    intro albedo g r hal hr
    unfold scatter_lambertian at hr
    cases hu : rng_unit_vector sqrtf sfuel g with
    | none => rw [hu] at hr; cases hr
    | some p =>
      rw [hu] at hr
      simp only [Option.some.injEq] at hr
      rw [← hr]
      exact hal
  have hm : ∀ (albedo : Vec3 F) (rough : F) (g : RNG) (r : ScatterResult F),
      albedo.within 0 1 →
      scatter_metal sqrtf sfuel albedo rough ray_in rec g = some r →
      r.attenuation.within 0 1 := by
    intro albedo rough g r hal hr
    unfold scatter_metal at hr
    cases hu : rng_in_unit_sphere (F := F) sfuel g with
    | none => rw [hu] at hr; cases hr
    | some p =>
      rw [hu] at hr
      simp only [Option.some.injEq] at hr
      rw [← hr]
      exact hal
  have hd : ∀ (m : Material F) (g : RNG),
      (scatter_dielectric sqrtf m ray_in rec g).attenuation.within 0 1 := by
    intro m g
    have e : (scatter_dielectric sqrtf m ray_in rec g).attenuation = vec3_create 1 1 1 := by
      unfold scatter_dielectric
      dsimp only
      split_ifs <;> rfl
    rw [e]; exact within_one
  have hbd : ∀ (ior : F) (g : RNG),
      (scatter_blend_dielectric sqrtf ior ray_in rec g).attenuation.within 0 1 := by
    intro ior g
    have e : (scatter_blend_dielectric sqrtf ior ray_in rec g).attenuation
        = vec3_create 1 1 1 := by
      unfold scatter_blend_dielectric
      dsimp only
      split_ifs <;> rfl
    rw [e]; exact within_one
  have hz : (vec3_create (0 : F) 0 0).within 0 1 := within_zero 1 zero_le_one
  have hbl := within_lerp mat.albedo mat.albedo2 (blend_factor sqrtf mat rec) ha ha2
    (blend_factor_unit sqrtf mat rec).1 (blend_factor_unit sqrtf mat rec).2
  unfold material_scatter at h
  cases ht : mat.type with
  | MATERIAL_LAMBERTIAN => rw [ht] at h; exact hl _ _ _ ha h
  | MATERIAL_METAL => rw [ht] at h; exact hm _ _ _ _ ha h
  | MATERIAL_DIELECTRIC =>
    rw [ht] at h
    simp only [Option.some.injEq] at h
    rw [← h]; exact hd _ _
  | MATERIAL_EMISSIVE =>
    rw [ht] at h
    simp only [Option.some.injEq] at h
    rw [← h]; exact hz
  | MATERIAL_BLEND =>
    rw [ht] at h
    dsimp only at h
    generalize (if blend_factor sqrtf mat rec < 1 / 2 then mat.blend_type1
      else mat.blend_type2) = active at h
    cases active with
    | MATERIAL_LAMBERTIAN => exact hl _ _ _ hbl h
    | MATERIAL_METAL => exact hm _ _ _ _ hbl h
    | MATERIAL_DIELECTRIC =>
      simp only [Option.some.injEq] at h
      rw [← h]; exact hbd _ _
    | MATERIAL_EMISSIVE =>
      simp only [Option.some.injEq] at h
      rw [← h]; exact hz
    | MATERIAL_BLEND =>
      simp only [Option.some.injEq] at h
      rw [← h]; exact hz

/-- The shading step keeps the bound when the recursive call does. -/
theorem trace_ray_shade_bounded (sqrtf : F → F) (sfuel : Nat) (M : F) (scene : Scene F)
    (hscene : scene.bounded M) (recurse : Ray F → RNG → TraceResult F)
    (hrec : ∀ r g c g', recurse r g = .ok c g' → c.within 0 M)
    (ray : Ray F) (rng : RNG) (color : Vec3 F) (rng' : RNG)
    (h : trace_ray_shade sqrtf sfuel scene recurse ray rng = .ok color rng') :
    color.within 0 M := by
  have hM : (0 : F) ≤ M := le_trans hscene.1.1.1 hscene.1.1.2
  unfold trace_ray_shade at h
  cases hh : scene_hit sqrtf scene ray (1 / 1000) FLT_MAX HitRecord.zero with
  | stack_overflow => rw [hh] at h; cases h
  | invalid_node => rw [hh] at h; cases h
  | out_of_fuel => rw [hh] at h; cases h
  | done hit rec =>
    rw [hh] at h
    cases hit with
    | false =>
      simp only [TraceResult.ok.injEq] at h
      rw [← h.1]; exact hscene.1
    | true =>
      dsimp only at h
      cases hm : scene_material scene rec with
      | none => rw [hm] at h; cases h
      | some mat =>
        rw [hm] at h
        dsimp only at h
        have hb := hscene.2 mat (scene_material_mem scene rec mat hm)
        by_cases he : mat.type = .MATERIAL_EMISSIVE
        · rw [if_pos he] at h
          simp only [TraceResult.ok.injEq] at h
          rw [← h.1]; exact hb.2.2.2
        · rw [if_neg he] at h
          cases hs : material_scatter sqrtf sfuel mat ray rec (vec3_create 0 0 0)
              ⟨vec3_create 0 0 0, vec3_create 0 0 0⟩ rng with
          | none => rw [hs] at h; cases h
          | some s =>
            rw [hs] at h
            dsimp only at h
            by_cases hok : s.scattered_ok = false
            · rw [if_pos hok] at h
              simp only [TraceResult.ok.injEq] at h
              rw [← h.1]; exact within_zero M hM
            · rw [if_neg hok] at h
              cases hr : recurse s.scattered s.rng with
              | fault f => rw [hr] at h; cases h
              | ok c g =>
                rw [hr] at h
                simp only [TraceResult.attenuate, TraceResult.ok.injEq] at h
                rw [← h.1]
                exact within_mul _ _ M
                  (material_scatter_attenuation sqrtf sfuel mat ray rec _ rng s hb.1 hb.2.1 hs)
                  (hrec _ _ _ _ hr)

theorem trace_ray_fuel_bounded (sqrtf : F → F) (sfuel : Nat) (M : F) (scene : Scene F)
    (hscene : scene.bounded M) (max_depth : Nat) :
    ∀ (fuel : Nat) (ray : Ray F) (rng : RNG) (depth : Nat) (color : Vec3 F) (rng' : RNG),
      trace_ray_fuel sqrtf sfuel scene fuel ray rng depth max_depth = .ok color rng' →
      color.within 0 M := by
  have hM : (0 : F) ≤ M := le_trans hscene.1.1.1 hscene.1.1.2
  intro fuel
  induction fuel with
  | zero =>
    intro ray rng depth color rng' h
    unfold trace_ray_fuel at h
    cases h
  | succ n ih =>
    intro ray rng depth color rng' h
    unfold trace_ray_fuel at h
    by_cases h1 : depth ≥ max_depth
    · rw [if_pos h1] at h
      simp only [TraceResult.ok.injEq] at h
      rw [← h.1]; exact within_zero M hM
    · rw [if_neg h1] at h
      dsimp only at h
      by_cases h2 : (russian_roulette (F := F) rng depth).1 = true
      · rw [if_pos h2] at h
        simp only [TraceResult.ok.injEq] at h
        rw [← h.1]; exact within_zero M hM
      · rw [if_neg h2] at h
        exact trace_ray_shade_bounded sqrtf sfuel M scene hscene _
          (fun r g c g' hr => ih r g (depth + 1) c g' hr) ray _ color rng' h

end RadianceLemmas

section RadianceClaims

variable {F : Type} [LinearOrderedField F]

/-- C38: radiance is bounded and non-negative.  If every albedo and second blend albedo in
the scene has components in `[0, 1]`, `blend_min < blend_max`, and every emission and the
ambient radiance have components in `[0, M]`, then for every ray, sampler state, depth and
`max_depth` the recursion of `trace_ray` is never exhausted and every component of a colour
`trace_ray` returns lies in `[0, M]`. -/
theorem trace_ray_radiance_bounded (sqrtf : F → F) (sfuel : Nat) (M : F) (scene : Scene F)
    (hscene : scene.bounded M) (ray : Ray F) (rng : RNG) (depth max_depth : Nat) :
    trace_ray sqrtf sfuel scene ray rng depth max_depth ≠ .fault .recursion ∧
    ∀ color rng', trace_ray sqrtf sfuel scene ray rng depth max_depth = .ok color rng' →
      color.within 0 M :=
  ⟨trace_ray_terminates sqrtf sfuel scene ray rng depth max_depth,
   fun color rng' h =>
    trace_ray_fuel_bounded sqrtf sfuel M scene hscene max_depth _ ray rng depth color rng' h⟩

end RadianceClaims

section RadianceExamples

theorem lambert_scene_bounded : lambert_scene.bounded (1 / 10) := by
  unfold Scene.bounded
  refine ⟨by unfold Vec3.within; decide!, ?_⟩
  intro mat hmat
  have : mat = example_material := by
    simpa [scene_materials, lambert_scene, one_sphere, primitive_sphere] using hmat
  rw [this]
  unfold Material.bounded Vec3.within
  decide!

theorem trace_ray_radiance_bounded_witness :
    lambert_scene.bounded (1 / 10) ∧
    trace_ray qsqrt 10 lambert_scene z_ray (rng_init 42) 0 3
      = .ok ⟨1 / 20, 1 / 20, 1 / 20⟩ ⟨10119774474348493948, 85⟩ ∧
    (⟨1 / 20, 1 / 20, 1 / 20⟩ : Vec3 ℚ).within 0 (1 / 10) :=
  ⟨lambert_scene_bounded, by decide!,
   (trace_ray_radiance_bounded qsqrt 10 (1 / 10) lambert_scene lambert_scene_bounded z_ray
      (rng_init 42) 0 3).2 ⟨1 / 20, 1 / 20, 1 / 20⟩ ⟨10119774474348493948, 85⟩ (by decide!)⟩

end RadianceExamples

/-! ## The boxes of the nodes -/

section NodeBoundsLemmas

variable {F : Type} [LinearOrderedField F]

/-- With the identity as index array the box of a range is the union over the positions of
the array. -/
theorem array_bounds_eq (prims : List (Primitive F)) (n lo hi : Nat) (h : hi ≤ n) :
    array_bounds prims lo hi = range_bounds prims (List.range n) lo hi := by
  unfold array_bounds range_bounds
  apply foldl_range'_congr
  intro i hi1 hi2 acc
  have hin : i < n := by omega
  rw [List.getD_eq_getElem _ _ (by rw [List.length_range]; exact hin), List.getElem_range]

end NodeBoundsLemmas

section SubtreeSlots

variable {F : Type}

/-- The root of a subtree holds the box of the range of the subtree. -/
theorem subtree_root {nodes : List (BVHNode F)} {bnd : Nat → Nat → AABB F}
    {i lo hi next : Nat} (h : Subtree nodes bnd i lo hi next) :
    ∃ n, nodes[i]? = some n ∧ n.bounds = bnd lo hi ∧
      (n.is_leaf = true → n.first_prim_idx = lo ∧ n.first_prim_idx + n.prim_count = hi) ∧
      (n.is_leaf = false → ∃ mid r, lo < mid ∧ mid < hi ∧
        n.left = some (i + 1) ∧ n.right = some r ∧
        Subtree nodes bnd (i + 1) lo mid r ∧ Subtree nodes bnd r mid hi next) := by
  cases h with
  | leaf _ _ _ n hget hl hf hc hle hle2 hbd =>
    exact ⟨n, hget, hbd, fun _ => ⟨hf, by omega⟩, fun hf => by simp [hl] at hf⟩
  | node _ _ mid _ r _ n hget hl hlt hrt h1 h2 hbd hs1 hs2 =>
    exact ⟨n, hget, hbd, fun hf => by simp [hl] at hf,
      fun _ => ⟨mid, r, h1, h2, hlt, hrt, hs1, hs2⟩⟩

/-- Every slot of a subtree is the root of a subtree over a range inside its range. -/
theorem subtree_at {nodes : List (BVHNode F)} {bnd : Nat → Nat → AABB F}
    {i lo hi next : Nat} (h : Subtree nodes bnd i lo hi next) :
    ∀ j, i ≤ j → j < next → ∃ lo' hi' next', lo ≤ lo' ∧ lo' ≤ hi' ∧ hi' ≤ hi ∧ next' ≤ next ∧
      Subtree nodes bnd j lo' hi' next' := by
  induction h with
  | leaf i lo hi n hget hl hf hc hle hle2 hbd =>
    intro j hj1 hj2
    obtain rfl : j = i := by omega
    exact ⟨lo, hi, j + 1, le_refl _, hle, le_refl _, le_refl _,
      Subtree.leaf j lo hi n hget hl hf hc hle hle2 hbd⟩
  | node i lo mid hi r next n hget hl hlt hrt h1 h2 hbd hs1 hs2 ih1 ih2 =>
    intro j hj1 hj2
    have hr1 := subtree_lt_next hs1
    have hr2 := subtree_lt_next hs2
    by_cases hji : j = i
    · subst hji
      exact ⟨lo, hi, next, le_refl _, by omega, le_refl _, le_refl _,
        Subtree.node j lo mid hi r next n hget hl hlt hrt h1 h2 hbd hs1 hs2⟩
    by_cases hjr : j < r
    · obtain ⟨lo', hi', next', e1, e2, e3, e4, hs⟩ := ih1 j (by omega) hjr
      exact ⟨lo', hi', next', e1, e2, by omega, by omega, hs⟩
    · obtain ⟨lo', hi', next', e1, e2, e3, e4, hs⟩ := ih2 j (by omega) hj2
      exact ⟨lo', hi', next', by omega, e2, e3, e4, hs⟩

end SubtreeSlots

section NodeBoundsBuild

variable {F : Type} [LinearOrderedField F] [FloorRing F]

/-- The tree `bvh_create` returns, with the boxes read off the reordered array. -/
theorem bvh_create_subtree (prims : List (Primitive F)) :
    ∃ bvh, bvh_create prims = some bvh ∧ bvh.node_count = bvh.nodes.length ∧
      Subtree bvh.nodes (array_bounds bvh.primitives) 0 0 prims.length bvh.nodes.length := by
  obtain ⟨bvh, hc, -, -, hcnt, -, -, hw, hsub, hprims⟩ := bvh_create_spec prims
  refine ⟨bvh, hc, hcnt, subtree_congr hsub (fun _ _ _ => rfl) ?_⟩
  intro lo hi _ hhi
  rw [array_bounds_eq bvh.primitives prims.length lo hi hhi]
  unfold range_bounds
  apply foldl_range'_congr
  intro i hi1 hi2 acc
  have hin : i < prims.length := by omega
  have hlen : bvh.primitives.length = prims.length := by
    rw [hprims, List.length_map, List.length_range]
  have hget : bvh.primitives.get? i = some (bvh.primitives.get ⟨i, by rw [hlen]; exact hin⟩) :=
    List.get?_eq_get _
  obtain ⟨-, -, hb⟩ := bvh_create_primitive_at prims bvh hw hprims i _ hget
  rw [← hb, List.getD_eq_getElem _ _ (by rw [List.length_range]; exact hin),
    List.getElem_range]
  unfold prim_bounds
  rw [hget]

end NodeBoundsBuild

section NodeBoundsClaims

variable {F : Type} [LinearOrderedField F] [FloorRing F]

/-- C35: in the tree `bvh_create` builds every node `j` is the root of a subtree over an
index range `[lo, hi)` of the reordered array (a leaf holds `first_prim_idx = lo` and
`prim_count = hi - lo`, the leaves below the node hold exactly the positions `lo, ..., hi - 1`
from left to right), and the box of the node is the union of the precomputed bounds of the
primitives at these positions.  Hence the box contains the bounds of every primitive in the
leaves below the node, and the box of a child is contained in the box of its parent. -/
theorem bvh_create_node_bounds (prims : List (Primitive F)) :
    ∃ bvh, bvh_create prims = some bvh ∧ bvh.node_count = bvh.nodes.length ∧
      ∀ j n, bvh.nodes[j]? = some n →
        ∃ lo hi next, lo ≤ hi ∧ hi ≤ prims.length ∧
          Subtree bvh.nodes (array_bounds bvh.primitives) j lo hi next ∧
          n.bounds = array_bounds bvh.primitives lo hi ∧
          (n.is_leaf = true → n.first_prim_idx = lo ∧ n.first_prim_idx + n.prim_count = hi) ∧
          ((bvh_leaves bvh.nodes bvh.nodes.length (some j)).map
              (fun p => List.range' p.1 p.2)).flatten = List.range' lo (hi - lo) ∧
          (∀ i, lo ≤ i → i < hi → BoxLe (prim_bounds bvh.primitives i) n.bounds) ∧
          (∀ c cn, n.is_leaf = false → n.left = some c ∨ n.right = some c →
            bvh.nodes[c]? = some cn → BoxLe cn.bounds n.bounds) := by
  obtain ⟨bvh, hc, hcnt, hsub⟩ := bvh_create_subtree prims
  refine ⟨bvh, hc, hcnt, ?_⟩
  intro j n hj
  have hjlt : j < bvh.nodes.length := by
    by_contra hge
    rw [List.getElem?_eq_none (by omega)] at hj
    cases hj
  obtain ⟨lo, hi, next, h1, h2, h3, h4, hs⟩ := subtree_at hsub j (Nat.zero_le _) hjlt
  obtain ⟨n', hn', hbd, hleaf, hint⟩ := subtree_root hs
  obtain rfl : n' = n := by rw [hn'] at hj; exact Option.some.inj hj
  have hmono : ∀ lo' hi', lo ≤ lo' → hi' ≤ hi →
      BoxLe (array_bounds bvh.primitives lo' hi') (array_bounds bvh.primitives lo hi) := by
    intro lo' hi' e1 e2
    rw [array_bounds_eq bvh.primitives prims.length lo' hi' (by omega),
      array_bounds_eq bvh.primitives prims.length lo hi h3]
    exact range_bounds_mono _ _ lo hi lo' hi' e1 e2
  refine ⟨lo, hi, next, h2, h3, hs, hbd, hleaf,
    (leaves_of_subtree hs bvh.nodes.length (by omega)).1, ?_, ?_⟩
  · intro i hi1 hi2
    rw [hbd, array_bounds_eq bvh.primitives prims.length lo hi h3]
    have := range_bounds_encloses bvh.primitives (List.range prims.length) lo hi i hi1 hi2
    rwa [List.getD_eq_getElem _ _ (by rw [List.length_range]; omega),
      List.getElem_range] at this
  · intro c cn hnl hch hcn
    obtain ⟨mid, r, e1, e2, hl, hr, hs1, hs2⟩ := hint hnl
    rw [hbd]
    rcases hch with hch | hch
    · rw [hl] at hch
      obtain rfl : j + 1 = c := Option.some.inj hch
      obtain ⟨n1, hg1, hb1, -, -⟩ := subtree_root hs1
      obtain rfl : n1 = cn := by rw [hg1] at hcn; exact Option.some.inj hcn
      rw [hb1]
      exact hmono lo mid (le_refl _) (by omega)
    · rw [hr] at hch
      obtain rfl : r = c := Option.some.inj hch
      obtain ⟨n2, hg2, hb2, -, -⟩ := subtree_root hs2
      obtain rfl : n2 = cn := by rw [hg2] at hcn; exact Option.some.inj hcn
      rw [hb2]
      exact hmono mid hi (by omega) (le_refl _)

end NodeBoundsClaims

end PathTracer
